import Mathlib

/-!
RTLIL signal algebra, modules and the cell-type catalog (`kernel/rtlil.cc`,
`kernel/celltypes.h`).

A shallow embedding of `RTLIL::SigChunk` and `RTLIL::SigSpec` and of the
operations on them, of `RTLIL::Module::fixup_ports` and of `CellTypes`,
followed by theorems about these functions.

Conventions of the embedding.

* The C++ `int` fields `width` and `offset` and the `int` arguments of the
  operations are natural numbers: `SigSpec::check` and the `assert`s at the
  head of each operation exclude negative values.  Local variables that the
  source lets go negative (`off`, `len`) are integers, and so is `port_id`.
* A `Wire *` is an `Option Wire`; `NULL` is `none`.  A `Wire` value stands for
  the object pointed to, `id` being its address, so that comparing two
  pointers is comparing the two values.
* A member function that updates its receiver returns the updated receiver.
* `assert`s are not executed by the definitions; the theorems carry the
  asserted conditions they need as hypotheses.
* A loop over `chunks` with index `i` is a recursion over the list of the
  chunks from index `i` on.
* A `std::string` is a `String`, a character standing for a `char`; strings
  are compared character by character.
* A `std::map` is the list of its entries in key order, a `std::set` a list
  without repetitions.
-/

namespace RTLIL

/-- The values of one bit, `RTLIL::State`. -/
inductive State where
  | S0 | S1 | Sx | Sz | Sa | Sm
deriving DecidableEq, Repr

/-- The type `RTLIL::Const`: the bits, low bit first, and the cached string. -/
structure Const where
  bits : List State
  str : String
deriving DecidableEq, Repr

/-- The type `RTLIL::Wire`, as far as the functions embedded here read it.  The
port fields have the values that the constructor `RTLIL::Wire::Wire()` gives
them unless they are set. -/
structure Wire where
  id : Nat
  name : String
  width : Nat
  auto_width : Bool
  port_id : Int := 0
  port_input : Bool := false
  port_output : Bool := false
deriving DecidableEq, Repr

/-- The type `RTLIL::SigChunk`. -/
structure SigChunk where
  wire : Option Wire
  data : Const
  width : Nat
  offset : Nat
deriving DecidableEq, Repr

/-- The type `RTLIL::SigSpec`. -/
structure SigSpec where
  chunks : List SigChunk
  width : Nat
deriving DecidableEq, Repr

/-- The constructor `RTLIL::Const::Const()`. -/
def Const.empty : Const := ⟨[], ""⟩

/-- The constructor `RTLIL::Const::Const(RTLIL::State bit, int width)`. -/
def Const.ofState (bit : State) (width : Nat) : Const :=
  ⟨List.replicate width bit, ""⟩

/-- The constructor `RTLIL::SigChunk::SigChunk()`. -/
def SigChunk.empty : SigChunk :=
  { wire := none, data := Const.empty, width := 0, offset := 0 }

/-- The constructor `RTLIL::SigChunk::SigChunk(const RTLIL::Const &data)`. -/
def SigChunk.ofConst (data : Const) : SigChunk :=
  { wire := none, data := data, width := data.bits.length, offset := 0 }

/-- The constructor `RTLIL::SigChunk::SigChunk(RTLIL::State bit, int width)`. -/
def SigChunk.ofState (bit : State) (width : Nat) : SigChunk :=
  { wire := none, data := Const.ofState bit width,
    width := (Const.ofState bit width).bits.length, offset := 0 }

/-- The constructor `RTLIL::SigChunk::SigChunk(RTLIL::Wire *wire, int width, int offset)`
for a width that is not negative. -/
def SigChunk.ofWire (wire : Wire) (width offset : Nat) : SigChunk :=
  { wire := some wire, data := Const.empty, width := width, offset := offset }

/-- The function `RTLIL::SigChunk::extract`.  The bits of a constant are read
one index at a time, as the source loop does; an index past the end (undefined
in the source) reads `S0`. -/
def SigChunk.extract (c : SigChunk) (offset length : Nat) : SigChunk :=
  match c.wire with
  | some w => { wire := some w, data := Const.empty, width := length, offset := c.offset + offset }
  | none =>
    { wire := none,
      data := ⟨(List.range length).map (fun i => c.data.bits.getD (offset + i) State.S0), ""⟩,
      width := length, offset := 0 }

/-- The function `RTLIL::SigChunk::operator ==`. -/
def SigChunk.eq (a b : SigChunk) : Bool :=
  if a.wire ≠ b.wire ∨ a.width ≠ b.width ∨ a.offset ≠ b.offset then false
  else if a.data.bits ≠ b.data.bits then false
  else true

/-- The function `RTLIL::SigChunk::operator !=`. -/
def SigChunk.ne (a b : SigChunk) : Bool :=
  if a.eq b then false else true

/-- The test `chunk.wire && chunk.wire->auto_width` of `optimize`. -/
def SigChunk.is_auto (c : SigChunk) : Bool :=
  match c.wire with
  | some w => w.auto_width
  | none => false

/-- The constructor `RTLIL::SigSpec::SigSpec()`. -/
def SigSpec.empty : SigSpec := { chunks := [], width := 0 }

/-- The constructor `RTLIL::SigSpec::SigSpec(const RTLIL::SigChunk &chunk)`. -/
def SigSpec.ofChunk (chunk : SigChunk) : SigSpec :=
  { chunks := [chunk], width := chunk.width }

/-- The constructor `RTLIL::SigSpec::SigSpec(RTLIL::State bit, int width)`. -/
def SigSpec.ofState (bit : State) (width : Nat) : SigSpec :=
  { chunks := [SigChunk.ofState bit width], width := (SigChunk.ofState bit width).width }

/-- The checks of `RTLIL::SigSpec::check` on one chunk. -/
def SigChunk.check (chunk : SigChunk) : Bool :=
  match chunk.wire with
  | none =>
    decide (chunk.offset = 0) && decide (chunk.data.bits.length = chunk.width) &&
      (decide (chunk.data.str.length = 0) ||
        decide (chunk.data.str.length * 8 = chunk.data.bits.length))
  | some w =>
    decide (chunk.offset + chunk.width ≤ w.width) && decide (chunk.data.bits.length = 0) &&
      decide (chunk.data.str.length = 0)

/-- The sum `w` that `RTLIL::SigSpec::check` computes. -/
def SigSpec.chunk_width_sum (s : SigSpec) : Nat :=
  (s.chunks.map (fun c => c.width)).sum

/-- The function `RTLIL::SigSpec::check`: true when no assertion fails. -/
def SigSpec.check (s : SigSpec) : Bool :=
  s.chunks.all SigChunk.check && decide (s.chunk_width_sum = s.width)

/-- The function `RTLIL::SigSpec::append`. -/
def SigSpec.append (s signal : SigSpec) : SigSpec :=
  signal.chunks.foldl
    (fun acc c => { chunks := acc.chunks ++ [c], width := acc.width + c.width }) s

/-- The function `RTLIL::SigSpec::expand`. -/
def SigSpec.expand (s : SigSpec) : SigSpec :=
  { chunks := s.chunks.flatMap (fun c => (List.range c.width).map (fun j => c.extract j 1)),
    width := s.width }

/-- The first loop of `RTLIL::SigSpec::optimize`: a chunk of width zero is
erased unless it lies on a wire with `auto_width`. -/
def optimize_erase : List SigChunk → List SigChunk
  | [] => []
  | c :: cs =>
    if c.is_auto then c :: optimize_erase cs
    else if c.width = 0 then optimize_erase cs
    else c :: optimize_erase cs

/-- The second loop of `RTLIL::SigSpec::optimize`, at index `i`: `ch1` is
`chunks[i-1]` and the list holds the chunks from `chunks[i]` on.  The result
lists the chunks from index `i-1` on when the loop ends. -/
def optimize_merge (ch1 : SigChunk) : List SigChunk → List SigChunk
  | [] => [ch1]
  | ch2 :: rest =>
    if ch1.is_auto then ch1 :: optimize_merge ch2 rest
    else if ch2.is_auto then ch1 :: optimize_merge ch2 rest
    else if ch1.wire = ch2.wire then
      if ch1.wire ≠ none ∧ ch1.offset + ch1.width = ch2.offset then
        optimize_merge { ch1 with width := ch1.width + ch2.width } rest
      else if ch1.wire = none ∧ decide (ch1.data.str = "") = decide (ch2.data.str = "") then
        optimize_merge
          { ch1 with
            data := ⟨ch1.data.bits ++ ch2.data.bits, ch2.data.str ++ ch1.data.str⟩,
            width := ch1.width + ch2.width } rest
      else ch1 :: optimize_merge ch2 rest
    else ch1 :: optimize_merge ch2 rest

/-- Both loops of `RTLIL::SigSpec::optimize` on the chunk vector. -/
def optimize_chunks (chunks : List SigChunk) : List SigChunk :=
  match optimize_erase chunks with
  | [] => []
  | c :: cs => optimize_merge c cs

/-- The function `RTLIL::SigSpec::optimize`. -/
def SigSpec.optimize (s : SigSpec) : SigSpec :=
  { chunks := optimize_chunks s.chunks, width := s.width }

/-- The final loop of `RTLIL::SigSpec::operator ==` over two chunk vectors of
equal size. -/
def chunks_all_eq : List SigChunk → List SigChunk → Bool
  | a :: as, b :: bs => if a.ne b then false else chunks_all_eq as bs
  | _, _ => true

/-- The function `RTLIL::SigSpec::operator ==`. -/
def SigSpec.eq (a b : SigSpec) : Bool :=
  if a.width ≠ b.width then false
  else if a.optimize.chunks.length ≠ b.optimize.chunks.length then false
  else chunks_all_eq a.optimize.chunks b.optimize.chunks

/-- The function `RTLIL::SigSpec::operator !=`. -/
def SigSpec.ne (a b : SigSpec) : Bool :=
  if a.eq b then false else true

/-- The values of `off` and `len` that `extract(offset, length)` and
`remove(offset, length)` compute for a chunk of width `w` starting at bit `pos`. -/
def slice_off_len (w pos offset length : Nat) : Int × Int :=
  let off : Int := (offset : Int) - (pos : Int)
  let len : Int := (length : Int)
  let len := if off < 0 then len + off else len
  let off := if off < 0 then 0 else off
  let len := if len > (w : Int) - off then (w : Int) - off else len
  (off, len)

/-- The loop of `RTLIL::SigSpec::extract(int offset, int length)` from the
chunk at bit position `pos` on, with the current values of `offset`, `length`
and `ret`. -/
def extract_loop : List SigChunk → Nat → Nat → Nat → SigSpec → SigSpec
  | [], _, _, _, ret => ret
  | c :: cs, pos, offset, length, ret =>
    if pos + c.width > offset ∧ pos < offset + length then
      let ol := slice_off_len c.width pos offset length
      extract_loop cs (pos + c.width) (offset + ol.2.toNat) (length - ol.2.toNat)
        { chunks := ret.chunks ++ [c.extract ol.1.toNat ol.2.toNat],
          width := ret.width + ol.2.toNat }
    else extract_loop cs (pos + c.width) offset length ret

/-- The function `RTLIL::SigSpec::extract(int offset, int length)`. -/
def SigSpec.extract (s : SigSpec) (offset length : Nat) : SigSpec :=
  extract_loop s.chunks 0 offset length SigSpec.empty

/-- The loop of `RTLIL::SigSpec::remove(int offset, int length)` from the chunk
at bit position `pos` on; `width` is the current width field.  The result is
the rest of the chunk vector and the width field when the loop ends. -/
def remove_loop (offset length : Nat) : List SigChunk → Nat → Nat → List SigChunk × Nat
  | [], _, width => ([], width)
  | c :: cs, pos, width =>
    if pos + c.width > offset ∧ pos < offset + length then
      let ol := slice_off_len c.width pos offset length
      let lsb_chunk := c.extract 0 ol.1.toNat
      let msb_chunk := c.extract (ol.1 + ol.2).toNat ((c.width : Int) - ol.1 - ol.2).toNat
      let r := remove_loop offset length cs (pos + c.width) (width - ol.2.toNat)
      if lsb_chunk.width = 0 ∧ msb_chunk.width = 0 then r
      else if lsb_chunk.width = 0 ∧ msb_chunk.width ≠ 0 then (msb_chunk :: r.1, r.2)
      else if lsb_chunk.width ≠ 0 ∧ msb_chunk.width = 0 then (lsb_chunk :: r.1, r.2)
      else (lsb_chunk :: msb_chunk :: r.1, r.2)
    else
      let r := remove_loop offset length cs (pos + c.width) width
      (c :: r.1, r.2)

/-- The function `RTLIL::SigSpec::remove(int offset, int length)`. -/
def SigSpec.remove (s : SigSpec) (offset length : Nat) : SigSpec :=
  let r := remove_loop offset length s.chunks 0 s.width
  { chunks := r.1, width := r.2 }

/-- The insertion loop of `RTLIL::SigSpec::replace(int offset, const SigSpec &with)`
from the chunk at bit position `pos` on: the chunk vector after the chunks of
`with` have been inserted. -/
def replace_insert (offset : Nat) (with_chunks : List SigChunk) : List SigChunk → Nat → List SigChunk
  | [], _ => with_chunks
  | c :: cs, pos =>
    if pos = offset then with_chunks ++ c :: cs
    else c :: replace_insert offset with_chunks cs (pos + c.width)

/-- The function `RTLIL::SigSpec::replace(int offset, const RTLIL::SigSpec &with)`. -/
def SigSpec.replace_at (s : SigSpec) (offset : Nat) (with_ : SigSpec) : SigSpec :=
  let s1 := s.remove offset with_.width
  { chunks := replace_insert offset with_.chunks s1.chunks 0,
    width := s1.width + with_.width }

/-- The test `chunk.wire == NULL && chunk.data.bits[0] == freeState` of
`combine`; `bits[0]` of an empty vector (undefined in the source) reads `S0`. -/
def SigChunk.is_free (c : SigChunk) (freeState : State) : Bool :=
  decide (c.wire = none) && decide (c.data.bits.getD 0 State.S0 = freeState)

/-- The loop of `RTLIL::SigSpec::combine` from index `i` on: the chunks of the
receiver and of `signal` from that index on, and `no_collisions`.  The loop is
taken to end where `signal.chunks[i]` would be read past the end (undefined in
the source; excluded by `assert(width == signal.width)` on checked operands). -/
def combine_loop (freeState : State) (override : Bool) :
    List SigChunk → List SigChunk → Bool → List SigChunk × Bool
  | [], _, no_collisions => ([], no_collisions)
  | c :: cs, [], no_collisions => (c :: cs, no_collisions)
  | c :: cs, sc :: scs, no_collisions =>
    let self_free := c.is_free freeState
    let other_free := sc.is_free freeState
    let c1 :=
      if !self_free && !other_free then
        (if override then sc else SigChunk.ofState State.Sx 1)
      else c
    let no_collisions1 := if !self_free && !other_free then false else no_collisions
    let c2 := if self_free && !other_free then sc else c1
    let r := combine_loop freeState override cs scs no_collisions1
    (c2 :: r.1, r.2)

/-- The function `RTLIL::SigSpec::combine`: the returned flag and the receiver
after the call. -/
def SigSpec.combine (s signal : SigSpec) (freeState : State) (override : Bool) :
    Bool × SigSpec :=
  let r := combine_loop freeState override s.expand.chunks signal.expand.chunks true
  (r.2, ({ chunks := r.1, width := s.width } : SigSpec).optimize)

/-- The loop `while (this->width < width) append(padding);` of `extend`, run
for at most `fuel` rounds; `none` when the loop has not ended by then. -/
def extend_pad (padding : SigSpec) (width : Nat) : Nat → SigSpec → Option SigSpec
  | 0, s => if s.width < width then none else some s
  | fuel + 1, s =>
    if s.width < width then extend_pad padding width fuel (s.append padding) else some s

/-- The value of `padding` in `RTLIL::SigSpec::extend` before the loop.
`RTLIL::SigSpec(RTLIL::State::S0)` is the one-bit constant (the width argument
of that constructor defaults to 1 in `rtlil.h`). -/
def extend_padding (s : SigSpec) (is_signed : Bool) : SigSpec :=
  let padding := if s.width > 0 then s.extract (s.width - 1) 1 else SigSpec.ofState State.S0 1
  if !is_signed && padding.ne (SigSpec.ofState State.Sx 1) &&
      padding.ne (SigSpec.ofState State.Sz 1) && padding.ne (SigSpec.ofState State.Sa 1) &&
      padding.ne (SigSpec.ofState State.Sm 1) then
    SigSpec.ofState State.S0 1
  else padding

/-- The function `RTLIL::SigSpec::extend`.  Each round of the padding loop adds
`padding.width` bits, so the loop ends within `width - this->width` rounds or
never; `none` stands for a loop that never ends. -/
def SigSpec.extend (s : SigSpec) (width : Nat) (is_signed : Bool) : Option SigSpec :=
  let s1 := if s.width > width then s.remove width (s.width - width) else s
  if s1.width < width then
    (extend_pad (extend_padding s1 is_signed) width (width - s1.width) s1).map SigSpec.optimize
  else some s1.optimize

/-- The inner loop over `pattern.chunks` of `replace(pattern, with, other)` from
index `j` on, for the chunk `ch1`: the first overlap found, as `lower`, `upper`
and the position `poff + lower - ch2.offset` in the pattern. -/
def replace_find (ch1 : SigChunk) : List SigChunk → Nat → Option (Nat × Nat × Nat)
  | [], _ => none
  | ch2 :: rest, poff =>
    if ch1.wire = ch2.wire then
      let lower := max ch1.offset ch2.offset
      let upper := min (ch1.offset + ch1.width) (ch2.offset + ch2.width)
      if lower < upper then some (lower, upper, poff + lower - ch2.offset)
      else replace_find ch1 rest (poff + ch2.width)
    else replace_find ch1 rest (poff + ch2.width)

/-- The outer loop of `RTLIL::SigSpec::replace(pattern, with, other)` with
`other == this`, as `replace(pattern, with)` calls it: the state is the
receiver, the index `i`, `pos` and `restart_pos`.  One round is one pass from
the label `restart` to the next `goto restart` or to the end of the loop body;
`none` when the loop has not ended within `fuel` rounds. -/
def replace_loop (pattern with_ : SigSpec) : Nat → SigSpec → Nat → Nat → Nat → Option SigSpec
  | 0, _, _, _, _ => none
  | fuel + 1, s, i, pos, restart_pos =>
    match s.chunks.get? i with
    | none => some s
    | some ch1 =>
      if ch1.wire ≠ none ∧ pos ≥ restart_pos then
        match replace_find ch1 pattern.chunks 0 with
        | some (lower, upper, ppos) =>
          replace_loop pattern with_ fuel
            (s.replace_at (pos + lower - ch1.offset) (with_.extract ppos (upper - lower)))
            i pos (pos + upper - ch1.offset)
        | none => replace_loop pattern with_ fuel s (i + 1) (pos + ch1.width) restart_pos
      else replace_loop pattern with_ fuel s (i + 1) (pos + ch1.width) restart_pos

/-- The sum of the widths of a list of chunks. -/
def wsum (cs : List SigChunk) : Nat := (cs.map (fun c => c.width)).sum

/-- The bits of a list of chunks, low bit first, where `β c j` reads bit `j` of
the chunk `c`. -/
def lbits {B : Type} (β : SigChunk → Nat → B) (cs : List SigChunk) : List B :=
  cs.flatMap (fun c => (List.range c.width).map (β c))

/-- Bit `j` of a chunk as the one-bit chunk that `expand` makes of it. -/
def SigChunk.bit (c : SigChunk) (j : Nat) : SigChunk := c.extract j 1

/-- Bit `j` of a chunk together with the mark of a string-tagged constant. -/
def SigChunk.tbit (c : SigChunk) (j : Nat) : SigChunk × Bool :=
  (c.extract j 1, !decide (c.data.str = ""))

/-- The sequence of single bits that a signal denotes: the chunks of `expand`. -/
def SigSpec.bits (s : SigSpec) : List SigChunk := lbits SigChunk.bit s.chunks

/-- A reading of bits commutes with `SigChunk::extract` on the chunk `c`. -/
def Sliceable {B : Type} (β : SigChunk → Nat → B) (c : SigChunk) : Prop :=
  ∀ o l j, j < l → β (c.extract o l) j = β c (o + j)

/-- Every chunk that the range `[o, o + l)` meets is sliceable, for the chunks
of a list that starts at bit position `pos`. -/
def CutOk {B : Type} (β : SigChunk → Nat → B) (o l : Nat) : List SigChunk → Nat → Prop
  | [], _ => True
  | c :: cs, pos =>
    ((pos + c.width > o ∧ pos < o + l) → Sliceable β c) ∧ CutOk β o l cs (pos + c.width)

/-- A wire `w` of eight bits, for the examples. -/
def exW : Wire := { id := 1, name := "w", width := 8, auto_width := false }

/-- A second wire `v` of eight bits, for the examples. -/
def exV : Wire := { id := 2, name := "v", width := 8, auto_width := false }

/-- A wire `a` of eight bits whose width is still to be determined (`auto_width`). -/
def exA : Wire := { id := 3, name := "a", width := 8, auto_width := true }

/-- The signal `{ w[3:0] }` written as two chunks `w[1:0]`, `w[3:2]`, followed by
the constant bits `S1`, `Sx`. -/
def exS1 : SigSpec :=
  { chunks := [SigChunk.ofWire exW 2 0, SigChunk.ofWire exW 2 2,
      SigChunk.ofConst ⟨[State.S1, State.Sx], ""⟩], width := 6 }

/-- The signal `v[1:0]`. -/
def exS2 : SigSpec := { chunks := [SigChunk.ofWire exV 2 0], width := 2 }

/-- What the merge test of the second loop of `optimize` reads of a chunk in
the place of `ch2`. -/
def merge_view (c : SigChunk) : Bool × Option Wire × Nat × Bool :=
  (c.is_auto, c.wire, c.offset, decide (c.data.str = ""))


/-- The conditions of `SigSpec::check` on one chunk, as far as the signal
algebra reads the chunk: a constant has offset zero and as many bits as its
width; a chunk on a wire has no bits and no cached string. -/
def SigChunk.wf (c : SigChunk) : Prop :=
  (c.wire = none → c.offset = 0 ∧ c.data.bits.length = c.width) ∧
  (c.wire ≠ none → c.data.bits = [] ∧ c.data.str = "")

/-- The test under which the second loop of `optimize` merges `ch1` with the
chunk `ch2` that follows it, neither being on an `auto_width` wire. -/
def Mergeable (ch1 ch2 : SigChunk) : Prop :=
  ch1.wire = ch2.wire ∧
    ((ch1.wire ≠ none ∧ ch1.offset + ch1.width = ch2.offset) ∨
     (ch1.wire = none ∧ decide (ch1.data.str = "") = decide (ch2.data.str = "")))

/-- Canonical chunk vectors without `auto_width` wires: every chunk is well
formed and has a positive width, and no chunk can be merged with the next. -/
def Normal (cs : List SigChunk) : Prop :=
  (∀ c ∈ cs, c.wf ∧ c.is_auto = false ∧ 0 < c.width) ∧
  List.Chain' (fun a b => ¬ Mergeable a b) cs

/-- The second loop of `optimize` leaves the chunk `a` and the chunk `b` that
follows it as they are: one of the two lies on a wire with `auto_width`, or
the test for merging fails. -/
def Unmergeable (a b : SigChunk) : Prop :=
  a.is_auto = true ∨ b.is_auto = true ∨ ¬ Mergeable a b

/-- Where the chunk vector `xs` is followed by the chunk vector `ys`, the last
chunk of `xs` and the first chunk of `ys` are left as they are by the second
loop of `optimize`. -/
def Joins (xs ys : List SigChunk) : Prop :=
  ∀ a ∈ xs.getLast?, ∀ b ∈ ys.head?, Unmergeable a b

/-- The parts of the chunks, the first of which starts at bit position `pos`,
that lie in the bit range from `lo` up to `hi`, each cut out with
`SigChunk::extract`. -/
def slice_chunks (lo hi : Nat) : List SigChunk → Nat → List SigChunk
  | [], _ => []
  | c :: cs, pos =>
    if max pos lo < min (pos + c.width) hi then
      c.extract (max pos lo - pos) (min (pos + c.width) hi - max pos lo) ::
        slice_chunks lo hi cs (pos + c.width)
    else slice_chunks lo hi cs (pos + c.width)

/-- The signal `a[1:0]` on the `auto_width` wire `a`, as one chunk. -/
def exAuto : SigSpec := { chunks := [SigChunk.ofWire exA 2 0], width := 2 }

/-- A string-tagged constant of eight bits (the character `a`, low bit first)
followed by the untagged constant bit `S0`. -/
def exTag : SigSpec :=
  { chunks := [SigChunk.ofConst ⟨[State.S1, State.S0, State.S0, State.S0, State.S0, State.S1,
      State.S1, State.S0], "a"⟩, SigChunk.ofConst ⟨[State.S0], ""⟩], width := 9 }

/-- The signal `w[3:0]` as one chunk. -/
def exS3 : SigSpec := { chunks := [SigChunk.ofWire exW 4 0], width := 4 }

/-- The function `RTLIL::SigSpec::replace(pattern, with)`, which runs
`replace(pattern, with, this)`: the receiver after the call, or `none` when the
loop has not ended within `fuel` rounds. -/
def SigSpec.replace (s pattern with_ : SigSpec) (fuel : Nat) : Option SigSpec :=
  replace_loop pattern with_ fuel s 0 0 0

/-- Every chunk of the signal is well formed, lies on no `auto_width` wire and
has a positive width. -/
def SigSpec.plain (s : SigSpec) : Prop :=
  ∀ c ∈ s.chunks, c.wf ∧ c.is_auto = false ∧ 0 < c.width

/-- The pattern `a[1]` on the `auto_width` wire `a`. -/
def exAutoPat : SigSpec := { chunks := [SigChunk.ofWire exA 1 1], width := 1 }

/-- The signal `{ w[7:6], w[5:4], w[1:0], (no bits of w), v[1:0] }`, low chunk
first: its second chunk has width zero. -/
def exZero : SigSpec :=
  { chunks := [SigChunk.ofWire exV 2 0, SigChunk.ofWire exW 0 7, SigChunk.ofWire exW 2 0,
      SigChunk.ofWire exW 2 4, SigChunk.ofWire exW 2 6], width := 8 }

/-- The pattern `{ w[7:6], w[1:0] }`, low chunk first. -/
def exZeroPat : SigSpec :=
  { chunks := [SigChunk.ofWire exW 2 0, SigChunk.ofWire exW 2 6], width := 4 }

/-- The pattern `{ w[1:0], w[3:2] }`: the chunk `w[3:2]` comes first. -/
def exPatDesc : SigSpec :=
  { chunks := [SigChunk.ofWire exW 2 2, SigChunk.ofWire exW 2 0], width := 4 }

/-- The pattern `{ w[3:2], w[1:0] }`: the chunk `w[1:0]` comes first. -/
def exPatAsc : SigSpec :=
  { chunks := [SigChunk.ofWire exW 2 0, SigChunk.ofWire exW 2 2], width := 4 }

/-- The signal `v[3:0]` as one chunk. -/
def exWith : SigSpec := { chunks := [SigChunk.ofWire exV 4 0], width := 4 }

/-- The result bit of `combine` at one position as the specification words it,
for the bit `self` of the receiver and the bit `other` of the argument: where
both are non-free, the other operand's bit when `override` is true and `Sx`
otherwise; else the unique non-free bit, or the receiver's bit when both are
free. -/
def combine_bit_spec (freeState : State) (override : Bool) (self other : SigChunk) : SigChunk :=
  if self.is_free freeState = false ∧ other.is_free freeState = false then
    (if override then other else SigChunk.ofState State.Sx 1)
  else if self.is_free freeState = false then self
  else if other.is_free freeState = false then other
  else self

/-- Some bit position is non-free in both lists of bits. -/
def collision (freeState : State) : List SigChunk → List SigChunk → Bool
  | x :: xs, y :: ys =>
    (!x.is_free freeState && !y.is_free freeState) || collision freeState xs ys
  | _, _ => false

/-- The signal `{ S0, S0, w[1:0] }`, low chunk first. -/
def exC1 : SigSpec :=
  { chunks := [SigChunk.ofWire exW 2 0, SigChunk.ofConst ⟨[State.S0, State.S0], ""⟩], width := 4 }

/-- The signal `{ v[1], S1, S0, S0 }`, low chunk first. -/
def exC2 : SigSpec :=
  { chunks := [SigChunk.ofConst ⟨[State.S0, State.S0, State.S1], ""⟩, SigChunk.ofWire exV 1 1],
    width := 4 }

/-- The bit that `extend` pads with, as the amended claim words it: `S0` for a
signal of width zero; else the old most significant bit when `is_signed` is set
or that bit is one of the constants `Sx`, `Sz`, `Sa`, `Sm`; else `S0`. -/
def extend_pad_spec (s : SigSpec) (is_signed : Bool) : SigChunk :=
  match s.bits.getLast? with
  | none => SigChunk.ofState State.S0 1
  | some msb =>
    if is_signed = true ∨ msb = SigChunk.ofState State.Sx 1 ∨ msb = SigChunk.ofState State.Sz 1 ∨
        msb = SigChunk.ofState State.Sa 1 ∨ msb = SigChunk.ofState State.Sm 1 then msb
    else SigChunk.ofState State.S0 1

/-- The signal `w[1:0]`. -/
def exLo : SigSpec := { chunks := [SigChunk.ofWire exW 2 0], width := 2 }

/-- The signal `w[3:2]`. -/
def exHi : SigSpec := { chunks := [SigChunk.ofWire exW 2 2], width := 2 }

/-- The signal `{ w[3:2], S0, w[1:0] }`, low chunk first. -/
def exMid : SigSpec :=
  { chunks := [SigChunk.ofWire exW 2 0, SigChunk.ofConst ⟨[State.S0], ""⟩,
      SigChunk.ofWire exW 2 2], width := 5 }

/-- The signal `{ S0, w[1:0] }`, low chunk first. -/
def exLoC : SigSpec :=
  { chunks := [SigChunk.ofWire exW 2 0, SigChunk.ofConst ⟨[State.S0], ""⟩], width := 3 }

/-- The signal `w[2]`. -/
def exBit2 : SigSpec := { chunks := [SigChunk.ofWire exW 1 2], width := 1 }

/-! ### Constants from strings, predicates on signals -/

/-- The inner loop of `RTLIL::Const::Const(std::string str)` for one character
`ch`, run for `n` rounds: `(ch & 1) != 0 ? S1 : S0` is pushed and `ch` is
shifted right by one. -/
def Const.char_bits (ch : Nat) : Nat → List State
  | 0 => []
  | n + 1 => (if ch % 2 ≠ 0 then State.S1 else State.S0) :: Const.char_bits (ch / 2) n

/-- The constructor `RTLIL::Const::Const(std::string str)`.  A character of the
string stands for a `char`; as `unsigned char` it is its code modulo 256. -/
def Const.ofString (str : String) : Const :=
  ⟨str.data.flatMap (fun c => Const.char_bits (c.toNat % 256) 8), str⟩

/-- The little-endian packing of a string with eight bits per character, as the
specification words it: bit `8 * i + j` is `S1` when bit `j` of character `i`
is set, and `S0` otherwise. -/
def string_packing (str : String) : List State :=
  (List.range (8 * str.length)).map (fun k =>
    if Nat.testBit ((str.data.getD (k / 8) default).toNat % 256) (k % 8) then State.S1
    else State.S0)

/-- The bits of a literal chunk are the packing of its cached string. -/
def SigChunk.string_packed (c : SigChunk) : Prop :=
  c.data.bits = (Const.ofString c.data.str).bits

/-- The loop of `RTLIL::SigSpec::is_fully_def` from one chunk on. -/
def is_fully_def_loop : List SigChunk → Bool
  | [] => true
  | c :: cs =>
    if c.width > 0 ∧ c.wire ≠ none then false
    else if c.data.bits.any (fun b => decide (b ≠ State.S0 ∧ b ≠ State.S1)) then false
    else is_fully_def_loop cs

/-- The function `RTLIL::SigSpec::is_fully_def`. -/
def SigSpec.is_fully_def (s : SigSpec) : Bool := is_fully_def_loop s.chunks

/-! ### Modules and the cell-type catalog (`kernel/celltypes.h`) -/

/-- The part of `RTLIL::Cell` read here: the maps `connections`, `parameters`
and `attributes` as the lists of their entries in key order. -/
structure Cell where
  name : String
  type : String
  parameters : List (String × Const)
  connections : List (String × SigSpec) := []
  attributes : List (String × Const) := []
deriving DecidableEq, Repr

/-- The part of `RTLIL::Module` read here: the maps `wires` and `cells` as the
lists of their entries in key order, the maps `memories` and `processes` as the
lists of their keys, and the vector `connections`. -/
structure Module where
  name : String
  wires : List (String × Wire)
  cells : List (String × Cell) := []
  memories : List String := []
  processes : List String := []
  connections : List (SigSpec × SigSpec) := []
deriving DecidableEq, Repr

/-- The part of `RTLIL::Design` read here: the map `modules` as the list of its
entries in key order. -/
structure Design where
  modules : List (String × Module)
deriving DecidableEq, Repr

/-- The type `CellTypes`: the set `cell_types` as a list without repetitions
and the vector `designs`. -/
structure CellTypes where
  cell_types : List String
  designs : List Design
deriving DecidableEq, Repr

/-- The constructor `CellTypes::CellTypes()`. -/
def CellTypes.empty : CellTypes := { cell_types := [], designs := [] }

/-- The call `cell_types.insert(type)`. -/
def CellTypes.insert (ct : CellTypes) (type : String) : CellTypes :=
  if type ∈ ct.cell_types then ct else { ct with cell_types := ct.cell_types ++ [type] }

/-- The function `CellTypes::setup_design`. -/
def CellTypes.setup_design (ct : CellTypes) (design : Design) : CellTypes :=
  { ct with designs := ct.designs ++ [design] }

/-- The function `CellTypes::setup_internals`. -/
def CellTypes.setup_internals (ct : CellTypes) : CellTypes :=
  ["$not", "$pos", "$neg", "$and", "$or", "$xor", "$xnor", "$reduce_and", "$reduce_or",
    "$reduce_xor", "$reduce_xnor", "$reduce_bool", "$shl", "$shr", "$sshl", "$sshr", "$lt",
    "$le", "$eq", "$ne", "$ge", "$gt", "$add", "$sub", "$mul", "$div", "$mod", "$pow",
    "$logic_not", "$logic_and", "$logic_or", "$mux", "$pmux", "$safe_pmux",
    "$lut"].foldl CellTypes.insert ct

/-- The function `CellTypes::setup_internals_mem`. -/
def CellTypes.setup_internals_mem (ct : CellTypes) : CellTypes :=
  ["$sr", "$dff", "$dffsr", "$adff", "$dlatch", "$memrd", "$memwr", "$mem",
    "$fsm"].foldl CellTypes.insert ct

/-- The function `CellTypes::setup_stdcells`. -/
def CellTypes.setup_stdcells (ct : CellTypes) : CellTypes :=
  ["$_INV_", "$_AND_", "$_OR_", "$_XOR_", "$_MUX_"].foldl CellTypes.insert ct

/-- The function `CellTypes::setup_stdcells_mem`. -/
def CellTypes.setup_stdcells_mem (ct : CellTypes) : CellTypes :=
  ["$_SR_NN_", "$_SR_NP_", "$_SR_PN_", "$_SR_PP_", "$_DFF_N_", "$_DFF_P_", "$_DFF_NN0_",
    "$_DFF_NN1_", "$_DFF_NP0_", "$_DFF_NP1_", "$_DFF_PN0_", "$_DFF_PN1_", "$_DFF_PP0_",
    "$_DFF_PP1_", "$_DFFSR_NNN_", "$_DFFSR_NNP_", "$_DFFSR_NPN_", "$_DFFSR_NPP_",
    "$_DFFSR_PNN_", "$_DFFSR_PNP_", "$_DFFSR_PPN_", "$_DFFSR_PPP_", "$_DLATCH_N_",
    "$_DLATCH_P_"].foldl CellTypes.insert ct

/-- The function `CellTypes::setup`; `none` is the null pointer. -/
def CellTypes.setup (ct : CellTypes) (design : Option Design) : CellTypes :=
  let ct1 := match design with
    | some d => ct.setup_design d
    | none => ct
  ct1.setup_internals.setup_internals_mem.setup_stdcells.setup_stdcells_mem

/-- The function `CellTypes::cell_known`. -/
def CellTypes.cell_known (ct : CellTypes) (type : String) : Bool :=
  if type ∈ ct.cell_types then true
  else ct.designs.any (fun design => (design.modules.lookup type).isSome)

/-- The loop over `designs` in `CellTypes::cell_output`. -/
def cell_output_designs (type port : String) : List Design → Bool
  | [] => false
  | design :: rest =>
    match design.modules.lookup type with
    | some m =>
      (match m.wires.lookup port with
       | some w => w.port_output
       | none => false)
    | none => cell_output_designs type port rest

/-- The function `CellTypes::cell_output`. -/
def CellTypes.cell_output (ct : CellTypes) (type port : String) : Bool :=
  if type ∉ ct.cell_types then cell_output_designs type port ct.designs
  else if port = "\\Y" ∨ port = "\\Q" ∨ port = "\\RD_DATA" then true
  else if type = "$memrd" ∧ port = "\\DATA" then true
  else if type = "$fsm" ∧ port = "\\CTRL_OUT" then true
  else if type = "$lut" ∧ port = "\\O" then true
  else false

/-- The loop over `designs` in `CellTypes::cell_input`. -/
def cell_input_designs (type port : String) : List Design → Bool
  | [] => false
  | design :: rest =>
    match design.modules.lookup type with
    | some m =>
      (match m.wires.lookup port with
       | some w => w.port_input
       | none => false)
    | none => cell_input_designs type port rest

/-- The function `CellTypes::cell_input`. -/
def CellTypes.cell_input (ct : CellTypes) (type port : String) : Bool :=
  if type ∉ ct.cell_types then cell_input_designs type port ct.designs
  else if type ∈ ct.cell_types then !ct.cell_output type port
  else false

/-- The loop over `sel.bits` of `CellTypes::eval(cell, arg1, arg2, sel)` from
index `i` on, with the current value of `ret`.  The range of `arg2.bits` from
`i * arg1.bits.size()` to `(i+1) * arg1.bits.size()` ends where `arg2.bits`
ends when it would go past the end (undefined in the source). -/
def eval_mux_loop (arg1 arg2 : Const) : List State → Nat → Const → Const
  | [], _, ret => ret
  | b :: rest, i, ret =>
    if b = State.S1 then
      eval_mux_loop arg1 arg2 rest (i + 1)
        ⟨(arg2.bits.take ((i + 1) * arg1.bits.length)).drop (i * arg1.bits.length), ""⟩
    else eval_mux_loop arg1 arg2 rest (i + 1) ret

/-- The function `CellTypes::eval(cell, arg1, arg2, sel)`.  For a cell that is
no multiplexer it calls `eval(cell, arg1, arg2)`, which `kernel/calc.cc`
evaluates; that function is the parameter `eval3`. -/
def CellTypes.eval (eval3 : Cell → Const → Const → Const) (cell : Cell)
    (arg1 arg2 sel : Const) : Const :=
  if cell.type = "$mux" ∨ cell.type = "$pmux" ∨ cell.type = "$safe_pmux" ∨
      cell.type = "$_MUX_" then
    eval_mux_loop arg1 arg2 sel.bits 0 arg1
  else eval3 cell arg1 arg2

/-! ### Comparison of strings -/

/-- The comparison `a < b` of two sequences of characters: lexicographic, a
character being compared by its code. -/
def chars_lt : List Char → List Char → Bool
  | _, [] => false
  | [], _ :: _ => true
  | a :: as, b :: bs =>
    if a.toNat < b.toNat then true
    else if b.toNat < a.toNat then false
    else chars_lt as bs

/-- The comparison `a < b` of two strings (`operator<` of `std::string`). -/
def string_lt (a b : String) : Bool := chars_lt a.data b.data

/-! ### Sorting -/

/-- One insertion of the sorting model: `a` is put before the first element
that `lt` places after it. -/
def sort_insert {α : Type} (lt : α → α → Bool) (a : α) : List α → List α
  | [] => [a]
  | b :: l => if lt a b then a :: b :: l else b :: sort_insert lt a l

/-- The call `std::sort(first, last, comp)` on a vector: a sorted arrangement
of its elements.  `std::sort` leaves open the order of elements that `comp`
does not tell apart; the arrangement taken here is the one that insertion of
the elements from the last to the first gives. -/
def std_sort {α : Type} (lt : α → α → Bool) : List α → List α
  | [] => []
  | a :: l => sort_insert lt a (std_sort lt l)

/-! ### Ports of a module -/

/-- The function `fixup_ports_compare`. -/
def fixup_ports_compare (a b : Wire) : Bool :=
  if a.port_id ≠ 0 ∧ ¬ b.port_id ≠ 0 then true
  else if ¬ a.port_id ≠ 0 ∧ b.port_id ≠ 0 then false
  else if a.port_id = b.port_id then string_lt a.name b.name
  else decide (a.port_id < b.port_id)

/-- The assignment `wire->port_id = v` through a pointer to the wire with the
address `id`: every entry of the map that points to this wire shows it. -/
def set_port_id (id : Nat) (v : Int) (wires : List (String × Wire)) : List (String × Wire) :=
  wires.map (fun kw => if kw.2.id = id then (kw.1, { kw.2 with port_id := v }) else kw)

/-- The last loop of `RTLIL::Module::fixup_ports` from index `i` on: the wire
that `all_ports[i]` points to gets the `port_id` `i + 1`. -/
def fixup_ports_assign : List Wire → Nat → List (String × Wire) → List (String × Wire)
  | [], _, wires => wires
  | p :: ps, i, wires => fixup_ports_assign ps (i + 1) (set_port_id p.id ((i : Int) + 1) wires)

/-- The vector `all_ports` that the first loop of `RTLIL::Module::fixup_ports`
collects, in the order of the map. -/
def Module.all_ports (m : Module) : List Wire :=
  (m.wires.map Prod.snd).filter (fun w => w.port_input || w.port_output)

/-- The function `RTLIL::Module::fixup_ports`.  Distinct entries of the map
`wires` are taken to point to distinct wires. -/
def Module.fixup_ports (m : Module) : Module :=
  let wires1 := m.wires.map (fun kw =>
    if kw.2.port_input || kw.2.port_output then kw else (kw.1, { kw.2 with port_id := 0 }))
  { m with wires := fixup_ports_assign (std_sort fixup_ports_compare m.all_ports) 0 wires1 }

/-- The key by which `fixup_ports_compare` orders the wires: the wires with a
`port_id` other than zero come first; then the `port_id` and then the name
decide. -/
def fixup_ports_key (w : Wire) : Lex (Nat × Lex (Int × String)) :=
  toLex (if w.port_id = 0 then 1 else 0, toLex (w.port_id, w.name))

/-- A module with the input ports `\a` (not numbered yet), `\b` (port 1) and
`\c` (port 3) and the wire `\n` that is no port and has the `port_id` 7. -/
def exMod : Module :=
  { name := "\\m",
    wires := [
      ("\\a", { id := 1, name := "\\a", width := 1, auto_width := false, port_input := true }),
      ("\\b", { id := 2, name := "\\b", width := 1, auto_width := false, port_id := 1,
                port_input := true }),
      ("\\c", { id := 3, name := "\\c", width := 1, auto_width := false, port_id := 3,
                port_output := true }),
      ("\\n", { id := 4, name := "\\n", width := 1, auto_width := false, port_id := 7 })] }

/-- The `port_id` that `fixup_ports` gives to the wire `w` of the module `m`:
zero for a wire that is no port, and for a port one more than its index in the
sorted vector `all_ports`. -/
def Module.new_port_id (m : Module) (w : Wire) : Int :=
  if w.port_input || w.port_output then
    ((((std_sort fixup_ports_compare m.all_ports).map (fun p => p.id)).indexOf w.id : Nat) : Int) + 1
  else 0

/-! ### Sorting the bits of a signal -/

/-- The value of a state in the enumeration `RTLIL::State` of `rtlil.h`. -/
def State.toNat : State → Nat
  | State.S0 => 0
  | State.S1 => 1
  | State.Sx => 2
  | State.Sz => 3
  | State.Sa => 4
  | State.Sm => 5

/-- The comparison `a < b` of two vectors of states, which is
`std::lexicographical_compare`. -/
def bits_lt : List State → List State → Bool
  | _, [] => false
  | [], _ :: _ => true
  | a :: as, b :: bs =>
    if a.toNat < b.toNat then true
    else if b.toNat < a.toNat then false
    else bits_lt as bs

/-- The address that a `Wire *` holds: zero for `NULL`, and for a wire a
positive number that grows with its `id`. -/
def wire_ptr : Option Wire → Nat
  | none => 0
  | some w => w.id + 1

/-- The name `wire->name` read through a pointer that is not `NULL`. -/
def wire_name : Option Wire → String
  | none => ""
  | some w => w.name

/-- The function `RTLIL::SigChunk::compare`. -/
def SigChunk.compare (a b : SigChunk) : Bool :=
  if a.wire ≠ b.wire then
    if a.wire = none ∨ b.wire = none then decide (wire_ptr a.wire < wire_ptr b.wire)
    else if wire_name a.wire ≠ wire_name b.wire then
      string_lt (wire_name a.wire) (wire_name b.wire)
    else decide (wire_ptr a.wire < wire_ptr b.wire)
  else if a.offset ≠ b.offset then decide (a.offset < b.offset)
  else if a.width ≠ b.width then decide (a.width < b.width)
  else bits_lt a.data.bits b.data.bits

/-- The function `RTLIL::SigSpec::sort`. -/
def SigSpec.sort (s : SigSpec) : SigSpec :=
  SigSpec.optimize
    { chunks := std_sort SigChunk.compare s.expand.chunks, width := s.expand.width }

/-- The loop of `RTLIL::SigSpec::sort_and_unify` at index `i`: `ch1` is
`chunks[i-1]`, the list holds the chunks from `chunks[i]` on and `width` is the
current width field.  The result lists the chunks from index `i-1` on and the
width field when the loop ends.  After `chunks[i]` has been erased,
`width -= chunks[i].width` reads the chunk that followed it; where the erased
chunk was the last one this reads past the end of the vector, and the result
is `none`. -/
def unify_loop (ch1 : SigChunk) : List SigChunk → Nat → Option (List SigChunk × Nat)
  | [], width => some ([ch1], width)
  | ch2 :: rest, width =>
    if (!SigChunk.compare ch1 ch2 && !SigChunk.compare ch2 ch1) = true then
      match rest with
      | [] => none
      | next :: _ => unify_loop ch1 rest (width - next.width)
    else (unify_loop ch2 rest width).map (fun r => (ch1 :: r.1, r.2))

/-- The function `RTLIL::SigSpec::sort_and_unify`; `none` when a chunk past the
end of the vector is read. -/
def SigSpec.sort_and_unify (s : SigSpec) : Option SigSpec :=
  match std_sort SigChunk.compare s.expand.chunks with
  | [] => some (SigSpec.optimize { chunks := [], width := s.expand.width })
  | c :: cs =>
    (unify_loop c cs s.expand.width).map
      (fun r => SigSpec.optimize { chunks := r.1, width := r.2 })

/-- The key by which `SigChunk::compare` orders the single bits of a signal:
constants before wires; wires by name and then by address; then the offset and
the state of the bit. -/
def bit_key (c : SigChunk) : Lex (Nat × Lex (String × Lex (Nat × Lex (Nat × Nat)))) :=
  toLex (if c.wire = none then 0 else 1,
    toLex (wire_name c.wire,
      toLex (wire_ptr c.wire, toLex (c.offset, (c.data.bits.headD State.S0).toNat))))

/-- Pointers to wires of the signal that hold the same address point to the
same wire. -/
def SigSpec.wires_by_id (s : SigSpec) : Prop :=
  ∀ w ∈ s.chunks.filterMap (fun c => c.wire), ∀ v ∈ s.chunks.filterMap (fun c => c.wire),
    w.id = v.id → w = v

/-- The signal `{ w[0], S1, v[1:0], w[1:0], S0 }`, low chunk first. -/
def exSort : SigSpec :=
  { chunks := [SigChunk.ofConst ⟨[State.S0], ""⟩, SigChunk.ofWire exW 2 0, SigChunk.ofWire exV 2 0,
      SigChunk.ofConst ⟨[State.S1], ""⟩, SigChunk.ofWire exW 1 0], width := 7 }

/-- The signal `{ w[1], w[1], w[0] }`, low chunk first: its greatest bit occurs twice. -/
def exDup : SigSpec :=
  { chunks := [SigChunk.ofWire exW 2 0, SigChunk.ofWire exW 1 1], width := 3 }

/-! ### Removing a pattern from a signal -/

/-- The inner loop over `pattern.chunks` of `remove2` from index `j` on, for the
chunk `ch1`: `lower` and `upper` of the first overlap found. -/
def remove2_find (ch1 : SigChunk) : List SigChunk → Option (Nat × Nat)
  | [] => none
  | ch2 :: rest =>
    if ch1.wire = ch2.wire then
      let lower := max ch1.offset ch2.offset
      let upper := min (ch1.offset + ch1.width) (ch2.offset + ch2.width)
      if lower < upper then some (lower, upper) else remove2_find ch1 rest
    else remove2_find ch1 rest

/-- The outer loop of `RTLIL::SigSpec::remove2(pattern, other)` with
`other == NULL`: the state is the receiver, the index `i` and `pos`.  One round
is one pass from the label `restart` to the next `goto restart` or to the end
of the loop body; `none` when the loop has not ended within `fuel` rounds.
Where `remove` has erased the last chunk, `i == chunks.size()` leaves the inner
loop and `pos += chunks[i].width` reads past the end of the vector; the value
read only enters `pos`, which is not read again, so the receiver after the call
does not depend on it.  The flag of the result is false when this read has
taken place. -/
def remove2_loop (pattern : SigSpec) : Nat → SigSpec → Nat → Nat → Option (SigSpec × Bool)
  | 0, _, _, _ => none
  | fuel + 1, s, i, pos =>
    match s.chunks.get? i with
    | none => some (s, true)
    | some ch1 =>
      if ch1.wire ≠ none then
        match remove2_find ch1 pattern.chunks with
        | some (lower, upper) =>
          let s1 := s.remove (pos + lower - ch1.offset) (upper - lower)
          if i = s1.chunks.length then some (s1, false)
          else remove2_loop pattern fuel s1 i pos
        | none => remove2_loop pattern fuel s (i + 1) (pos + ch1.width)
      else remove2_loop pattern fuel s (i + 1) (pos + ch1.width)

/-- The function `RTLIL::SigSpec::remove2(pattern, NULL)`: the receiver after
the call and the flag of `remove2_loop`.  Each round of the loop moves on to the
next chunk or takes at least one bit away and adds at most one chunk, so the
loop ends within `2 * w + chunks.size() + 1` rounds, `w` being the sum of the
widths of the chunks. -/
def SigSpec.remove2 (s pattern : SigSpec) : Option (SigSpec × Bool) :=
  remove2_loop pattern (2 * s.chunk_width_sum + s.chunks.length + 1) s 0 0

/-- The function `RTLIL::SigSpec::remove(const RTLIL::SigSpec &pattern)`, which
runs `remove2(pattern, NULL)` on the receiver: the receiver after the call.
The result is `none` where `remove2` reads `chunks[i]` past the end of the
vector (the flag of `remove2_loop` is false): what the call does then is not
defined. -/
def SigSpec.remove_pattern (s pattern : SigSpec) : Option SigSpec :=
  match s.remove2 pattern with
  | some (r, true) => some r
  | _ => none

/-- The test on the last chunk of a chunk vector under which `remove2` does not
erase that chunk as a whole: there is no last chunk, or it has the width zero,
or its highest bit is not a bit of the pattern with the bits `P`. -/
def last_kept (P : List SigChunk) (chunks : List SigChunk) : Bool :=
  match chunks.getLast? with
  | none => true
  | some c => decide (c.width = 0) || decide (c.bit (c.width - 1) ∉ P)

/-- The signal `{ S1, w[7:4], v[1:0], w[3:0] }`, low chunk first. -/
def exRem : SigSpec :=
  { chunks := [SigChunk.ofWire exW 4 0, SigChunk.ofWire exV 2 0, SigChunk.ofWire exW 4 4,
      SigChunk.ofConst ⟨[State.S1], ""⟩], width := 11 }

/-- The pattern `{ v[0], w[5:2] }`, low chunk first. -/
def exRemPat : SigSpec :=
  { chunks := [SigChunk.ofWire exW 4 2, SigChunk.ofWire exV 1 0], width := 5 }


/-! ### Re-encoding of state machines (`passes/fsm/fsm_recode.cc`) -/

/-- The constructor `RTLIL::Const::Const(int val, int width)` for a value that
is not negative: bit `i` is `(val >> i) & 1`. -/
def Const.ofInt (val width : Nat) : Const :=
  ⟨(List.range width).map (fun i => if (val / 2 ^ i) % 2 ≠ 0 then State.S1 else State.S0), ""⟩

/-- The part of `FsmData` that `fsm_recode` reads and writes. -/
structure FsmData where
  state_bits : Nat
  reset_state : Int
  state_table : List Const
deriving DecidableEq, Repr

/-- The search for the least `k` from `k` on with `n ≤ 2 ^ k`, for at most
`fuel` steps. -/
def ceil_log2_from (n : Nat) : Nat → Nat → Nat
  | 0, k => k
  | fuel + 1, k => if n ≤ 2 ^ k then k else ceil_log2_from n fuel (k + 1)

/-- The value of `ceil(log2(n))` for the size `n ≥ 1` of a vector: the least
`k` with `n ≤ 2 ^ k`.  `log2` and `ceil` are functions of the C library, which
work on `double`; for sizes below `2 ^ 31` this is the value they give. -/
def ceil_log2 (n : Nat) : Nat := ceil_log2_from n n 0

/-- The value of `new_code` in the loop of `fsm_recode` for the index
`state_idx`; `none` stands for `log_abort()`.  The write to `bits[state_idx]`
leaves the constant as it is where the index is past the end (undefined in the
source). -/
def fsm_new_code (encoding : String) (state_bits state_idx : Nat) : Option Const :=
  if encoding = "one-hot" then
    some ⟨(Const.ofState State.Sa state_bits).bits.set state_idx State.S1, ""⟩
  else if encoding = "auto" ∨ encoding = "binary" then
    some (Const.ofInt state_idx state_bits)
  else none

/-- The loop of `fsm_recode` over `state_table` from index `i` on, with the
current value of `state_idx_counter`: the new entries of the table from that
index on. -/
def fsm_recode_loop (encoding : String) (state_bits : Nat) (reset_state : Int) :
    List Const → Nat → Nat → Option (List Const)
  | [], _, _ => some []
  | _ :: rest, i, state_idx_counter =>
    let state_idx := if reset_state = (i : Int) then 0 else state_idx_counter
    let counter1 := if reset_state = (i : Int) then state_idx_counter else state_idx_counter + 1
    match fsm_new_code encoding state_bits state_idx with
    | none => none
    | some new_code =>
      (fsm_recode_loop encoding state_bits reset_state rest (i + 1) counter1).map
        (fun r => new_code :: r)

/-- The encoding that `fsm_recode` works with: the value `attr` of the
attribute `\\fsm_encoding` of the cell when it has one and `auto` otherwise,
replaced by `default_encoding` unless it is `none`, `one-hot` or `binary`. -/
def fsm_encoding (attr : Option String) (default_encoding : String) : String :=
  let encoding := match attr with
    | some a => a
    | none => "auto"
  if encoding ≠ "none" ∧ encoding ≠ "one-hot" ∧ encoding ≠ "binary" then default_encoding
  else encoding

/-- The function `fsm_recode` on the data of the cell: `attr` is the value of
the attribute `\\fsm_encoding` of the cell when it has one, and the result is
the data that `copy_to_cell` writes back; `none` stands for `log_error` and
`log_abort`.  With the encoding `none` the cell is left as it is. -/
def fsm_recode (attr : Option String) (default_encoding : String) (fsm_data : FsmData) :
    Option FsmData :=
  let encoding := fsm_encoding attr default_encoding
  if encoding = "none" then some fsm_data
  else
    let state_bits : Option Nat :=
      if encoding = "one-hot" then some fsm_data.state_table.length
      else if encoding = "auto" ∨ encoding = "binary" then
        some (ceil_log2 fsm_data.state_table.length)
      else none
    match state_bits with
    | none => none
    | some sb =>
      (fsm_recode_loop encoding sb fsm_data.reset_state fsm_data.state_table 0
        (if fsm_data.reset_state ≥ 0 then 1 else 0)).map
        (fun table => { fsm_data with state_bits := sb, state_table := table })

/-- The index of state `i` as the claim words it, for the reset state `r`: zero
for the reset state, and for another state one more than the number of states
before it in the table that are not the reset state. -/
def state_index (r i : Nat) : Nat :=
  if i = r then 0 else ((List.range i).filter (fun j => decide (j ≠ r))).length + 1

/-- The one-hot code of `n` bits for the index `k`: bit `k` is `S1`, every
other bit is `Sa`. -/
def one_hot_code (n k : Nat) : Const :=
  ⟨(List.range n).map (fun j => if j = k then State.S1 else State.Sa), ""⟩

/-- The binary code of `n` bits for the index `k`, low bit first. -/
def binary_code (n k : Nat) : Const :=
  ⟨(List.range n).map (fun j => if Nat.testBit k j then State.S1 else State.S0), ""⟩

/-- A table of four states with the reset state at index 2. -/
def exFsm : FsmData :=
  { state_bits := 2, reset_state := 2,
    state_table := [Const.ofInt 0 2, Const.ofInt 1 2, Const.ofInt 2 2, Const.ofInt 3 2] }

/-! ### The fail marker of `techmap` (`passes/techmap/techmap.cc`) -/

/-- The two tests of the loop of `techmap_fail_check` on the key `name` of a
wire: the name is `\TECHMAP_FAIL`, or it has more than 13 characters, begins
with a backslash and its last 13 characters are `.TECHMAP_FAIL`. -/
def techmap_fail_name (name : String) : Bool :=
  if name = "\\TECHMAP_FAIL" then true
  else if name.length > 13 ∧ name.data.head? = some '\\' ∧
      name.data.drop (name.length - 13) = ".TECHMAP_FAIL".data then true
  else false

/-- The loop of `techmap_fail_check` over the wires of the module. -/
def techmap_fail_loop : List (String × Wire) → Bool
  | [] => false
  | it :: rest => if techmap_fail_name it.1 then true else techmap_fail_loop rest

/-- The function `techmap_fail_check`: the module is `none` for `NULL`, the
cache `techmap_fail_cache` is a list of pairs with the newest entry first, and
the result is the value returned with the cache afterwards. -/
def techmap_fail_check (techmap_fail_cache : List (Module × Bool)) :
    Option Module → Bool × List (Module × Bool)
  | none => (false, techmap_fail_cache)
  | some module =>
    match techmap_fail_cache.lookup module with
    | some b => (b, techmap_fail_cache)
    | none =>
      let b := techmap_fail_loop module.wires
      (b, (module, b) :: techmap_fail_cache)

/-- A template whose only wire has a name that ends in `.TECHMAP_FAIL` and
begins with a dollar sign. -/
def exFailDollar : Module :=
  { name := "\\tpl",
    wires := [("$x.TECHMAP_FAIL",
      { id := 1, name := "$x.TECHMAP_FAIL", width := 1, auto_width := false })] }

/-- A template with a wire `\sub.TECHMAP_FAIL`. -/
def exFailSub : Module :=
  { name := "\\tpl",
    wires := [("\\a", { id := 1, name := "\\a", width := 1, auto_width := false }),
      ("\\sub.TECHMAP_FAIL",
        { id := 2, name := "\\sub.TECHMAP_FAIL", width := 1, auto_width := false })] }
/-! ### Formatting of numbers, maps with string keys -/

/-- The character of the decimal digit `d`. -/
def dec_digit (d : Nat) : Char := Char.ofNat (48 + d)

/-- The decimal digits of `n`, high digit first, by at most `fuel` divisions. -/
def dec_digits : Nat → Nat → List Char
  | 0, _ => []
  | fuel + 1, n =>
    if n < 10 then [dec_digit n] else dec_digits fuel (n / 10) ++ [dec_digit (n % 10)]

/-- The text that the format `%d` gives for a number that is not negative. -/
def format_d (n : Nat) : List Char := dec_digits (n + 1) n

/-- The text that the format `%05d` gives for a number that is not negative:
the digits, padded on the left with zeros to five characters. -/
def format_05d (n : Nat) : List Char :=
  List.replicate (5 - (format_d n).length) '0' ++ format_d n

/-- The number that a text of decimal digits stands for. -/
def dec_value (cs : List Char) : Nat :=
  cs.foldl (fun a c => 10 * a + (c.toNat - 48)) 0

/-- The assignment `m[k] = v` on a `std::map` with string keys, kept in the
order of the keys. -/
def map_set {β : Type} (k : String) (v : β) : List (String × β) → List (String × β)
  | [] => [(k, v)]
  | kv :: rest =>
    if k = kv.1 then (k, v) :: rest
    else if string_lt k kv.1 then (k, v) :: kv :: rest
    else kv :: map_set k v rest

/-- The call `m.erase(k)` on a `std::map` with string keys. -/
def map_erase {β : Type} (k : String) : List (String × β) → List (String × β)
  | [] => []
  | kv :: rest => if k = kv.1 then rest else kv :: map_erase k rest

/-- The call `m.count(k)` on a `std::map` with string keys. -/
def map_count {β : Type} (k : String) (m : List (String × β)) : Nat :=
  if (m.lookup k).isSome then 1 else 0

/-- The call `s.insert(x)` on a `std::set` of strings. -/
def set_insert (x : String) (s : List String) : List String :=
  if x ∈ s then s else x :: s

/-! ### Names of the EDIF backend (`backends/edif/edif.cc`) -/

/-- The members of `EdifNames`.  The counter is an `int` in the source; it
grows by one for every name tried, so it stays below `2 ^ 31` as long as the
sets hold fewer names than that. -/
structure EdifNames where
  counter : Nat
  generated_names : List String
  used_names : List String
  name_map : List (String × String)
deriving DecidableEq, Repr

/-- The constructor `EdifNames()`. -/
def EdifNames.init : EdifNames :=
  { counter := 1, generated_names := [], used_names := [], name_map := [] }

/-- The loop over the characters of `id` in `operator()`, from index `i` on
with the characters `cs` left: true when the loop runs to its end, false for
`goto do_rename`. -/
def edif_check_loop (size : Nat) : List Char → Nat → Bool
  | [], _ => true
  | c :: cs, i =>
    if 'A' ≤ c ∧ c ≤ 'Z' then edif_check_loop size cs (i + 1)
    else if 'a' ≤ c ∧ c ≤ 'z' then edif_check_loop size cs (i + 1)
    else if '0' ≤ c ∧ c ≤ '9' ∧ i > 0 then edif_check_loop size cs (i + 1)
    else if c = '_' ∧ i > 0 ∧ i ≠ size - 1 then edif_check_loop size cs (i + 1)
    else false

/-- The name `stringf("id%05d", counter)`. -/
def edif_gen_name (counter : Nat) : String := ⟨'i' :: 'd' :: format_05d counter⟩

/-- The loop `while (1)` of `do_rename`, for at most `fuel` rounds: the name
found and the counter afterwards. -/
def edif_gen_loop (generated_names used_names : List String) : Nat → Nat → Option (String × Nat)
  | 0, _ => none
  | fuel + 1, counter =>
    let gen_name := edif_gen_name counter
    if gen_name ∉ generated_names ∧ gen_name ∉ used_names then some (gen_name, counter + 1)
    else edif_gen_loop generated_names used_names fuel (counter + 1)

/-- The part of `operator()` from the label `do_rename` on.  The loop gets one
round more than there are names in the two sets. -/
def EdifNames.do_rename (st : EdifNames) (id : String) : Option (String × EdifNames) :=
  match edif_gen_loop st.generated_names st.used_names
      (st.generated_names.length + st.used_names.length + 1) st.counter with
  | none => none
  | some (gen_name, counter) =>
    some ("(rename " ++ gen_name ++ " \"" ++ id ++ "\")",
      { counter := counter,
        generated_names := set_insert gen_name st.generated_names,
        used_names := st.used_names,
        name_map := map_set id gen_name st.name_map })

/-- The call `edif_names(id)`: the string returned and the object afterwards;
`none` is a loop that ran out of rounds. -/
def EdifNames.call (st : EdifNames) (id : String) : Option (String × EdifNames) :=
  match st.name_map.lookup id with
  | some name => some (name, st)
  | none =>
    if id ∈ st.generated_names then st.do_rename id
    else if id = "GND" ∨ id = "VCC" then st.do_rename id
    else if edif_check_loop id.length id.data 0 then
      some (id, { st with used_names := set_insert id st.used_names })
    else st.do_rename id

/-- The EDIF name that stands for `id` in the object `st`: the generated name
when `id` was renamed, and `id` itself otherwise. -/
def EdifNames.assigned (st : EdifNames) (id : String) : String :=
  match st.name_map.lookup id with
  | some name => name
  | none => id

/-- A letter. -/
def edif_letter (c : Char) : Bool := decide (('A' ≤ c ∧ c ≤ 'Z') ∨ ('a' ≤ c ∧ c ≤ 'z'))

/-- A letter, a digit or an underscore. -/
def edif_name_char (c : Char) : Bool :=
  edif_letter c || decide ('0' ≤ c ∧ c ≤ '9') || decide (c = '_')

/-- The form of a name as the claim words it: a letter, then letters, digits
and underscores, the last character not an underscore, and neither `GND` nor
`VCC`. -/
def edif_valid (s : String) : Bool :=
  match s.data with
  | [] => false
  | c :: cs =>
    edif_letter c && cs.all edif_name_char && decide (s.data.getLast? ≠ some '_') &&
      decide (s ≠ "GND") && decide (s ≠ "VCC")

/-- The state of an `EdifNames` object in which every name of the map has the
form of `edif_valid`. -/
def EdifNames.wf (st : EdifNames) : Prop :=
  ∀ kv, kv ∈ st.name_map → edif_valid kv.2 = true

/-- The calls `edif_names(id)` for the identifiers of a list, in turn: the
strings returned and the object afterwards. -/
def EdifNames.calls (st : EdifNames) : List String → Option (List String × EdifNames)
  | [] => some ([], st)
  | id :: ids =>
    match st.call id with
    | none => none
    | some (r, st1) =>
      match EdifNames.calls st1 ids with
      | none => none
      | some (rs, st2) => some (r :: rs, st2)

/-! ### The truth tables of the BLIF reader (`passes/abc/blifparse.cc`) -/

/-- The part of the state of `abc_parse_blif` that the truth tables need: the
`\LUT` parameters of the cells made so far, the newest first; whether `lutptr`
is set (it then points to the newest of them); and `lut_default_state`. -/
structure BlifState where
  luts : List Const
  lutptr : Bool
  lut_default_state : State
deriving DecidableEq, Repr

/-- The state at the start of `abc_parse_blif`. -/
def BlifState.init : BlifState := { luts := [], lutptr := false, lut_default_state := State.Sx }

/-- The block `if (lutptr)` at a line that begins with a dot: every bit `Sx` of
the table becomes `lut_default_state`. -/
def blif_close (st : BlifState) : BlifState :=
  if st.lutptr then
    { luts := match st.luts with
        | [] => []
        | lut :: rest =>
          ⟨lut.bits.map (fun bit => if bit = State.Sx then st.lut_default_state else bit),
            lut.str⟩ :: rest,
      lutptr := false,
      lut_default_state := State.Sx }
  else st

/-- The command `.names` for an `input_sig` of width `width`: a new table
`Const(Sx, 1 << width)`, to which `lutptr` points.  The width of the table is
an `int`, so this is the source for `width ≤ 30`. -/
def blif_names (width : Nat) (st : BlifState) : BlifState :=
  { luts := Const.ofState State.Sx (2 ^ width) :: st.luts,
    lutptr := true,
    lut_default_state := State.Sx }

/-- The loop over `j` of a cover line for the minterm `i`, from the character
at index `j` on: false for `goto try_next_value`. -/
def blif_match_loop (i : Nat) : List Char → Nat → Bool
  | [], _ => true
  | c1 :: rest, j =>
    if c1 ≠ '-' then
      let c2 := if (i / 2 ^ j) % 2 ≠ 0 then '1' else '0'
      if c1 ≠ c2 then false else blif_match_loop i rest (j + 1)
    else blif_match_loop i rest (j + 1)

/-- The loop over `i` of a cover line, for `n` more minterms from `i` on;
`none` is the exception of `bits.at(i)`. -/
def blif_cover_loop (input : List Char) (v : State) : Nat → Nat → List State → Option (List State)
  | 0, _, bits => some bits
  | n + 1, i, bits =>
    if blif_match_loop i input 0 then
      if i < bits.length then blif_cover_loop input v n (i + 1) (bits.set i v) else none
    else blif_cover_loop input v n (i + 1) bits

/-- A line that does not begin with a dot or a hash, given by its tokens;
`none` is `goto error` (or the exception of `bits.at`). -/
def blif_cover (tokens : List String) (st : BlifState) : Option BlifState :=
  if st.lutptr = false then none
  else
    match tokens with
    | input :: output :: _ =>
      if output ≠ "0" ∧ output ≠ "1" then none
      else if input.length > 8 then none
      else
        match st.luts with
        | [] => none
        | lut :: rest =>
          match blif_cover_loop input.data (if output = "0" then State.S0 else State.S1)
              (2 ^ input.length) 0 lut.bits with
          | none => none
          | some bits =>
            some { luts := ⟨bits, lut.str⟩ :: rest,
                   lutptr := true,
                   lut_default_state := if output = "0" then State.S1 else State.S0 }
    | _ => none

/-- The outcome of a line: a syntax error, the end of the file, or the state
for the next line. -/
inductive BlifStep where
  | error : BlifStep
  | done : BlifState → BlifStep
  | next : BlifState → BlifStep
deriving DecidableEq, Repr

/-- One round of the loop of `abc_parse_blif` for a line that is given by its
tokens (the line has one token at least).  Wires are not part of the state, so
`.inputs` and `.outputs` leave it as it is, and the width of `input_sig` in
`.names` is the number of names less one, every wire of the reader being one
bit wide; `.names` without a name is an error here. -/
def blif_line (tokens : List String) (st : BlifState) : BlifStep :=
  match tokens with
  | [] => BlifStep.error
  | cmd :: args =>
    if cmd.data.head? = some '#' then BlifStep.next st
    else if cmd.data.head? = some '.' then
      let st1 := blif_close st
      if cmd = ".model" then BlifStep.next st1
      else if cmd = ".end" then BlifStep.done st1
      else if cmd = ".inputs" ∨ cmd = ".outputs" then BlifStep.next st1
      else if cmd = ".names" then
        match args with
        | [] => BlifStep.error
        | _ :: _ => BlifStep.next (blif_names (args.length - 1) st1)
      else BlifStep.error
    else
      match blif_cover tokens st with
      | none => BlifStep.error
      | some st1 => BlifStep.next st1

/-- The loop of `abc_parse_blif` over the lines of a file; the end of the file
without `.end` is an error. -/
def blif_lines : List (List String) → BlifState → BlifStep
  | [], _ => BlifStep.error
  | tokens :: rest, st =>
    match blif_line tokens st with
    | BlifStep.next st1 => blif_lines rest st1
    | r => r

/-- A cover line as the pair of its input pattern and its output bit, written
as the tokens of the line. -/
def blif_cover_tokens (c : List Char × Bool) : List String :=
  [String.mk c.1, if c.2 then "1" else "0"]

/-- The pattern `input` matches the minterm `i` as the claim words it:
character `j` is a dash or the binary digit `j` of `i`. -/
def blif_matches (input : List Char) (i : Nat) : Prop :=
  ∀ j, j < input.length →
    input.get? j = some '-' ∨ input.get? j = some (if Nat.testBit i j then '1' else '0')

/-- The state of a bit for the output bit of a cover line. -/
def blif_out (b : Bool) : State := if b then State.S1 else State.S0

/-- The bit `i` of the table as the claim words it, for the cover lines in the
order of the file. -/
def blif_lut_bit (covers : List (List Char × Bool)) (i : Nat) : State :=
  match covers.reverse.find? (fun c => blif_match_loop i c.1 0) with
  | some c => blif_out c.2
  | none =>
    match covers.getLast? with
    | some c => blif_out (!c.2)
    | none => State.Sx

/-! ### Renaming of objects (`passes/cmds/rename.cc`, `Module::add`) -/

/-- The function `Module::count_id`. -/
def Module.count_id (m : Module) (id : String) : Nat :=
  map_count id m.wires + (if id ∈ m.memories then 1 else 0) + map_count id m.cells +
    (if id ∈ m.processes then 1 else 0)

/-- The invariant of a module that `Module::check` asserts for wires and cells,
with the keys of each map distinct: every key is the name of its object, and
no id names more than one object. -/
def Module.keys_ok (m : Module) : Prop :=
  (m.wires.map Prod.fst).Nodup ∧ (m.cells.map Prod.fst).Nodup ∧
  (∀ kv, kv ∈ m.wires → kv.2.name = kv.1) ∧ (∀ kv, kv ∈ m.cells → kv.2.name = kv.1) ∧
  ∀ id, m.count_id id ≤ 1

/-- The name `stringf("\\_%d_", counter)`. -/
def enumerate_name (counter : Nat) : String := ⟨'\\' :: '_' :: (format_d counter ++ ['_'])⟩

/-- The loop `do ... while (module->count_id(name) > 0)` for at most `fuel`
rounds: the name found and the counter afterwards.  The function `count_id` is
that of the module at this point. -/
def enumerate_fresh (count_id : String → Nat) : Nat → Nat → Option (String × Nat)
  | 0, _ => none
  | fuel + 1, counter =>
    let name := enumerate_name counter
    if count_id name > 0 then enumerate_fresh count_id fuel (counter + 1)
    else some (name, counter + 1)

/-- The loop over the wires, and likewise the loop over the cells, of
`rename -enumerate`: `get_name` and `set_name` read and write the name of an
object, `selected` is `design->selected(module, member)` by the name of the
member, `count_id` is that of the module while the loop runs, and the result is
the counter with the map `new_wires` (or `new_cells`). -/
def enumerate_loop {β : Type} (get_name : β → String) (set_name : β → String → β)
    (selected : String → Bool) (count_id : String → Nat) (fuel : Nat) :
    List (String × β) → Nat → List (String × β) → Option (Nat × List (String × β))
  | [], counter, new_map => some (counter, new_map)
  | it :: rest, counter, new_map =>
    if it.1.data.head? = some '$' ∧ selected (get_name it.2) = true then
      match enumerate_fresh count_id fuel counter with
      | none => none
      | some (name, counter1) =>
        enumerate_loop get_name set_name selected count_id fuel rest counter1
          (map_set name (set_name it.2 name) new_map)
    else
      enumerate_loop get_name set_name selected count_id fuel rest counter
        (map_set (get_name it.2) it.2 new_map)

/-- The number of ids in use in a module, plus one: more rounds than the loop
`do ... while` can take. -/
def Module.enumerate_fuel (m : Module) : Nat :=
  m.wires.length + m.memories.length + m.cells.length + m.processes.length + 1

/-- The body of the loop over the modules in `rename -enumerate` for a module
that is selected: the module afterwards; `none` is a loop `do ... while` that
ran out of rounds.  The counter is an `int` in the source and stays below
`2 ^ 31` for a module with fewer objects than that. -/
def rename_enumerate (selected : String → Bool) (module : Module) : Option Module :=
  match enumerate_loop (fun (w : Wire) => w.name) (fun w n => { w with name := n }) selected
      module.count_id module.enumerate_fuel module.wires 0 [] with
  | none => none
  | some (counter, new_wires) =>
    let module1 := { module with wires := new_wires }
    match enumerate_loop (fun (c : Cell) => c.name) (fun c n => { c with name := n }) selected
        module1.count_id module1.enumerate_fuel module1.cells counter [] with
    | none => none
    | some (_, new_cells) => some { module1 with cells := new_cells }

/-- A module with private and public names, where some names of the form
`\_N_` are taken. -/
def exEnum : Module :=
  { name := "\\top",
    wires := [("$1", { id := 1, name := "$1", width := 1, auto_width := false }),
      ("$2", { id := 2, name := "$2", width := 1, auto_width := false }),
      ("\\_0_", { id := 3, name := "\\_0_", width := 1, auto_width := false }),
      ("\\a", { id := 4, name := "\\a", width := 1, auto_width := false })],
    cells := [("$c", { name := "$c", type := "$not", parameters := [] }),
      ("\\_2_", { name := "\\_2_", type := "$not", parameters := [] })] }

/-- The relation between an entry `old` of a map before `rename -enumerate` and
the entry `new` that takes its place, as the claim words it: an object whose
key begins with a dollar sign and that is selected gets a name of the form
`\_N_` and is stored under it, every other entry stays as it is. -/
def enumerate_rel {β : Type} (get_name : β → String) (set_name : β → String → β)
    (selected : String → Bool) (old new : String × β) : Prop :=
  if old.1.data.head? = some '$' ∧ selected (get_name old.2) = true then
    ∃ N, new.1 = enumerate_name N ∧ new.2 = set_name old.2 new.1
  else new = old

/-! ### Removal of flip-flops (`passes/opt/opt_rmdff.cc`) -/

/-- The function `SigSpec::is_fully_const`. -/
def SigSpec.is_fully_const (s : SigSpec) : Bool :=
  s.chunks.all (fun it => !(decide (it.width > 0) && it.wire.isSome))

/-- The constructor `RTLIL::SigSpec::SigSpec(const RTLIL::Const &data)`. -/
def SigSpec.ofConst (data : Const) : SigSpec := SigSpec.ofChunk (SigChunk.ofConst data)

/-- The read `cell->connections[port]`: the signal, and the cell afterwards,
in which a port that was missing is entered with the empty signal. -/
def conn_at (cell : Cell) (port : String) : SigSpec × Cell :=
  match cell.connections.lookup port with
  | some sig => (sig, cell)
  | none =>
    (SigSpec.empty, { cell with connections := map_set port SigSpec.empty cell.connections })

/-- The read `cell->parameters[name]`: the value, and the cell afterwards, in
which a parameter that was missing is entered with the empty constant. -/
def param_at (cell : Cell) (name : String) : Const × Cell :=
  match cell.parameters.lookup name with
  | some val => (val, cell)
  | none => (Const.empty, { cell with parameters := map_set name Const.empty cell.parameters })

/-- The values that the first part of `handle_dff` sets and that are read
later. -/
structure DffSignals where
  sig_d : SigSpec
  sig_q : SigSpec
  sig_c : SigSpec
  sig_r : SigSpec
  val_rv : Const
  dff : Cell
deriving DecidableEq, Repr

/-- The chain of tests on `dff->type` at the start of `handle_dff`, with the
reads of the connections and parameters in the order of the source; `none` is
`log_abort()`, or the exception of `substr(9)` for a type of fewer than nine
characters.  The values `val_cp` and `val_rp` are never read, so only the
entries that `parameters[...]` makes are kept of them. -/
def handle_dff_signals (dff : Cell) : Option DffSignals :=
  if dff.type = "$_DFF_N_" ∨ dff.type = "$_DFF_P_" then
    let d := conn_at dff "\\D"
    let q := conn_at d.2 "\\Q"
    let c := conn_at q.2 "\\C"
    some ⟨d.1, q.1, c.1, SigSpec.empty, Const.empty, c.2⟩
  else if dff.type.data.take 6 = "$_DFF_".data ∧ dff.type.length < 9 then none
  else if dff.type.data.take 6 = "$_DFF_".data ∧ dff.type.data.drop 9 = "_".data ∧
      (dff.type.data.get? 6 = some 'N' ∨ dff.type.data.get? 6 = some 'P') ∧
      (dff.type.data.get? 7 = some 'N' ∨ dff.type.data.get? 7 = some 'P') ∧
      (dff.type.data.get? 8 = some '0' ∨ dff.type.data.get? 8 = some '1') then
    let d := conn_at dff "\\D"
    let q := conn_at d.2 "\\Q"
    let c := conn_at q.2 "\\C"
    let r := conn_at c.2 "\\R"
    some ⟨d.1, q.1, c.1, r.1,
      Const.ofInt (if dff.type.data.get? 8 = some '1' then 1 else 0) 1, r.2⟩
  else if dff.type = "$dff" then
    let d := conn_at dff "\\D"
    let q := conn_at d.2 "\\Q"
    let c := conn_at q.2 "\\CLK"
    let p := param_at c.2 "\\CLK_POLARITY"
    some ⟨d.1, q.1, c.1, SigSpec.empty, Const.empty, p.2⟩
  else if dff.type = "$adff" then
    let d := conn_at dff "\\D"
    let q := conn_at d.2 "\\Q"
    let c := conn_at q.2 "\\CLK"
    let r := conn_at c.2 "\\ARST"
    let p1 := param_at r.2 "\\CLK_POLARITY"
    let p2 := param_at p1.2 "\\ARST_POLARITY"
    let v := param_at p2.2 "\\ARST_VALUE"
    some ⟨d.1, q.1, c.1, r.1, v.1, v.2⟩
  else none

/-- The loop over the multiplexers that drive `sig_d`: the connection to make
when one of the two tests holds for a multiplexer (`goto delete_dff`), and
`none` inside when the loop runs to its end; `none` outside is the exception of
`connections.at` for a port that is missing. -/
def handle_dff_muxes (assign_map : SigSpec → SigSpec) (sig_q : SigSpec) :
    List Cell → Option (Option (SigSpec × SigSpec))
  | [] => some none
  | mux :: rest =>
    match mux.connections.lookup "\\A", mux.connections.lookup "\\B" with
    | some a, some b =>
      let sig_a := assign_map a
      let sig_b := assign_map b
      if sig_a.eq sig_q ∧ sig_b.is_fully_const then some (some (sig_q, sig_b))
      else if sig_b.eq sig_q ∧ sig_a.is_fully_const then some (some (sig_q, sig_a))
      else handle_dff_muxes assign_map sig_q rest
    | _, _ => none

/-- The part of `handle_dff` from the label `delete_dff` on, after the
connections `conns` were appended: the cell is erased by its name. -/
def handle_dff_delete (mod : Module) (dff : Cell) (conns : List (SigSpec × SigSpec)) :
    Bool × Module :=
  (true,
    { mod with
      connections := mod.connections ++ conns
      cells := map_erase dff.name mod.cells })

/-- The function `handle_dff`: the value returned and the module afterwards;
`none` is `log_abort()` or an exception.  The map `assign_map` and the two
calls `mux_drivers.has` and `mux_drivers.find` (of `kernel/sigtools.h`) are
parameters; `mux_find` lists the cells in the order of the set.  When the
function returns false, the cell stays in the module with the entries that the
reads of its connections and parameters made. -/
def handle_dff (assign_map : SigSpec → SigSpec) (mux_has : SigSpec → Bool)
    (mux_find : SigSpec → List Cell) (mod : Module) (dff : Cell) : Option (Bool × Module) :=
  match handle_dff_signals dff with
  | none => none
  | some s =>
    let sig_d := assign_map s.sig_d
    let sig_q := assign_map s.sig_q
    let sig_r := assign_map s.sig_r
    let muxes : Option (Option (SigSpec × SigSpec)) :=
      if dff.type = "$dff" ∧ mux_has sig_d = true then
        handle_dff_muxes assign_map sig_q (mux_find sig_d)
      else some none
    match muxes with
    | none => none
    | some (some conn) => some (handle_dff_delete mod dff [conn])
    | some none =>
      if sig_d.is_fully_const = true ∧ sig_r.width = 0 then
        some (handle_dff_delete mod dff [(sig_q, sig_d)])
      else if sig_d.eq sig_q = true then
        if sig_r.width > 0 then
          some (handle_dff_delete mod dff [(sig_q, SigSpec.ofConst s.val_rv)])
        else some (handle_dff_delete mod dff [])
      else some (false, { mod with cells := map_set dff.name s.dff mod.cells })

/-- A wire `q` of one bit and a wire `r` of one bit. -/
def exQ : Wire := { id := 10, name := "\\q", width := 1, auto_width := false }

/-- The reset wire of the examples. -/
def exR : Wire := { id := 11, name := "\\r", width := 1, auto_width := false }

/-- A cell `$_DFF_P_` whose `D` and `Q` are the wire `q`. -/
def exDff : Cell :=
  { name := "$ff", type := "$_DFF_P_", parameters := [],
    connections := [("\\C", SigSpec.ofChunk (SigChunk.ofWire exR 1 0)),
      ("\\D", SigSpec.ofChunk (SigChunk.ofWire exQ 1 0)),
      ("\\Q", SigSpec.ofChunk (SigChunk.ofWire exQ 1 0))] }

/-- A cell `$_DFF_PN1_` whose `D` and `Q` are the wire `q`, with the reset `r`. -/
def exDffR : Cell :=
  { name := "$ff", type := "$_DFF_PN1_", parameters := [],
    connections := [("\\C", SigSpec.ofChunk (SigChunk.ofWire exR 1 0)),
      ("\\D", SigSpec.ofChunk (SigChunk.ofWire exQ 1 0)),
      ("\\Q", SigSpec.ofChunk (SigChunk.ofWire exQ 1 0)),
      ("\\R", SigSpec.ofChunk (SigChunk.ofWire exR 1 0))] }

/-- A module that holds one flip-flop under the name `$ff`. -/
def exDffMod (dff : Cell) : Module :=
  { name := "\\top",
    wires := [("\\q", exQ), ("\\r", exR)],
    cells := [("$ff", dff)] }

/-! ### Comparison of signals and cells (`kernel/rtlil.cc`, `passes/opt/opt_share.cc`) -/

/-- The function `RTLIL::SigChunk::operator <`. -/
def SigChunk.lt (a b : SigChunk) : Bool :=
  if a.wire.isSome ∧ b.wire.isSome ∧ wire_name a.wire ≠ wire_name b.wire then
    string_lt (wire_name a.wire) (wire_name b.wire)
  else if a.wire ≠ b.wire then decide (wire_ptr a.wire < wire_ptr b.wire)
  else if a.offset ≠ b.offset then decide (a.offset < b.offset)
  else if a.width ≠ b.width then decide (a.width < b.width)
  else if a.data.bits ≠ b.data.bits then bits_lt a.data.bits b.data.bits
  else false

/-- The final loop of `RTLIL::SigSpec::operator <` over two chunk vectors of
equal size. -/
def chunks_lt : List SigChunk → List SigChunk → Bool
  | a :: as, b :: bs => if a.ne b then a.lt b else chunks_lt as bs
  | _, _ => false

/-- The function `RTLIL::SigSpec::operator <`. -/
def SigSpec.lt (a b : SigSpec) : Bool :=
  if a.width ≠ b.width then decide (a.width < b.width)
  else if a.optimize.chunks.length ≠ b.optimize.chunks.length then
    decide (a.optimize.chunks.length < b.optimize.chunks.length)
  else chunks_lt a.optimize.chunks b.optimize.chunks

/-- The character that `Const::as_string` writes for a state. -/
def State.as_char : State → Char
  | State.S0 => '0'
  | State.S1 => '1'
  | State.Sx => 'x'
  | State.Sz => 'z'
  | State.Sa => '-'
  | State.Sm => 'm'

/-- The function `RTLIL::Const::as_string`: the bits, the highest first. -/
def Const.as_string (c : Const) : String := ⟨c.bits.reverse.map State.as_char⟩

/-- The function `RTLIL::Const::operator ==`. -/
def Const.eq (a b : Const) : Bool := decide (a.bits = b.bits)

/-- The loop of `RTLIL::Const::operator <` over two vectors of equal size. -/
def const_lt_loop : List State → List State → Bool
  | a :: as, b :: bs => if a ≠ b then decide (a.toNat < b.toNat) else const_lt_loop as bs
  | _, _ => false

/-- The function `RTLIL::Const::operator <`. -/
def Const.lt (a b : Const) : Bool :=
  if a.bits.length ≠ b.bits.length then decide (a.bits.length < b.bits.length)
  else const_lt_loop a.bits b.bits

/-- The comparison `m1 == m2` of two `std::map` with string keys, for the
comparison `eqv` of the values. -/
def map_eq {β : Type} (eqv : β → β → Bool) : List (String × β) → List (String × β) → Bool
  | [], [] => true
  | a :: as, b :: bs => decide (a.1 = b.1) && eqv a.2 b.2 && map_eq eqv as bs
  | _, _ => false

/-- The comparison `a < b` of two `std::pair` of a string and a value. -/
def pair_lt {β : Type} (ltv : β → β → Bool) (a b : String × β) : Bool :=
  string_lt a.1 b.1 || (!string_lt b.1 a.1 && ltv a.2 b.2)

/-- The comparison `m1 < m2` of two `std::map` with string keys, which is
`std::lexicographical_compare` on the entries. -/
def map_lt {β : Type} (ltv : β → β → Bool) : List (String × β) → List (String × β) → Bool
  | _, [] => false
  | [], _ :: _ => true
  | a :: as, b :: bs =>
    if pair_lt ltv a b then true
    else if pair_lt ltv b a then false
    else map_lt ltv as bs

/-- The loop of `int_to_hash_string` for at most `fuel` rounds. -/
def hash_digits : Nat → Nat → List Char
  | 0, _ => []
  | fuel + 1, v => if v > 0 then Char.ofNat (97 + v % 16) :: hash_digits fuel (v / 16) else []

/-- The function `OptShareWorker::int_to_hash_string`. -/
def int_to_hash_string (v : Nat) : String :=
  if v = 0 then "0" else ⟨hash_digits v v⟩

/-- The text that the loop over `sig.chunks` adds to `hash_string`. -/
def hash_chunks : List SigChunk → String
  | [] => ""
  | chunk :: rest =>
    (match chunk.wire with
     | some w =>
       "\x7b" ++ w.name ++ " " ++ int_to_hash_string chunk.offset ++ " " ++
         int_to_hash_string chunk.width ++ "\x7d"
     | none => chunk.data.as_string) ++ hash_chunks rest

/-- The cell types for which the inputs `\A` and `\B` are put in order. -/
def opt_share_commutative (type : String) : Bool :=
  decide (type = "$and" ∨ type = "$or" ∨ type = "$xor" ∨ type = "$xnor" ∨ type = "$add" ∨
    type = "$mul" ∨ type = "$logic_and" ∨ type = "$logic_or" ∨ type = "$_AND_" ∨
    type = "$_OR_" ∨ type = "$_XOR_")

/-- The text `hash_string` of `hash_cell_parameters_and_connections` before it
is hashed; `none` is the exception of `at` for a port that is missing, or a
read past the end in `sort_and_unify`.  The map `assign_map` of
`kernel/sigtools.h` is a parameter. -/
def hash_cell_text (assign_map : SigSpec → SigSpec) (ct : CellTypes) (cell : Cell) :
    Option String :=
  let hash_string := cell.parameters.foldl
    (fun acc it => acc ++ "P " ++ it.1 ++ "=" ++ it.2.as_string ++ "\n") (cell.type ++ "\n")
  let conn : Option (List (String × SigSpec)) :=
    if opt_share_commutative cell.type then
      match cell.connections.lookup "\\A", cell.connections.lookup "\\B" with
      | some a, some b =>
        if (assign_map a).lt (assign_map b) then
          some (map_set "\\B" a (map_set "\\A" b cell.connections))
        else some cell.connections
      | _, _ => none
    else if cell.type = "$reduce_xor" ∨ cell.type = "$reduce_xnor" then
      match cell.connections.lookup "\\A" with
      | some a => some (map_set "\\A" (assign_map a).sort cell.connections)
      | none => none
    else if cell.type = "$reduce_and" ∨ cell.type = "$reduce_or" ∨
        cell.type = "$reduce_bool" then
      match cell.connections.lookup "\\A" with
      | some a =>
        (match (assign_map a).sort_and_unify with
         | some s => some (map_set "\\A" s cell.connections)
         | none => none)
      | none => none
    else some cell.connections
  match conn with
  | none => none
  | some conn =>
    some (conn.foldl
      (fun acc it =>
        if ct.cell_output cell.type it.1 then acc
        else acc ++ "C " ++ it.1 ++ "=" ++ hash_chunks (assign_map it.2).chunks ++ "\n")
      hash_string)

/-- The function `OptShareWorker::hash_cell_parameters_and_connections`: the
hash and the cache `cell_hash_cache` afterwards, a list of pairs with the
newest entry first.  The hash function of `libs/sha1` is the parameter `sha1`. -/
def hash_cell_parameters_and_connections (sha1 : String → String)
    (assign_map : SigSpec → SigSpec) (ct : CellTypes) (cell_hash_cache : List (Cell × String))
    (cell : Cell) : Option (String × List (Cell × String)) :=
  match cell_hash_cache.lookup cell with
  | some hash => some (hash, cell_hash_cache)
  | none =>
    match hash_cell_text assign_map ct cell with
    | none => none
    | some hash_string => some (sha1 hash_string, (cell, sha1 hash_string) :: cell_hash_cache)

/-- The two loops of `compare_cell_parameters_and_connections` over `conn1`
and `conn2`: an output becomes the empty signal, every other signal is mapped. -/
def compare_conn_map (assign_map : SigSpec → SigSpec) (ct : CellTypes) (type : String)
    (conn : List (String × SigSpec)) : List (String × SigSpec) :=
  conn.map (fun it => (it.1, if ct.cell_output type it.1 then SigSpec.empty else assign_map it.2))

/-- The step of `compare_cell_parameters_and_connections` that puts `conn1`
(and likewise `conn2`) in order for the type of `cell1`; `none` is the
exception of `at`, or a read past the end in `sort_and_unify`. -/
def compare_conn_order (type : String) (conn : List (String × SigSpec)) :
    Option (List (String × SigSpec)) :=
  if opt_share_commutative type then
    match conn.lookup "\\A", conn.lookup "\\B" with
    | some a, some b => if a.lt b then some (map_set "\\B" a (map_set "\\A" b conn)) else some conn
    | _, _ => none
  else if type = "$reduce_xor" ∨ type = "$reduce_xnor" then
    some (map_set "\\A" ((conn.lookup "\\A").getD SigSpec.empty).sort conn)
  else if type = "$reduce_and" ∨ type = "$reduce_or" ∨ type = "$reduce_bool" then
    match ((conn.lookup "\\A").getD SigSpec.empty).sort_and_unify with
    | some s => some (map_set "\\A" s conn)
    | none => none
  else some conn

/-- The function `OptShareWorker::compare_cell_parameters_and_connections`:
the value of `lt` when it returns true and `none` when it returns false, with
the cache afterwards. -/
def compare_cell_parameters_and_connections (sha1 : String → String)
    (assign_map : SigSpec → SigSpec) (ct : CellTypes) (cell_hash_cache : List (Cell × String))
    (cell1 cell2 : Cell) : Option (Option Bool × List (Cell × String)) :=
  match hash_cell_parameters_and_connections sha1 assign_map ct cell_hash_cache cell1 with
  | none => none
  | some (hash1, cache1) =>
    match hash_cell_parameters_and_connections sha1 assign_map ct cache1 cell2 with
    | none => none
    | some (hash2, cache2) =>
      if hash1 ≠ hash2 then some (some (string_lt hash1 hash2), cache2)
      else if map_eq Const.eq cell1.parameters cell2.parameters = false then
        some (some (map_lt Const.lt cell1.parameters cell2.parameters), cache2)
      else
        match compare_conn_order cell1.type
            (compare_conn_map assign_map ct cell1.type cell1.connections),
          compare_conn_order cell1.type
            (compare_conn_map assign_map ct cell2.type cell2.connections) with
        | some conn1, some conn2 =>
          if map_eq SigSpec.eq conn1 conn2 = false then
            some (some (map_lt SigSpec.lt conn1 conn2), cache2)
          else some (none, cache2)
        | _, _ => none

/-- The function `OptShareWorker::compare_cells`, with the cache afterwards.
The order of the addresses of the cells is the parameter `cell_ptr`. -/
def compare_cells (sha1 : String → String) (assign_map : SigSpec → SigSpec)
    (cell_ptr : Cell → Nat) (ct : CellTypes) (cell_hash_cache : List (Cell × String))
    (cell1 cell2 : Cell) : Option (Bool × List (Cell × String)) :=
  if cell1.type ≠ cell2.type then some (string_lt cell1.type cell2.type, cell_hash_cache)
  else if ct.cell_known cell1.type = false then
    some (decide (cell_ptr cell1 < cell_ptr cell2), cell_hash_cache)
  else
    match compare_cell_parameters_and_connections sha1 assign_map ct cell_hash_cache
        cell1 cell2 with
    | none => none
    | some (some lt, cache) => some (lt, cache)
    | some (none, cache) => some (false, cache)

/-- The catalog `ct` of an `OptShareWorker` after its constructor, without
`-nomux`. -/
def opt_share_ct : CellTypes :=
  CellTypes.empty.setup_internals.setup_internals_mem.setup_stdcells.setup_stdcells_mem

/-- Wires of a signal in `cs` and of a signal in `ds` that hold the same
address are the same wire. -/
def wires_by_id2 (cs ds : List SigChunk) : Prop :=
  ∀ c, c ∈ cs → ∀ d, d ∈ ds → ∀ w v, c.wire = some w → d.wire = some v → w.id = v.id → w = v

/-- The cache holds for a cell the hash of its text. -/
def cache_coherent (sha1 : String → String) (assign_map : SigSpec → SigSpec) (ct : CellTypes)
    (cache : List (Cell × String)) : Prop :=
  ∀ cell hash, cache.lookup cell = some hash →
    ∃ text, hash_cell_text assign_map ct cell = some text ∧ hash = sha1 text

/-- The gate `$_AND_` with the inputs `a`, `b` and the output `y`. -/
def exAnd (name : String) (a b y : Wire) : Cell :=
  { name := name, type := "$_AND_", parameters := [],
    connections := [("\\A", SigSpec.ofChunk (SigChunk.ofWire a 1 0)),
      ("\\B", SigSpec.ofChunk (SigChunk.ofWire b 1 0)),
      ("\\Y", SigSpec.ofChunk (SigChunk.ofWire y 1 0))] }

/-- The text `hash_string` for a cell of a commutative type with the ports
`\A`, `\B` and an output, when the mapped signals `u` and `v` are entered for
`\A` and `\B`. -/
def comm_hash_text (type : String) (parameters : List (String × Const)) (u v : SigSpec) :
    String :=
  parameters.foldl (fun acc it => acc ++ "P " ++ it.1 ++ "=" ++ it.2.as_string ++ "\n")
      (type ++ "\n") ++ "C " ++ "\\A" ++ "=" ++ hash_chunks u.chunks ++ "\n" ++
    "C " ++ "\\B" ++ "=" ++ hash_chunks v.chunks ++ "\n"

/-! ### The topological root of `freduce` (`passes/sat/freduce.cc`) -/

/-- The loop over `pattern.chunks` of `RTLIL::SigSpec::extract(pattern, NULL)`
for the chunk `ch1` at bit position `pos`; `none` is the failed assertion
`ch2.wire != NULL`. -/
def extract_pattern_inner (s : SigSpec) (ch1 : SigChunk) (pos : Nat) :
    List SigChunk → SigSpec → Option SigSpec
  | [], ret => some ret
  | ch2 :: rest, ret =>
    if ch2.wire = none then none
    else if ch1.wire = ch2.wire then
      let lower := max ch1.offset ch2.offset
      let upper := min (ch1.offset + ch1.width) (ch2.offset + ch2.width)
      if lower < upper then
        extract_pattern_inner s ch1 pos rest
          (ret.append (s.extract (pos + lower - ch1.offset) (upper - lower)))
      else extract_pattern_inner s ch1 pos rest ret
    else extract_pattern_inner s ch1 pos rest ret

/-- The loop over the chunks of the receiver in `extract(pattern, NULL)`. -/
def extract_pattern_loop (s : SigSpec) (pattern : List SigChunk) :
    List SigChunk → Nat → SigSpec → Option SigSpec
  | [], _, ret => some ret
  | ch1 :: rest, pos, ret =>
    if ch1.wire ≠ none then
      match extract_pattern_inner s ch1 pos pattern ret with
      | none => none
      | some ret1 => extract_pattern_loop s pattern rest (pos + ch1.width) ret1
    else extract_pattern_loop s pattern rest (pos + ch1.width) ret

/-- The function `RTLIL::SigSpec::extract(RTLIL::SigSpec pattern, NULL)`;
`none` is a failed assertion, or the read past the end of `sort_and_unify`. -/
def SigSpec.extract_pattern (s pattern : SigSpec) : Option SigSpec :=
  match pattern.sort_and_unify with
  | none => none
  | some p => extract_pattern_loop s p.chunks s.chunks 0 SigSpec.empty

/-- The loop `for (auto &it : next)` of `toproot_helper`, where `rec it
donelist` is the call `toproot_helper(it, stoplist, donelist, level+1)`: the
value false as soon as a call returns false, with `donelist` at that point. -/
def toproot_next (rec : SigSpec → SigSpec → Option (Bool × SigSpec)) :
    List SigSpec → SigSpec → Option (Bool × SigSpec)
  | [], donelist => some (true, donelist)
  | it :: rest, donelist =>
    match rec it donelist with
    | none => none
    | some (false, donelist1) => some (false, donelist1)
    | some (true, donelist1) => toproot_next rec rest donelist1

/-- The function `FreduceHelper::toproot_helper` with at most `fuel` nested
calls: the value returned and `donelist` afterwards; `none` when the calls nest
deeper, or when an assertion fails.  The call `source_signals.find(cursor)` of
`kernel/sigtools.h` is the parameter `source_find`, which lists the set in its
order. -/
def toproot_helper (source_find : SigSpec → List SigSpec) :
    Nat → SigSpec → SigSpec → SigSpec → Option (Bool × SigSpec)
  | 0, _, _, _ => none
  | fuel + 1, cursor, stoplist, donelist =>
    match stoplist.extract_pattern cursor with
    | none => none
    | some e1 =>
      if e1.width ≠ 0 then some (false, donelist)
      else
        match donelist.extract_pattern cursor with
        | none => none
        | some e2 =>
          if e2.width ≠ 0 then some (true, donelist)
          else
            match toproot_next
                (fun it d => toproot_helper source_find fuel it (stoplist.append cursor) d)
                (source_find cursor) donelist with
            | none => none
            | some (false, donelist1) => some (false, donelist1)
            | some (true, donelist1) => some (true, donelist1.append cursor)

/-- The loop over `sig.chunks` of `toproot`, for the chunks that are left. -/
def toproot_loop (source_find : SigSpec → List SigSpec) (fuel : Nat) (sig : SigSpec) :
    List SigChunk → Option SigSpec
  | [] => some SigSpec.empty
  | c :: rest =>
    match sig.remove_pattern (SigSpec.ofChunk c) with
    | none => none
    | some stoplist =>
      match toproot_helper source_find fuel (SigSpec.ofChunk c) stoplist SigSpec.empty with
      | none => none
      | some (true, _) => some (SigSpec.ofChunk c)
      | some (false, _) => toproot_loop source_find fuel sig rest

/-- The function `FreduceHelper::toproot`, with at most `fuel` nested calls of
`toproot_helper`. -/
def toproot (source_find : SigSpec → List SigSpec) (fuel : Nat) (sig : SigSpec) :
    Option SigSpec :=
  toproot_loop source_find fuel sig.expand sig.expand.chunks

/-- The signal of the single bit `offset` of a wire. -/
def bit_sig (wire : Wire) (offset : Nat) : SigSpec :=
  SigSpec.ofChunk (SigChunk.ofWire wire 1 offset)

/-- A step of the fan-in relation: `b` is a source of `a`. -/
def source_step (source_find : SigSpec → List SigSpec) (a b : SigSpec) : Prop :=
  b ∈ source_find a

/-- A fan-in relation on the bits of the wire `w`: bit 3 has the sources 2 and
1, bit 2 has the source 1, bit 1 has the source 0. -/
def exFind (s : SigSpec) : List SigSpec :=
  if s = bit_sig exW 3 then [bit_sig exW 1, bit_sig exW 2]
  else if s = bit_sig exW 2 then [bit_sig exW 1]
  else if s = bit_sig exW 1 then [bit_sig exW 0]
  else []

/-- The fan-in relation `exFind` with a loop from bit 0 back to bit 3. -/
def exFindLoop (s : SigSpec) : List SigSpec :=
  if s = bit_sig exW 0 then [bit_sig exW 3] else exFind s

/-- The rank of a bit in `exFind`: the number of the bit. -/
def exRank (s : SigSpec) : Nat :=
  match s.chunks with
  | c :: _ => c.offset
  | [] => 0

/-- What the proof keeps about `donelist`, for the bits `B` that stop the
search: no bit of `donelist` is in `B`, and every source of a bit of `donelist`
is a bit of `donelist`. -/
def done_closed (source_find : SigSpec → List SigSpec) (B : List SigChunk) (D : SigSpec) :
    Prop :=
  ∀ d, d ∈ D.bits → d ∉ B ∧
    ∀ n, n ∈ source_find (SigSpec.ofChunk d) → ∃ nb, nb ∈ D.bits ∧ n = SigSpec.ofChunk nb


/-! ### Names of mapped objects (`passes/techmap/techmap.cc`) -/

/-- The function `apply_prefix(prefix, id)` on names: an id that starts with a
backslash becomes `prefix + "." + id.substr(1)`, every other id becomes
`"$techmap" + prefix + "." + id`.  The character `id[0]` of an empty string is
the terminating NUL, so an empty id takes the second branch. -/
def apply_prefix (pfx : String) (id : String) : String :=
  if id.data.head? = some '\\' then ⟨pfx.data ++ ".".data ++ id.data.drop 1⟩
  else ⟨"$techmap".data ++ pfx.data ++ ".".data ++ id.data⟩

/-! ### The random numbers of `freduce` (`passes/sat/freduce.cc`) -/

/-- One call of `xorshift32` on the state `x`, a word of 32 bits
(`uint32_t`): the new state, which is also the value returned.  The left
shifts drop the bits above bit 31. -/
def xorshift32 (x : Nat) : Nat :=
  let x1 := x ^^^ ((x <<< 13) % 2 ^ 32)
  let x2 := x1 ^^^ (x1 >>> 17)
  x2 ^^^ ((x2 <<< 5) % 2 ^ 32)

/-- The state of the generator after `n` calls of `xorshift32` from the state
`x`. -/
def xorshift32_steps : Nat → Nat → Nat
  | 0, x => x
  | n + 1, x => xorshift32_steps n (xorshift32 x)

/-- The value `123456789` that the constructor of `FreduceHelper` stores in
`xorshift32_state` before its three calls of `xorshift32`. -/
def xorshift32_seed : Nat := 123456789


/-! ### Distinct names of the EDIF backend -/

/-- An identifier that the object has been called with: it was passed through
(it is in `used_names`), or it has an entry in `name_map`. -/
def EdifNames.called (st : EdifNames) (id : String) : Prop :=
  id ∈ st.used_names ∨ (st.name_map.lookup id).isSome = true

/-- What holds in every state that an `EdifNames` object reaches: the names in
the map are generated names; two keys of the map do not share a name; no
generated name is a used name; a used name passes the tests of `operator()`;
and a used name has no entry in the map. -/
def EdifNames.inv (st : EdifNames) : Prop :=
  (∀ k v, st.name_map.lookup k = some v → v ∈ st.generated_names) ∧
  (∀ k1 k2 v, st.name_map.lookup k1 = some v → st.name_map.lookup k2 = some v → k1 = k2) ∧
  (∀ g, g ∈ st.generated_names → g ∉ st.used_names) ∧
  (∀ u, u ∈ st.used_names →
    u ≠ "GND" ∧ u ≠ "VCC" ∧ edif_check_loop u.length u.data 0 = true) ∧
  (∀ u, u ∈ st.used_names → st.name_map.lookup u = none)


/-! ### The constant of a signal (`RTLIL::SigSpec::as_const`) -/

/-- The function `RTLIL::SigSpec::as_const`: `none` stands for the failed
assertion `is_fully_const()`, and for the read of `chunks[0]` in an empty
vector. -/
def SigSpec.as_const (s : SigSpec) : Option Const :=
  if s.is_fully_const then
    let sig := s.optimize
    if sig.width ≠ 0 then sig.chunks.head?.map (fun c => c.data)
    else some Const.empty
  else none

/-- The signal of the two literal chunks `Const("a")`, which carries its
string, and the single bit `S1`, which carries none; low chunk first. -/
def exMixed : SigSpec :=
  { chunks := [SigChunk.ofConst (Const.ofString "a"), SigChunk.ofConst ⟨[State.S1], ""⟩],
    width := 9 }

/-- The signal of the two literal chunks `S0 S1` and `S1`, neither with a
string; low chunk first. -/
def exPlain : SigSpec :=
  { chunks := [SigChunk.ofConst ⟨[State.S0, State.S1], ""⟩, SigChunk.ofConst ⟨[State.S1], ""⟩],
    width := 3 }

/-! ### Selections (`RTLIL::Selection`) -/

/-- The members of `RTLIL::Selection`: the set `selected_modules` as a list
without repetitions, and the map `selected_members` as the list of its
entries, each with its set of member names as a list without repetitions. -/
structure Selection where
  full_selection : Bool
  selected_modules : List String
  selected_members : List (String × List String)
deriving DecidableEq, Repr

/-- The call `s.erase(x)` on a `std::set` of strings. -/
def set_erase (x : String) (s : List String) : List String :=
  s.filter (fun y => decide (y ≠ x))

/-- A loop `for (auto x : del_list) s.erase(x)` on a set. -/
def set_erase_list (del_list : List String) (s : List String) : List String :=
  del_list.foldl (fun s x => set_erase x s) s

/-- A loop `for (auto k : del_list) m.erase(k)` on a map. -/
def map_erase_list {β : Type} (del_list : List String) (m : List (String × β)) :
    List (String × β) :=
  del_list.foldl (fun m k => map_erase k m) m

/-- A loop `for (auto x : add_list) s.insert(x)` on a set. -/
def set_insert_list (add_list : List String) (s : List String) : List String :=
  add_list.foldl (fun s x => set_insert x s) s

/-- The function `RTLIL::Selection::selected_member`. -/
def Selection.selected_member (sel : Selection) (mod_name memb_name : String) : Bool :=
  if sel.full_selection then true
  else if mod_name ∈ sel.selected_modules then true
  else
    match sel.selected_members.lookup mod_name with
    | some membs => decide (memb_name ∈ membs)
    | none => false

/-- The body of the third loop of `Selection::optimize` for one entry of
`selected_members`, `m` being `design->modules[it.first]`: the member names
that `count_id` does not find are erased. -/
def optimize_entry (m : Module) (membs : List String) : List String :=
  set_erase_list (membs.filter (fun memb_name => decide (m.count_id memb_name = 0))) membs

/-- The third loop of `Selection::optimize` over the entries of
`selected_members`; `none` where `design->modules[it.first]` has no module. -/
def optimize_members (design : Design) :
    List (String × List String) → Option (List (String × List String))
  | [] => some []
  | it :: rest =>
    match design.modules.lookup it.1 with
    | none => none
    | some m =>
      (optimize_members design rest).map (fun r => (it.1, optimize_entry m it.2) :: r)

/-- The fourth loop of `Selection::optimize`: `del_list` and `add_list`;
`none` where `design->modules[it.first]` has no module. -/
def optimize_lists (design : Design) :
    List (String × List String) → Option (List String × List String)
  | [] => some ([], [])
  | it :: rest =>
    if it.2.length = 0 then (optimize_lists design rest).map (fun r => (it.1 :: r.1, r.2))
    else
      match design.modules.lookup it.1 with
      | none => none
      | some m =>
        if it.2.length =
            m.wires.length + m.memories.length + m.cells.length + m.processes.length then
          (optimize_lists design rest).map (fun r => (r.1, it.1 :: r.2))
        else optimize_lists design rest

/-- The function `RTLIL::Selection::optimize`: the selection afterwards; `none`
where a module is read that the design does not have.  The last loop erases
from `selected_members` and inserts into `selected_modules`; the two
containers are followed one after the other here. -/
def Selection.optimize (sel : Selection) (design : Design) : Option Selection :=
  if sel.full_selection then
    some { full_selection := true, selected_modules := [], selected_members := [] }
  else
    let del_list1 := sel.selected_modules.filter
      (fun mod_name => decide (map_count mod_name design.modules = 0))
    let members1 := map_erase_list sel.selected_modules sel.selected_members
    let modules1 := set_erase_list del_list1 sel.selected_modules
    let del_list2 := (members1.filter
      (fun it => decide (map_count it.1 design.modules = 0))).map Prod.fst
    let members2 := map_erase_list del_list2 members1
    match optimize_members design members2 with
    | none => none
    | some members3 =>
      match optimize_lists design members3 with
      | none => none
      | some (del_list, add_list) =>
        let members4 := map_erase_list add_list (map_erase_list del_list members3)
        let modules4 := set_insert_list add_list modules1
        if modules4.length = design.modules.length then
          some { full_selection := true, selected_modules := [], selected_members := [] }
        else
          some { full_selection := false, selected_modules := modules4,
                 selected_members := members4 }

/-- The representation of the sets and of the map of a selection: no name
occurs twice. -/
def Selection.wf (sel : Selection) : Prop :=
  sel.selected_modules.Nodup ∧ (sel.selected_members.map Prod.fst).Nodup ∧
    ∀ it, it ∈ sel.selected_members → it.2.Nodup

/-- A design of the two modules `\a` (wires `\x` and `\y`) and `\b` (wire
`\z`). -/
def exDesign : Design :=
  { modules := [("\\a", { name := "\\a", wires := [("\\x", { exW with name := "\\x" }),
        ("\\y", { exV with name := "\\y" })] }),
      ("\\b", { name := "\\b", wires := [("\\z", { exW with name := "\\z" })] })] }

/-- A selection of both wires of `\a`, of a name that `\b` does not have, and
of a module that the design does not have. -/
def exSel : Selection :=
  { full_selection := false, selected_modules := ["\\c"],
    selected_members := [("\\a", ["\\x", "\\y"]), ("\\b", ["\\q"])] }

/-- The value `design->modules[mod_name]->count_id(id)`, and zero where the
design has no module of this name. -/
def Design.count_id (design : Design) (mod_name id : String) : Nat :=
  match design.modules.lookup mod_name with
  | some m => m.count_id id
  | none => 0

/-- The number of wires, memories, cells and processes of the module
`mod_name` of the design, and zero where the design has no such module. -/
def Design.member_count (design : Design) (mod_name : String) : Nat :=
  match design.modules.lookup mod_name with
  | some m => m.wires.length + m.memories.length + m.cells.length + m.processes.length
  | none => 0

/-- What the third loop of `Selection::optimize` makes of the entries of
`selected_members`: each set keeps the names that `count_id` finds. -/
def live_members (design : Design) (members : List (String × List String)) :
    List (String × List String) :=
  members.map (fun it => (it.1, it.2.filter (fun x => decide (design.count_id it.1 x ≠ 0))))

/-- The set `selected_modules` after the first loop of `optimize`: the modules
that the design has. -/
def Selection.opt_modules1 (sel : Selection) (design : Design) : List String :=
  sel.selected_modules.filter (fun n => decide (map_count n design.modules ≠ 0))

/-- The map `selected_members` after the third loop of `optimize`: the entries
of modules that the design has and that are not in `selected_modules`, each
with the names that `count_id` finds. -/
def Selection.opt_members3 (sel : Selection) (design : Design) : List (String × List String) :=
  live_members design
    ((sel.selected_members.filter (fun kv => decide (kv.1 ∉ sel.selected_modules))).filter
      (fun kv => decide (map_count kv.1 design.modules ≠ 0)))

/-- The list `add_list` of `optimize`: the modules whose entry is not empty and
has as many names as the module has objects. -/
def Selection.opt_add (sel : Selection) (design : Design) : List String :=
  ((sel.opt_members3 design).filter
    (fun it => decide (it.2.length ≠ 0 ∧ it.2.length = design.member_count it.1))).map Prod.fst

/-- The set `selected_modules` before the last test of `optimize`. -/
def Selection.opt_modules (sel : Selection) (design : Design) : List String :=
  set_insert_list (sel.opt_add design) (sel.opt_modules1 design)

/-- The map `selected_members` before the last test of `optimize`. -/
def Selection.opt_members (sel : Selection) (design : Design) : List (String × List String) :=
  (sel.opt_members3 design).filter
    (fun it => decide (it.2.length ≠ 0 ∧ it.2.length ≠ design.member_count it.1))


/-! ### The order of signals as an order of keys -/

/-- The key by which `SigChunk::operator<` orders chunks: constants before
wires; wires by name and then by address; then the offset, the width and the
bits. -/
def chunk_key (c : SigChunk) :
    Lex (Nat × Lex (String × Lex (Nat × Lex (Nat × Lex (Nat × List Nat))))) :=
  toLex (if c.wire = none then 0 else 1,
    toLex (wire_name c.wire,
      toLex (wire_ptr c.wire,
        toLex (c.offset, toLex (c.width, c.data.bits.map State.toNat)))))

/-- The key by which `SigSpec::operator<` orders signals: the width, the
number of chunks after `optimize`, and the keys of these chunks. -/
def sig_key (s : SigSpec) :
    Lex (Nat × Lex (Nat ×
      List (Lex (Nat × Lex (String × Lex (Nat × Lex (Nat × Lex (Nat × List Nat)))))))) :=
  toLex (s.width, toLex (s.optimize.chunks.length, s.optimize.chunks.map chunk_key))

/-! ## Widths -/

theorem wsum_nil : wsum [] = 0 := rfl

theorem wsum_cons (c : SigChunk) (cs : List SigChunk) : wsum (c :: cs) = c.width + wsum cs := by
  simp [wsum]

theorem wsum_append (xs ys : List SigChunk) : wsum (xs ++ ys) = wsum xs + wsum ys := by
  simp [wsum]

theorem chunk_width_sum_eq (s : SigSpec) : s.chunk_width_sum = wsum s.chunks := rfl

theorem extract_width (c : SigChunk) (o l : Nat) : (c.extract o l).width = l := by
  unfold SigChunk.extract; cases c.wire <;> rfl

theorem append_foldl (cs : List SigChunk) (s : SigSpec) :
    cs.foldl (fun acc c => ({ chunks := acc.chunks ++ [c], width := acc.width + c.width } : SigSpec)) s
      = { chunks := s.chunks ++ cs, width := s.width + wsum cs } := by
  induction cs generalizing s with
  | nil => simp [wsum]
  | cons c cs ih => simp [ih, wsum_cons, Nat.add_assoc]

theorem append_eq (s t : SigSpec) :
    s.append t = { chunks := s.chunks ++ t.chunks, width := s.width + wsum t.chunks } := by
  unfold SigSpec.append; exact append_foldl _ _

theorem wsum_expand_chunk (c : SigChunk) :
    wsum ((List.range c.width).map (fun j => c.extract j 1)) = c.width := by
  simp [wsum, Function.comp_def, extract_width]

theorem wsum_expand (cs : List SigChunk) :
    wsum (cs.flatMap (fun c => (List.range c.width).map (fun j => c.extract j 1))) = wsum cs := by
  induction cs with
  | nil => rfl
  | cons c cs ih =>
    rw [List.flatMap_cons, wsum_append, ih, wsum_expand_chunk, wsum_cons]

theorem wsum_optimize_erase (cs : List SigChunk) : wsum (optimize_erase cs) = wsum cs := by
  induction cs with
  | nil => rfl
  | cons c cs ih =>
    unfold optimize_erase
    split_ifs with h1 h2 <;> simp [wsum_cons, ih, *]

theorem wsum_optimize_merge (cs : List SigChunk) (c : SigChunk) :
    wsum (optimize_merge c cs) = c.width + wsum cs := by
  induction cs generalizing c with
  | nil => simp [optimize_merge, wsum]
  | cons d cs ih =>
    unfold optimize_merge
    split_ifs <;> simp [wsum_cons, ih] <;> omega

theorem wsum_optimize_chunks (cs : List SigChunk) : wsum (optimize_chunks cs) = wsum cs := by
  unfold optimize_chunks
  have h := wsum_optimize_erase cs
  cases h2 : optimize_erase cs with
  | nil => rw [h2] at h; simpa using h
  | cons c r => rw [h2] at h; simp only; rw [wsum_optimize_merge]; rw [← h, wsum_cons]

theorem slice_off_len_spec (w pos offset length : Nat)
    (h : pos + w > offset ∧ pos < offset + length) :
    (slice_off_len w pos offset length).1 = ((offset : Int) - pos).toNat ∧
    (0 : Int) ≤ (slice_off_len w pos offset length).1 ∧
    (0 : Int) ≤ (slice_off_len w pos offset length).2 ∧
    (slice_off_len w pos offset length).1 + (slice_off_len w pos offset length).2 ≤ w ∧
    ((slice_off_len w pos offset length).2 : Int) =
      min ((offset : Int) + length) (pos + w) - max (offset : Int) pos := by
  unfold slice_off_len
  simp only
  split_ifs <;> omega

theorem extract_loop_ok (cs : List SigChunk) (pos offset length : Nat) (ret : SigSpec)
    (h : wsum ret.chunks = ret.width) :
    wsum (extract_loop cs pos offset length ret).chunks = (extract_loop cs pos offset length ret).width := by
  induction cs generalizing pos offset length ret with
  | nil => simpa [extract_loop] using h
  | cons c cs ih =>
    unfold extract_loop
    split_ifs with hc
    · apply ih
      simp [wsum_append, wsum_cons, wsum_nil, extract_width, h]
    · exact ih _ _ _ _ h

theorem remove_loop_ok (offset length : Nat) (cs : List SigChunk) (pos width : Nat)
    (h : wsum cs ≤ width) :
    (remove_loop offset length cs pos width).2 + wsum cs =
      width + wsum (remove_loop offset length cs pos width).1 := by
  induction cs generalizing pos width with
  | nil => simp [remove_loop, wsum]
  | cons c cs ih =>
    rw [wsum_cons] at h
    unfold remove_loop
    by_cases hc : pos + c.width > offset ∧ pos < offset + length
    · rw [if_pos hc]
      obtain ⟨e1, p1, p2, p3, _⟩ := slice_off_len_spec c.width pos offset length hc
      have ih1 := ih (pos + c.width)
        (width - (slice_off_len c.width pos offset length).2.toNat) (by omega)
      simp only [extract_width]
      split_ifs <;> simp only [wsum_cons, extract_width] <;> omega
    · rw [if_neg hc]
      have ih1 := ih (pos + c.width) width (by omega)
      simp only [wsum_cons]
      omega

theorem wsum_replace_insert (offset : Nat) (wc cs : List SigChunk) (pos : Nat) :
    wsum (replace_insert offset wc cs pos) = wsum wc + wsum cs := by
  induction cs generalizing pos with
  | nil => simp [replace_insert, wsum]
  | cons c cs ih =>
    unfold replace_insert
    split_ifs
    · simp [wsum_append, wsum_cons]
    · simp [wsum_cons, ih]; omega

theorem extract_loop_width (cs : List SigChunk) (pos offset length : Nat) (ret : SigSpec)
    (hI : pos ≤ offset ∨ length = 0) (hb : offset + length ≤ pos + wsum cs) :
    (extract_loop cs pos offset length ret).width = ret.width + length := by
  induction cs generalizing pos offset length ret with
  | nil =>
    simp only [wsum_nil] at hb
    simp only [extract_loop]; omega
  | cons c cs ih =>
    rw [wsum_cons] at hb
    unfold extract_loop
    by_cases hc : pos + c.width > offset ∧ pos < offset + length
    · rw [if_pos hc]
      obtain ⟨e1, p1, p2, p3, p4⟩ := slice_off_len_spec c.width pos offset length hc
      rw [ih _ _ _ _ (by omega) (by omega)]
      simp only; omega
    · rw [if_neg hc]
      rw [ih _ _ _ _ (by omega) (by omega)]

theorem extract_ok (s : SigSpec) (offset length : Nat) :
    wsum (s.extract offset length).chunks = (s.extract offset length).width := by
  unfold SigSpec.extract
  exact extract_loop_ok _ _ _ _ _ rfl

theorem extract_spec_width (s : SigSpec) (offset length : Nat)
    (h : offset + length ≤ wsum s.chunks) : (s.extract offset length).width = length := by
  unfold SigSpec.extract
  rw [extract_loop_width _ _ _ _ _ (by omega) (by omega)]
  simp [SigSpec.empty]

theorem remove_ok (s : SigSpec) (offset length : Nat) (h : wsum s.chunks = s.width) :
    wsum (s.remove offset length).chunks = (s.remove offset length).width := by
  unfold SigSpec.remove
  have := remove_loop_ok offset length s.chunks 0 s.width (by omega)
  simp only; omega

theorem replace_at_ok (s : SigSpec) (offset : Nat) (w : SigSpec)
    (h : wsum s.chunks = s.width) (hw : wsum w.chunks = w.width) :
    wsum (s.replace_at offset w).chunks = (s.replace_at offset w).width := by
  unfold SigSpec.replace_at
  simp only [wsum_replace_insert]
  have := remove_ok s offset w.width h
  omega

theorem optimize_ok (s : SigSpec) (h : wsum s.chunks = s.width) :
    wsum s.optimize.chunks = s.optimize.width := by
  simp [SigSpec.optimize, wsum_optimize_chunks, h]

theorem expand_ok (s : SigSpec) (h : wsum s.chunks = s.width) :
    wsum s.expand.chunks = s.expand.width := by
  simp [SigSpec.expand, wsum_expand, h]

theorem append_ok (s t : SigSpec) (h : wsum s.chunks = s.width) :
    wsum (s.append t).chunks = (s.append t).width := by
  rw [append_eq]; simp [wsum_append, h]

theorem extend_pad_eq (padding : SigSpec) (hp : wsum padding.chunks = 1) (width : Nat)
    (fuel : Nat) (s : SigSpec) (hf : width - s.width ≤ fuel) :
    extend_pad padding width fuel s =
      some { chunks := s.chunks ++ (List.replicate (width - s.width) padding.chunks).flatten,
             width := s.width + (width - s.width) } := by
  induction fuel generalizing s with
  | zero =>
    have h0 : width - s.width = 0 := by omega
    have : ¬ s.width < width := by omega
    simp [extend_pad, this, h0]
  | succ n ih =>
    unfold extend_pad
    by_cases hlt : s.width < width
    · rw [if_pos hlt, append_eq, ih _ (by simp only [hp]; omega)]
      simp only [hp]
      have e : width - s.width = (width - (s.width + 1)) + 1 := by omega
      rw [e, List.replicate_succ, List.flatten_cons]
      simp only [List.append_assoc, Option.some.injEq, SigSpec.mk.injEq, true_and]
      omega
    · rw [if_neg hlt]
      have h0 : width - s.width = 0 := by omega
      simp [h0]

theorem wsum_replicate_flatten (n : Nat) (cs : List SigChunk) :
    wsum (List.replicate n cs).flatten = n * wsum cs := by
  induction n with
  | zero => simp [wsum]
  | succ n ih => rw [List.replicate_succ, List.flatten_cons, wsum_append, ih]; ring

/-! ## Bits -/

theorem combine_loop_length (f : State) (ov : Bool) (cs scs : List SigChunk) (nc : Bool) :
    (combine_loop f ov cs scs nc).1.length = cs.length := by
  induction cs generalizing scs nc with
  | nil => simp [combine_loop]
  | cons c cs ih =>
    cases scs with
    | nil => simp [combine_loop]
    | cons sc scs => simp [combine_loop, ih]

theorem combine_loop_w1 (f : State) (ov : Bool) (cs scs : List SigChunk) (nc : Bool)
    (h1 : ∀ c ∈ cs, c.width = 1) (h2 : ∀ c ∈ scs, c.width = 1) :
    ∀ c ∈ (combine_loop f ov cs scs nc).1, c.width = 1 := by
  induction cs generalizing scs nc with
  | nil => simp [combine_loop]
  | cons c cs ih =>
    cases scs with
    | nil => simpa [combine_loop] using h1
    | cons sc scs =>
      intro d hd
      simp only [combine_loop, List.mem_cons] at hd
      rcases hd with hd | hd
      · have hc : c.width = 1 := h1 c (List.mem_cons_self _ _)
        have hs : sc.width = 1 := h2 sc (List.mem_cons_self _ _)
        have hx : (SigChunk.ofState State.Sx 1).width = 1 := rfl
        subst hd
        split_ifs <;> assumption
      · exact ih scs _ (fun c hc => h1 c (List.mem_cons_of_mem _ hc))
          (fun c hc => h2 c (List.mem_cons_of_mem _ hc)) d hd

theorem wsum_of_w1 (cs : List SigChunk) (h : ∀ c ∈ cs, c.width = 1) : wsum cs = cs.length := by
  induction cs with
  | nil => rfl
  | cons c cs ih =>
    rw [wsum_cons, h c (List.mem_cons_self _ _), ih (fun d hd => h d (List.mem_cons_of_mem _ hd))]
    simp; omega

theorem expand_w1 (s : SigSpec) : ∀ c ∈ s.expand.chunks, c.width = 1 := by
  intro c hc
  simp only [SigSpec.expand, List.mem_flatMap, List.mem_map] at hc
  obtain ⟨d, _, j, _, rfl⟩ := hc
  exact extract_width _ _ _

theorem combine_ok (s signal : SigSpec) (f : State) (ov : Bool)
    (h : wsum s.chunks = s.width) :
    wsum (s.combine signal f ov).2.chunks = (s.combine signal f ov).2.width := by
  unfold SigSpec.combine
  simp only
  apply optimize_ok
  simp only
  rw [wsum_of_w1 _ (combine_loop_w1 _ _ _ _ _ (expand_w1 s) (expand_w1 signal)),
    combine_loop_length, ← wsum_of_w1 _ (expand_w1 s)]
  exact expand_ok s h

theorem ofState_ok (b : State) (n : Nat) :
    wsum (SigSpec.ofState b n).chunks = (SigSpec.ofState b n).width := by
  simp [SigSpec.ofState, wsum]

theorem extend_padding_ok (s : SigSpec) (sg : Bool) :
    wsum (extend_padding s sg).chunks = (extend_padding s sg).width := by
  unfold extend_padding
  simp only
  split_ifs <;> first | exact ofState_ok _ _ | exact extract_ok _ _ _

theorem extend_padding_width (s : SigSpec) (sg : Bool) (h : wsum s.chunks = s.width) :
    (extend_padding s sg).width = 1 := by
  unfold extend_padding
  simp only
  split_ifs with h1 h2 h2
  · rfl
  · exact extract_spec_width _ _ _ (by omega)
  · rfl
  · rfl

section bits
variable {B : Type} (β : SigChunk → Nat → B)

theorem lbits_nil : lbits β [] = [] := rfl

theorem lbits_cons (c : SigChunk) (cs : List SigChunk) :
    lbits β (c :: cs) = (List.range c.width).map (β c) ++ lbits β cs := by
  simp [lbits]

theorem lbits_append (xs ys : List SigChunk) : lbits β (xs ++ ys) = lbits β xs ++ lbits β ys := by
  simp [lbits]

theorem lbits_length (cs : List SigChunk) : (lbits β cs).length = wsum cs := by
  induction cs with
  | nil => rfl
  | cons c cs ih => simp [lbits_cons, wsum_cons, ih]

theorem range_drop_take (w o l : Nat) (h : o + l ≤ w) :
    ((List.range w).drop o).take l = (List.range l).map (fun j => o + j) := by
  apply List.ext_getElem
  · simp; omega
  · intro i h1 h2
    simp

theorem lbits_extract (c : SigChunk) (o l : Nat) (hs : Sliceable β c) (h : o + l ≤ c.width) :
    (List.range l).map (β (c.extract o l)) = (((List.range c.width).map (β c)).drop o).take l := by
  rw [← List.map_drop, ← List.map_take, range_drop_take _ _ _ h, List.map_map]
  apply List.map_congr_left
  intro j hj
  exact hs o l j (List.mem_range.mp hj)

theorem lbits_single_extract (c : SigChunk) (o l : Nat) (hs : Sliceable β c)
    (h : o + l ≤ c.width) :
    lbits β [c.extract o l] = ((lbits β [c]).drop o).take l := by
  simp only [lbits_cons, lbits_nil, List.append_nil, extract_width]
  exact lbits_extract β c o l hs h

end bits
section bits2
variable {B : Type} (β : SigChunk → Nat → B)

theorem take_drop_append {α : Type} (A C : List α) (d t : Nat) :
    ((A ++ C).drop d).take t =
      (A.drop d).take t ++ (C.drop (d - A.length)).take (t - (A.length - d)) := by
  rw [List.drop_append_eq_append_drop, List.take_append_eq_append_take, List.length_drop]

theorem lbits_extract_loop (cs : List SigChunk) (hs : ∀ c ∈ cs, Sliceable β c)
    (pos offset length : Nat) (ret : SigSpec)
    (hI : pos ≤ offset ∨ length = 0) (hb : offset + length ≤ pos + wsum cs) :
    lbits β (extract_loop cs pos offset length ret).chunks =
      lbits β ret.chunks ++ ((lbits β cs).drop (offset - pos)).take length := by
  induction cs generalizing pos offset length ret with
  | nil => simp [extract_loop, lbits_nil]
  | cons c cs ih =>
    rw [wsum_cons] at hb
    have hs' : ∀ d ∈ cs, Sliceable β d := fun d hd => hs d (List.mem_cons_of_mem _ hd)
    unfold extract_loop
    by_cases hc : pos + c.width > offset ∧ pos < offset + length
    · rw [if_pos hc]
      obtain ⟨e1, p1, p2, p3, p4⟩ := slice_off_len_spec c.width pos offset length hc
      rw [ih hs' _ _ _ _ (by omega) (by omega)]
      simp only [lbits_append, lbits_cons, lbits_nil, List.append_nil, extract_width]
      rw [lbits_extract β c _ _ (hs c (List.mem_cons_self _ _)) (by omega)]
      rw [take_drop_append, List.append_assoc]
      simp only [List.length_map, List.length_range]
      congr 1
      have a1 : (slice_off_len c.width pos offset length).1.toNat = offset - pos := by omega
      rw [a1]
      by_cases hl : offset + length ≤ pos + c.width
      · have a2 : (slice_off_len c.width pos offset length).2.toNat = length := by omega
        have a3 : length - (c.width - (offset - pos)) = 0 := by omega
        simp [a2, a3]
      · have a2 : (slice_off_len c.width pos offset length).2.toNat = c.width - (offset - pos) := by
          omega
        have a3 : offset + (c.width - (offset - pos)) - (pos + c.width) = 0 := by omega
        have a4 : offset - pos - c.width = 0 := by omega
        rw [a2, a3, a4]
        congr 1
        rw [List.take_of_length_le (by simp), List.take_of_length_le (by simp; omega)]
    · rw [if_neg hc]
      rw [ih hs' _ _ _ _ (by omega) (by omega)]
      congr 1
      rw [lbits_cons, take_drop_append]
      simp only [List.length_map, List.length_range]
      by_cases h0 : length = 0
      · simp [h0]
      · have a1 : c.width - (offset - pos) = 0 := by omega
        have a2 : offset - pos - c.width = offset - (pos + c.width) := by omega
        have a3 : (List.map (β c) (List.range c.width)).length ≤ offset - pos := by
          simp; omega
        rw [a1, a2, List.drop_of_length_le a3]
        simp

end bits2
section bits3
variable {B : Type} (β : SigChunk → Nat → B)

theorem remove_list_lemma {α : Type} (A C : List α) (w o l pos off len : Nat)
    (hA : A.length = w) (hoff : off = o - pos)
    (hlen : off + len = min (o + l) (pos + w) - pos) (hin : pos + w > o ∧ pos < o + l) :
    A.take off ++ A.drop (off + len) ++ (C.take (o - (pos + w)) ++ C.drop (o + l - (pos + w))) =
      (A ++ C).take (o - pos) ++ (A ++ C).drop (o + l - pos) := by
  rw [List.take_append_eq_append_take, List.drop_append_eq_append_drop, hA]
  have a1 : o - (pos + w) = 0 := by omega
  have a2 : o - pos - w = 0 := by omega
  have a3 : o + l - pos - w = o + l - (pos + w) := by omega
  rw [a1, a2, a3, ← hoff]
  simp only [List.take_zero, List.append_nil, List.nil_append, List.append_assoc]
  congr 1
  congr 1
  by_cases h : o + l ≤ pos + w
  · have : off + len = o + l - pos := by omega
    rw [this]
  · rw [List.drop_of_length_le (by omega), List.drop_of_length_le (by omega)]

theorem lbits_remove_loop (o l : Nat) (cs : List SigChunk) (pos width : Nat)
    (hk : CutOk β o l cs pos) :
    lbits β (remove_loop o l cs pos width).1 =
      (lbits β cs).take (o - pos) ++ (lbits β cs).drop (o + l - pos) := by
  induction cs generalizing pos width with
  | nil => simp [remove_loop, lbits_nil]
  | cons c cs ih =>
    obtain ⟨hk1, hk2⟩ := hk
    unfold remove_loop
    by_cases hc : pos + c.width > o ∧ pos < o + l
    · rw [if_pos hc]
      obtain ⟨e1, p1, p2, p3, p4⟩ := slice_off_len_spec c.width pos o l hc
      have hs := hk1 hc
      have b1 : (slice_off_len c.width pos o l).1.toNat = o - pos := by omega
      have b2 : ((slice_off_len c.width pos o l).1 + (slice_off_len c.width pos o l).2).toNat
          = (o - pos) + (slice_off_len c.width pos o l).2.toNat := by omega
      have b3 : ((c.width : Int) - (slice_off_len c.width pos o l).1 -
          (slice_off_len c.width pos o l).2).toNat =
          c.width - ((o - pos) + (slice_off_len c.width pos o l).2.toNat) := by omega
      simp only []
      rw [b2, b3, b1]
      generalize hlen : (slice_off_len c.width pos o l).2.toNat = len at *
      have hlen2 : (o - pos) + len = min (o + l) (pos + c.width) - pos := by omega
      have hL := lbits_extract β c 0 (o - pos) hs (by omega)
      have hM := lbits_extract β c ((o - pos) + len) (c.width - ((o - pos) + len)) hs (by omega)
      rw [List.drop_zero] at hL
      rw [List.take_of_length_le (by simp)] at hM
      have key := remove_list_lemma ((List.range c.width).map (β c)) (lbits β cs) c.width o l pos
        (o - pos) len (by simp) rfl hlen2 hc
      rw [lbits_cons, ← key, ← ih _ (width - len) hk2]
      simp only [extract_width]
      have tA : o - pos = 0 → List.take (o - pos) ((List.range c.width).map (β c)) = [] := by
        intro h; rw [h]; rfl
      have dA : c.width - ((o - pos) + len) = 0 →
          List.drop ((o - pos) + len) ((List.range c.width).map (β c)) = [] := by
        intro h; apply List.drop_of_length_le; simp; omega
      split_ifs with h1 h2 h3
      · rw [tA h1.1, dA h1.2]; rfl
      · rw [lbits_cons, extract_width, hM, tA h2.1]; rfl
      · rw [lbits_cons, extract_width, hL, dA h3.2]; simp
      · rw [lbits_cons, lbits_cons, extract_width, extract_width, hL, hM]; simp
    · rw [if_neg hc]
      simp only [lbits_cons]
      rw [ih _ _ hk2]
      rw [List.take_append_eq_append_take, List.drop_append_eq_append_drop]
      simp only [List.length_map, List.length_range]
      by_cases h1 : pos + c.width ≤ o
      · have a1 : o - pos - c.width = o - (pos + c.width) := by omega
        have a2 : o + l - pos - c.width = o + l - (pos + c.width) := by omega
        have a3 : ((List.range c.width).map (β c)).length ≤ o - pos := by simp; omega
        have a4 : ((List.range c.width).map (β c)).length ≤ o + l - pos := by simp; omega
        rw [a1, a2, List.take_of_length_le a3, List.drop_of_length_le a4]
        simp
      · have a0 : o + l ≤ pos := by omega
        have a1 : o - pos = 0 := by omega
        have a2 : o + l - pos = 0 := by omega
        have a3 : o - (pos + c.width) = 0 := by omega
        have a4 : o + l - (pos + c.width) = 0 := by omega
        simp [a1, a2, a3, a4]

end bits3
section bits4
variable {B : Type} (β : SigChunk → Nat → B)

theorem lbits_replace_insert_here (o : Nat) (wc R : List SigChunk) :
    lbits β (replace_insert o wc R o) = lbits β wc ++ lbits β R := by
  cases R with
  | nil => simp [replace_insert, lbits_nil]
  | cons x rest => simp [replace_insert, lbits_append]

theorem remove_loop_head (o l : Nat) (c : SigChunk) (cs : List SigChunk) (pos width : Nat)
    (hc : pos + c.width > o ∧ pos < o + l) (hlt : pos < o) :
    ∃ rest, (remove_loop o l (c :: cs) pos width).1 = c.extract 0 (o - pos) :: rest := by
  obtain ⟨e1, p1, p2, p3, p4⟩ := slice_off_len_spec c.width pos o l hc
  have b1 : (slice_off_len c.width pos o l).1.toNat = o - pos := by omega
  unfold remove_loop
  rw [if_pos hc]
  simp only [extract_width, b1]
  have hne : o - pos ≠ 0 := by omega
  split_ifs with h1 h2 h3
  · exact absurd h1.1 hne
  · exact absurd h2.1 hne
  · exact ⟨_, rfl⟩
  · exact ⟨_, rfl⟩

theorem lbits_replace_insert_remove (o l : Nat) (wc cs : List SigChunk) (pos width : Nat)
    (hk : CutOk β o l cs pos) (h1 : pos ≤ o) (h2 : o ≤ pos + wsum cs) :
    lbits β (replace_insert o wc (remove_loop o l cs pos width).1 pos) =
      (lbits β cs).take (o - pos) ++ lbits β wc ++ (lbits β cs).drop (o + l - pos) := by
  induction cs generalizing pos width with
  | nil => simp [remove_loop, replace_insert, lbits_nil]
  | cons c cs ih =>
    rw [wsum_cons] at h2
    by_cases hpo : pos = o
    · subst hpo
      rw [lbits_replace_insert_here, lbits_remove_loop β _ _ _ _ _ hk]
      simp
    · have hlt : pos < o := by omega
      have hk' := hk
      obtain ⟨hk1, hk2⟩ := hk
      by_cases hc : pos + c.width > o ∧ pos < o + l
      · obtain ⟨rest, hR⟩ := remove_loop_head o l c cs pos width hc hlt
        have hG := lbits_remove_loop β o l (c :: cs) pos width hk'
        rw [hR] at hG ⊢
        unfold replace_insert
        rw [if_neg hpo, extract_width]
        have e : pos + (o - pos) = o := by omega
        rw [e, lbits_cons, lbits_replace_insert_here]
        rw [lbits_cons] at hG
        have hlen : ((List.range (c.extract 0 (o - pos)).width).map (β (c.extract 0 (o - pos)))).length
            = (List.take (o - pos) (lbits β (c :: cs))).length := by
          simp [extract_width, lbits_length, wsum_cons]; omega
        obtain ⟨g1, g2⟩ := List.append_inj hG hlen
        rw [g1, g2, List.append_assoc]
      · have hw : pos + c.width ≤ o := by omega
        unfold remove_loop
        rw [if_neg hc]
        simp only
        unfold replace_insert
        rw [if_neg hpo, lbits_cons, ih _ _ hk2 hw (by omega), lbits_cons]
        rw [List.take_append_eq_append_take, List.drop_append_eq_append_drop]
        simp only [List.length_map, List.length_range]
        have a1 : o - pos - c.width = o - (pos + c.width) := by omega
        have a2 : o + l - pos - c.width = o + l - (pos + c.width) := by omega
        have a3 : ((List.range c.width).map (β c)).length ≤ o - pos := by simp; omega
        have a4 : ((List.range c.width).map (β c)).length ≤ o + l - pos := by simp; omega
        rw [a1, a2, List.take_of_length_le a3, List.drop_of_length_le a4]
        simp

theorem lbits_replace_at (s : SigSpec) (o : Nat) (w : SigSpec)
    (hk : CutOk β o w.width s.chunks 0) (h : o ≤ wsum s.chunks) :
    lbits β (s.replace_at o w).chunks =
      (lbits β s.chunks).take o ++ lbits β w.chunks ++ (lbits β s.chunks).drop (o + w.width) := by
  unfold SigSpec.replace_at SigSpec.remove
  simp only
  rw [lbits_replace_insert_remove β o w.width w.chunks s.chunks 0 s.width hk (by omega) (by omega)]
  simp

theorem lbits_remove (s : SigSpec) (o l : Nat) (hk : CutOk β o l s.chunks 0) :
    lbits β (s.remove o l).chunks =
      (lbits β s.chunks).take o ++ (lbits β s.chunks).drop (o + l) := by
  unfold SigSpec.remove
  simp only
  rw [lbits_remove_loop β o l s.chunks 0 s.width hk]
  simp

theorem lbits_extract_spec (s : SigSpec) (o l : Nat) (hs : ∀ c ∈ s.chunks, Sliceable β c)
    (h : o + l ≤ wsum s.chunks) :
    lbits β (s.extract o l).chunks = ((lbits β s.chunks).drop o).take l := by
  unfold SigSpec.extract
  rw [lbits_extract_loop β s.chunks hs 0 o l SigSpec.empty (by omega) (by omega)]
  simp [SigSpec.empty, lbits_nil]

end bits4

theorem sliceable_bit (c : SigChunk) : Sliceable SigChunk.bit c := by
  intro o l j hj
  unfold SigChunk.bit SigChunk.extract
  cases hw : c.wire with
  | some w => simp [Nat.add_assoc]
  | none => simp [hj]

theorem cutok_bit (o l : Nat) (cs : List SigChunk) (pos : Nat) : CutOk SigChunk.bit o l cs pos := by
  induction cs generalizing pos with
  | nil => trivial
  | cons c cs ih => exact ⟨fun _ => sliceable_bit c, ih _⟩

theorem remove_width (s : SigSpec) (o l : Nat) (h : wsum s.chunks = s.width)
    (hb : o + l ≤ s.width) : (s.remove o l).width = s.width - l := by
  have h1 := remove_ok s o l h
  have h2 := congrArg List.length (lbits_remove SigChunk.bit s o l (cutok_bit _ _ _ _))
  rw [lbits_length] at h2
  simp [lbits_length] at h2
  omega
theorem extend_eq (s : SigSpec) (width : Nat) (sg : Bool) (h : wsum s.chunks = s.width) :
    s.extend width sg =
      some (SigSpec.optimize
        { chunks := (if s.width > width then s.remove width (s.width - width) else s).chunks ++
            (List.replicate (width - s.width)
              (extend_padding (if s.width > width then s.remove width (s.width - width) else s)
                sg).chunks).flatten,
          width := width }) := by
  unfold SigSpec.extend
  simp only
  by_cases hgt : s.width > width
  · simp only [if_pos hgt]
    have hw : (s.remove width (s.width - width)).width = width := by
      rw [remove_width s _ _ h (by omega)]; omega
    have h0 : width - s.width = 0 := by omega
    rw [if_neg (by omega), h0]
    simp only [List.replicate_zero, List.flatten_nil, List.append_nil]
    congr 2
    generalize s.remove width (s.width - width) = r at hw
    cases r; simp only at hw; subst hw; rfl
  · simp only [if_neg hgt]
    by_cases hlt : s.width < width
    · rw [if_pos hlt]
      have hp := extend_padding_ok s sg
      rw [extend_padding_width s sg h] at hp
      rw [extend_pad_eq _ hp _ _ _ (le_refl _)]
      simp only [Option.map_some']
      congr 3
      omega
    · rw [if_neg hlt]
      have h0 : width - s.width = 0 := by omega
      have hw : s.width = width := by omega
      subst hw
      simp only [Nat.sub_self, List.replicate_zero, List.flatten_nil, List.append_nil]

theorem extend_ok (s : SigSpec) (width : Nat) (sg : Bool) (h : wsum s.chunks = s.width) :
    ∃ r, s.extend width sg = some r ∧ wsum r.chunks = r.width ∧ r.width = width := by
  refine ⟨_, extend_eq s width sg h, ?_, rfl⟩
  apply optimize_ok
  simp only [wsum_append, wsum_replicate_flatten]
  by_cases hgt : s.width > width
  · simp only [if_pos hgt]
    have h1 := remove_ok s width (s.width - width) h
    have h2 := remove_width s width (s.width - width) h (by omega)
    have h0 : width - s.width = 0 := by omega
    rw [h0]; omega
  · simp only [if_neg hgt]
    have hp := extend_padding_ok s sg
    rw [extend_padding_width s sg h] at hp
    rw [hp]; omega

/-! ## C1: the width invariant -/

/-- C1. If the chunk widths of `s` sum to `s.width`, then after each of `append`,
`expand`, `optimize`, `extract(offset, length)`, `remove(offset, length)`,
`replace(offset, with)`, `extend(width, signed)` and `combine`, on arguments
that pass the assertions of the operation, the chunk widths of the resulting
signal again sum to its width field; `extend` returns. -/
theorem sigspec_width_invariant (s : SigSpec) (h : s.chunk_width_sum = s.width) :
    (∀ t : SigSpec, t.chunk_width_sum = t.width →
      (s.append t).chunk_width_sum = (s.append t).width) ∧
    s.expand.chunk_width_sum = s.expand.width ∧
    s.optimize.chunk_width_sum = s.optimize.width ∧
    (∀ offset length : Nat, offset + length ≤ s.width →
      (s.extract offset length).chunk_width_sum = (s.extract offset length).width) ∧
    (∀ offset length : Nat, offset + length ≤ s.width →
      (s.remove offset length).chunk_width_sum = (s.remove offset length).width) ∧
    (∀ (offset : Nat) (w : SigSpec), w.chunk_width_sum = w.width → offset + w.width ≤ s.width →
      (s.replace_at offset w).chunk_width_sum = (s.replace_at offset w).width) ∧
    (∀ (width : Nat) (is_signed : Bool),
      ∃ r, s.extend width is_signed = some r ∧ r.chunk_width_sum = r.width) ∧
    (∀ (signal : SigSpec) (freeState : State) (override : Bool),
      signal.chunk_width_sum = signal.width → s.width = signal.width →
      (s.combine signal freeState override).2.chunk_width_sum =
        (s.combine signal freeState override).2.width) := by
  simp only [chunk_width_sum_eq] at *
  refine ⟨fun t _ => append_ok s t h, expand_ok s h, optimize_ok s h,
    fun o l _ => extract_ok s o l, fun o l _ => remove_ok s o l h,
    fun o w hw _ => replace_at_ok s o w h hw, ?_, fun sig f ov _ _ => combine_ok s sig f ov h⟩
  intro width sg
  obtain ⟨r, hr, hok, _⟩ := extend_ok s width sg h
  exact ⟨r, hr, hok⟩

/-- The invariant of C1 on the example signals: `exS1` with `exS2` appended, and
`exS1` with `exS2` written over its bits 1 and 2. -/
theorem sigspec_width_invariant_witness :
    exS1.chunk_width_sum = exS1.width ∧
    (exS1.append exS2).chunk_width_sum = (exS1.append exS2).width ∧
    (exS1.replace_at 1 exS2).chunk_width_sum = (exS1.replace_at 1 exS2).width :=
  ⟨by decide,
   (sigspec_width_invariant exS1 (by decide)).1 exS2 (by decide),
   (sigspec_width_invariant exS1 (by decide)).2.2.2.2.2.1 1 exS2 (by decide) (by decide)⟩

/-! ## C2: `optimize` is idempotent -/

/-- A chunk that the first loop of `optimize` keeps. -/
theorem optimize_erase_id (cs : List SigChunk)
    (h : ∀ c ∈ cs, c.is_auto = true ∨ c.width ≠ 0) : optimize_erase cs = cs := by
  induction cs with
  | nil => rfl
  | cons c cs ih =>
    have hc := h c (List.mem_cons_self _ _)
    have ih' := ih (fun d hd => h d (List.mem_cons_of_mem _ hd))
    unfold optimize_erase
    split_ifs with h1 h2
    · rw [ih']
    · rcases hc with hc | hc
      · exact absurd hc h1
      · exact absurd h2 hc
    · rw [ih']

theorem optimize_erase_kept (cs : List SigChunk) :
    ∀ c ∈ optimize_erase cs, c.is_auto = true ∨ c.width ≠ 0 := by
  induction cs with
  | nil => simp [optimize_erase]
  | cons c cs ih =>
    unfold optimize_erase
    split_ifs with h1 h2
    · intro d hd
      rcases List.mem_cons.mp hd with rfl | hd
      · exact Or.inl h1
      · exact ih d hd
    · exact ih
    · intro d hd
      rcases List.mem_cons.mp hd with rfl | hd
      · exact Or.inr h2
      · exact ih d hd

theorem str_append_empty (a b : String) : a ++ b = "" ↔ a = "" ∧ b = "" := by
  constructor
  · intro h
    have := congrArg String.data h
    simp at this
    exact ⟨String.ext this.1, String.ext this.2⟩
  · rintro ⟨rfl, rfl⟩; rfl

/-- The chunks that the second loop of `optimize` leaves are kept by the first
loop when the chunks it started from are. -/
theorem optimize_merge_kept (cs : List SigChunk) (c : SigChunk)
    (hc : c.is_auto = true ∨ c.width ≠ 0) (h : ∀ d ∈ cs, d.is_auto = true ∨ d.width ≠ 0) :
    ∀ d ∈ optimize_merge c cs, d.is_auto = true ∨ d.width ≠ 0 := by
  induction cs generalizing c with
  | nil => intro d hd; simp [optimize_merge] at hd; subst hd; exact hc
  | cons e cs ih =>
    have he := h e (List.mem_cons_self _ _)
    have h' : ∀ d ∈ cs, d.is_auto = true ∨ d.width ≠ 0 :=
      fun d hd => h d (List.mem_cons_of_mem _ hd)
    have keep : ∀ d ∈ c :: optimize_merge e cs, d.is_auto = true ∨ d.width ≠ 0 := by
      intro d hd
      rcases List.mem_cons.mp hd with rfl | hd
      · exact hc
      · exact ih e he h' d hd
    unfold optimize_merge
    split_ifs with h1 h2 h3 h4 h5
    · exact keep
    · exact keep
    · apply ih _ _ h'
      right
      have : c.width ≠ 0 := by rcases hc with hc | hc; exact absurd hc h1; exact hc
      simp only; omega
    · apply ih _ _ h'
      right
      have : c.width ≠ 0 := by rcases hc with hc | hc; exact absurd hc h1; exact hc
      simp only; omega
    · exact keep
    · exact keep

theorem optimize_merge_cons (ch1 ch2 : SigChunk) (rest : List SigChunk) :
    optimize_merge ch1 (ch2 :: rest) =
      if ch1.is_auto then ch1 :: optimize_merge ch2 rest
      else if ch2.is_auto then ch1 :: optimize_merge ch2 rest
      else if ch1.wire = ch2.wire then
        if ch1.wire ≠ none ∧ ch1.offset + ch1.width = ch2.offset then
          optimize_merge { ch1 with width := ch1.width + ch2.width } rest
        else if ch1.wire = none ∧ decide (ch1.data.str = "") = decide (ch2.data.str = "") then
          optimize_merge
            { ch1 with
              data := ⟨ch1.data.bits ++ ch2.data.bits, ch2.data.str ++ ch1.data.str⟩,
              width := ch1.width + ch2.width } rest
        else ch1 :: optimize_merge ch2 rest
      else ch1 :: optimize_merge ch2 rest := by
  rw [optimize_merge]

theorem is_auto_congr (a b : SigChunk) (h : a.wire = b.wire) : a.is_auto = b.is_auto := by
  unfold SigChunk.is_auto; rw [h]

theorem optimize_merge_stable (cs : List SigChunk) (c : SigChunk) :
    ∃ hd tl, optimize_merge c cs = hd :: tl ∧ optimize_merge hd tl = hd :: tl ∧
      merge_view hd = merge_view c := by
  induction cs generalizing c with
  | nil => exact ⟨c, [], rfl, rfl, rfl⟩
  | cons e cs ih =>
    have keep : ∀ (_ : optimize_merge c (e :: cs) = c :: optimize_merge e cs)
        (_ : ∀ e' rest, merge_view e' = merge_view e →
          optimize_merge c (e' :: rest) = c :: optimize_merge e' rest),
        ∃ hd tl, optimize_merge c (e :: cs) = hd :: tl ∧ optimize_merge hd tl = hd :: tl ∧
          merge_view hd = merge_view c := by
      intro h1 h2
      obtain ⟨hd, tl, e1, e2, e3⟩ := ih e
      refine ⟨c, hd :: tl, ?_, ?_, rfl⟩
      · rw [h1, e1]
      · rw [h2 hd tl e3, e2]
    have hview : ∀ e' : SigChunk, merge_view e' = merge_view e →
        e'.is_auto = e.is_auto ∧ e'.wire = e.wire ∧ e'.offset = e.offset ∧
          decide (e'.data.str = "") = decide (e.data.str = "") := by
      intro e' h
      simp only [merge_view, Prod.mk.injEq] at h
      exact h
    by_cases h1 : c.is_auto = true
    · apply keep
      · rw [optimize_merge_cons, if_pos h1]
      · intro e' rest _; rw [optimize_merge_cons, if_pos h1]
    by_cases h2 : e.is_auto = true
    · apply keep
      · rw [optimize_merge_cons, if_neg h1, if_pos h2]
      · intro e' rest hv
        obtain ⟨v1, _, _, _⟩ := hview e' hv
        rw [optimize_merge_cons, if_neg h1, if_pos (by rw [v1]; exact h2)]
    by_cases h3 : c.wire = e.wire
    · by_cases h4 : c.wire ≠ none ∧ c.offset + c.width = e.offset
      · obtain ⟨hd, tl, e1, e2, e3⟩ := ih { c with width := c.width + e.width }
        refine ⟨hd, tl, ?_, e2, ?_⟩
        · rw [optimize_merge_cons, if_neg h1, if_neg h2, if_pos h3, if_pos h4, e1]
        · rw [e3]
          have hauto := is_auto_congr { c with width := c.width + e.width } c rfl
          simp only [merge_view, hauto]
      · by_cases h5 : c.wire = none ∧ decide (c.data.str = "") = decide (e.data.str = "")
        · obtain ⟨hd, tl, e1, e2, e3⟩ := ih
            { c with data := ⟨c.data.bits ++ e.data.bits, e.data.str ++ c.data.str⟩,
                     width := c.width + e.width }
          refine ⟨hd, tl, ?_, e2, ?_⟩
          · rw [optimize_merge_cons, if_neg h1, if_neg h2, if_pos h3, if_neg h4, if_pos h5, e1]
          · rw [e3]
            have hauto := is_auto_congr
              { c with data := ⟨c.data.bits ++ e.data.bits, e.data.str ++ c.data.str⟩,
                       width := c.width + e.width } c rfl
            simp only [merge_view, hauto, Prod.mk.injEq, true_and]
            have h6 := h5.2
            by_cases hcs : c.data.str = ""
            · have hes : e.data.str = "" := by simpa [hcs] using h6
              simp [hcs, hes]
            · have : ¬ (e.data.str ++ c.data.str = "") := by
                rw [str_append_empty]; exact fun h => hcs h.2
              simp [hcs, this]
        · apply keep
          · rw [optimize_merge_cons, if_neg h1, if_neg h2, if_pos h3, if_neg h4, if_neg h5]
          · intro e' rest hv
            obtain ⟨v1, v2, v3, v4⟩ := hview e' hv
            rw [optimize_merge_cons, if_neg h1, if_neg (by rw [v1]; exact h2), if_pos (by rw [v2]; exact h3),
              if_neg (by rw [v3]; exact h4), if_neg (by rw [v4]; exact h5)]
    · apply keep
      · rw [optimize_merge_cons, if_neg h1, if_neg h2, if_neg h3]
      · intro e' rest hv
        obtain ⟨v1, v2, _, _⟩ := hview e' hv
        rw [optimize_merge_cons, if_neg h1, if_neg (by rw [v1]; exact h2), if_neg (by rw [v2]; exact h3)]

theorem optimize_chunks_idem (cs : List SigChunk) :
    optimize_chunks (optimize_chunks cs) = optimize_chunks cs := by
  unfold optimize_chunks
  have hk := optimize_erase_kept cs
  cases he : optimize_erase cs with
  | nil => simp [optimize_erase]
  | cons c rest =>
    rw [he] at hk
    simp only
    have hkept := optimize_merge_kept rest c (hk c (List.mem_cons_self _ _))
      (fun d hd => hk d (List.mem_cons_of_mem _ hd))
    rw [optimize_erase_id _ hkept]
    obtain ⟨hd, tl, e1, e2, _⟩ := optimize_merge_stable rest c
    rw [e1]
    exact e2

/-- C2. `optimize` is idempotent: applying it twice gives the same chunks (wire,
offset, width, bits and cached string of each) and the same width as applying
it once. -/
theorem optimize_idempotent (s : SigSpec) : s.optimize.optimize = s.optimize := by
  unfold SigSpec.optimize
  simp only [optimize_chunks_idem]

/-! ## The bits of a canonical form -/

theorem str_length_zero (a : String) (h : a.length = 0) : a = "" := by
  apply String.ext
  exact List.length_eq_zero.mp h

theorem wf_of_check (c : SigChunk) (h : c.check = true) : c.wf := by
  unfold SigChunk.check at h
  unfold SigChunk.wf
  cases hw : c.wire with
  | none =>
    rw [hw] at h
    simp only [Bool.and_eq_true, decide_eq_true_eq] at h
    exact ⟨fun _ => ⟨h.1.1, h.1.2⟩, fun hne => absurd rfl hne⟩
  | some w =>
    rw [hw] at h
    simp only [Bool.and_eq_true, decide_eq_true_eq] at h
    exact ⟨fun hn => (by cases hn), fun _ => ⟨List.length_eq_zero.mp h.1.2, str_length_zero _ h.2⟩⟩

theorem extract_wire (c : SigChunk) (w : Wire) (h : c.wire = some w) (o l : Nat) :
    c.extract o l =
      { wire := some w, data := Const.empty, width := l, offset := c.offset + o } := by
  unfold SigChunk.extract; rw [h]

theorem bit_const (c : SigChunk) (h : c.wire = none) (j : Nat) :
    c.extract j 1 =
      { wire := none, data := ⟨[c.data.bits.getD j State.S0], ""⟩, width := 1, offset := 0 } := by
  unfold SigChunk.extract; rw [h]; rfl

theorem lbits_optimize_erase {B : Type} (β : SigChunk → Nat → B) (cs : List SigChunk) :
    lbits β (optimize_erase cs) = lbits β cs := by
  induction cs with
  | nil => rfl
  | cons c cs ih =>
    unfold optimize_erase
    split_ifs with h1 h2
    · rw [lbits_cons, lbits_cons, ih]
    · rw [lbits_cons, ih, h2]; rfl
    · rw [lbits_cons, lbits_cons, ih]

theorem range_map_add {B : Type} (f : Nat → B) (a b : Nat) :
    (List.range (a + b)).map f = (List.range a).map f ++ (List.range b).map (fun j => f (a + j)) := by
  rw [List.range_add, List.map_append, List.map_map]
  rfl

theorem tbit_wire (c : SigChunk) (w : Wire) (h : c.wire = some w) (hs : c.data.str = "")
    (j : Nat) :
    c.tbit j =
      ({ wire := some w, data := Const.empty, width := 1, offset := c.offset + j }, false) := by
  unfold SigChunk.tbit
  rw [extract_wire c w h, hs]
  rfl

theorem tbit_const (c : SigChunk) (h : c.wire = none) (j : Nat) :
    c.tbit j =
      ({ wire := none, data := ⟨[c.data.bits.getD j State.S0], ""⟩, width := 1, offset := 0 },
        !decide (c.data.str = "")) := by
  unfold SigChunk.tbit
  rw [bit_const c h]

theorem tbit_merge_wire (c e : SigChunk) (hc : c.wf) (he : e.wf) (hw : c.wire = e.wire)
    (hn : c.wire ≠ none) (ho : c.offset + c.width = e.offset) :
    (List.range (c.width + e.width)).map
        (SigChunk.tbit { c with width := c.width + e.width }) =
      (List.range c.width).map (SigChunk.tbit c) ++ (List.range e.width).map (SigChunk.tbit e) := by
  rw [range_map_add]
  have hcs := (hc.2 hn).2
  have hes := (he.2 (hw ▸ hn)).2
  obtain ⟨w, hw1⟩ := Option.ne_none_iff_exists'.mp hn
  have hw2 : e.wire = some w := by rw [← hw, hw1]
  generalize hm : ({ c with width := c.width + e.width } : SigChunk) = m
  have hmw : m.wire = some w := by rw [← hm]; exact hw1
  have hmo : m.offset = c.offset := by rw [← hm]
  have hms : m.data.str = "" := by rw [← hm]; exact hcs
  have e1 : (List.range c.width).map m.tbit = (List.range c.width).map c.tbit := by
    apply List.map_congr_left
    intro j _
    rw [tbit_wire m w hmw hms, tbit_wire c w hw1 hcs, hmo]
  have e2 : (List.range e.width).map (fun j => m.tbit (c.width + j)) =
      (List.range e.width).map e.tbit := by
    apply List.map_congr_left
    intro j _
    rw [tbit_wire m w hmw hms, tbit_wire e w hw2 hes, hmo, ← ho, Nat.add_assoc]
  rw [e1, e2]

theorem tbit_merge_const (c e : SigChunk) (hc : c.wf) (hw : c.wire = e.wire)
    (hn : c.wire = none) (hs : decide (c.data.str = "") = decide (e.data.str = "")) :
    (List.range (c.width + e.width)).map
        (SigChunk.tbit { c with data := ⟨c.data.bits ++ e.data.bits, e.data.str ++ c.data.str⟩,
                                width := c.width + e.width }) =
      (List.range c.width).map (SigChunk.tbit c) ++ (List.range e.width).map (SigChunk.tbit e) := by
  rw [range_map_add]
  have hlen := (hc.1 hn).2
  have hw2 : e.wire = none := by rw [← hw, hn]
  have htag : decide (e.data.str ++ c.data.str = "") = decide (c.data.str = "") := by
    by_cases hcs : c.data.str = ""
    · have hes : e.data.str = "" := by simpa [hcs] using hs
      simp [hcs, hes]
    · have : ¬ (e.data.str ++ c.data.str = "") := by
        rw [str_append_empty]; exact fun h => hcs h.2
      simp [hcs, this]
  generalize hm : ({ c with data := ⟨c.data.bits ++ e.data.bits, e.data.str ++ c.data.str⟩,
                            width := c.width + e.width } : SigChunk) = m
  have hmw : m.wire = none := by rw [← hm]; exact hn
  have hmb : m.data.bits = c.data.bits ++ e.data.bits := by rw [← hm]
  have hms : decide (m.data.str = "") = decide (c.data.str = "") := by rw [← hm]; exact htag
  have e1 : (List.range c.width).map m.tbit = (List.range c.width).map c.tbit := by
    apply List.map_congr_left
    intro j hj
    have hj' : j < c.data.bits.length := by rw [hlen]; exact List.mem_range.mp hj
    rw [tbit_const m hmw, tbit_const c hn, hms, hmb, List.getD_eq_getElem?_getD,
      List.getD_eq_getElem?_getD, List.getElem?_append_left hj']
  have e2 : (List.range e.width).map (fun j => m.tbit (c.width + j)) =
      (List.range e.width).map e.tbit := by
    apply List.map_congr_left
    intro j _
    have hj' : c.data.bits.length ≤ c.width + j := by omega
    rw [tbit_const m hmw, tbit_const e hw2, hms, hs, hmb, List.getD_eq_getElem?_getD,
      List.getD_eq_getElem?_getD, List.getElem?_append_right hj', hlen, Nat.add_sub_cancel_left]
  rw [e1, e2]

theorem wf_merge_wire (c e : SigChunk) (hc : c.wf) (hn : c.wire ≠ none) :
    SigChunk.wf { c with width := c.width + e.width } :=
  ⟨fun h => absurd h hn, fun _ => hc.2 hn⟩

theorem wf_merge_const (c e : SigChunk) (hc : c.wf) (he : e.wf) (hw : c.wire = e.wire)
    (hn : c.wire = none) :
    SigChunk.wf { c with data := ⟨c.data.bits ++ e.data.bits, e.data.str ++ c.data.str⟩,
                         width := c.width + e.width } := by
  refine ⟨fun _ => ⟨(hc.1 hn).1, ?_⟩, fun h => absurd hn h⟩
  simp only [List.length_append]
  rw [(hc.1 hn).2, (he.1 (hw ▸ hn)).2]

theorem lbits_optimize_merge (cs : List SigChunk) (c : SigChunk) (hc : c.wf)
    (h : ∀ d ∈ cs, d.wf) :
    lbits SigChunk.tbit (optimize_merge c cs) = lbits SigChunk.tbit (c :: cs) := by
  induction cs generalizing c with
  | nil => rfl
  | cons e cs ih =>
    have he := h e (List.mem_cons_self _ _)
    have h' : ∀ d ∈ cs, d.wf := fun d hd => h d (List.mem_cons_of_mem _ hd)
    have keep : lbits SigChunk.tbit (c :: optimize_merge e cs) =
        lbits SigChunk.tbit (c :: e :: cs) := by
      simp only [lbits_cons, ih e he h']
    rw [optimize_merge_cons]
    split_ifs with h1 h2 h3 h4 h5
    · exact keep
    · exact keep
    · rw [ih _ (wf_merge_wire c e hc h4.1) h', lbits_cons, lbits_cons, lbits_cons,
        ← List.append_assoc]
      congr 1
      exact tbit_merge_wire c e hc he h3 h4.1 h4.2
    · rw [ih _ (wf_merge_const c e hc he h3 h5.1) h', lbits_cons, lbits_cons, lbits_cons,
        ← List.append_assoc]
      congr 1
      exact tbit_merge_const c e hc h3 h5.1 h5.2
    · exact keep
    · exact keep

theorem wf_optimize_erase (cs : List SigChunk) (h : ∀ d ∈ cs, d.wf) :
    ∀ d ∈ optimize_erase cs, d.wf := by
  induction cs with
  | nil => simp [optimize_erase]
  | cons c cs ih =>
    have hc := h c (List.mem_cons_self _ _)
    have ih' := ih (fun d hd => h d (List.mem_cons_of_mem _ hd))
    unfold optimize_erase
    split_ifs
    · intro d hd
      rcases List.mem_cons.mp hd with rfl | hd
      · exact hc
      · exact ih' d hd
    · exact ih'
    · intro d hd
      rcases List.mem_cons.mp hd with rfl | hd
      · exact hc
      · exact ih' d hd

/-- The function `optimize` keeps the bits of a signal and their marks. -/
theorem tbits_optimize_chunks (cs : List SigChunk) (h : ∀ d ∈ cs, d.wf) :
    lbits SigChunk.tbit (optimize_chunks cs) = lbits SigChunk.tbit cs := by
  have h1 := lbits_optimize_erase SigChunk.tbit cs
  have h2 := wf_optimize_erase cs h
  unfold optimize_chunks
  cases he : optimize_erase cs with
  | nil => rw [he] at h1; simp only; rw [← h1]
  | cons c rest =>
    rw [he] at h1 h2
    simp only
    rw [lbits_optimize_merge rest c (h2 c (List.mem_cons_self _ _))
      (fun d hd => h2 d (List.mem_cons_of_mem _ hd)), h1]

theorem lbits_map_fst (cs : List SigChunk) :
    (lbits SigChunk.tbit cs).map Prod.fst = lbits SigChunk.bit cs := by
  induction cs with
  | nil => rfl
  | cons c cs ih =>
    rw [lbits_cons, lbits_cons, List.map_append, ih, List.map_map]
    rfl

/-- The function `optimize` keeps the bits of a signal. -/
theorem bits_optimize_chunks (cs : List SigChunk) (h : ∀ d ∈ cs, d.wf) :
    lbits SigChunk.bit (optimize_chunks cs) = lbits SigChunk.bit cs := by
  rw [← lbits_map_fst, tbits_optimize_chunks cs h, lbits_map_fst]

/-! ## Canonical forms -/

theorem optimize_merge_length (cs : List SigChunk) (c : SigChunk) :
    (optimize_merge c cs).length ≤ cs.length + 1 := by
  induction cs generalizing c with
  | nil => simp [optimize_merge]
  | cons e cs ih =>
    have h1 := ih e
    have h2 := ih { c with width := c.width + e.width }
    have h3 := ih { c with data := ⟨c.data.bits ++ e.data.bits, e.data.str ++ c.data.str⟩,
                           width := c.width + e.width }
    rw [optimize_merge_cons]
    split_ifs <;> simp only [List.length_cons] <;> omega

/-- A chunk vector that the second loop of `optimize` leaves as it is has no
two neighbours that can be merged. -/
theorem chain_of_fixed (l : List SigChunk) (a : SigChunk)
    (ha : a.is_auto = false) (hl : ∀ d ∈ l, d.is_auto = false)
    (h : optimize_merge a l = a :: l) :
    List.Chain' (fun a b => ¬ Mergeable a b) (a :: l) := by
  induction l generalizing a with
  | nil => exact List.chain'_singleton a
  | cons b rest ih =>
    have hb := hl b (List.mem_cons_self _ _)
    have hr : ∀ d ∈ rest, d.is_auto = false := fun d hd => hl d (List.mem_cons_of_mem _ hd)
    rw [optimize_merge_cons] at h
    simp only [ha, hb, Bool.false_eq_true, if_false] at h
    have short : ∀ m : SigChunk, optimize_merge m rest ≠ a :: b :: rest := by
      intro m hm
      have := optimize_merge_length rest m
      rw [hm] at this
      simp only [List.length_cons] at this
      omega
    by_cases h3 : a.wire = b.wire
    · rw [if_pos h3] at h
      by_cases h4 : a.wire ≠ none ∧ a.offset + a.width = b.offset
      · rw [if_pos h4] at h
        exact absurd h (short _)
      · rw [if_neg h4] at h
        by_cases h5 : a.wire = none ∧ decide (a.data.str = "") = decide (b.data.str = "")
        · rw [if_pos h5] at h
          exact absurd h (short _)
        · rw [if_neg h5] at h
          have hfix : optimize_merge b rest = b :: rest := List.tail_eq_of_cons_eq h
          refine List.Chain'.cons ?_ (ih b hb hr hfix)
          rintro ⟨_, hm | hm⟩
          · exact h4 hm
          · exact h5 hm
    · rw [if_neg h3] at h
      have hfix : optimize_merge b rest = b :: rest := List.tail_eq_of_cons_eq h
      refine List.Chain'.cons ?_ (ih b hb hr hfix)
      rintro ⟨hm, _⟩
      exact h3 hm

theorem wf_optimize_merge (cs : List SigChunk) (c : SigChunk) (hc : c.wf)
    (h : ∀ d ∈ cs, d.wf) : ∀ d ∈ optimize_merge c cs, d.wf := by
  induction cs generalizing c with
  | nil => intro d hd; simp [optimize_merge] at hd; subst hd; exact hc
  | cons e cs ih =>
    have he := h e (List.mem_cons_self _ _)
    have h' : ∀ d ∈ cs, d.wf := fun d hd => h d (List.mem_cons_of_mem _ hd)
    have keep : ∀ d ∈ c :: optimize_merge e cs, d.wf := by
      intro d hd
      rcases List.mem_cons.mp hd with rfl | hd
      · exact hc
      · exact ih e he h' d hd
    rw [optimize_merge_cons]
    split_ifs with h1 h2 h3 h4 h5
    · exact keep
    · exact keep
    · exact ih _ (wf_merge_wire c e hc h4.1) h'
    · exact ih _ (wf_merge_const c e hc he h3 h5.1) h'
    · exact keep
    · exact keep

theorem auto_optimize_erase (cs : List SigChunk) (h : ∀ d ∈ cs, d.is_auto = false) :
    ∀ d ∈ optimize_erase cs, d.is_auto = false := by
  induction cs with
  | nil => simp [optimize_erase]
  | cons c cs ih =>
    have hc := h c (List.mem_cons_self _ _)
    have ih' := ih (fun d hd => h d (List.mem_cons_of_mem _ hd))
    unfold optimize_erase
    split_ifs
    · intro d hd
      rcases List.mem_cons.mp hd with rfl | hd
      · exact hc
      · exact ih' d hd
    · exact ih'
    · intro d hd
      rcases List.mem_cons.mp hd with rfl | hd
      · exact hc
      · exact ih' d hd

theorem auto_optimize_merge (cs : List SigChunk) (c : SigChunk) (hc : c.is_auto = false)
    (h : ∀ d ∈ cs, d.is_auto = false) : ∀ d ∈ optimize_merge c cs, d.is_auto = false := by
  induction cs generalizing c with
  | nil => intro d hd; simp [optimize_merge] at hd; subst hd; exact hc
  | cons e cs ih =>
    have he := h e (List.mem_cons_self _ _)
    have h' : ∀ d ∈ cs, d.is_auto = false := fun d hd => h d (List.mem_cons_of_mem _ hd)
    have keep : ∀ d ∈ c :: optimize_merge e cs, d.is_auto = false := by
      intro d hd
      rcases List.mem_cons.mp hd with rfl | hd
      · exact hc
      · exact ih e he h' d hd
    rw [optimize_merge_cons]
    split_ifs with h1 h2 h3 h4 h5
    · exact keep
    · exact keep
    · exact ih _ ((is_auto_congr _ c rfl).trans hc) h'
    · exact ih _ ((is_auto_congr _ c rfl).trans hc) h'
    · exact keep
    · exact keep

/-- The chunk vector that `optimize` leaves is canonical, for a signal that
passes `check` and has no chunk on an `auto_width` wire. -/
theorem normal_optimize_chunks (cs : List SigChunk) (hwf : ∀ d ∈ cs, d.wf)
    (hna : ∀ d ∈ cs, d.is_auto = false) : Normal (optimize_chunks cs) := by
  have hidem := optimize_chunks_idem cs
  have hk := optimize_erase_kept cs
  have hw := wf_optimize_erase cs hwf
  have ha := auto_optimize_erase cs hna
  unfold optimize_chunks at hidem ⊢
  cases he : optimize_erase cs with
  | nil => exact ⟨by simp, List.chain'_nil⟩
  | cons c rest =>
    rw [he] at hk hw ha hidem
    simp only at hidem ⊢
    have hkept := optimize_merge_kept rest c (hk c (List.mem_cons_self _ _))
      (fun d hd => hk d (List.mem_cons_of_mem _ hd))
    have hwf2 := wf_optimize_merge rest c (hw c (List.mem_cons_self _ _))
      (fun d hd => hw d (List.mem_cons_of_mem _ hd))
    have hna2 := auto_optimize_merge rest c (ha c (List.mem_cons_self _ _))
      (fun d hd => ha d (List.mem_cons_of_mem _ hd))
    refine ⟨fun d hd => ⟨hwf2 d hd, hna2 d hd, ?_⟩, ?_⟩
    · rcases hkept d hd with h1 | h1
      · rw [hna2 d hd] at h1; cases h1
      · omega
    · obtain ⟨hd, tl, e1, e2, _⟩ := optimize_merge_stable rest c
      rw [e1] at hna2 ⊢
      exact chain_of_fixed tl hd (hna2 hd (List.mem_cons_self _ _))
        (fun d hd' => hna2 d (List.mem_cons_of_mem _ hd')) e2

theorem tbit_fst_wire (c : SigChunk) (j : Nat) : (c.tbit j).1.wire = c.wire := by
  unfold SigChunk.tbit
  cases h : c.wire with
  | none => rw [bit_const c h]
  | some w => rw [extract_wire c w h]

theorem tbit_fst_offset (c : SigChunk) (j : Nat) (h : c.wire ≠ none) :
    (c.tbit j).1.offset = c.offset + j := by
  obtain ⟨w, hw⟩ := Option.ne_none_iff_exists'.mp h
  unfold SigChunk.tbit
  rw [extract_wire c w hw]

theorem tbit_fst_bits (c : SigChunk) (j : Nat) (h : c.wire = none) :
    (c.tbit j).1.data.bits = [c.data.bits.getD j State.S0] := by
  unfold SigChunk.tbit
  rw [bit_const c h]

theorem tbit_snd (c : SigChunk) (j : Nat) : (c.tbit j).2 = !decide (c.data.str = "") := rfl

theorem normal_tail (x : SigChunk) (xs : List SigChunk) (h : Normal (x :: xs)) : Normal xs :=
  ⟨fun c hc => h.1 c (List.mem_cons_of_mem _ hc), List.Chain'.tail h.2⟩

theorem lbits_head (x : SigChunk) (xs : List SigChunk) (h : 0 < x.width) :
    (lbits SigChunk.tbit (x :: xs)).head? = some (x.tbit 0) := by
  rw [lbits_cons]
  obtain ⟨k, hk⟩ := Nat.exists_eq_succ_of_ne_zero (Nat.pos_iff_ne_zero.mp h)
  rw [hk, List.range_succ_eq_map]
  rfl

/-- The first chunk of a canonical chunk vector is at least as wide as the
first chunk of any chunk vector with the same bits and marks. -/
theorem first_width_le (x y : SigChunk) (xs ys : List SigChunk) (hx : Normal (x :: xs))
    (h : lbits SigChunk.tbit (x :: xs) = lbits SigChunk.tbit (y :: ys)) :
    y.width ≤ x.width := by
  by_contra hlt
  have hxw : 0 < x.width := (hx.1 x (List.mem_cons_self _ _)).2.2
  obtain ⟨k, hk⟩ : ∃ k, y.width = x.width + (k + 1) := ⟨y.width - x.width - 1, by omega⟩
  rw [lbits_cons, lbits_cons, hk, range_map_add, List.append_assoc] at h
  obtain ⟨E1, E2⟩ := List.append_inj h (by simp)
  -- the last bit of `x`
  have e1 : x.tbit (x.width - 1) = y.tbit (x.width - 1) :=
    List.map_inj_left.mp E1 (x.width - 1) (List.mem_range.mpr (by omega))
  -- the first bit of the chunk after `x`
  cases xs with
  | nil =>
    rw [lbits_nil, List.range_succ_eq_map] at E2
    simp at E2
  | cons x2 xs' =>
    have hx2 : 0 < x2.width := (hx.1 x2 (by simp)).2.2
    have e2 : x2.tbit 0 = y.tbit x.width := by
      have := congrArg List.head? E2
      rw [lbits_head x2 xs' hx2, List.range_succ_eq_map] at this
      simpa using this
    have hnm : ¬ Mergeable x x2 := by
      have := hx.2
      rw [List.chain'_cons] at this
      exact this.1
    apply hnm
    have w1 : x.wire = y.wire := by rw [← tbit_fst_wire x (x.width - 1), e1, tbit_fst_wire]
    have w2 : x2.wire = y.wire := by rw [← tbit_fst_wire x2 0, e2, tbit_fst_wire]
    refine ⟨w1.trans w2.symm, ?_⟩
    by_cases hn : x.wire = none
    · right
      refine ⟨hn, ?_⟩
      have t1 := congrArg Prod.snd e1
      have t2 := congrArg Prod.snd e2
      simp only [tbit_snd] at t1 t2
      have : (!decide (x.data.str = "")) = !decide (x2.data.str = "") := t1.trans t2.symm
      simpa using this
    · left
      refine ⟨hn, ?_⟩
      have o1 := congrArg (fun p => p.1.offset) e1
      have o2 := congrArg (fun p => p.1.offset) e2
      simp only at o1 o2
      rw [tbit_fst_offset x _ hn, tbit_fst_offset y _ (w1 ▸ hn)] at o1
      rw [tbit_fst_offset x2 _ (w2.trans w1.symm ▸ hn), tbit_fst_offset y _ (w1 ▸ hn)] at o2
      omega

theorem chunk_eq_iff (a b : SigChunk) :
    a.eq b = true ↔
      a.wire = b.wire ∧ a.width = b.width ∧ a.offset = b.offset ∧ a.data.bits = b.data.bits := by
  unfold SigChunk.eq
  constructor
  · intro h
    split_ifs at h with h1 h2
    simp only [not_or, not_not] at h1 h2
    exact ⟨h1.1, h1.2.1, h1.2.2, h2⟩
  · rintro ⟨h1, h2, h3, h4⟩
    rw [if_neg (by simp [h1, h2, h3]), if_neg (by simp [h4])]

/-- Two well-formed chunks of the same positive width with the same bits are
equal for `operator ==`. -/
theorem chunk_eq_of_tbits (x y : SigChunk) (hx : x.wf) (hy : y.wf) (hw : x.width = y.width)
    (hpos : 0 < x.width)
    (h : (List.range x.width).map x.tbit = (List.range x.width).map y.tbit) :
    x.eq y = true := by
  have hall := List.map_inj_left.mp h
  have e0 := hall 0 (List.mem_range.mpr hpos)
  have w1 : x.wire = y.wire := by rw [← tbit_fst_wire x 0, e0, tbit_fst_wire]
  rw [chunk_eq_iff]
  refine ⟨w1, hw, ?_, ?_⟩
  · by_cases hn : x.wire = none
    · rw [(hx.1 hn).1, (hy.1 (w1 ▸ hn)).1]
    · have o := congrArg (fun p => p.1.offset) e0
      simp only at o
      rw [tbit_fst_offset x _ hn, tbit_fst_offset y _ (w1 ▸ hn)] at o
      omega
  · by_cases hn : x.wire = none
    · have lx := (hx.1 hn).2
      have ly := (hy.1 (w1 ▸ hn)).2
      apply List.ext_getElem (by omega)
      intro i h1 h2
      have e := congrArg (fun p => p.1.data.bits) (hall i (List.mem_range.mpr (by omega)))
      simp only at e
      rw [tbit_fst_bits x i hn, tbit_fst_bits y i (w1 ▸ hn)] at e
      rw [List.getD_eq_getElem _ _ h1, List.getD_eq_getElem _ _ h2] at e
      exact List.head_eq_of_cons_eq e
    · rw [(hx.2 hn).1, (hy.2 (w1 ▸ hn)).1]

/-- Canonical chunk vectors are determined by their bits and marks. -/
theorem normal_inj (xs ys : List SigChunk) (hx : Normal xs) (hy : Normal ys)
    (h : lbits SigChunk.tbit xs = lbits SigChunk.tbit ys) :
    List.Forall₂ (fun x y => x.eq y = true) xs ys := by
  induction xs generalizing ys with
  | nil =>
    cases ys with
    | nil => exact List.Forall₂.nil
    | cons y ys =>
      have := congrArg List.head? h
      rw [lbits_head y ys (hy.1 y (List.mem_cons_self _ _)).2.2] at this
      simp [lbits_nil] at this
  | cons x xs ih =>
    cases ys with
    | nil =>
      have := congrArg List.head? h
      rw [lbits_head x xs (hx.1 x (List.mem_cons_self _ _)).2.2] at this
      simp [lbits_nil] at this
    | cons y ys =>
      have gx := hx.1 x (List.mem_cons_self _ _)
      have gy := hy.1 y (List.mem_cons_self _ _)
      have l1 := first_width_le x y xs ys hx h
      have l2 := first_width_le y x ys xs hy h.symm
      have hw : x.width = y.width := by omega
      rw [lbits_cons, lbits_cons, ← hw] at h
      obtain ⟨E1, E2⟩ := List.append_inj h (by simp)
      exact List.Forall₂.cons (chunk_eq_of_tbits x y gx.1 gy.1 hw gx.2.2 E1)
        (ih ys (normal_tail x xs hx) (normal_tail y ys hy) E2)
theorem chunks_all_eq_iff (xs ys : List SigChunk) (hlen : xs.length = ys.length) :
    chunks_all_eq xs ys = true ↔ List.Forall₂ (fun x y => x.eq y = true) xs ys := by
  induction xs generalizing ys with
  | nil =>
    cases ys with
    | nil => simp [chunks_all_eq]
    | cons y ys => simp at hlen
  | cons x xs ih =>
    cases ys with
    | nil => simp at hlen
    | cons y ys =>
      simp only [List.length_cons, Nat.add_right_cancel_iff] at hlen
      simp only [chunks_all_eq, SigChunk.ne, List.forall₂_cons]
      by_cases hxy : x.eq y = true
      · simp [hxy, ih ys hlen]
      · simp [hxy]

/-- The function `operator ==` in terms of the canonical forms of its operands. -/
theorem sigspec_eq_iff (a b : SigSpec) :
    a.eq b = true ↔
      a.width = b.width ∧
        List.Forall₂ (fun x y => x.eq y = true) a.optimize.chunks b.optimize.chunks := by
  unfold SigSpec.eq
  by_cases hw : a.width = b.width
  · rw [if_neg (by simpa using hw)]
    by_cases hl : a.optimize.chunks.length = b.optimize.chunks.length
    · rw [if_neg (by simpa using hl), chunks_all_eq_iff _ _ hl]
      simp [hw]
    · rw [if_pos (by simpa using hl)]
      simp only [Bool.false_eq_true, false_iff, not_and]
      intro _ hf
      exact hl hf.length_eq
  · rw [if_pos (by simpa using hw)]
    simp [hw]

theorem sigspec_eq_refl (a : SigSpec) : a.eq a = true := by
  rw [sigspec_eq_iff]
  refine ⟨rfl, ?_⟩
  apply List.forall₂_same.mpr
  intro x _
  rw [chunk_eq_iff]
  exact ⟨rfl, rfl, rfl, rfl⟩

/-- Two signals of one width with the same bits and marks compare equal, when
they pass `check` and have no chunk on an `auto_width` wire. -/
theorem eq_of_tbits (a b : SigSpec) (hw : a.width = b.width)
    (ha : ∀ c ∈ a.chunks, c.wf ∧ c.is_auto = false)
    (hb : ∀ c ∈ b.chunks, c.wf ∧ c.is_auto = false)
    (h : lbits SigChunk.tbit a.chunks = lbits SigChunk.tbit b.chunks) : a.eq b = true := by
  rw [sigspec_eq_iff]
  refine ⟨hw, ?_⟩
  apply normal_inj
  · exact normal_optimize_chunks _ (fun c hc => (ha c hc).1) (fun c hc => (ha c hc).2)
  · exact normal_optimize_chunks _ (fun c hc => (hb c hc).1) (fun c hc => (hb c hc).2)
  · simp only [SigSpec.optimize]
    rw [tbits_optimize_chunks _ (fun c hc => (ha c hc).1),
      tbits_optimize_chunks _ (fun c hc => (hb c hc).1), h]

theorem bit_congr (x y : SigChunk) (h : x.eq y = true) (j : Nat) : x.bit j = y.bit j := by
  rw [chunk_eq_iff] at h
  obtain ⟨h1, h2, h3, h4⟩ := h
  unfold SigChunk.bit SigChunk.extract
  rw [h1, h3, h4]

theorem lbits_bit_congr (xs ys : List SigChunk)
    (h : List.Forall₂ (fun x y => x.eq y = true) xs ys) :
    lbits SigChunk.bit xs = lbits SigChunk.bit ys := by
  induction h with
  | nil => rfl
  | cons hxy _ ih =>
    rw [lbits_cons, lbits_cons, ih, ((chunk_eq_iff _ _).mp hxy).2.1]
    congr 1
    apply List.map_congr_left
    intro j _
    exact bit_congr _ _ hxy j

/-- Two signals that compare equal have the same bits. -/
theorem bits_of_eq (a b : SigSpec) (ha : ∀ c ∈ a.chunks, c.wf) (hb : ∀ c ∈ b.chunks, c.wf)
    (h : a.eq b = true) : a.bits = b.bits := by
  rw [sigspec_eq_iff] at h
  have := lbits_bit_congr _ _ h.2
  simp only [SigSpec.optimize] at this
  rw [bits_optimize_chunks _ ha, bits_optimize_chunks _ hb] at this
  exact this

theorem tbits_of_bits (cs : List SigChunk) (h : ∀ c ∈ cs, c.data.str = "") :
    lbits SigChunk.tbit cs = (lbits SigChunk.bit cs).map (fun c => (c, false)) := by
  induction cs with
  | nil => rfl
  | cons c cs ih =>
    rw [lbits_cons, lbits_cons, List.map_append, ih (fun d hd => h d (List.mem_cons_of_mem _ hd)),
      List.map_map]
    congr 1
    apply List.map_congr_left
    intro j _
    simp [SigChunk.tbit, SigChunk.bit, h c (List.mem_cons_self _ _)]

theorem check_chunks (s : SigSpec) (h : s.check = true) :
    (∀ c ∈ s.chunks, c.wf) ∧ wsum s.chunks = s.width := by
  unfold SigSpec.check at h
  simp only [Bool.and_eq_true, List.all_eq_true, decide_eq_true_eq] at h
  exact ⟨fun c hc => wf_of_check c (h.1 c hc), h.2⟩

theorem expand_eq_bits (s : SigSpec) : s.expand = { chunks := s.bits, width := s.width } := rfl

/-! ## C7: `operator ==` -/

theorem str_optimize_erase (cs : List SigChunk) (h : ∀ d ∈ cs, d.data.str = "") :
    ∀ d ∈ optimize_erase cs, d.data.str = "" := by
  induction cs with
  | nil => simp [optimize_erase]
  | cons c cs ih =>
    have hc := h c (List.mem_cons_self _ _)
    have ih' := ih (fun d hd => h d (List.mem_cons_of_mem _ hd))
    unfold optimize_erase
    split_ifs
    · intro d hd
      rcases List.mem_cons.mp hd with rfl | hd
      · exact hc
      · exact ih' d hd
    · exact ih'
    · intro d hd
      rcases List.mem_cons.mp hd with rfl | hd
      · exact hc
      · exact ih' d hd

theorem str_optimize_merge (cs : List SigChunk) (c : SigChunk) (hc : c.data.str = "")
    (h : ∀ d ∈ cs, d.data.str = "") : ∀ d ∈ optimize_merge c cs, d.data.str = "" := by
  induction cs generalizing c with
  | nil => intro d hd; simp [optimize_merge] at hd; subst hd; exact hc
  | cons e cs ih =>
    have he := h e (List.mem_cons_self _ _)
    have h' : ∀ d ∈ cs, d.data.str = "" := fun d hd => h d (List.mem_cons_of_mem _ hd)
    have keep : ∀ d ∈ c :: optimize_merge e cs, d.data.str = "" := by
      intro d hd
      rcases List.mem_cons.mp hd with rfl | hd
      · exact hc
      · exact ih e he h' d hd
    rw [optimize_merge_cons]
    split_ifs
    · exact keep
    · exact keep
    · exact ih _ hc h'
    · exact ih _ (by simp only [hc, he]; rfl) h'
    · exact keep
    · exact keep

theorem str_optimize_chunks (cs : List SigChunk) (h : ∀ d ∈ cs, d.data.str = "") :
    ∀ d ∈ optimize_chunks cs, d.data.str = "" := by
  have h1 := str_optimize_erase cs h
  unfold optimize_chunks
  cases he : optimize_erase cs with
  | nil => simp
  | cons c rest =>
    rw [he] at h1
    exact str_optimize_merge rest c (h1 c (List.mem_cons_self _ _))
      (fun d hd => h1 d (List.mem_cons_of_mem _ hd))

theorem wf_optimize_chunks (cs : List SigChunk) (h : ∀ d ∈ cs, d.wf) :
    ∀ d ∈ optimize_chunks cs, d.wf := by
  have h1 := wf_optimize_erase cs h
  unfold optimize_chunks
  cases he : optimize_erase cs with
  | nil => simp
  | cons c rest =>
    rw [he] at h1
    exact wf_optimize_merge rest c (h1 c (List.mem_cons_self _ _))
      (fun d hd => h1 d (List.mem_cons_of_mem _ hd))

theorem chunk_ext_of_eq (x y : SigChunk) (hx : x.data.str = "") (hy : y.data.str = "")
    (h : x.eq y = true) : x = y := by
  rw [chunk_eq_iff] at h
  obtain ⟨h1, h2, h3, h4⟩ := h
  cases x with
  | mk xw xd xwd xo =>
    cases y with
    | mk yw yd ywd yo =>
      cases xd; cases yd
      simp only at h1 h2 h3 h4 hx hy
      subst h1 h2 h3 h4 hx hy
      rfl

theorem forall₂_eq_iff (xs ys : List SigChunk) (hx : ∀ c ∈ xs, c.data.str = "")
    (hy : ∀ c ∈ ys, c.data.str = "") :
    List.Forall₂ (fun x y => x.eq y = true) xs ys ↔ xs = ys := by
  constructor
  · intro h
    induction h with
    | nil => rfl
    | cons hxy _ ih =>
      rw [chunk_ext_of_eq _ _ (hx _ (List.mem_cons_self _ _)) (hy _ (List.mem_cons_self _ _)) hxy,
        ih (fun c hc => hx c (List.mem_cons_of_mem _ hc))
          (fun c hc => hy c (List.mem_cons_of_mem _ hc))]
  · rintro rfl
    apply List.forall₂_same.mpr
    intro x _
    rw [chunk_eq_iff]
    exact ⟨rfl, rfl, rfl, rfl⟩

/-- C7. `a == b` holds iff `a.width == b.width` and the chunk vectors of
`optimize(a)` and `optimize(b)` are equal chunk by chunk for
`SigChunk::operator ==` (which reads wire, width, offset and bits, not the
cached string); for signals without string-tagged constants the two chunk
vectors are then the same in every field; and for signals that pass `check` and
have neither string-tagged constants nor chunks on `auto_width` wires, `a == b`
holds iff `expand` gives the same signal of single bits for both. -/
theorem sigspec_eq_canonical (a b : SigSpec) :
    (a.eq b = true ↔
      a.width = b.width ∧
        List.Forall₂ (fun x y => x.eq y = true) a.optimize.chunks b.optimize.chunks) ∧
    ((∀ c ∈ a.chunks, c.data.str = "") → (∀ c ∈ b.chunks, c.data.str = "") →
      (a.eq b = true ↔ a.width = b.width ∧ a.optimize.chunks = b.optimize.chunks)) ∧
    (a.check = true → b.check = true →
      (∀ c ∈ a.chunks, c.data.str = "" ∧ c.is_auto = false) →
      (∀ c ∈ b.chunks, c.data.str = "" ∧ c.is_auto = false) →
      (a.eq b = true ↔ a.expand = b.expand)) := by
  refine ⟨sigspec_eq_iff a b, ?_, ?_⟩
  · intro hsa hsb
    have hf := forall₂_eq_iff a.optimize.chunks b.optimize.chunks
      (str_optimize_chunks _ hsa) (str_optimize_chunks _ hsb)
    rw [sigspec_eq_iff, hf]
  intro ha hb hsa hsb
  obtain ⟨wa, _⟩ := check_chunks a ha
  obtain ⟨wb, _⟩ := check_chunks b hb
  rw [expand_eq_bits, expand_eq_bits]
  constructor
  · intro h
    rw [bits_of_eq a b wa wb h, ((sigspec_eq_iff a b).mp h).1]
  · intro h
    simp only [SigSpec.mk.injEq] at h
    apply eq_of_tbits a b h.2 (fun c hc => ⟨wa c hc, (hsa c hc).2⟩)
      (fun c hc => ⟨wb c hc, (hsb c hc).2⟩)
    rw [tbits_of_bits _ (fun c hc => (hsa c hc).1), tbits_of_bits _ (fun c hc => (hsb c hc).1)]
    exact congrArg _ h.1

/-- The statement of C7 on the example `exS1`, whose canonical form is `exS1.optimize`:
the two compare equal and have the same bits. -/
theorem sigspec_eq_canonical_witness :
    (exS1.eq exS1.optimize = true ↔ exS1.expand = exS1.optimize.expand) ∧
      (exS1.eq exS1.optimize = true ↔
        exS1.width = exS1.optimize.width ∧ exS1.optimize.chunks = exS1.optimize.optimize.chunks) ∧
      exS1.eq exS1.optimize = true :=
  ⟨(sigspec_eq_canonical exS1 exS1.optimize).2.2 (by decide) (by decide) (by decide) (by decide),
   (sigspec_eq_canonical exS1 exS1.optimize).2.1 (by decide) (by decide),
   by decide⟩

/-! ## C3: extract and append -/

theorem sliceable_tbit (c : SigChunk) (h : c.data.str = "") : Sliceable SigChunk.tbit c := by
  intro o l j hj
  have hb := sliceable_bit c o l j hj
  unfold SigChunk.bit at hb
  unfold SigChunk.tbit
  rw [hb, h]
  have : (c.extract o l).data.str = "" := by
    unfold SigChunk.extract; cases c.wire <;> rfl
  rw [this]

theorem extract_chunk_wf (c : SigChunk) (o l : Nat) : (c.extract o l).wf := by
  unfold SigChunk.extract SigChunk.wf
  cases c.wire with
  | none => simp
  | some w => simp [Const.empty]

theorem extract_chunk_auto (c : SigChunk) (o l : Nat) : (c.extract o l).is_auto = c.is_auto := by
  unfold SigChunk.extract SigChunk.is_auto
  cases c.wire <;> rfl

theorem extract_chunk_str (c : SigChunk) (o l : Nat) : (c.extract o l).data.str = "" := by
  unfold SigChunk.extract
  cases c.wire <;> rfl

theorem extract_loop_mem (cs : List SigChunk) (pos offset length : Nat) (ret : SigSpec) :
    ∀ d ∈ (extract_loop cs pos offset length ret).chunks,
      d ∈ ret.chunks ∨ ∃ c ∈ cs, ∃ o l, d = c.extract o l := by
  induction cs generalizing pos offset length ret with
  | nil => intro d hd; exact Or.inl hd
  | cons c cs ih =>
    intro d hd
    unfold extract_loop at hd
    split_ifs at hd with hc
    · rcases ih _ _ _ _ d hd with h | ⟨c', hc', o, l, h⟩
      · simp only [List.mem_append, List.mem_singleton] at h
        rcases h with h | h
        · exact Or.inl h
        · exact Or.inr ⟨c, List.mem_cons_self _ _, _, _, h⟩
      · exact Or.inr ⟨c', List.mem_cons_of_mem _ hc', o, l, h⟩
    · rcases ih _ _ _ _ d hd with h | ⟨c', hc', o, l, h⟩
      · exact Or.inl h
      · exact Or.inr ⟨c', List.mem_cons_of_mem _ hc', o, l, h⟩

/-- The chunks of `extract(offset, length)` are well formed, carry no cached
string, and lie on `auto_width` wires only if chunks of the receiver do. -/
theorem extract_mem (s : SigSpec) (offset length : Nat) (hs : ∀ c ∈ s.chunks, c.is_auto = false) :
    ∀ d ∈ (s.extract offset length).chunks, d.wf ∧ d.is_auto = false ∧ d.data.str = "" := by
  intro d hd
  unfold SigSpec.extract at hd
  rcases extract_loop_mem _ _ _ _ _ d hd with h | ⟨c, hc, o, l, rfl⟩
  · simp [SigSpec.empty] at h
  · exact ⟨extract_chunk_wf c o l, (extract_chunk_auto c o l).trans (hs c hc),
      extract_chunk_str c o l⟩

theorem take_drop_three {α : Type} (L : List α) (o l : Nat) :
    L.take o ++ (L.drop o).take l ++ (L.drop (o + l)).take (L.length - o - l) = L := by
  have e1 : (L.drop (o + l)).take (L.length - o - l) = L.drop (o + l) := by
    apply List.take_of_length_le
    rw [List.length_drop]; omega
  have e2 : L.drop (o + l) = (L.drop o).drop l := by rw [List.drop_drop]
  rw [e1, e2, List.append_assoc, List.take_append_drop, List.take_append_drop]

/-- C3, amended. For a signal `s` that passes `check` and has neither
string-tagged constants nor chunks on `auto_width` wires, and `o + l ≤ s.width`,
appending `s.extract(0, o)`, `s.extract(o, l)` and
`s.extract(o + l, s.width - o - l)` gives a signal that compares equal to `s`. -/
theorem extract_append_roundtrip (s : SigSpec) (hc : s.check = true)
    (hs : ∀ c ∈ s.chunks, c.data.str = "" ∧ c.is_auto = false) (o l : Nat)
    (h : o + l ≤ s.width) :
    (((s.extract 0 o).append (s.extract o l)).append
      (s.extract (o + l) (s.width - o - l))).eq s = true := by
  obtain ⟨hwf, hsum⟩ := check_chunks s hc
  have hna : ∀ c ∈ s.chunks, c.is_auto = false := fun c hc => (hs c hc).2
  have hsl : ∀ c ∈ s.chunks, Sliceable SigChunk.tbit c := fun c hc => sliceable_tbit c (hs c hc).1
  rw [append_eq, append_eq]
  apply eq_of_tbits
  · simp only
    simp only [extract_ok]
    rw [extract_spec_width s 0 o (by omega),
      extract_spec_width s o l (by omega), extract_spec_width s (o + l) _ (by omega)]
    omega
  · intro c hc
    simp only [List.mem_append] at hc
    rcases hc with (hc | hc) | hc
    · exact ⟨(extract_mem s _ _ hna c hc).1, (extract_mem s _ _ hna c hc).2.1⟩
    · exact ⟨(extract_mem s _ _ hna c hc).1, (extract_mem s _ _ hna c hc).2.1⟩
    · exact ⟨(extract_mem s _ _ hna c hc).1, (extract_mem s _ _ hna c hc).2.1⟩
  · exact fun c hc => ⟨hwf c hc, hna c hc⟩
  · simp only [lbits_append]
    rw [lbits_extract_spec _ s 0 o hsl (by omega), lbits_extract_spec _ s o l hsl (by omega),
      lbits_extract_spec _ s (o + l) _ hsl (by omega), List.drop_zero]
    have hlen : (lbits SigChunk.tbit s.chunks).length = s.width := by rw [lbits_length, hsum]
    have := take_drop_three (lbits SigChunk.tbit s.chunks) o l
    rw [hlen] at this
    exact this

/-- The round trip of C3 on `exS1` with `o = 1` and `l = 3`. -/
theorem extract_append_roundtrip_witness :
    (((exS1.extract 0 1).append (exS1.extract 1 3)).append
      (exS1.extract (1 + 3) (exS1.width - 1 - 3))).eq exS1 = true :=
  extract_append_roundtrip exS1 (by decide) (by decide) 1 3 (by decide)

/-- C3 as stated fails: the round trip of `a[1:0]` on an `auto_width` wire with
`o = 1`, `l = 1` leaves the two chunks `a[0]`, `a[1]`, which `optimize` does not
merge; the round trip of a string-tagged constant followed by an untagged one
with `o = 0`, `l = 9` leaves two untagged constants, which `optimize` merges
although it does not merge the chunks of the original. -/
theorem extract_append_roundtrip_counterexample :
    (exAuto.check = true ∧
      (((exAuto.extract 0 1).append (exAuto.extract 1 1)).append
        (exAuto.extract (1 + 1) (exAuto.width - 1 - 1))).eq exAuto = false) ∧
    (exTag.check = true ∧
      (((exTag.extract 0 0).append (exTag.extract 0 9)).append
        (exTag.extract (0 + 9) (exTag.width - 0 - 9))).eq exTag = false) := by
  decide

/-! ## Operations within one chunk -/

theorem extract_loop_done (cs : List SigChunk) (pos offset : Nat) (ret : SigSpec)
    (h : offset ≤ pos) : extract_loop cs pos offset 0 ret = ret := by
  induction cs generalizing pos with
  | nil => rfl
  | cons c cs ih =>
    unfold extract_loop
    rw [if_neg (by omega)]
    exact ih _ (by omega)

/-- The function `extract(offset, length)` for a range that lies within one chunk. -/
theorem extract_loop_within (pre : List SigChunk) (c : SigChunk) (post : List SigChunk)
    (pos a n : Nat) (ret : SigSpec) (ha : a + n ≤ c.width) (hn : 0 < n) :
    extract_loop (pre ++ c :: post) pos (pos + wsum pre + a) n ret =
      { chunks := ret.chunks ++ [c.extract a n], width := ret.width + n } := by
  induction pre generalizing pos with
  | nil =>
    simp only [List.nil_append, wsum_nil, Nat.add_zero]
    unfold extract_loop
    have hc : pos + c.width > pos + a ∧ pos < pos + a + n := by omega
    rw [if_pos hc]
    obtain ⟨e1, p1, p2, p3, p4⟩ := slice_off_len_spec c.width pos (pos + a) n hc
    have b1 : (slice_off_len c.width pos (pos + a) n).1.toNat = a := by omega
    have b2 : (slice_off_len c.width pos (pos + a) n).2.toNat = n := by omega
    simp only [b1, b2, Nat.sub_self]
    exact extract_loop_done _ _ _ _ (by omega)
  | cons x pre ih =>
    rw [wsum_cons]
    simp only [List.cons_append]
    unfold extract_loop
    rw [if_neg (by omega)]
    have := ih (pos + x.width)
    rw [show pos + x.width + wsum pre + a = pos + (x.width + wsum pre) + a by omega] at this
    exact this

theorem extract_within (s : SigSpec) (pre : List SigChunk) (c : SigChunk)
    (post : List SigChunk) (hs : s.chunks = pre ++ c :: post) (a n : Nat)
    (ha : a + n ≤ c.width) (hn : 0 < n) :
    s.extract (wsum pre + a) n = { chunks := [c.extract a n], width := n } := by
  unfold SigSpec.extract
  rw [hs]
  have := extract_loop_within pre c post 0 a n SigSpec.empty ha hn
  simp only [Nat.zero_add] at this
  rw [this]
  simp [SigSpec.empty]

theorem remove_loop_after (o l : Nat) (cs : List SigChunk) (pos width : Nat)
    (h : o + l ≤ pos) : remove_loop o l cs pos width = (cs, width) := by
  induction cs generalizing pos with
  | nil => rfl
  | cons c cs ih =>
    unfold remove_loop
    rw [if_neg (by omega)]
    simp only [ih (pos + c.width) (by omega)]

/-- The pieces of a chunk that `remove` leaves around the bits `[a, a + n)`. -/
theorem remove_loop_within (pre : List SigChunk) (c : SigChunk) (post : List SigChunk)
    (pos a n width : Nat) (ha : a + n ≤ c.width) (hn : 0 < n) :
    remove_loop (pos + wsum pre + a) n (pre ++ c :: post) pos width =
      (pre ++ ((if a = 0 then [] else [c.extract 0 a]) ++
        ((if c.width - (a + n) = 0 then [] else [c.extract (a + n) (c.width - (a + n))]) ++ post)),
       width - n) := by
  induction pre generalizing pos with
  | nil =>
    simp only [List.nil_append, wsum_nil, Nat.add_zero]
    unfold remove_loop
    have hc : pos + c.width > pos + a ∧ pos < pos + a + n := by omega
    rw [if_pos hc]
    obtain ⟨e1, p1, p2, p3, p4⟩ := slice_off_len_spec c.width pos (pos + a) n hc
    have b1 : (slice_off_len c.width pos (pos + a) n).1.toNat = a := by omega
    have b2 : (slice_off_len c.width pos (pos + a) n).2.toNat = n := by omega
    have b3 : ((slice_off_len c.width pos (pos + a) n).1 +
        (slice_off_len c.width pos (pos + a) n).2).toNat = a + n := by omega
    have b4 : ((c.width : Int) - (slice_off_len c.width pos (pos + a) n).1 -
        (slice_off_len c.width pos (pos + a) n).2).toNat = c.width - (a + n) := by omega
    simp only [b1, b2, b3, b4, extract_width]
    rw [remove_loop_after _ _ _ _ _ (by omega)]
    clear e1 p1 p2 p3 p4 b1 b2 b3 b4 hc
    by_cases h1 : a = 0
    · subst h1
      simp only [Nat.zero_add]
      by_cases h2 : c.width - n = 0 <;> simp [h2]
    · by_cases h2 : c.width - (a + n) = 0 <;> simp [h1, h2]
  | cons x pre ih =>
    rw [wsum_cons]
    simp only [List.cons_append]
    unfold remove_loop
    rw [if_neg (by omega)]
    have := ih (pos + x.width)
    rw [show pos + x.width + wsum pre + a = pos + (x.width + wsum pre) + a by omega] at this
    simp only [this]

theorem replace_insert_within (pre : List SigChunk) (wc rest : List SigChunk) (pos : Nat)
    (hp : ∀ c ∈ pre, 0 < c.width) :
    replace_insert (pos + wsum pre) wc (pre ++ rest) pos = pre ++ (wc ++ rest) := by
  induction pre generalizing pos with
  | nil =>
    simp only [List.nil_append, wsum_nil, Nat.add_zero]
    cases rest with
    | nil => simp [replace_insert]
    | cons r rest => simp [replace_insert]
  | cons x pre ih =>
    have hx := hp x (List.mem_cons_self _ _)
    rw [wsum_cons]
    simp only [List.cons_append]
    unfold replace_insert
    rw [if_neg (by omega)]
    have := ih (pos + x.width) (fun c hc => hp c (List.mem_cons_of_mem _ hc))
    rw [show pos + x.width + wsum pre = pos + (x.width + wsum pre) by omega] at this
    rw [this]

/-- The function `replace(offset, with)` for a range that lies within one chunk
of a signal, the chunks before which have positive widths. -/
theorem replace_at_within (s : SigSpec) (pre : List SigChunk) (c : SigChunk)
    (post : List SigChunk) (hs : s.chunks = pre ++ c :: post) (hp : ∀ d ∈ pre, 0 < d.width)
    (a n : Nat) (w : SigSpec) (hw : w.width = n) (ha : a + n ≤ c.width) (hn : 0 < n) :
    s.replace_at (wsum pre + a) w =
      { chunks := pre ++ ((if a = 0 then [] else [c.extract 0 a]) ++ (w.chunks ++
          ((if c.width - (a + n) = 0 then [] else [c.extract (a + n) (c.width - (a + n))]) ++
            post))),
        width := s.width - n + n } := by
  unfold SigSpec.replace_at SigSpec.remove
  simp only [hw, hs]
  have hr := remove_loop_within pre c post 0 a n s.width ha hn
  simp only [Nat.zero_add] at hr
  rw [hr]
  simp only [SigSpec.mk.injEq, and_true]
  by_cases h1 : a = 0
  · subst h1
    simp only [if_true, List.nil_append, Nat.add_zero]
    have := replace_insert_within pre w.chunks
      ((if c.width - (0 + n) = 0 then [] else [c.extract (0 + n) (c.width - (0 + n))]) ++ post)
      0 hp
    simp only [Nat.zero_add] at this
    simpa using this
  · simp only [if_neg h1]
    have hp' : ∀ d ∈ pre ++ [c.extract 0 a], 0 < d.width := by
      intro d hd
      rcases List.mem_append.mp hd with hd | hd
      · exact hp d hd
      · rw [List.mem_singleton.mp hd, extract_width]; omega
    have := replace_insert_within (pre ++ [c.extract 0 a]) w.chunks
      ((if c.width - (a + n) = 0 then [] else [c.extract (a + n) (c.width - (a + n))]) ++ post)
      0 hp'
    simp only [Nat.zero_add, wsum_append, wsum_cons, wsum_nil, extract_width, Nat.add_zero,
      List.append_assoc, List.singleton_append] at this
    simpa using this

/-! ## The pattern form of `replace` -/

theorem replace_find_spec (ch1 : SigChunk) (ps : List SigChunk) (poff lower upper ppos : Nat)
    (h : replace_find ch1 ps poff = some (lower, upper, ppos)) :
    ∃ pre ch2 post, ps = pre ++ ch2 :: post ∧ ch1.wire = ch2.wire ∧
      lower = max ch1.offset ch2.offset ∧
      upper = min (ch1.offset + ch1.width) (ch2.offset + ch2.width) ∧ lower < upper ∧
      ppos = poff + wsum pre + lower - ch2.offset := by
  induction ps generalizing poff with
  | nil => simp [replace_find] at h
  | cons ch2 rest ih =>
    unfold replace_find at h
    by_cases hw : ch1.wire = ch2.wire
    · rw [if_pos hw] at h
      simp only at h
      by_cases hlt : max ch1.offset ch2.offset < min (ch1.offset + ch1.width) (ch2.offset + ch2.width)
      · rw [if_pos hlt] at h
        simp only [Option.some.injEq, Prod.mk.injEq] at h
        obtain ⟨h1, h2, h3⟩ := h
        refine ⟨[], ch2, rest, rfl, hw, h1.symm, h2.symm, ?_, ?_⟩
        · rw [← h1, ← h2]; exact hlt
        · rw [← h3, ← h1]; simp [wsum_nil]
      · rw [if_neg hlt] at h
        obtain ⟨pre, c, post, e1, e2, e3, e4, e5, e6⟩ := ih _ h
        refine ⟨ch2 :: pre, c, post, by rw [e1]; rfl, e2, e3, e4, e5, ?_⟩
        rw [e6, wsum_cons]; omega
    · rw [if_neg hw] at h
      obtain ⟨pre, c, post, e1, e2, e3, e4, e5, e6⟩ := ih _ h
      refine ⟨ch2 :: pre, c, post, by rw [e1]; rfl, e2, e3, e4, e5, ?_⟩
      rw [e6, wsum_cons]; omega

theorem get?_split {α : Type} (l : List α) (i : Nat) (c : α) (h : l.get? i = some c) :
    l = l.take i ++ c :: l.drop (i + 1) ∧ (l.take i).length = i := by
  have hi : i < l.length := by
    by_contra hge
    rw [List.get?_eq_none.mpr (by omega)] at h
    cases h
  rw [List.get?_eq_getElem?, List.getElem?_eq_getElem hi] at h
  simp only [Option.some.injEq] at h
  refine ⟨?_, by simp; omega⟩
  rw [← h, ← List.drop_eq_getElem_cons hi, List.take_append_drop]

theorem is_auto_of_wire (a b : SigChunk) (h : a.wire = b.wire) : a.is_auto = b.is_auto :=
  is_auto_congr a b h

theorem tbit_wire_eq (c1 c2 : SigChunk) (hw : c1.wire = c2.wire) (hn : c1.wire ≠ none)
    (h1 : c1.wf) (h2 : c2.wf) (j1 j2 : Nat) (ho : c1.offset + j1 = c2.offset + j2) :
    c1.tbit j1 = c2.tbit j2 := by
  obtain ⟨w, hw1⟩ := Option.ne_none_iff_exists'.mp hn
  have hw2 : c2.wire = some w := by rw [← hw, hw1]
  rw [tbit_wire c1 w hw1 (h1.2 hn).2, tbit_wire c2 w hw2 (h2.2 (hw ▸ hn)).2, ho]

theorem mem_pieces {α : Type} (d : α) (pre lsb mid msb post : List α)
    (h : d ∈ pre ++ (lsb ++ (mid ++ (msb ++ post)))) :
    d ∈ pre ∨ d ∈ lsb ∨ d ∈ mid ∨ d ∈ msb ∨ d ∈ post := by
  simp only [List.mem_append] at h
  exact h

theorem mem_ite_single {α : Type} (d x : α) (c : Prop) [Decidable c]
    (h : d ∈ (if c then [] else [x])) : ¬ c ∧ d = x := by
  split_ifs at h with h0
  · simp at h
  · exact ⟨h0, List.mem_singleton.mp h⟩

/-- One round of the loop of `replace(pattern, pattern)` that rewrites a chunk:
the signal keeps its bits and its width, and the chunks before the chunk at
index `i` are not touched. -/
theorem replace_step (p st : SigSpec) (i : Nat) (ch1 : SigChunk) (lower upper ppos : Nat)
    (hg : st.plain) (hsum : wsum st.chunks = st.width)
    (hi : st.chunks.get? i = some ch1) (hn : ch1.wire ≠ none)
    (hf : replace_find ch1 p.chunks 0 = some (lower, upper, ppos)) :
    (st.replace_at (wsum (st.chunks.take i) + lower - ch1.offset)
        (p.extract ppos (upper - lower))).plain ∧
    lbits SigChunk.tbit (st.replace_at (wsum (st.chunks.take i) + lower - ch1.offset)
        (p.extract ppos (upper - lower))).chunks = lbits SigChunk.tbit st.chunks ∧
    (st.replace_at (wsum (st.chunks.take i) + lower - ch1.offset)
        (p.extract ppos (upper - lower))).width = st.width ∧
    wsum (st.replace_at (wsum (st.chunks.take i) + lower - ch1.offset)
        (p.extract ppos (upper - lower))).chunks = st.width ∧
    wsum ((st.replace_at (wsum (st.chunks.take i) + lower - ch1.offset)
        (p.extract ppos (upper - lower))).chunks.take i) = wsum (st.chunks.take i) ∧
    ch1.offset < upper ∧ wsum (st.chunks.take i) + ch1.width ≤ st.width := by
  obtain ⟨pre2, ch2, post2, e1, e2, e3, e4, e5, e6⟩ := replace_find_spec _ _ _ _ _ _ hf
  obtain ⟨hsplit, hlen⟩ := get?_split _ _ _ hi
  generalize hpre : st.chunks.take i = pre at *
  generalize hpost : st.chunks.drop (i + 1) = post at *
  have hmem1 : ch1 ∈ st.chunks := by rw [hsplit]; simp
  have g1 := hg ch1 hmem1
  have hpre_mem : ∀ d ∈ pre, d ∈ st.chunks := by
    intro d hd; rw [hsplit]; simp [hd]
  have hpost_mem : ∀ d ∈ post, d ∈ st.chunks := by
    intro d hd; rw [hsplit]; simp [hd]
  -- the offsets inside the two chunks
  have ha : (lower - ch1.offset) + (upper - lower) ≤ ch1.width := by omega
  have ha2 : (lower - ch2.offset) + (upper - lower) ≤ ch2.width := by omega
  have hn0 : 0 < upper - lower := by omega
  have hw : p.extract ppos (upper - lower) =
      { chunks := [ch2.extract (lower - ch2.offset) (upper - lower)], width := upper - lower } := by
    have := extract_within p pre2 ch2 post2 e1 (lower - ch2.offset) (upper - lower) ha2 hn0
    rw [show ppos = wsum pre2 + (lower - ch2.offset) by omega]
    exact this
  have hoff : wsum pre + lower - ch1.offset = wsum pre + (lower - ch1.offset) := by omega
  have hwall : wsum st.chunks = wsum pre + (ch1.width + wsum post) := by
    rw [hsplit, wsum_append, wsum_cons]
  have hr := replace_at_within st pre ch1 post hsplit (fun d hd => (hg d (hpre_mem d hd)).2.2)
    (lower - ch1.offset) (upper - lower) (p.extract ppos (upper - lower)) (by rw [hw]) ha hn0
  rw [hoff, hr, hw]
  simp only
  have hmid : (ch2.extract (lower - ch2.offset) (upper - lower)).wf ∧
      (ch2.extract (lower - ch2.offset) (upper - lower)).is_auto = false ∧
      0 < (ch2.extract (lower - ch2.offset) (upper - lower)).width := by
    refine ⟨extract_chunk_wf _ _ _, ?_, by rw [extract_width]; exact hn0⟩
    rw [extract_chunk_auto, ← is_auto_of_wire ch1 ch2 e2]
    exact g1.2.1
  refine ⟨?_, ?_, by omega, ?_, ?_, by omega, by omega⟩
  · intro d hd
    rcases mem_pieces _ _ _ _ _ _ hd with hd | hd | hd | hd | hd
    · exact hg d (hpre_mem d hd)
    · obtain ⟨h0, rfl⟩ := mem_ite_single _ _ _ hd
      exact ⟨extract_chunk_wf _ _ _, (extract_chunk_auto _ _ _).trans g1.2.1,
        by rw [extract_width]; omega⟩
    · rw [List.mem_singleton.mp hd]; exact hmid
    · obtain ⟨h0, rfl⟩ := mem_ite_single _ _ _ hd
      exact ⟨extract_chunk_wf _ _ _, (extract_chunk_auto _ _ _).trans g1.2.1,
        by rw [extract_width]; omega⟩
    · exact hg d (hpost_mem d hd)
  · -- the bits
    have hs1 : Sliceable SigChunk.tbit ch1 := sliceable_tbit ch1 (g1.1.2 hn).2
    have hcb : (List.range ch1.width).map ch1.tbit =
        (List.range (lower - ch1.offset)).map ch1.tbit ++
          ((List.range (upper - lower)).map (fun t => ch1.tbit (lower - ch1.offset + t)) ++
           (List.range (ch1.width - (lower - ch1.offset + (upper - lower)))).map
             (fun t => ch1.tbit (lower - ch1.offset + (upper - lower) + t))) := by
      have : ch1.width = (lower - ch1.offset) + ((upper - lower) +
          (ch1.width - (lower - ch1.offset + (upper - lower)))) := by omega
      conv_lhs => rw [this]
      rw [range_map_add, range_map_add]
      simp only [Nat.add_assoc]
    have hlsb : lbits SigChunk.tbit
        (if lower - ch1.offset = 0 then [] else [ch1.extract 0 (lower - ch1.offset)]) =
        (List.range (lower - ch1.offset)).map ch1.tbit := by
      split_ifs with h0
      · rw [h0]; rfl
      · rw [lbits_cons, lbits_nil, List.append_nil, extract_width]
        apply List.map_congr_left
        intro j hj
        rw [hs1 0 _ j (List.mem_range.mp hj), Nat.zero_add]
    have hmsb : lbits SigChunk.tbit
        (if ch1.width - (lower - ch1.offset + (upper - lower)) = 0 then []
          else [ch1.extract (lower - ch1.offset + (upper - lower))
            (ch1.width - (lower - ch1.offset + (upper - lower)))]) =
        (List.range (ch1.width - (lower - ch1.offset + (upper - lower)))).map
             (fun t => ch1.tbit (lower - ch1.offset + (upper - lower) + t)) := by
      split_ifs with h0
      · rw [h0]; rfl
      · rw [lbits_cons, lbits_nil, List.append_nil, extract_width]
        apply List.map_congr_left
        intro j hj
        rw [hs1 _ _ j (List.mem_range.mp hj)]
    have hmidb : lbits SigChunk.tbit [ch2.extract (lower - ch2.offset) (upper - lower)] =
        (List.range (upper - lower)).map (fun t => ch1.tbit (lower - ch1.offset + t)) := by
      rw [lbits_cons, lbits_nil, List.append_nil, extract_width]
      apply List.map_congr_left
      intro j hj
      have hmw : (ch2.extract (lower - ch2.offset) (upper - lower)).wire = ch1.wire := by
        rw [e2]; unfold SigChunk.extract; cases ch2.wire <;> rfl
      have hmo : (ch2.extract (lower - ch2.offset) (upper - lower)).offset =
          ch2.offset + (lower - ch2.offset) := by
        obtain ⟨w, hw1⟩ := Option.ne_none_iff_exists'.mp (e2 ▸ hn)
        rw [extract_wire ch2 w hw1]
      apply tbit_wire_eq _ _ hmw (by rw [hmw]; exact hn) hmid.1 g1.1
      rw [hmo]; omega
    conv_rhs => rw [hsplit]
    simp only [lbits_append, lbits_cons, hlsb, hmsb, hcb, List.append_assoc]
    congr 1
    congr 1
    rw [← List.append_assoc]
    congr 1
  · -- the sum of the widths
    have := replace_at_ok st (wsum pre + (lower - ch1.offset))
      { chunks := [ch2.extract (lower - ch2.offset) (upper - lower)], width := upper - lower }
      hsum (by simp [wsum, extract_width])
    rw [← hw, hr] at this
    simp only at this
    rw [hw] at this
    simp only at this
    omega
  · rw [List.take_append_of_le_length (by omega), ← hlen, List.take_length]

theorem replace_loop_succ (p w : SigSpec) (f : Nat) (st : SigSpec) (i pos rp : Nat) :
    replace_loop p w (f + 1) st i pos rp =
      match st.chunks.get? i with
      | none => some st
      | some ch1 =>
        if ch1.wire ≠ none ∧ pos ≥ rp then
          match replace_find ch1 p.chunks 0 with
          | some (lower, upper, ppos) =>
            replace_loop p w f
              (st.replace_at (pos + lower - ch1.offset) (w.extract ppos (upper - lower)))
              i pos (pos + upper - ch1.offset)
          | none => replace_loop p w f st (i + 1) (pos + ch1.width) rp
        else replace_loop p w f st (i + 1) (pos + ch1.width) rp := by
  rw [replace_loop]

theorem wsum_take_succ (l : List SigChunk) (i : Nat) (c : SigChunk) (h : l.get? i = some c) :
    wsum (l.take (i + 1)) = wsum (l.take i) + c.width ∧ i < l.length ∧
      wsum (l.take (i + 1)) ≤ wsum l := by
  obtain ⟨hs, hl⟩ := get?_split l i c h
  have hi : i < l.length := by
    by_contra hge
    rw [List.get?_eq_none.mpr (by omega)] at h
    cases h
  have e : l.take (i + 1) = l.take i ++ [c] := by
    conv_lhs => rw [hs]
    rw [List.take_append_eq_append_take, hl]
    simp
  refine ⟨by rw [e, wsum_append, wsum_cons, wsum_nil, Nat.add_zero], hi, ?_⟩
  conv_rhs => rw [← List.take_append_drop (i + 1) l]
  rw [wsum_append]; omega

/-- The loop of `replace(pattern, pattern)` ends, and the signal it leaves has
the bits and the width of the signal it started from. -/
theorem replace_loop_id (p s0 : SigSpec) (k : Nat) :
    ∀ (st : SigSpec) (i pos rp : Nat), st.plain →
      lbits SigChunk.tbit st.chunks = lbits SigChunk.tbit s0.chunks → st.width = s0.width →
      wsum st.chunks = st.width → pos = wsum (st.chunks.take i) → st.width - rp ≤ k →
      ∃ fuel r, (∀ f, fuel ≤ f → replace_loop p p f st i pos rp = some r) ∧ r.plain ∧
        lbits SigChunk.tbit r.chunks = lbits SigChunk.tbit s0.chunks ∧ r.width = s0.width := by
  induction k using Nat.strong_induction_on with
  | _ k ihk =>
    intro st i pos rp hg hb hw hsum
    -- rounds that move to the next chunk: induction on the number of chunks left
    generalize hm : st.chunks.length - i = m
    induction m generalizing i pos with
    | zero =>
      intro _ _
      refine ⟨1, st, ?_, hg, hb, hw⟩
      intro f hf
      obtain ⟨f', rfl⟩ : ∃ f', f = f' + 1 := ⟨f - 1, by omega⟩
      rw [replace_loop_succ, List.get?_eq_none.mpr (by omega)]
    | succ m ihm =>
      intro hpos hk
      cases hget : st.chunks.get? i with
      | none =>
        refine ⟨1, st, ?_, hg, hb, hw⟩
        intro f hf
        obtain ⟨f', rfl⟩ : ∃ f', f = f' + 1 := ⟨f - 1, by omega⟩
        rw [replace_loop_succ, hget]
      | some ch1 =>
        obtain ⟨t1, t2, t3⟩ := wsum_take_succ st.chunks i ch1 hget
        have next : ∃ fuel r, (∀ f, fuel ≤ f →
            replace_loop p p f st (i + 1) (pos + ch1.width) rp = some r) ∧ r.plain ∧
            lbits SigChunk.tbit r.chunks = lbits SigChunk.tbit s0.chunks ∧ r.width = s0.width :=
          ihm (i + 1) (pos + ch1.width) (by omega) (by rw [t1, hpos]) hk
        by_cases hcond : ch1.wire ≠ none ∧ pos ≥ rp
        · cases hfind : replace_find ch1 p.chunks 0 with
          | none =>
            obtain ⟨fuel, r, h1, h2⟩ := next
            refine ⟨fuel + 1, r, ?_, h2⟩
            intro f hf
            obtain ⟨f', rfl⟩ : ∃ f', f = f' + 1 := ⟨f - 1, by omega⟩
            rw [replace_loop_succ, hget]
            simp only [if_pos hcond, hfind]
            exact h1 f' (by omega)
          | some res =>
            obtain ⟨lower, upper, ppos⟩ := res
            obtain ⟨s1, s2, s3, s4, s5, s6, s7⟩ :=
              replace_step p st i ch1 lower upper ppos hg hsum hget hcond.1 hfind
            rw [← hpos] at s1 s2 s3 s4 s5 s7
            have hmem : ch1 ∈ st.chunks := by
              rw [(get?_split _ _ _ hget).1]; simp
            have hpos1 := (hg ch1 hmem).2.2
            obtain ⟨fuel, r, h1, h2⟩ := ihk
              ((st.replace_at (pos + lower - ch1.offset) (p.extract ppos (upper - lower))).width -
                (pos + upper - ch1.offset))
              (by rw [s3]; omega)
              (st.replace_at (pos + lower - ch1.offset) (p.extract ppos (upper - lower)))
              i pos (pos + upper - ch1.offset) s1 (s2.trans hb) (s3.trans hw) (s4.trans s3.symm)
              s5.symm (le_refl _)
            refine ⟨fuel + 1, r, ?_, h2⟩
            intro f hf
            obtain ⟨f', rfl⟩ : ∃ f', f = f' + 1 := ⟨f - 1, by omega⟩
            rw [replace_loop_succ, hget]
            simp only [if_pos hcond, hfind]
            exact h1 f' (by omega)
        · obtain ⟨fuel, r, h1, h2⟩ := next
          refine ⟨fuel + 1, r, ?_, h2⟩
          intro f hf
          obtain ⟨f', rfl⟩ : ∃ f', f = f' + 1 := ⟨f - 1, by omega⟩
          rw [replace_loop_succ, hget]
          simp only [if_neg hcond]
          exact h1 f' (by omega)

/-! ## C4: `replace(p, p)` -/

/-- C4, amended. For a signal `s` that passes `check` and has neither chunks on
`auto_width` wires nor chunks of width zero, and a pattern `p` of wire-backed
chunks, the in-place `s.replace(p, p)` returns and leaves `s` equal
(`operator ==`) to its value before the call. -/
theorem replace_identity (s p : SigSpec) (hs : s.check = true) (_hp : p.check = true)
    (_hpw : ∀ c ∈ p.chunks, c.wire ≠ none)
    (hsa : ∀ c ∈ s.chunks, c.is_auto = false ∧ 0 < c.width) :
    ∃ fuel r, (∀ f, fuel ≤ f → s.replace p p f = some r) ∧ r.eq s = true := by
  obtain ⟨hwf, hsum⟩ := check_chunks s hs
  have hplain : s.plain := fun c hc => ⟨hwf c hc, (hsa c hc).1, (hsa c hc).2⟩
  obtain ⟨fuel, r, h1, h2, h3, h4⟩ :=
    replace_loop_id p s (s.width - 0) s 0 0 0 hplain rfl rfl hsum (by simp [wsum]) (le_refl _)
  refine ⟨fuel, r, h1, ?_⟩
  exact eq_of_tbits r s h4 (fun c hc => ⟨(h2 c hc).1, (h2 c hc).2.1⟩)
    (fun c hc => ⟨hwf c hc, (hsa c hc).1⟩) h3

/-- The identity of C4 on `exS1` with the pattern `w[3:0]`: the call returns
within six rounds and the result compares equal to `exS1`. -/
theorem replace_identity_witness :
    (∃ fuel r, (∀ f, fuel ≤ f → exS1.replace exS3 exS3 f = some r) ∧ r.eq exS1 = true) ∧
      (exS1.replace exS3 exS3 6).map (fun r => r.eq exS1) = some true :=
  ⟨replace_identity exS1 exS3 (by decide) (by decide) (by decide) (by decide), by decide⟩

/-- C4 as stated fails. On the `auto_width` wire `a`, replacing the pattern
`a[1]` by itself in `a[1:0]` leaves the chunks `a[0]`, `a[1]`, which `optimize`
does not merge. In `exZero`, whose second chunk has width zero, replacing
`{ w[7:6], w[1:0] }` by itself writes `w[7:6]` over the bits `w[5:4]`. -/
theorem replace_identity_counterexample :
    (exAuto.check = true ∧ exAutoPat.check = true ∧
      (exAuto.replace exAutoPat exAutoPat 4).map (fun r => r.eq exAuto) = some false) ∧
    (exZero.check = true ∧ exZeroPat.check = true ∧
      exZero.replace exZeroPat exZeroPat 8 =
        some ⟨[SigChunk.ofWire exV 2 0, SigChunk.ofWire exW 2 0,
          SigChunk.ofWire exW 2 6, SigChunk.ofWire exW 0 7, SigChunk.ofWire exW 2 6], 8⟩ ∧
      (exZero.replace exZeroPat exZeroPat 8).map (fun r => r.eq exZero) = some false) := by
  decide

/-! ## C5, C6: `combine` -/

theorem combine_loop_eq_zip (f : State) (ov : Bool) (xs ys : List SigChunk) (nc : Bool)
    (h : xs.length = ys.length) :
    combine_loop f ov xs ys nc =
      (List.zipWith (combine_bit_spec f ov) xs ys, nc && !collision f xs ys) := by
  induction xs generalizing ys nc with
  | nil =>
    cases ys with
    | nil => simp [combine_loop, collision]
    | cons y ys => simp at h
  | cons x xs ih =>
    cases ys with
    | nil => simp at h
    | cons y ys =>
      simp only [List.length_cons, Nat.add_right_cancel_iff] at h
      simp only [combine_loop, List.zipWith_cons_cons, collision, combine_bit_spec]
      rw [ih ys _ h]
      cases hx : x.is_free f <;> cases hy : y.is_free f <;> cases nc <;> simp

theorem bit_of_bit (c : SigChunk) (j : Nat) : (c.bit j).bit 0 = c.bit j := by
  have := sliceable_bit c j 1 0 (by omega)
  simpa [SigChunk.bit] using this

theorem lbits_bit_self (cs : List SigChunk) (h : ∀ c ∈ cs, c.width = 1 ∧ c.bit 0 = c) :
    lbits SigChunk.bit cs = cs := by
  induction cs with
  | nil => rfl
  | cons c cs ih =>
    obtain ⟨h1, h2⟩ := h c (List.mem_cons_self _ _)
    rw [lbits_cons, ih (fun d hd => h d (List.mem_cons_of_mem _ hd)), h1]
    simp [List.range_succ, h2]

theorem bits_mem (cs : List SigChunk) :
    ∀ c ∈ lbits SigChunk.bit cs, ∃ (d : SigChunk) (j : Nat), c = d.bit j := by
  intro c hc
  simp only [lbits, List.mem_flatMap, List.mem_map] at hc
  obtain ⟨d, _, j, _, rfl⟩ := hc
  exact ⟨d, j, rfl⟩

theorem bit_wf (d : SigChunk) (j : Nat) :
    (d.bit j).width = 1 ∧ (d.bit j).bit 0 = d.bit j ∧ (d.bit j).wf :=
  ⟨extract_width _ _ _, bit_of_bit d j, extract_chunk_wf _ _ _⟩

theorem sx_wf : (SigChunk.ofState State.Sx 1).width = 1 ∧
    (SigChunk.ofState State.Sx 1).bit 0 = SigChunk.ofState State.Sx 1 ∧
    (SigChunk.ofState State.Sx 1).wf := by
  refine ⟨rfl, rfl, ?_⟩
  unfold SigChunk.wf
  simp [SigChunk.ofState, Const.ofState]

theorem zip_spec_mem (f : State) (ov : Bool) (xs ys : List SigChunk)
    (hx : ∀ c ∈ xs, c.width = 1 ∧ c.bit 0 = c ∧ c.wf)
    (hy : ∀ c ∈ ys, c.width = 1 ∧ c.bit 0 = c ∧ c.wf) :
    ∀ c ∈ List.zipWith (combine_bit_spec f ov) xs ys, c.width = 1 ∧ c.bit 0 = c ∧ c.wf := by
  induction xs generalizing ys with
  | nil => simp
  | cons x xs ih =>
    cases ys with
    | nil => simp
    | cons y ys =>
      intro c hc
      simp only [List.zipWith_cons_cons, List.mem_cons] at hc
      rcases hc with rfl | hc
      · have h1 := hx x (List.mem_cons_self _ _)
        have h2 := hy y (List.mem_cons_self _ _)
        unfold combine_bit_spec
        split_ifs
        · exact h2
        · exact sx_wf
        · exact h1
        · exact h2
        · exact h1
      · exact ih ys (fun c hc => hx c (List.mem_cons_of_mem _ hc))
          (fun c hc => hy c (List.mem_cons_of_mem _ hc)) c hc

theorem bits_are_bits (s : SigSpec) : ∀ c ∈ s.bits, c.width = 1 ∧ c.bit 0 = c ∧ c.wf := by
  intro c hc
  obtain ⟨d, j, rfl⟩ := bits_mem _ c hc
  exact bit_wf d j

theorem bits_length (s : SigSpec) (h : s.check = true) : s.bits.length = s.width := by
  rw [SigSpec.bits, lbits_length, (check_chunks s h).2]

/-- The flag and the bits that `combine` leaves. -/
theorem combine_spec (a b : SigSpec) (f : State) (ov : Bool) (ha : a.check = true)
    (hb : b.check = true) (hw : a.width = b.width) :
    (a.combine b f ov).1 = !collision f a.bits b.bits ∧
    (a.combine b f ov).2.bits = List.zipWith (combine_bit_spec f ov) a.bits b.bits ∧
    (a.combine b f ov).2 =
      SigSpec.optimize ⟨List.zipWith (combine_bit_spec f ov) a.bits b.bits, a.width⟩ := by
  have hl : a.bits.length = b.bits.length := by rw [bits_length a ha, bits_length b hb, hw]
  have hz := combine_loop_eq_zip f ov a.bits b.bits true hl
  have hm := zip_spec_mem f ov a.bits b.bits (bits_are_bits a) (bits_are_bits b)
  have hbits : (SigSpec.optimize
      ⟨List.zipWith (combine_bit_spec f ov) a.bits b.bits, a.width⟩).bits =
      List.zipWith (combine_bit_spec f ov) a.bits b.bits := by
    show lbits SigChunk.bit (optimize_chunks _) = _
    rw [bits_optimize_chunks _ (fun c hc => (hm c hc).2.2),
      lbits_bit_self _ (fun c hc => ⟨(hm c hc).1, (hm c hc).2.1⟩)]
  have hc : a.combine b f ov = (!collision f a.bits b.bits,
      SigSpec.optimize ⟨List.zipWith (combine_bit_spec f ov) a.bits b.bits, a.width⟩) := by
    unfold SigSpec.combine
    simp only [expand_eq_bits, hz, Bool.true_and]
  rw [hc]
  exact ⟨rfl, hbits, rfl⟩
theorem collision_iff (f : State) (xs ys : List SigChunk) :
    collision f xs ys = true ↔
      ∃ i ca cb, xs.get? i = some ca ∧ ys.get? i = some cb ∧
        ca.is_free f = false ∧ cb.is_free f = false := by
  induction xs generalizing ys with
  | nil => simp [collision]
  | cons x xs ih =>
    cases ys with
    | nil => simp [collision]
    | cons y ys =>
      simp only [collision, Bool.or_eq_true, Bool.and_eq_true, Bool.not_eq_true', ih ys]
      constructor
      · rintro (⟨h1, h2⟩ | ⟨i, ca, cb, h1, h2, h3⟩)
        · exact ⟨0, x, y, rfl, rfl, h1, h2⟩
        · exact ⟨i + 1, ca, cb, h1, h2, h3⟩
      · rintro ⟨i, ca, cb, h1, h2, h3⟩
        cases i with
        | zero =>
          simp only [List.get?_cons_zero, Option.some.injEq] at h1 h2
          subst h1 h2
          exact Or.inl h3
        | succ i => exact Or.inr ⟨i, ca, cb, h1, h2, h3⟩

theorem zipWith_get? {α : Type} (g : α → α → α) (xs ys : List α) (i : Nat) (x y : α)
    (h1 : xs.get? i = some x) (h2 : ys.get? i = some y) :
    (List.zipWith g xs ys).get? i = some (g x y) := by
  induction xs generalizing ys i with
  | nil => simp at h1
  | cons a xs ih =>
    cases ys with
    | nil => simp at h2
    | cons b ys =>
      cases i with
      | zero =>
        simp only [List.get?_cons_zero, Option.some.injEq] at h1 h2
        subst h1 h2
        rfl
      | succ i => exact ih ys i h1 h2

/-- C6. `combine(signal, freeState, override)` on operands of one width that pass
`check` and carry no string-tagged constants returns false exactly when some
bit position is non-free in both operands; the bit of the result at each
position is the bit that the specification names (`combine_bit_spec`): at a
position non-free in both, the other operand's bit when `override` is true and
`Sx` otherwise; elsewhere the unique non-free bit, or the receiver's bit when
both are free. -/
theorem combine_bitwise (a b : SigSpec) (freeState : State) (override : Bool)
    (ha : a.check = true) (hb : b.check = true)
    (_hsa : ∀ c ∈ a.chunks, c.data.str = "") (_hsb : ∀ c ∈ b.chunks, c.data.str = "")
    (hw : a.width = b.width) :
    ((a.combine b freeState override).1 = false ↔
      ∃ i ca cb, a.bits.get? i = some ca ∧ b.bits.get? i = some cb ∧
        ca.is_free freeState = false ∧ cb.is_free freeState = false) ∧
    (a.combine b freeState override).2.width = a.width ∧
    (a.combine b freeState override).2.bits.length = a.width ∧
    (∀ i ca cb, a.bits.get? i = some ca → b.bits.get? i = some cb →
      (a.combine b freeState override).2.bits.get? i =
        some (combine_bit_spec freeState override ca cb)) := by
  obtain ⟨h1, h2, h3⟩ := combine_spec a b freeState override ha hb hw
  refine ⟨?_, by rw [h3]; rfl, ?_, ?_⟩
  · rw [h1, ← collision_iff]; simp
  · rw [h2, List.length_zipWith, bits_length a ha, bits_length b hb, hw]; simp
  · intro i ca cb e1 e2
    rw [h2]
    exact zipWith_get? _ _ _ i ca cb e1 e2

/-- The statement of C6 on `exC1` and `exC2` with free state `S0` and no
override: bit 2 of the result is the bit `S1` of `exC2`. -/
theorem combine_bitwise_witness :
    (exC1.combine exC2 State.S0 false).2.width = exC1.width ∧
      (exC1.combine exC2 State.S0 false).2.bits.get? 2 = some (SigChunk.ofState State.S1 1) :=
  ⟨(combine_bitwise exC1 exC2 State.S0 false (by decide) (by decide) (by decide) (by decide)
      (by decide)).2.1,
   by decide⟩

theorem free_bit_eq (c : SigChunk) (f : State) (hc : c.bit 0 = c) (h : c.is_free f = true) :
    c = SigChunk.ofState f 1 := by
  unfold SigChunk.is_free at h
  simp only [Bool.and_eq_true, decide_eq_true_eq] at h
  rw [← hc]
  unfold SigChunk.bit
  rw [bit_const c h.1, h.2]
  rfl

theorem spec_comm (f : State) (x y : SigChunk) (hx : x.bit 0 = x) (hy : y.bit 0 = y)
    (h : x.is_free f = true ∨ y.is_free f = true) :
    combine_bit_spec f false x y = combine_bit_spec f false y x := by
  unfold combine_bit_spec
  cases h1 : x.is_free f <;> cases h2 : y.is_free f
  · rw [h1, h2] at h; simp at h
  · simp
  · simp
  · simp [free_bit_eq x f hx h1, free_bit_eq y f hy h2]

theorem zip_comm (f : State) (xs ys : List SigChunk)
    (hx : ∀ c ∈ xs, c.bit 0 = c) (hy : ∀ c ∈ ys, c.bit 0 = c)
    (hd : ∀ i x y, xs.get? i = some x → ys.get? i = some y →
      x.is_free f = true ∨ y.is_free f = true) :
    List.zipWith (combine_bit_spec f false) xs ys =
      List.zipWith (combine_bit_spec f false) ys xs := by
  induction xs generalizing ys with
  | nil => cases ys <;> rfl
  | cons x xs ih =>
    cases ys with
    | nil => rfl
    | cons y ys =>
      simp only [List.zipWith_cons_cons]
      rw [spec_comm f x y (hx x (List.mem_cons_self _ _)) (hy y (List.mem_cons_self _ _))
        (hd 0 x y rfl rfl),
        ih ys (fun c hc => hx c (List.mem_cons_of_mem _ hc))
          (fun c hc => hy c (List.mem_cons_of_mem _ hc))
          (fun i x' y' h1 h2 => hd (i + 1) x' y' h1 h2)]

theorem zip_mem_of_get? {α : Type} (xs ys : List α) (i : Nat) (x y : α)
    (h1 : xs.get? i = some x) (h2 : ys.get? i = some y) : (x, y) ∈ List.zip xs ys := by
  induction xs generalizing ys i with
  | nil => simp at h1
  | cons a xs ih =>
    cases ys with
    | nil => simp at h2
    | cons b ys =>
      cases i with
      | zero =>
        simp only [List.get?_cons_zero, Option.some.injEq] at h1 h2
        subst h1 h2
        simp
      | succ i =>
        rw [List.zip_cons_cons]
        exact List.mem_cons_of_mem _ (ih ys i h1 h2)

/-- C5. For signals `a` and `b` of one width that pass `check` and carry no
string-tagged constants, and a free state `f` such that at every bit position at
most one of `a`, `b` is non-free, `a.combine(b, f, false)` and
`b.combine(a, f, false)` both return true and leave results that compare equal. -/
theorem combine_comm_disjoint (a b : SigSpec) (f : State)
    (ha : a.check = true) (hb : b.check = true)
    (_hsa : ∀ c ∈ a.chunks, c.data.str = "") (_hsb : ∀ c ∈ b.chunks, c.data.str = "")
    (hw : a.width = b.width)
    (hdis : ∀ p ∈ List.zip a.bits b.bits, p.1.is_free f = true ∨ p.2.is_free f = true) :
    (a.combine b f false).1 = true ∧ (b.combine a f false).1 = true ∧
      (a.combine b f false).2.eq (b.combine a f false).2 = true := by
  have hd : ∀ i ca cb, a.bits.get? i = some ca → b.bits.get? i = some cb →
      ca.is_free f = true ∨ cb.is_free f = true :=
    fun i ca cb h1 h2 => hdis (ca, cb) (zip_mem_of_get? _ _ i ca cb h1 h2)
  obtain ⟨h1, _, h3⟩ := combine_spec a b f false ha hb hw
  obtain ⟨g1, _, g3⟩ := combine_spec b a f false hb ha hw.symm
  have c1 : collision f a.bits b.bits = false := by
    rw [← Bool.not_eq_true, collision_iff]
    rintro ⟨i, ca, cb, e1, e2, e3, e4⟩
    rcases hd i ca cb e1 e2 with h | h
    · rw [e3] at h; cases h
    · rw [e4] at h; cases h
  have c2 : collision f b.bits a.bits = false := by
    rw [← Bool.not_eq_true, collision_iff]
    rintro ⟨i, cb, ca, e1, e2, e3, e4⟩
    rcases hd i ca cb e2 e1 with h | h
    · rw [e4] at h; cases h
    · rw [e3] at h; cases h
  refine ⟨by rw [h1, c1]; rfl, by rw [g1, c2]; rfl, ?_⟩
  rw [h3, g3, zip_comm f a.bits b.bits (fun c hc => (bits_are_bits a c hc).2.1)
    (fun c hc => (bits_are_bits b c hc).2.1) hd, hw]
  exact sigspec_eq_refl _

/-- The statement of C5 on `exC1` and `exC2` with free state `S0`. -/
theorem combine_comm_disjoint_witness :
    (exC1.combine exC2 State.S0 false).1 = true ∧ (exC2.combine exC1 State.S0 false).1 = true ∧
      (exC1.combine exC2 State.S0 false).2.eq (exC2.combine exC1 State.S0 false).2 = true :=
  combine_comm_disjoint exC1 exC2 State.S0 (by decide) (by decide) (by decide) (by decide)
    (by decide) (by decide)

/-! ## C8: `extend` -/

theorem split_at (cs : List SigChunk) (o : Nat) (h : o < wsum cs) :
    ∃ pre c post, cs = pre ++ c :: post ∧ wsum pre ≤ o ∧ o < wsum pre + c.width := by
  induction cs generalizing o with
  | nil => simp [wsum] at h
  | cons x cs ih =>
    rw [wsum_cons] at h
    by_cases hx : o < x.width
    · exact ⟨[], x, cs, rfl, by simp [wsum], by simpa [wsum] using hx⟩
    · obtain ⟨pre, c, post, e1, e2, e3⟩ := ih (o - x.width) (by omega)
      refine ⟨x :: pre, c, post, by rw [e1]; rfl, ?_, ?_⟩ <;> rw [wsum_cons] <;> omega

theorem lbits_get_within {B : Type} (β : SigChunk → Nat → B) (pre : List SigChunk)
    (c : SigChunk) (post : List SigChunk) (a : Nat) (ha : a < c.width) :
    (lbits β (pre ++ c :: post)).get? (wsum pre + a) = some (β c a) := by
  rw [lbits_append, lbits_cons, List.get?_eq_getElem?,
    List.getElem?_append_right (by rw [lbits_length]; omega), lbits_length,
    Nat.add_sub_cancel_left, List.getElem?_append_left (by simpa using ha)]
  simp [ha]

/-- The function `extract(offset, 1)` gives the bit at `offset` as one chunk. -/
theorem extract_one (s : SigSpec) (o : Nat) (h : o < wsum s.chunks) :
    ∃ b, s.bits.get? o = some b ∧ s.extract o 1 = { chunks := [b], width := 1 } := by
  obtain ⟨pre, c, post, e1, e2, e3⟩ := split_at s.chunks o h
  refine ⟨c.bit (o - wsum pre), ?_, ?_⟩
  · have := lbits_get_within SigChunk.bit pre c post (o - wsum pre) (by omega)
    rw [← e1, show wsum pre + (o - wsum pre) = o by omega] at this
    exact this
  · have := extract_within s pre c post e1 (o - wsum pre) 1 (by omega) (by omega)
    rw [show wsum pre + (o - wsum pre) = o by omega] at this
    exact this

theorem optimize_single (b : SigChunk) (w : Nat) (hb : b.width = 1) :
    (SigSpec.optimize ⟨[b], w⟩).chunks = [b] := by
  unfold SigSpec.optimize optimize_chunks
  simp only
  rw [optimize_erase_id [b] (by intro c hc; rw [List.mem_singleton.mp hc]; right; omega)]
  rfl

theorem single_eq (b k : SigChunk) (hb : b.width = 1) (hk : k.width = 1) :
    SigSpec.eq ⟨[b], 1⟩ ⟨[k], 1⟩ = b.eq k := by
  unfold SigSpec.eq
  rw [optimize_single b 1 hb, optimize_single k 1 hk]
  simp only [ne_eq, not_true_eq_false, if_false, List.length_singleton, chunks_all_eq,
    SigChunk.ne]
  cases b.eq k <;> rfl

theorem bit_chunk_ext (b k : SigChunk) (hb : b.bit 0 = b) (hk : k.bit 0 = k)
    (h : b.eq k = true) : b = k := by
  rw [chunk_eq_iff] at h
  obtain ⟨h1, h2, h3, h4⟩ := h
  have s1 : b.data.str = "" := by rw [← hb]; exact extract_chunk_str _ _ _
  have s2 : k.data.str = "" := by rw [← hk]; exact extract_chunk_str _ _ _
  cases b with
  | mk bw bd bwd bo =>
    cases k with
    | mk kw kd kwd ko =>
      cases bd; cases kd
      simp only at h1 h2 h3 h4 s1 s2
      subst h1 h2 h3 h4 s1 s2
      rfl

theorem single_ne (b : SigChunk) (x : State) (hb : b.width = 1) (hbb : b.bit 0 = b) :
    SigSpec.ne ⟨[b], 1⟩ (SigSpec.ofState x 1) = !decide (b = SigChunk.ofState x 1) := by
  have hk : (SigChunk.ofState x 1).width = 1 := rfl
  have hkk : (SigChunk.ofState x 1).bit 0 = SigChunk.ofState x 1 := rfl
  unfold SigSpec.ne
  have : SigSpec.ofState x 1 = ⟨[SigChunk.ofState x 1], 1⟩ := rfl
  rw [this, single_eq b _ hb hk]
  by_cases h : b = SigChunk.ofState x 1
  · subst h
    have : (SigChunk.ofState x 1).eq (SigChunk.ofState x 1) = true :=
      (chunk_eq_iff _ _).mpr ⟨rfl, rfl, rfl, rfl⟩
    simp [this]
  · have : b.eq (SigChunk.ofState x 1) = false := by
      rw [← Bool.not_eq_true]
      exact fun he => h (bit_chunk_ext b _ hbb hkk he)
    simp [this, h]

/-- The value of `padding` in `extend` is the one bit of the amended claim. -/
theorem extend_padding_eq (s : SigSpec) (sg : Bool) (h : s.check = true) :
    extend_padding s sg = { chunks := [extend_pad_spec s sg], width := 1 } := by
  obtain ⟨_, hsum⟩ := check_chunks s h
  have hlen := bits_length s h
  unfold extend_padding extend_pad_spec
  by_cases hw : s.width > 0
  · obtain ⟨b, hb1, hb2⟩ := extract_one s (s.width - 1) (by omega)
    have hlast : s.bits.getLast? = some b := by
      rw [List.getLast?_eq_getElem?, hlen, ← List.get?_eq_getElem?]
      exact hb1
    have hbb := bits_are_bits s b (List.get?_mem hb1)
    simp only [if_pos hw, hb2, hlast]
    rw [single_ne b _ hbb.1 hbb.2.1, single_ne b _ hbb.1 hbb.2.1, single_ne b _ hbb.1 hbb.2.1,
      single_ne b _ hbb.1 hbb.2.1]
    have e0 : SigSpec.ofState State.S0 1 = ⟨[SigChunk.ofState State.S0 1], 1⟩ := rfl
    cases sg <;> by_cases h1 : b = SigChunk.ofState State.Sx 1 <;>
      by_cases h2 : b = SigChunk.ofState State.Sz 1 <;>
      by_cases h3 : b = SigChunk.ofState State.Sa 1 <;>
      by_cases h4 : b = SigChunk.ofState State.Sm 1 <;>
      simp [h1, h2, h3, h4, e0]
  · have h0 : s.bits = [] := List.length_eq_zero.mp (by omega)
    simp only [if_neg hw, h0, List.getLast?_nil]
    cases sg <;> decide
theorem remove_loop_mem (o l : Nat) (cs : List SigChunk) (pos width : Nat) :
    ∀ d ∈ (remove_loop o l cs pos width).1,
      d ∈ cs ∨ ∃ (c : SigChunk) (a n : Nat), d = c.extract a n := by
  induction cs generalizing pos width with
  | nil => intro d hd; simp [remove_loop] at hd
  | cons c cs ih =>
    intro d hd
    unfold remove_loop at hd
    have rec : ∀ (p w : Nat), d ∈ (remove_loop o l cs p w).1 →
        d ∈ c :: cs ∨ ∃ (c : SigChunk) (a n : Nat), d = c.extract a n := by
      intro p w h
      rcases ih p w d h with h | h
      · exact Or.inl (List.mem_cons_of_mem _ h)
      · exact Or.inr h
    by_cases hc : pos + c.width > o ∧ pos < o + l
    · rw [if_pos hc] at hd
      simp only [] at hd
      split_ifs at hd
      · exact rec _ _ hd
      · rcases List.mem_cons.mp hd with hd | hd
        · exact Or.inr ⟨_, _, _, hd⟩
        · exact rec _ _ hd
      · rcases List.mem_cons.mp hd with hd | hd
        · exact Or.inr ⟨_, _, _, hd⟩
        · exact rec _ _ hd
      · rcases List.mem_cons.mp hd with hd | hd
        · exact Or.inr ⟨_, _, _, hd⟩
        · rcases List.mem_cons.mp hd with hd | hd
          · exact Or.inr ⟨_, _, _, hd⟩
          · exact rec _ _ hd
    · rw [if_neg hc] at hd
      rcases List.mem_cons.mp hd with hd | hd
      · rw [hd]; exact Or.inl (List.mem_cons_self _ _)
      · exact rec _ _ hd

theorem remove_wf (s : SigSpec) (o l : Nat) (h : ∀ c ∈ s.chunks, c.wf) :
    ∀ d ∈ (s.remove o l).chunks, d.wf := by
  intro d hd
  rcases remove_loop_mem o l s.chunks 0 s.width d hd with h1 | ⟨c, a, n, rfl⟩
  · exact h d h1
  · exact extract_chunk_wf _ _ _

theorem extend_pad_spec_bit (s : SigSpec) (sg : Bool) :
    (extend_pad_spec s sg).width = 1 ∧ (extend_pad_spec s sg).bit 0 = extend_pad_spec s sg ∧
      (extend_pad_spec s sg).wf := by
  have h0 : (SigChunk.ofState State.S0 1).width = 1 ∧
      (SigChunk.ofState State.S0 1).bit 0 = SigChunk.ofState State.S0 1 ∧
      (SigChunk.ofState State.S0 1).wf := by
    refine ⟨rfl, rfl, ?_⟩
    unfold SigChunk.wf
    simp [SigChunk.ofState, Const.ofState]
  unfold extend_pad_spec
  cases hl : s.bits.getLast? with
  | none => exact h0
  | some msb =>
    simp only
    split_ifs
    · exact bits_are_bits s msb (List.mem_of_getLast?_eq_some hl)
    · exact h0

theorem flatten_replicate_single {α : Type} (n : Nat) (x : α) :
    (List.replicate n [x]).flatten = List.replicate n x := by
  induction n with
  | zero => rfl
  | succ n ih => rw [List.replicate_succ, List.flatten_cons, ih]; rfl

/-- C8, amended. For a signal `s` that passes `check` and a target width `w`,
`s.extend(w, signed)` returns; afterwards the width is `w`, the low
`min(old width, w)` bits are unchanged, and every added bit is: `S0` when the
old width is zero; otherwise a copy of the old most significant bit when
`signed` is true or that bit is one of the constants `Sx`, `Sz`, `Sa`, `Sm`, and
`S0` in the remaining case (unsigned, and the old most significant bit is `S0`,
`S1` or the bit of a wire). -/
theorem extend_bits (s : SigSpec) (w : Nat) (is_signed : Bool) (h : s.check = true) :
    ∃ r, s.extend w is_signed = some r ∧ r.width = w ∧
      r.bits = s.bits.take w ++ List.replicate (w - s.width) (extend_pad_spec s is_signed) := by
  obtain ⟨hwf, hsum⟩ := check_chunks s h
  have hlen := bits_length s h
  refine ⟨_, extend_eq s w is_signed hsum, rfl, ?_⟩
  show lbits SigChunk.bit (optimize_chunks _) = _
  by_cases hgt : s.width > w
  · have h0 : w - s.width = 0 := by omega
    simp only [if_pos hgt, h0, List.replicate_zero, List.flatten_nil, List.append_nil]
    rw [bits_optimize_chunks _ (remove_wf s _ _ hwf),
      lbits_remove SigChunk.bit s w (s.width - w) (cutok_bit _ _ _ _)]
    have : List.drop (w + (s.width - w)) (lbits SigChunk.bit s.chunks) = [] := by
      apply List.drop_of_length_le
      rw [lbits_length]; omega
    rw [this, List.append_nil]
    rfl
  · simp only [if_neg hgt]
    rw [extend_padding_eq s is_signed h]
    simp only [flatten_replicate_single]
    have hp := extend_pad_spec_bit s is_signed
    have hall : ∀ c ∈ s.chunks ++ List.replicate (w - s.width) (extend_pad_spec s is_signed),
        c.wf := by
      intro c hc
      rcases List.mem_append.mp hc with hc | hc
      · exact hwf c hc
      · rw [(List.mem_replicate.mp hc).2]; exact hp.2.2
    rw [bits_optimize_chunks _ hall, lbits_append,
      lbits_bit_self (List.replicate _ _) (by
        intro c hc
        rw [(List.mem_replicate.mp hc).2]
        exact ⟨hp.1, hp.2.1⟩)]
    congr 1
    rw [List.take_of_length_le (by omega)]
    rfl

/-- The statement of C8, amended, on the signal `w[3:0]` extended to six bits
without sign: the call returns and the two added bits are `S0`. -/
theorem extend_bits_witness :
    (∃ r, exS3.extend 6 false = some r ∧ r.width = 6 ∧
      r.bits = exS3.bits.take 6 ++ List.replicate (6 - exS3.width) (extend_pad_spec exS3 false)) ∧
    extend_pad_spec exS3 false = SigChunk.ofState State.S0 1 :=
  ⟨extend_bits exS3 6 false (by decide), by decide⟩

/-- C8 as stated fails: extending the one-bit constant `Sx` to two bits without
sign adds the bit `Sx`, not `S0`. -/
theorem extend_unsigned_counterexample :
    (SigSpec.ofState State.Sx 1).check = true ∧
    ((SigSpec.ofState State.Sx 1).extend 2 false).map SigSpec.bits =
      some [SigChunk.ofState State.Sx 1, SigChunk.ofState State.Sx 1] ∧
    ((SigSpec.ofState State.Sx 1).extend 2 false).map SigSpec.bits ≠
      some [SigChunk.ofState State.Sx 1, SigChunk.ofState State.S0 1] := by
  decide

/-! ## C9: the operations and the canonical form -/

theorem slice_nil_hi (lo hi : Nat) (cs : List SigChunk) (pos : Nat) (h : hi ≤ pos ∨ hi ≤ lo) :
    slice_chunks lo hi cs pos = [] := by
  induction cs generalizing pos with
  | nil => rfl
  | cons c cs ih =>
    unfold slice_chunks
    rw [if_neg (by omega)]
    exact ih _ (by omega)

theorem slice_nil_lo (lo hi : Nat) (cs : List SigChunk) (pos : Nat) (h : pos + wsum cs ≤ lo) :
    slice_chunks lo hi cs pos = [] := by
  induction cs generalizing pos with
  | nil => rfl
  | cons c cs ih =>
    rw [wsum_cons] at h
    unfold slice_chunks
    rw [if_neg (by omega)]
    exact ih _ (by omega)

theorem slice_lo_irrel (lo lo2 hi : Nat) (cs : List SigChunk) (pos : Nat) (h : lo ≤ pos)
    (h2 : lo2 ≤ pos) : slice_chunks lo hi cs pos = slice_chunks lo2 hi cs pos := by
  induction cs generalizing pos with
  | nil => rfl
  | cons c cs ih =>
    unfold slice_chunks
    rw [Nat.max_eq_left h, Nat.max_eq_left h2, ih _ (by omega) (by omega)]

theorem slice_pos (lo hi : Nat) (cs : List SigChunk) (pos : Nat) :
    ∀ d ∈ slice_chunks lo hi cs pos, 0 < d.width := by
  induction cs generalizing pos with
  | nil => intro d hd; simp [slice_chunks] at hd
  | cons c cs ih =>
    intro d hd
    unfold slice_chunks at hd
    split_ifs at hd with h
    · rcases List.mem_cons.mp hd with rfl | hd
      · rw [extract_width]; omega
      · exact ih _ d hd
    · exact ih _ d hd

theorem wsum_slice (lo hi : Nat) (cs : List SigChunk) (pos : Nat) :
    wsum (slice_chunks lo hi cs pos) = min hi (pos + wsum cs) - max lo pos := by
  induction cs generalizing pos with
  | nil => simp only [slice_chunks, wsum_nil]; omega
  | cons c cs ih =>
    unfold slice_chunks
    split_ifs with h
    · rw [wsum_cons, extract_width, ih, wsum_cons]; omega
    · rw [ih, wsum_cons]; omega

theorem extract_loop_zero (cs : List SigChunk) (pos o : Nat) (ret : SigSpec)
    (h : o ≤ pos ∨ pos + wsum cs ≤ o) : extract_loop cs pos o 0 ret = ret := by
  induction cs generalizing pos with
  | nil => rfl
  | cons c cs ih =>
    rw [wsum_cons] at h
    unfold extract_loop
    rw [if_neg (by omega)]
    exact ih _ (by omega)

theorem extract_loop_slice (cs : List SigChunk) (pos o l : Nat) (ret : SigSpec)
    (hl : 0 < l) (hp : pos ≤ o) :
    (extract_loop cs pos o l ret).chunks = ret.chunks ++ slice_chunks o (o + l) cs pos := by
  induction cs generalizing pos o l ret with
  | nil => simp [extract_loop, slice_chunks]
  | cons c cs ih =>
    unfold extract_loop slice_chunks
    by_cases hc : pos + c.width > o ∧ pos < o + l
    · rw [if_pos hc, if_pos (by omega)]
      obtain ⟨e1, p1, p2, p3, p4⟩ := slice_off_len_spec c.width pos o l hc
      rw [Nat.max_eq_right hp]
      have b1 : (slice_off_len c.width pos o l).1.toNat = o - pos := by omega
      by_cases hfin : o + l ≤ pos + c.width
      · rw [Nat.min_eq_right hfin]
        rw [Int.min_eq_left (by omega), Int.max_eq_left (by omega)] at p4
        have b2 : (slice_off_len c.width pos o l).2.toNat = o + l - o := by omega
        simp only [b1, b2]
        have e : l - (o + l - o) = 0 := by omega
        rw [e, extract_loop_zero _ _ _ _ (Or.inl (by omega)), slice_nil_hi _ _ _ _ (Or.inl hfin)]
      · rw [Nat.min_eq_left (by omega)]
        rw [Int.min_eq_right (by omega), Int.max_eq_left (by omega)] at p4
        have b2 : (slice_off_len c.width pos o l).2.toNat = pos + c.width - o := by omega
        simp only [b1, b2]
        have hl2 : 0 < l - (pos + c.width - o) := by omega
        rw [ih _ _ _ _ hl2 (by omega)]
        simp only [List.append_assoc, List.singleton_append]
        have e1 : o + (pos + c.width - o) + (l - (pos + c.width - o)) = o + l := by omega
        rw [e1]
        rw [slice_lo_irrel (o + (pos + c.width - o)) o (o + l) cs
          (pos + c.width) (by omega) (by omega)]
    · rw [if_neg hc, if_neg (by omega)]
      exact ih _ _ _ _ hl (by omega)

theorem extract_slice (s : SigSpec) (o l : Nat) (h : 0 < l ∨ o = 0 ∨ wsum s.chunks ≤ o) :
    (s.extract o l).chunks = slice_chunks o (o + l) s.chunks 0 := by
  unfold SigSpec.extract
  by_cases hl : 0 < l
  · rw [extract_loop_slice _ _ _ _ _ hl (Nat.zero_le _)]; rfl
  · have hl0 : l = 0 := by omega
    subst hl0
    rw [extract_loop_zero _ _ _ _ (by omega), slice_nil_hi _ _ _ _ (Or.inr (by omega))]; rfl

theorem range_getD (l : List State) :
    (List.range l.length).map (fun i => l.getD (0 + i) State.S0) = l := by
  apply List.ext_getElem
  · simp
  · intro n h1 h2
    simp [List.getD_eq_getElem?_getD, List.getElem?_eq_getElem h2]

theorem extract_self (c : SigChunk) (hwf : c.wf) (hs : c.data.str = "") :
    c.extract 0 c.width = c := by
  obtain ⟨wire, ⟨bits, str⟩, width, offset⟩ := c
  simp only at hs
  subst hs
  unfold SigChunk.wf at hwf
  simp only at hwf
  unfold SigChunk.extract
  cases wire with
  | none =>
    obtain ⟨h1, h2⟩ := hwf.1 rfl
    simp only
    subst h1
    subst h2
    rw [range_getD]
  | some w =>
    obtain ⟨h1, -⟩ := hwf.2 (by simp)
    simp only
    subst h1
    rfl

theorem slice_chunks_cons (lo hi : Nat) (c : SigChunk) (cs : List SigChunk) (pos : Nat) :
    slice_chunks lo hi (c :: cs) pos =
      if max pos lo < min (pos + c.width) hi then
        c.extract (max pos lo - pos) (min (pos + c.width) hi - max pos lo) ::
          slice_chunks lo hi cs (pos + c.width)
      else slice_chunks lo hi cs (pos + c.width) := by
  rw [slice_chunks]

theorem remove_loop_slice (o l W : Nat) (cs : List SigChunk) (pos width : Nat)
    (hwf : ∀ c ∈ cs, c.wf) (hs : ∀ c ∈ cs, c.data.str = "") (hz : ∀ c ∈ cs, 0 < c.width)
    (hW : pos + wsum cs ≤ W) :
    (remove_loop o l cs pos width).1 =
      slice_chunks 0 o cs pos ++ slice_chunks (o + l) W cs pos := by
  induction cs generalizing pos width with
  | nil => rfl
  | cons c cs ih =>
    have hc1 := hwf c (List.mem_cons_self _ _)
    have hc2 := hs c (List.mem_cons_self _ _)
    have hc3 := hz c (List.mem_cons_self _ _)
    rw [wsum_cons] at hW
    have ih' := fun width => ih (pos + c.width) width
      (fun d hd => hwf d (List.mem_cons_of_mem _ hd))
      (fun d hd => hs d (List.mem_cons_of_mem _ hd))
      (fun d hd => hz d (List.mem_cons_of_mem _ hd)) (by omega)
    unfold remove_loop
    by_cases hc : pos + c.width > o ∧ pos < o + l
    · rw [if_pos hc]
      obtain ⟨e1, p1, p2, p3, p4⟩ := slice_off_len_spec c.width pos o l hc
      have b1 : (slice_off_len c.width pos o l).1.toNat = o - pos := by omega
      have b3 : ((slice_off_len c.width pos o l).1 +
          (slice_off_len c.width pos o l).2).toNat = min (o + l) (pos + c.width) - pos := by
        rcases Nat.le_total (o + l) (pos + c.width) with h | h
        · rw [Nat.min_eq_left h]
          rw [Int.min_eq_left (by omega)] at p4
          rcases Nat.le_total o pos with h2 | h2
          · rw [Int.max_eq_right (by omega)] at p4; omega
          · rw [Int.max_eq_left (by omega)] at p4; omega
        · rw [Nat.min_eq_right h]
          rw [Int.min_eq_right (by omega)] at p4
          rcases Nat.le_total o pos with h2 | h2
          · rw [Int.max_eq_right (by omega)] at p4; omega
          · rw [Int.max_eq_left (by omega)] at p4; omega
      have b4 : ((c.width : Int) - (slice_off_len c.width pos o l).1 -
          (slice_off_len c.width pos o l).2).toNat =
            c.width - (min (o + l) (pos + c.width) - pos) := by omega
      simp only [b1, b3, b4, extract_width, ih']
      rw [slice_chunks_cons, slice_chunks_cons]
      rw [slice_nil_hi 0 o cs (pos + c.width) (Or.inl (by omega))]
      simp only [Nat.zero_le, Nat.max_eq_left, Nat.sub_self, List.nil_append]
      rw [Nat.min_eq_right (show o ≤ pos + c.width by omega),
        Nat.max_eq_right (show pos ≤ o + l by omega),
        Nat.min_eq_left (show pos + c.width ≤ W by omega)]
      by_cases h1 : pos < o
      · by_cases h2 : o + l < pos + c.width
        · rw [Nat.min_eq_left (by omega)]
          rw [if_neg (by omega), if_neg (by omega), if_neg (by omega), if_pos h1, if_pos h2]
          rw [show c.width - (o + l - pos) = pos + c.width - (o + l) by omega]
          rfl
        · rw [Nat.min_eq_right (by omega)]
          rw [if_neg (by omega), if_neg (by omega), if_pos (by omega), if_pos h1, if_neg h2]
          rfl
      · by_cases h2 : o + l < pos + c.width
        · rw [Nat.min_eq_left (by omega)]
          rw [if_neg (by omega), if_pos (by omega), if_neg h1, if_pos h2]
          rw [show c.width - (o + l - pos) = pos + c.width - (o + l) by omega]
          rfl
        · rw [Nat.min_eq_right (by omega)]
          rw [if_pos (by omega), if_neg h1, if_neg h2, ih',
            slice_nil_hi 0 o cs (pos + c.width) (Or.inl (by omega))]
    · rw [if_neg hc]
      simp only [ih']
      rw [slice_chunks_cons, slice_chunks_cons]
      simp only [Nat.zero_le, Nat.max_eq_left, Nat.sub_self]
      rw [Nat.min_eq_left (show pos + c.width ≤ W by omega)]
      by_cases h1 : pos + c.width ≤ o
      · rw [Nat.min_eq_left h1, if_pos (by omega), if_neg (by omega), Nat.add_sub_cancel_left,
          extract_self c hc1 hc2]
        rfl
      · rw [if_neg (by omega), if_pos (by omega), Nat.max_eq_left (show o + l ≤ pos by omega),
          Nat.sub_self, Nat.add_sub_cancel_left, extract_self c hc1 hc2,
          slice_nil_hi 0 o cs (pos + c.width) (Or.inl (by omega))]
        rfl

theorem unmergeable_of_fixed (l : List SigChunk) (a : SigChunk)
    (h : optimize_merge a l = a :: l) : List.Chain' Unmergeable (a :: l) := by
  induction l generalizing a with
  | nil => exact List.chain'_singleton a
  | cons b rest ih =>
    rw [optimize_merge_cons] at h
    have short : ∀ m : SigChunk, optimize_merge m rest ≠ a :: b :: rest := by
      intro m hm
      have := optimize_merge_length rest m
      rw [hm] at this
      simp only [List.length_cons] at this
      omega
    by_cases h1 : a.is_auto = true
    · rw [if_pos h1] at h
      exact List.Chain'.cons (Or.inl h1) (ih b (List.tail_eq_of_cons_eq h))
    · rw [if_neg h1] at h
      by_cases h2 : b.is_auto = true
      · rw [if_pos h2] at h
        exact List.Chain'.cons (Or.inr (Or.inl h2)) (ih b (List.tail_eq_of_cons_eq h))
      · rw [if_neg h2] at h
        by_cases h3 : a.wire = b.wire
        · rw [if_pos h3] at h
          by_cases h4 : a.wire ≠ none ∧ a.offset + a.width = b.offset
          · rw [if_pos h4] at h
            exact absurd h (short _)
          · rw [if_neg h4] at h
            by_cases h5 : a.wire = none ∧ decide (a.data.str = "") = decide (b.data.str = "")
            · rw [if_pos h5] at h
              exact absurd h (short _)
            · rw [if_neg h5] at h
              refine List.Chain'.cons (Or.inr (Or.inr ?_)) (ih b (List.tail_eq_of_cons_eq h))
              rintro ⟨_, hm | hm⟩
              · exact h4 hm
              · exact h5 hm
        · rw [if_neg h3] at h
          refine List.Chain'.cons (Or.inr (Or.inr ?_)) (ih b (List.tail_eq_of_cons_eq h))
          rintro ⟨hm, _⟩
          exact h3 hm

theorem fixed_of_unmergeable (l : List SigChunk) (a : SigChunk)
    (h : List.Chain' Unmergeable (a :: l)) : optimize_merge a l = a :: l := by
  induction l generalizing a with
  | nil => rfl
  | cons b rest ih =>
    obtain ⟨hab, hrest⟩ := List.chain'_cons.mp h
    rw [optimize_merge_cons, ih b hrest]
    by_cases h1 : a.is_auto = true
    · rw [if_pos h1]
    · rw [if_neg h1]
      by_cases h2 : b.is_auto = true
      · rw [if_pos h2]
      · rw [if_neg h2]
        have hm : ¬ Mergeable a b := by
          rcases hab with hab | hab | hab
          · exact absurd hab h1
          · exact absurd hab h2
          · exact hab
        by_cases h3 : a.wire = b.wire
        · rw [if_pos h3, if_neg (fun h4 => hm ⟨h3, Or.inl h4⟩),
            if_neg (fun h5 => hm ⟨h3, Or.inr h5⟩)]
        · rw [if_neg h3]

theorem optimize_chunks_kept (cs : List SigChunk) :
    ∀ d ∈ optimize_chunks cs, d.is_auto = true ∨ d.width ≠ 0 := by
  have hk := optimize_erase_kept cs
  unfold optimize_chunks
  cases h : optimize_erase cs with
  | nil => intro d hd; simp at hd
  | cons c rest =>
    rw [h] at hk
    exact optimize_merge_kept rest c (hk c (List.mem_cons_self _ _))
      (fun d hd => hk d (List.mem_cons_of_mem _ hd))

/-- A chunk vector is left as it is by `optimize` exactly when it has no chunk
of width zero, chunks on `auto_width` wires apart, and no two neighbours that
the second loop merges. -/
theorem optimize_chunks_fixed_iff (cs : List SigChunk) :
    optimize_chunks cs = cs ↔
      (∀ c ∈ cs, c.is_auto = true ∨ c.width ≠ 0) ∧ List.Chain' Unmergeable cs := by
  constructor
  · intro h
    have hk : ∀ c ∈ cs, c.is_auto = true ∨ c.width ≠ 0 := by
      have := optimize_chunks_kept cs
      rw [h] at this
      exact this
    refine ⟨hk, ?_⟩
    unfold optimize_chunks at h
    rw [optimize_erase_id cs hk] at h
    cases cs with
    | nil => exact List.chain'_nil
    | cons a l => exact unmergeable_of_fixed l a h
  · rintro ⟨hk, hc⟩
    unfold optimize_chunks
    rw [optimize_erase_id cs hk]
    cases cs with
    | nil => rfl
    | cons a l => exact fixed_of_unmergeable l a hc

theorem optimize_fixed_iff (s : SigSpec) :
    s.optimize = s ↔
      (∀ c ∈ s.chunks, c.is_auto = true ∨ c.width ≠ 0) ∧ List.Chain' Unmergeable s.chunks := by
  rw [← optimize_chunks_fixed_iff]
  obtain ⟨chunks, width⟩ := s
  unfold SigSpec.optimize
  simp

theorem extract_chunk_wire (c : SigChunk) (o l : Nat) : (c.extract o l).wire = c.wire := by
  unfold SigChunk.extract
  cases h : c.wire <;> rfl

theorem extract_chunk_offset (c : SigChunk) (o l : Nat) (h : c.wire ≠ none) :
    (c.extract o l).offset = c.offset + o := by
  unfold SigChunk.extract
  cases hw : c.wire with
  | none => exact absurd hw h
  | some w => rfl

/-- Two chunks that the second loop of `optimize` leaves as they are, neither
with a string tag: a part of the first that ends where it ends and a part of
the second that starts where it starts are left as they are, too. -/
theorem unmergeable_parts (a b a2 b2 : SigChunk) (h : Unmergeable a b)
    (sa : a.data.str = "") (sb : b.data.str = "")
    (wa : a2.wire = a.wire) (wb : b2.wire = b.wire)
    (ea : a.wire ≠ none → a2.offset + a2.width = a.offset + a.width)
    (eb : b.wire ≠ none → b2.offset = b.offset) : Unmergeable a2 b2 := by
  rcases h with h | h | h
  · exact Or.inl (by rw [is_auto_congr a2 a wa]; exact h)
  · exact Or.inr (Or.inl (by rw [is_auto_congr b2 b wb]; exact h))
  · refine Or.inr (Or.inr (fun hm => h ?_))
    obtain ⟨hw, hm⟩ := hm
    rw [wa, wb] at hw
    refine ⟨hw, ?_⟩
    rcases hm with ⟨hn, ho⟩ | ⟨hn, _⟩
    · rw [wa] at hn
      left
      refine ⟨hn, ?_⟩
      rw [← ea hn, ho, eb (by rw [← hw]; exact hn)]
    · rw [wa] at hn
      right
      exact ⟨hn, by rw [sa, sb]⟩

theorem slice_chain_from (lo hi : Nat) (cs : List SigChunk) (pos : Nat) (prev prev2 : SigChunk)
    (hch : List.Chain Unmergeable prev cs) (hs : ∀ c ∈ cs, c.data.str = "")
    (hz : ∀ c ∈ cs, 0 < c.width) (sp : prev.data.str = "") (wp : prev2.wire = prev.wire)
    (ep : prev.wire ≠ none → prev2.offset + prev2.width = prev.offset + prev.width)
    (hlo : lo < pos) : List.Chain Unmergeable prev2 (slice_chunks lo hi cs pos) := by
  induction cs generalizing pos prev prev2 with
  | nil => exact List.Chain.nil
  | cons d rest ih =>
    have sd := hs d (List.mem_cons_self _ _)
    have zd := hz d (List.mem_cons_self _ _)
    obtain ⟨hab, hrest⟩ := List.chain_cons.mp hch
    rw [slice_chunks_cons, Nat.max_eq_left (Nat.le_of_lt hlo)]
    split_ifs with h
    · refine List.Chain.cons (unmergeable_parts prev d prev2 _ hab sp sd wp
        (extract_chunk_wire _ _ _) ep (fun hn => ?_)) ?_
      · rw [extract_chunk_offset _ _ _ hn, Nat.sub_self, Nat.add_zero]
      · by_cases hfin : pos + d.width ≤ hi
        · refine ih (pos + d.width) d _ hrest (fun c hc => hs c (List.mem_cons_of_mem _ hc))
            (fun c hc => hz c (List.mem_cons_of_mem _ hc)) sd (extract_chunk_wire _ _ _)
            (fun hn => ?_) (by omega)
          rw [extract_chunk_offset _ _ _ hn, extract_width, Nat.min_eq_left hfin]
          omega
        · rw [slice_nil_hi _ _ _ _ (Or.inl (by omega))]
          exact List.Chain.nil
    · rw [slice_nil_hi _ _ _ _ (Or.inl (by omega))]
      exact List.Chain.nil

/-- The parts that a bit range cuts out of a canonical chunk vector without
string tags form a canonical chunk vector. -/
theorem slice_chain (lo hi : Nat) (cs : List SigChunk) (pos : Nat)
    (hch : List.Chain' Unmergeable cs) (hs : ∀ c ∈ cs, c.data.str = "")
    (hz : ∀ c ∈ cs, 0 < c.width) : List.Chain' Unmergeable (slice_chunks lo hi cs pos) := by
  induction cs generalizing pos with
  | nil => exact List.chain'_nil
  | cons d rest ih =>
    have sd := hs d (List.mem_cons_self _ _)
    have zd := hz d (List.mem_cons_self _ _)
    have hs2 : ∀ c ∈ rest, c.data.str = "" := fun c hc => hs c (List.mem_cons_of_mem _ hc)
    have hz2 : ∀ c ∈ rest, 0 < c.width := fun c hc => hz c (List.mem_cons_of_mem _ hc)
    rw [slice_chunks_cons]
    split_ifs with h
    · show List.Chain Unmergeable _ _
      by_cases hfin : pos + d.width ≤ hi
      · refine slice_chain_from lo hi rest (pos + d.width) d _ hch hs2 hz2 sd
          (extract_chunk_wire _ _ _) (fun hn => ?_) (by omega)
        rw [extract_chunk_offset _ _ _ hn, extract_width, Nat.min_eq_left hfin]
        omega
      · rw [slice_nil_hi _ _ _ _ (Or.inl (by omega))]
        exact List.Chain.nil
    · exact ih _ hch.tail hs2 hz2

theorem slice_fixed (lo hi : Nat) (cs : List SigChunk) (pos : Nat)
    (hch : List.Chain' Unmergeable cs) (hs : ∀ c ∈ cs, c.data.str = "")
    (hz : ∀ c ∈ cs, 0 < c.width) :
    optimize_chunks (slice_chunks lo hi cs pos) = slice_chunks lo hi cs pos :=
  (optimize_chunks_fixed_iff _).mpr
    ⟨fun c hc => Or.inr (Nat.pos_iff_ne_zero.mp (slice_pos lo hi cs pos c hc)),
      slice_chain lo hi cs pos hch hs hz⟩

theorem optimize_eq_iff (s : SigSpec) : s.optimize = s ↔ optimize_chunks s.chunks = s.chunks := by
  obtain ⟨chunks, width⟩ := s
  unfold SigSpec.optimize
  simp

theorem fixed_append_iff (xs ys : List SigChunk)
    (hx : optimize_chunks xs = xs) (hy : optimize_chunks ys = ys) :
    optimize_chunks (xs ++ ys) = xs ++ ys ↔ Joins xs ys := by
  obtain ⟨kx, cx⟩ := (optimize_chunks_fixed_iff xs).mp hx
  obtain ⟨ky, cy⟩ := (optimize_chunks_fixed_iff ys).mp hy
  rw [optimize_chunks_fixed_iff, List.chain'_append]
  constructor
  · rintro ⟨_, _, _, hj⟩
    exact hj
  · intro hj
    refine ⟨fun c hc => ?_, cx, cy, hj⟩
    rcases List.mem_append.mp hc with hc | hc
    · exact kx c hc
    · exact ky c hc

theorem remove_chunks_eq (s : SigSpec) (hs : s.check = true)
    (zs : ∀ c ∈ s.chunks, 0 < c.width) (ns : ∀ c ∈ s.chunks, c.data.str = "")
    (offset length : Nat) :
    (s.remove offset length).chunks =
      slice_chunks 0 offset s.chunks 0 ++ slice_chunks (offset + length) s.width s.chunks 0 := by
  obtain ⟨hwf, hsum⟩ := check_chunks s hs
  unfold SigSpec.remove
  simp only
  exact remove_loop_slice offset length s.width s.chunks 0 s.width hwf ns zs (by omega)

theorem extract_lower (s : SigSpec) (offset : Nat) :
    (s.extract 0 offset).chunks = slice_chunks 0 offset s.chunks 0 := by
  rw [extract_slice s 0 offset (Or.inr (Or.inl rfl)), Nat.zero_add]

theorem extract_upper (s : SigSpec) (hs : s.check = true) (o : Nat) (hr : o ≤ s.width) :
    (s.extract o (s.width - o)).chunks = slice_chunks o s.width s.chunks 0 := by
  obtain ⟨_, hsum⟩ := check_chunks s hs
  rw [extract_slice s o (s.width - o) (by omega), Nat.add_sub_cancel' hr]

/-- C9, amended. Let `s` be canonical (left as it is by `optimize`), pass
`check()`, and have no chunk of width zero and no constant with a string tag,
and let `t` be canonical. Then `s.append(t)` is canonical exactly when the last
chunk of `s` and the first chunk of `t` cannot be merged. `s.extract(offset,
length)` with a positive length in range is canonical. `s.remove(offset,
length)` in range leaves the chunks of `s.extract(0, offset)` followed by the
chunks of the extract of all bits from `offset + length` on, and is canonical
exactly when the two chunks it brings together cannot be merged.
`s.replace(offset, t)` in range leaves the same two runs of chunks with the
chunks of `t` in between, and is canonical exactly when no chunk of `t` can be
merged with a chunk it comes to stand next to (for an empty `t`, when the two
runs can be joined). -/
theorem ops_canonical_spec (s t : SigSpec) (hs : s.check = true)
    (cs : s.optimize = s) (ct : t.optimize = t)
    (zs : ∀ c ∈ s.chunks, 0 < c.width) (ns : ∀ c ∈ s.chunks, c.data.str = "")
    (offset length : Nat) :
    ((s.append t).optimize = s.append t ↔ Joins s.chunks t.chunks) ∧
    (0 < length → offset + length ≤ s.width →
      (s.extract offset length).optimize = s.extract offset length) ∧
    (offset + length ≤ s.width →
      (s.remove offset length).chunks = (s.extract 0 offset).chunks ++
        (s.extract (offset + length) (s.width - (offset + length))).chunks ∧
      ((s.remove offset length).optimize = s.remove offset length ↔
        Joins (s.extract 0 offset).chunks
          (s.extract (offset + length) (s.width - (offset + length))).chunks)) ∧
    (offset + t.width ≤ s.width →
      (s.replace_at offset t).chunks = (s.extract 0 offset).chunks ++ (t.chunks ++
        (s.extract (offset + t.width) (s.width - (offset + t.width))).chunks) ∧
      ((s.replace_at offset t).optimize = s.replace_at offset t ↔
        Joins (s.extract 0 offset).chunks (t.chunks ++
          (s.extract (offset + t.width) (s.width - (offset + t.width))).chunks) ∧
        Joins t.chunks
          (s.extract (offset + t.width) (s.width - (offset + t.width))).chunks)) := by
  have fs := (optimize_eq_iff s).mp cs
  have ft := (optimize_eq_iff t).mp ct
  obtain ⟨_, chs⟩ := (optimize_chunks_fixed_iff s.chunks).mp fs
  obtain ⟨_, hsum⟩ := check_chunks s hs
  have fl : ∀ lo hi, optimize_chunks (slice_chunks lo hi s.chunks 0) = slice_chunks lo hi s.chunks 0 :=
    fun lo hi => slice_fixed lo hi s.chunks 0 chs ns zs
  refine ⟨?_, ?_, ?_, ?_⟩
  · rw [optimize_eq_iff, append_eq]
    exact fixed_append_iff _ _ fs ft
  · intro hl _
    rw [optimize_eq_iff, extract_slice s offset length (Or.inl hl)]
    exact fl _ _
  · intro hr
    have e := remove_chunks_eq s hs zs ns offset length
    rw [extract_lower, extract_upper s hs (offset + length) hr, optimize_eq_iff, e]
    exact ⟨rfl, fixed_append_iff _ _ (fl _ _) (fl _ _)⟩
  · intro hr
    have e : (s.replace_at offset t).chunks = slice_chunks 0 offset s.chunks 0 ++ (t.chunks ++
        slice_chunks (offset + t.width) s.width s.chunks 0) := by
      unfold SigSpec.replace_at
      simp only
      rw [remove_chunks_eq s hs zs ns offset t.width]
      have hw : wsum (slice_chunks 0 offset s.chunks 0) = offset := by
        rw [wsum_slice]; omega
      have := replace_insert_within (slice_chunks 0 offset s.chunks 0) t.chunks
        (slice_chunks (offset + t.width) s.width s.chunks 0) 0 (slice_pos _ _ _ _)
      rw [Nat.zero_add, hw] at this
      exact this
    rw [extract_lower, extract_upper s hs (offset + t.width) hr, optimize_eq_iff, e]
    refine ⟨rfl, ?_⟩
    constructor
    · intro h
      have h2 := (optimize_chunks_fixed_iff _).mp h
      have c2 := (List.chain'_append.mp h2.2).2.1
      have f2 : optimize_chunks (t.chunks ++ slice_chunks (offset + t.width) s.width s.chunks 0) =
          t.chunks ++ slice_chunks (offset + t.width) s.width s.chunks 0 :=
        (optimize_chunks_fixed_iff _).mpr
          ⟨fun c hc => h2.1 c (List.mem_append_right _ hc), c2⟩
      exact ⟨(fixed_append_iff _ _ (fl _ _) f2).mp h, (fixed_append_iff _ _ ft (fl _ _)).mp f2⟩
    · rintro ⟨j1, j2⟩
      have f2 := (fixed_append_iff _ _ ft (fl _ _)).mpr j2
      exact (fixed_append_iff _ _ (fl _ _) f2).mpr j1

/-- The statement of C9, amended, on `{ w[3:2], S0, w[1:0] }` and `w[2]`:
appending `w[2]` and extracting the bits 1 to 3 give canonical signals;
removing the constant bit brings `w[1:0]` and `w[3:2]` together and writing
`w[2]` over it puts `w[2]` between them, and neither result is canonical. -/
theorem ops_canonical_spec_witness :
    (exMid.check = true ∧ exMid.optimize = exMid ∧ exBit2.optimize = exBit2 ∧
      (∀ c ∈ exMid.chunks, 0 < c.width) ∧ (∀ c ∈ exMid.chunks, c.data.str = "")) ∧
    Joins exMid.chunks exBit2.chunks ∧
    (exMid.extract 1 3).optimize = exMid.extract 1 3 ∧
    (exMid.remove 2 1).chunks = (exMid.extract 0 2).chunks ++ (exMid.extract 3 2).chunks ∧
    ¬ Joins (exMid.extract 0 2).chunks (exMid.extract 3 2).chunks ∧
    (exMid.replace_at 2 exBit2).chunks =
      (exMid.extract 0 2).chunks ++ (exBit2.chunks ++ (exMid.extract 3 2).chunks) ∧
    ¬ (Joins (exMid.extract 0 2).chunks (exBit2.chunks ++ (exMid.extract 3 2).chunks) ∧
      Joins exBit2.chunks (exMid.extract 3 2).chunks) :=
  ⟨⟨by decide, by decide, by decide, by decide, by decide⟩,
    (ops_canonical_spec exMid exBit2 (by decide) (by decide) (by decide) (by decide)
      (by decide) 1 3).1.mp (by decide),
    (ops_canonical_spec exMid exBit2 (by decide) (by decide) (by decide) (by decide)
      (by decide) 1 3).2.1 (by decide) (by decide),
    ((ops_canonical_spec exMid exBit2 (by decide) (by decide) (by decide) (by decide)
      (by decide) 2 1).2.2.1 (by decide)).1,
    fun h => absurd (((ops_canonical_spec exMid exBit2 (by decide) (by decide) (by decide)
      (by decide) (by decide) 2 1).2.2.1 (by decide)).2.mpr h) (by decide),
    ((ops_canonical_spec exMid exBit2 (by decide) (by decide) (by decide) (by decide)
      (by decide) 2 1).2.2.2 (by decide)).1,
    fun h => absurd (((ops_canonical_spec exMid exBit2 (by decide) (by decide) (by decide)
      (by decide) (by decide) 2 1).2.2.2 (by decide)).2.mpr h) (by decide)⟩

/-- C9 as stated fails for each of the four operations, on canonical operands:
appending `w[3:2]` to `w[1:0]` leaves two chunks that can be merged;
`extract(1, 0)` of `w[3:0]` leaves a chunk of width zero; removing the constant
bit of `{ w[3:2], S0, w[1:0] }` and writing `w[2]` over the constant bit of
`{ S0, w[1:0] }` leave two chunks that can be merged; extracting all bits of a
string-tagged constant followed by an untagged one leaves two untagged
constants, which can be merged. -/
theorem ops_not_canonical_counterexample :
    (exLo.optimize = exLo ∧ exHi.optimize = exHi ∧
      (exLo.append exHi).optimize ≠ exLo.append exHi) ∧
    (exS3.optimize = exS3 ∧ (exS3.extract 1 0).optimize ≠ exS3.extract 1 0) ∧
    (exMid.optimize = exMid ∧ (exMid.remove 2 1).optimize ≠ exMid.remove 2 1) ∧
    (exLoC.optimize = exLoC ∧ exBit2.optimize = exBit2 ∧
      (exLoC.replace_at 2 exBit2).optimize ≠ exLoC.replace_at 2 exBit2) ∧
    (exTag.optimize = exTag ∧ (exTag.extract 0 9).optimize ≠ exTag.extract 0 9) := by
  decide

/-! ## C10: `replace(pattern, with)` and the order of the pattern chunks -/

/-- C10 at the failing input. In `w[3:0]` (one chunk), with the pattern
`{ w[1:0], w[3:2] }` whose chunk `w[3:2]` comes first and the replacement
`v[3:0]`, the call leaves `{ v[1:0], w[1:0] }`: the bits `w[3:2]` are replaced
by `v[1:0]`, the bits `w[1:0]` (pattern positions 2 and 3) are not replaced by
`v[3:2]`. With the chunks of the pattern in the other order every bit is
replaced. -/
theorem replace_pattern_descending :
    exS3.replace exPatDesc exWith 8 =
      some ⟨[SigChunk.ofWire exW 2 0, SigChunk.ofWire exV 2 0], 4⟩ ∧
    exS3.replace exPatAsc exWith 8 =
      some ⟨[SigChunk.ofWire exV 2 0, SigChunk.ofWire exV 2 2], 4⟩ := by
  decide

/-! ## Fully defined signals -/

theorem ofState_one (x : State) :
    SigChunk.ofState x 1 = { wire := none, data := ⟨[x], ""⟩, width := 1, offset := 0 } := rfl

theorem is_fully_def_loop_iff (cs : List SigChunk) (h : ∀ c ∈ cs, c.wf) :
    is_fully_def_loop cs = true ↔
      ∀ b ∈ lbits SigChunk.bit cs,
        b = SigChunk.ofState State.S0 1 ∨ b = SigChunk.ofState State.S1 1 := by
  induction cs with
  | nil => simp [is_fully_def_loop, lbits]
  | cons c cs ih =>
    have hc := h c (List.mem_cons_self _ _)
    have ih1 := ih (fun d hd => h d (List.mem_cons_of_mem _ hd))
    rw [lbits_cons, is_fully_def_loop]
    cases hw : c.wire with
    | some w =>
      have hb := (hc.2 (by rw [hw]; simp)).1
      by_cases h0 : c.width > 0
      · rw [if_pos ⟨h0, by simp⟩]
        constructor
        · intro hf; cases hf
        · intro hall
          have := hall (c.bit 0) (List.mem_append_left _
            (List.mem_map.mpr ⟨0, List.mem_range.mpr h0, rfl⟩))
          unfold SigChunk.bit at this
          rw [extract_wire c w hw, ofState_one, ofState_one] at this
          rcases this with h1 | h1 <;> cases h1
      · have hz : c.width = 0 := by omega
        rw [if_neg (fun hn => h0 hn.1), hb, hz]
        simpa using ih1
    | none =>
      have hl := (hc.1 hw).2
      rw [if_neg (fun hn => hn.2 rfl)]
      have key : (c.data.bits.any (fun b => decide (b ≠ State.S0 ∧ b ≠ State.S1)) = false) ↔
          ∀ b ∈ (List.range c.width).map (SigChunk.bit c),
            b = SigChunk.ofState State.S0 1 ∨ b = SigChunk.ofState State.S1 1 := by
        constructor
        · intro hany b hb
          obtain ⟨j, hj, rfl⟩ := List.mem_map.mp hb
          have hj1 : j < c.data.bits.length := by rw [hl]; exact List.mem_range.mp hj
          unfold SigChunk.bit
          rw [bit_const c hw, ofState_one, ofState_one, List.getD_eq_getElem _ _ hj1]
          have hm : c.data.bits[j] ∈ c.data.bits := List.getElem_mem _
          have := (List.any_eq_false.mp hany) _ hm
          have h2 : c.data.bits[j] = State.S0 ∨ c.data.bits[j] = State.S1 := by
            by_contra hcon
            push_neg at hcon
            exact this (by simpa using hcon)
          rcases h2 with h2 | h2 <;> rw [h2] <;> simp
        · intro hall
          apply List.any_eq_false.mpr
          intro x hx
          obtain ⟨j, hj, rfl⟩ := List.getElem_of_mem hx
          have hj2 : j < c.width := by rw [← hl]; exact hj
          have := hall (c.bit j) (List.mem_map.mpr ⟨j, List.mem_range.mpr hj2, rfl⟩)
          unfold SigChunk.bit at this
          rw [bit_const c hw, ofState_one, ofState_one, List.getD_eq_getElem _ _ hj] at this
          rcases this with h1 | h1
          · have : c.data.bits[j] = State.S0 := by injection h1 with _ h2 _ _; injection h2 with h3 _; injection h3
            simp [this]
          · have : c.data.bits[j] = State.S1 := by injection h1 with _ h2 _ _; injection h2 with h3 _; injection h3
            simp [this]
      by_cases hany : c.data.bits.any (fun b => decide (b ≠ State.S0 ∧ b ≠ State.S1)) = true
      · rw [if_pos hany]
        constructor
        · intro hf; cases hf
        · intro hall
          have : c.data.bits.any (fun b => decide (b ≠ State.S0 ∧ b ≠ State.S1)) = false :=
            key.mpr (fun b hb => hall b (List.mem_append_left _ hb))
          rw [this] at hany; cases hany
      · rw [if_neg hany]
        have hf : c.data.bits.any (fun b => decide (b ≠ State.S0 ∧ b ≠ State.S1)) = false := by
          simpa using hany
        rw [ih1]
        constructor
        · intro hall b hb
          rcases List.mem_append.mp hb with hb | hb
          · exact key.mp hf b hb
          · exact hall b hb
        · intro hall b hb
          exact hall b (List.mem_append_right _ hb)

/-- C13 (amended): for a signal that passes `check`, `is_fully_def` holds
exactly when every bit of the signal is one of the constant bits `S0` and `S1`:
the signal has no bit on a wire and no constant bit `Sx`, `Sz`, `Sa` or `Sm`. -/
theorem is_fully_def_iff (s : SigSpec) (h : s.check = true) :
    s.is_fully_def = true ↔
      ∀ b ∈ s.bits, b = SigChunk.ofState State.S0 1 ∨ b = SigChunk.ofState State.S1 1 :=
  is_fully_def_loop_iff s.chunks (check_chunks s h).1

theorem is_fully_def_iff_witness :
    (SigSpec.ofState State.S1 2).check = true ∧
    ((SigSpec.ofState State.S1 2).is_fully_def = true ↔
      ∀ b ∈ (SigSpec.ofState State.S1 2).bits,
        b = SigChunk.ofState State.S0 1 ∨ b = SigChunk.ofState State.S1 1) :=
  ⟨by decide, is_fully_def_iff (SigSpec.ofState State.S1 2) (by decide)⟩

/-- C13 as stated fails: the constant of two `Sa` bits passes `check`, has no
bit on a wire and no bit `Sx` or `Sz`, and `is_fully_def` is false on it. -/
theorem is_fully_def_counterexample :
    (SigSpec.ofState State.Sa 2).check = true ∧
    (∀ b ∈ (SigSpec.ofState State.Sa 2).bits,
      b.wire = none ∧ b ≠ SigChunk.ofState State.Sx 1 ∧ b ≠ SigChunk.ofState State.Sz 1) ∧
    (SigSpec.ofState State.Sa 2).is_fully_def = false := by
  decide

/-! ## The cell-type catalog -/

theorem cell_output_designs_none (type port : String) (ds : List Design)
    (h : ∀ d ∈ ds, d.modules.lookup type = none) : cell_output_designs type port ds = false := by
  induction ds with
  | nil => rfl
  | cons d ds ih =>
    rw [cell_output_designs, h d (List.mem_cons_self _ _)]
    exact ih (fun e he => h e (List.mem_cons_of_mem _ he))

theorem cell_input_designs_none (type port : String) (ds : List Design)
    (h : ∀ d ∈ ds, d.modules.lookup type = none) : cell_input_designs type port ds = false := by
  induction ds with
  | nil => rfl
  | cons d ds ih =>
    rw [cell_input_designs, h d (List.mem_cons_self _ _)]
    exact ih (fun e he => h e (List.mem_cons_of_mem _ he))

theorem insert_mem (ct : CellTypes) (x t : String) :
    t ∈ (ct.insert x).cell_types ↔ t ∈ ct.cell_types ∨ t = x := by
  unfold CellTypes.insert
  split_ifs with h
  · constructor
    · exact Or.inl
    · rintro (h1 | h1)
      · exact h1
      · rw [h1]; exact h
  · simp

theorem insert_designs (ct : CellTypes) (x : String) : (ct.insert x).designs = ct.designs := by
  unfold CellTypes.insert
  split_ifs <;> rfl

theorem foldl_insert_mem (xs : List String) (ct : CellTypes) (t : String) :
    t ∈ (xs.foldl CellTypes.insert ct).cell_types ↔ t ∈ ct.cell_types ∨ t ∈ xs := by
  induction xs generalizing ct with
  | nil => simp
  | cons x xs ih =>
    rw [List.foldl_cons, ih, insert_mem, List.mem_cons]
    tauto

/-- The types that `setup` enters into the catalog. -/
theorem setup_mem (ct : CellTypes) (design : Option Design) (t : String) :
    t ∈ (ct.setup design).cell_types ↔
      t ∈ ct.cell_types ∨ t ∈ (CellTypes.empty.setup none).cell_types := by
  have h1 : ∀ c : CellTypes, t ∈ c.setup_internals.setup_internals_mem.setup_stdcells.setup_stdcells_mem.cell_types ↔
      t ∈ c.cell_types ∨
        t ∈ CellTypes.empty.setup_internals.setup_internals_mem.setup_stdcells.setup_stdcells_mem.cell_types := by
    intro c
    unfold CellTypes.setup_stdcells_mem CellTypes.setup_stdcells CellTypes.setup_internals_mem
      CellTypes.setup_internals
    simp only [foldl_insert_mem]
    simp only [CellTypes.empty, List.not_mem_nil, false_or]
    tauto
  unfold CellTypes.setup
  cases design with
  | none => exact h1 ct
  | some d => simp only []; rw [h1]; rfl

/-- C17: after `setup`, for a cell type `t` of the catalog and every port name
`p` exactly one of `cell_output(t, p)` and `cell_input(t, p)` is true (every
type that `setup` enters is in the catalog); for a type that is neither in the
catalog nor a module of one of the attached designs both are false. -/
theorem cell_output_input_exclusive (ct : CellTypes) (design : Option Design) (t p : String) :
    ((t ∈ (CellTypes.empty.setup none).cell_types → t ∈ (ct.setup design).cell_types) ∧
     (t ∈ (ct.setup design).cell_types →
      (((ct.setup design).cell_output t p = true ∧ (ct.setup design).cell_input t p = false) ∨
       ((ct.setup design).cell_output t p = false ∧ (ct.setup design).cell_input t p = true)))) ∧
    (t ∉ (ct.setup design).cell_types ∧
      (∀ d ∈ (ct.setup design).designs, d.modules.lookup t = none) →
      (ct.setup design).cell_output t p = false ∧ (ct.setup design).cell_input t p = false) := by
  refine ⟨⟨fun h => (setup_mem ct design t).mpr (Or.inr h), ?_⟩, ?_⟩
  · intro h
    have hi : (ct.setup design).cell_input t p = !(ct.setup design).cell_output t p := by
      unfold CellTypes.cell_input
      rw [if_neg (not_not.mpr h), if_pos h]
    rw [hi]
    cases (ct.setup design).cell_output t p <;> simp
  · rintro ⟨h1, h2⟩
    unfold CellTypes.cell_output CellTypes.cell_input
    rw [if_pos h1, if_pos h1]
    exact ⟨cell_output_designs_none t p _ h2, cell_input_designs_none t p _ h2⟩

/-- C18 (amended): for a cell type `t` of the catalog, `cell_output(t, p)` is
true exactly for the port names `\Y`, `\Q` and `\RD_DATA`, for `\DATA` when `t`
is `$memrd`, for `\CTRL_OUT` when `t` is `$fsm` and for `\O` when `t` is `$lut`. -/
theorem cell_output_catalog (ct : CellTypes) (t p : String) (h : t ∈ ct.cell_types) :
    ct.cell_output t p = true ↔
      (p = "\\Y" ∨ p = "\\Q" ∨ p = "\\RD_DATA") ∨ (t = "$memrd" ∧ p = "\\DATA") ∨
        (t = "$fsm" ∧ p = "\\CTRL_OUT") ∨ (t = "$lut" ∧ p = "\\O") := by
  unfold CellTypes.cell_output
  rw [if_neg (not_not.mpr h)]
  split_ifs with h1 h2 h3 h4 <;> simp_all

set_option maxRecDepth 100000 in
theorem cell_output_catalog_witness :
    "$fsm" ∈ (CellTypes.empty.setup none).cell_types ∧
    ((CellTypes.empty.setup none).cell_output "$fsm" "\\CTRL_OUT" = true ↔
      ("\\CTRL_OUT" = "\\Y" ∨ "\\CTRL_OUT" = "\\Q" ∨ "\\CTRL_OUT" = "\\RD_DATA") ∨
        ("$fsm" = "$memrd" ∧ "\\CTRL_OUT" = "\\DATA") ∨
        ("$fsm" = "$fsm" ∧ "\\CTRL_OUT" = "\\CTRL_OUT") ∨ ("$fsm" = "$lut" ∧ "\\CTRL_OUT" = "\\O")) :=
  ⟨by decide, cell_output_catalog (CellTypes.empty.setup none) "$fsm" "\\CTRL_OUT" (by decide)⟩

set_option maxRecDepth 100000 in
/-- C18 as stated fails: `$and` is in the catalog after `setup`, and neither
`\CTRL_OUT` nor `\O` is an output of it. -/
theorem cell_output_counterexample :
    "$and" ∈ (CellTypes.empty.setup none).cell_types ∧
    (CellTypes.empty.setup none).cell_output "$and" "\\CTRL_OUT" = false ∧
    (CellTypes.empty.setup none).cell_output "$and" "\\O" = false := by
  decide

set_option maxRecDepth 100000 in
theorem cell_output_input_exclusive_witness :
    "$dff" ∈ (CellTypes.empty.setup none).cell_types ∧
    (((CellTypes.empty.setup none).cell_output "$dff" "\\Q" = true ∧
        (CellTypes.empty.setup none).cell_input "$dff" "\\Q" = false) ∨
      ((CellTypes.empty.setup none).cell_output "$dff" "\\Q" = false ∧
        (CellTypes.empty.setup none).cell_input "$dff" "\\Q" = true)) :=
  ⟨by decide, (cell_output_input_exclusive CellTypes.empty none "$dff" "\\Q").1.2 (by decide)⟩

/-! ## The multiplexer evaluator -/

theorem eval_mux_loop_none (arg1 arg2 : Const) (bits : List State) (i : Nat) (ret : Const)
    (h : ∀ b ∈ bits, b ≠ State.S1) : eval_mux_loop arg1 arg2 bits i ret = ret := by
  induction bits generalizing i ret with
  | nil => rfl
  | cons b rest ih =>
    rw [eval_mux_loop, if_neg (h b (List.mem_cons_self _ _))]
    exact ih _ _ (fun x hx => h x (List.mem_cons_of_mem _ hx))

theorem eval_mux_loop_last (arg1 arg2 : Const) (pre post : List State) (i : Nat) (ret : Const)
    (h : ∀ b ∈ post, b ≠ State.S1) :
    eval_mux_loop arg1 arg2 (pre ++ State.S1 :: post) i ret =
      ⟨(arg2.bits.take ((i + pre.length + 1) * arg1.bits.length)).drop
        ((i + pre.length) * arg1.bits.length), ""⟩ := by
  induction pre generalizing i ret with
  | nil =>
    rw [List.nil_append, eval_mux_loop, if_pos rfl, eval_mux_loop_none _ _ _ _ _ h]
    rfl
  | cons b pre ih =>
    rw [List.cons_append, eval_mux_loop]
    have e : i + (b :: pre).length = i + 1 + pre.length := by
      rw [List.length_cons]; omega
    rw [e]
    split_ifs
    · exact ih _ _
    · exact ih _ _

theorem slice_take_drop {α : Type} (l : List α) (i n : Nat) :
    (l.take ((i + 1) * n)).drop (i * n) = (l.drop (i * n)).take n := by
  rw [List.drop_take]
  congr 1
  rw [Nat.add_mul, Nat.one_mul, Nat.add_sub_cancel_left]

theorem slice_length {α : Type} (l : List α) (i n k : Nat) (hl : l.length = n * k) (hi : i < k) :
    ((l.drop (i * n)).take n).length = n := by
  rw [List.length_take, List.length_drop, hl]
  have h1 : n * (i + 1) ≤ n * k := Nat.mul_le_mul_left n hi
  have h2 : n * (i + 1) = i * n + n := by ring
  omega

theorem eval_mux_highest (arg1 arg2 : Const) (bits : List State) (i : Nat)
    (hi : bits.get? i = some State.S1) (hj : ∀ j, i < j → bits.get? j ≠ some State.S1) :
    eval_mux_loop arg1 arg2 bits 0 arg1 =
      ⟨(arg2.bits.drop (i * arg1.bits.length)).take arg1.bits.length, ""⟩ := by
  obtain ⟨hs, hl⟩ := get?_split bits i State.S1 hi
  have hpost : ∀ b ∈ bits.drop (i + 1), b ≠ State.S1 := by
    intro b hb hb1
    obtain ⟨k, hk, rfl⟩ := List.getElem_of_mem hb
    apply hj (i + 1 + k) (by omega)
    rw [List.get?_eq_getElem?, ← List.getElem?_drop, List.getElem?_eq_getElem hk, hb1]
  rw [hs, eval_mux_loop_last _ _ _ _ _ _ hpost, hl, Nat.zero_add, slice_take_drop]

/-- C19: for a `$mux`, `$pmux` or `$_MUX_` cell with `A` of width `n` and `B`
of width `n * |sel|`, `eval(cell, A, B, sel)` returns `A` when no bit of `sel`
is `S1`, and otherwise the slice of the `n` bits of `B` from `i * n` on, for
the highest index `i` with `sel[i] == S1`. -/
theorem eval_mux_spec (eval3 : Cell → Const → Const → Const) (cell : Cell) (A B sel : Const)
    (ht : cell.type = "$mux" ∨ cell.type = "$pmux" ∨ cell.type = "$_MUX_")
    (hB : B.bits.length = A.bits.length * sel.bits.length) :
    ((∀ b ∈ sel.bits, b ≠ State.S1) → CellTypes.eval eval3 cell A B sel = A) ∧
    (∀ i, sel.bits.get? i = some State.S1 → (∀ j, i < j → sel.bits.get? j ≠ some State.S1) →
      CellTypes.eval eval3 cell A B sel =
        ⟨(B.bits.drop (i * A.bits.length)).take A.bits.length, ""⟩ ∧
      ((B.bits.drop (i * A.bits.length)).take A.bits.length).length = A.bits.length) := by
  have hc : cell.type = "$mux" ∨ cell.type = "$pmux" ∨ cell.type = "$safe_pmux" ∨
      cell.type = "$_MUX_" := by tauto
  unfold CellTypes.eval
  rw [if_pos hc]
  refine ⟨fun h => eval_mux_loop_none _ _ _ _ _ h, fun i hi hj => ⟨eval_mux_highest _ _ _ i hi hj, ?_⟩⟩
  apply slice_length _ _ _ _ hB
  have := List.get?_eq_some.mp hi
  exact this.1

theorem eval_mux_spec_witness :
    (CellTypes.eval (fun _ a _ => a) { name := "m", type := "$pmux", parameters := [] } ⟨[State.S0, State.S0], ""⟩
        ⟨[State.S0, State.S1, State.S1, State.S0, State.S1, State.S1], ""⟩
        ⟨[State.S1, State.S1, State.S0], ""⟩ = ⟨[State.S1, State.S0], ""⟩) :=
  ((eval_mux_spec (fun _ a _ => a) { name := "m", type := "$pmux", parameters := [] } ⟨[State.S0, State.S0], ""⟩
        ⟨[State.S0, State.S1, State.S1, State.S0, State.S1, State.S1], ""⟩
        ⟨[State.S1, State.S1, State.S0], ""⟩ (by decide) (by decide)).2 1 (by decide)
        (by intro j hj; match j, hj with
            | 2, _ => decide
            | (j + 3), _ => simp)).1

/-- C20 (amended): for a `$safe_pmux` cell, `eval(cell, A, B, sel)` returns
what it returns for a `$pmux` cell, whatever the number of `S1` bits of `sel`:
`A` when no bit of `sel` is `S1`, and otherwise the slice of `B` for the
highest index `i` with `sel[i] == S1`. -/
theorem eval_safe_pmux_spec (eval3 : Cell → Const → Const → Const) (cell : Cell)
    (A B sel : Const) (ht : cell.type = "$safe_pmux") :
    CellTypes.eval eval3 cell A B sel =
      CellTypes.eval eval3 { cell with type := "$pmux" } A B sel ∧
    ((∀ b ∈ sel.bits, b ≠ State.S1) → CellTypes.eval eval3 cell A B sel = A) ∧
    (∀ i, sel.bits.get? i = some State.S1 → (∀ j, i < j → sel.bits.get? j ≠ some State.S1) →
      CellTypes.eval eval3 cell A B sel =
        ⟨(B.bits.drop (i * A.bits.length)).take A.bits.length, ""⟩) := by
  unfold CellTypes.eval
  rw [if_pos (Or.inr (Or.inr (Or.inl ht))), if_pos (Or.inr (Or.inl rfl))]
  exact ⟨rfl, fun h => eval_mux_loop_none _ _ _ _ _ h, fun i hi hj => eval_mux_highest _ _ _ i hi hj⟩

theorem eval_safe_pmux_spec_witness :
    CellTypes.eval (fun _ a _ => a) { name := "m", type := "$safe_pmux", parameters := [] } ⟨[State.S0], ""⟩
        ⟨[State.S0, State.S1], ""⟩ ⟨[State.S1, State.S1], ""⟩ =
      CellTypes.eval (fun _ a _ => a) { name := "m", type := "$pmux", parameters := [] } ⟨[State.S0], ""⟩
        ⟨[State.S0, State.S1], ""⟩ ⟨[State.S1, State.S1], ""⟩ :=
  (eval_safe_pmux_spec (fun _ a _ => a) { name := "m", type := "$safe_pmux", parameters := [] } ⟨[State.S0], ""⟩
        ⟨[State.S0, State.S1], ""⟩ ⟨[State.S1, State.S1], ""⟩ rfl).1

/-- C20 as stated fails: for a `$safe_pmux` cell with `A = 0`, `B = {1, 0}`
(low bit first `0`, `1`) and both bits of `sel` at `S1`, `eval` returns the
constant `1`, the slice for the highest select bit, and not the constant `Sx`. -/
theorem eval_safe_pmux_counterexample :
    CellTypes.eval (fun _ a _ => a) { name := "m", type := "$safe_pmux", parameters := [] } ⟨[State.S0], ""⟩
        ⟨[State.S0, State.S1], ""⟩ ⟨[State.S1, State.S1], ""⟩ = ⟨[State.S1], ""⟩ ∧
    CellTypes.eval (fun _ a _ => a) { name := "m", type := "$safe_pmux", parameters := [] } ⟨[State.S0], ""⟩
        ⟨[State.S0, State.S1], ""⟩ ⟨[State.S1, State.S1], ""⟩ ≠ Const.ofState State.Sx 1 := by
  decide

/-! ## Constants from strings -/

theorem char_bits_eq (n ch : Nat) :
    Const.char_bits ch n =
      (List.range n).map (fun j => if Nat.testBit ch j then State.S1 else State.S0) := by
  induction n generalizing ch with
  | zero => rfl
  | succ n ih =>
    rw [Const.char_bits, ih, List.range_succ_eq_map, List.map_cons, List.map_map]
    congr 1
    · rw [Nat.testBit_zero]
      have : ch % 2 = 0 ∨ ch % 2 = 1 := by omega
      rcases this with h | h <;> simp [h]
    · apply List.map_congr_left
      intro j _
      simp only [Function.comp, Nat.testBit_succ]

theorem chars_packing (l : List Char) :
    l.flatMap (fun c => Const.char_bits (c.toNat % 256) 8) =
      (List.range (8 * l.length)).map (fun k =>
        if Nat.testBit ((l.getD (k / 8) default).toNat % 256) (k % 8) then State.S1
        else State.S0) := by
  induction l with
  | nil => rfl
  | cons c l ih =>
    have e : 8 * (c :: l).length = 8 + 8 * l.length := by rw [List.length_cons]; ring
    rw [List.flatMap_cons, ih, e, List.range_add, List.map_append, List.map_map, char_bits_eq]
    have p1 : (List.range 8).map (fun j => if Nat.testBit (c.toNat % 256) j then State.S1 else State.S0) =
        (List.range 8).map (fun k =>
          if Nat.testBit (((c :: l).getD (k / 8) default).toNat % 256) (k % 8) then State.S1
          else State.S0) := by
      apply List.map_congr_left
      intro k hk
      have hk8 : k < 8 := List.mem_range.mp hk
      have h1 : k / 8 = 0 := by omega
      have h2 : k % 8 = k := by omega
      rw [h1, h2]; rfl
    have p2 : (List.range (8 * l.length)).map (fun k =>
          if Nat.testBit ((l.getD (k / 8) default).toNat % 256) (k % 8) then State.S1
          else State.S0) =
        (List.range (8 * l.length)).map ((fun k =>
          if Nat.testBit (((c :: l).getD (k / 8) default).toNat % 256) (k % 8) then State.S1
          else State.S0) ∘ fun x => 8 + x) := by
      apply List.map_congr_left
      intro k _
      have h1 : (8 + k) / 8 = k / 8 + 1 := by omega
      have h2 : (8 + k) % 8 = k % 8 := by omega
      simp only [Function.comp, h1, h2, List.getD_cons_succ]
    rw [p1, p2]

theorem ofString_packing (str : String) : (Const.ofString str).bits = string_packing str :=
  chars_packing str.data

theorem ofString_length (str : String) : (Const.ofString str).bits.length = 8 * str.length := by
  rw [ofString_packing]
  unfold string_packing
  rw [List.length_map, List.length_range]

theorem ofString_append (a b : String) :
    (Const.ofString (a ++ b)).bits = (Const.ofString a).bits ++ (Const.ofString b).bits := by
  unfold Const.ofString
  simp only [String.data_append, List.flatMap_append]

/-- The merge of the second loop of `optimize` on two string-tagged constants
that follow each other: the bits are those of the first string followed by the
second, the cached string is the second followed by the first. -/
theorem optimize_merge_strings (a b : String) (ha : a ≠ "") (hb : b ≠ "") :
    optimize_merge (SigChunk.ofConst (Const.ofString a)) [SigChunk.ofConst (Const.ofString b)] =
      [{ wire := none, data := ⟨(Const.ofString (a ++ b)).bits, b ++ a⟩,
         width := 8 * a.length + 8 * b.length, offset := 0 }] := by
  have h1 : (SigChunk.ofConst (Const.ofString a)).is_auto = false := rfl
  have h2 : (SigChunk.ofConst (Const.ofString b)).is_auto = false := rfl
  have h3 : (SigChunk.ofConst (Const.ofString a)).wire = none := rfl
  have h4 : (SigChunk.ofConst (Const.ofString b)).wire = none := rfl
  have h5 : decide ((SigChunk.ofConst (Const.ofString a)).data.str = "") =
      decide ((SigChunk.ofConst (Const.ofString b)).data.str = "") := by
    show decide (a = "") = decide (b = "")
    simp [ha, hb]
  rw [optimize_merge_cons, if_neg (by rw [h1]; simp), if_neg (by rw [h2]; simp),
    if_pos (by rw [h3, h4]), if_neg (fun h => h.1 h3), if_pos ⟨h3, h5⟩]
  simp only [optimize_merge, SigChunk.ofConst, ofString_append, ofString_length]
  rfl

/-- C14: the constructor `Const(std::string)` packs the string little-endian
with eight bits per character, so the chunk of such a constant has the bits of
its cached string.  `optimize` does not keep this: when it merges the chunks of
`Const(a)` and `Const(b)`, the bits are those of `Const(a + b)` and the cached
string is `b + a`.  For `"a"` and `"b"` the merged chunk has the bits of
`Const("ab")` and the cached string `"ba"`, and these bits are not the packing
of `"ba"`. -/
theorem string_packing_optimize :
    (∀ str : String, (Const.ofString str).bits = string_packing str ∧
      (Const.ofString str).str = str ∧ (SigChunk.ofConst (Const.ofString str)).string_packed) ∧
    (∀ a b : String, a ≠ "" → b ≠ "" →
      optimize_merge (SigChunk.ofConst (Const.ofString a)) [SigChunk.ofConst (Const.ofString b)] =
        [{ wire := none, data := ⟨(Const.ofString (a ++ b)).bits, b ++ a⟩,
           width := 8 * a.length + 8 * b.length, offset := 0 }]) ∧
    optimize_chunks [SigChunk.ofConst (Const.ofString "a"), SigChunk.ofConst (Const.ofString "b")] =
      [SigChunk.ofConst ⟨(Const.ofString "ab").bits, "ba"⟩] ∧
    ¬ (SigChunk.ofConst ⟨(Const.ofString "ab").bits, "ba"⟩).string_packed := by
  refine ⟨fun str => ⟨ofString_packing str, rfl, rfl⟩, optimize_merge_strings, by decide, ?_⟩
  unfold SigChunk.string_packed
  decide

/-! ## Comparison of strings -/

theorem char_lt_iff (a b : Char) : a < b ↔ a.toNat < b.toNat := by
  rfl

theorem char_toNat_inj (a b : Char) (h : a.toNat = b.toNat) : a = b := by
  apply Char.ext
  apply UInt32.ext
  exact h

theorem chars_lt_iff (l1 l2 : List Char) : chars_lt l1 l2 = true ↔ l1 < l2 := by
  induction l1 generalizing l2 with
  | nil =>
    cases l2 with
    | nil => simp [chars_lt]
    | cons b bs =>
      simp only [chars_lt, true_iff]
      exact List.Lex.nil
  | cons a as ih =>
    cases l2 with
    | nil => simp [chars_lt]
    | cons b bs =>
      rw [chars_lt]
      constructor
      · intro h
        by_cases h1 : a.toNat < b.toNat
        · exact List.Lex.rel ((char_lt_iff a b).mpr h1)
        · rw [if_neg h1] at h
          by_cases h2 : b.toNat < a.toNat
          · rw [if_pos h2] at h; cases h
          · rw [if_neg h2] at h
            have hab : a = b := char_toNat_inj a b (by omega)
            rw [hab]
            exact List.Lex.cons ((ih bs).mp h)
      · intro h
        cases h with
        | rel hab => rw [if_pos ((char_lt_iff a b).mp hab)]
        | cons h3 =>
          rw [if_neg (lt_irrefl _), if_neg (lt_irrefl _)]
          exact (ih bs).mpr h3

theorem string_lt_iff (a b : String) : string_lt a b = true ↔ a < b := by
  unfold string_lt
  rw [chars_lt_iff, String.lt_iff_toList_lt]
  rfl

/-! ## Sorting -/

theorem sort_insert_perm {α : Type} (lt : α → α → Bool) (a : α) (l : List α) :
    (sort_insert lt a l).Perm (a :: l) := by
  induction l with
  | nil => exact List.Perm.refl _
  | cons b l ih =>
    rw [sort_insert]
    split_ifs
    · exact List.Perm.refl _
    · exact (List.Perm.cons b ih).trans (List.Perm.swap a b l)

theorem std_sort_perm {α : Type} (lt : α → α → Bool) (l : List α) : (std_sort lt l).Perm l := by
  induction l with
  | nil => exact List.Perm.refl _
  | cons a l ih =>
    rw [std_sort]
    exact (sort_insert_perm lt a _).trans (List.Perm.cons a ih)

theorem sort_insert_sorted {α κ : Type} [LinearOrder κ] (lt : α → α → Bool) (key : α → κ)
    (a : α) (l : List α)
    (hk : ∀ b ∈ l, (lt a b = true ↔ key a < key b))
    (hs : l.Pairwise (fun x y => key x ≤ key y)) :
    (sort_insert lt a l).Pairwise (fun x y => key x ≤ key y) := by
  induction l with
  | nil => simp [sort_insert]
  | cons b l ih =>
    rw [sort_insert]
    have hb := hk b (List.mem_cons_self _ _)
    rw [List.pairwise_cons] at hs
    split_ifs with h
    · rw [List.pairwise_cons]
      refine ⟨?_, List.pairwise_cons.mpr hs⟩
      intro c hc
      have hab : key a < key b := hb.mp h
      rcases List.mem_cons.mp hc with rfl | hc
      · exact le_of_lt hab
      · exact le_trans (le_of_lt hab) (hs.1 c hc)
    · rw [List.pairwise_cons]
      refine ⟨?_, ih (fun c hc => hk c (List.mem_cons_of_mem _ hc)) hs.2⟩
      intro c hc
      have hba : key b ≤ key a := not_lt.mp (fun hlt => h (hb.mpr hlt))
      rcases List.mem_cons.mp ((sort_insert_perm lt a l).subset hc) with rfl | hc
      · exact hba
      · exact hs.1 c hc

theorem std_sort_sorted {α κ : Type} [LinearOrder κ] (lt : α → α → Bool) (key : α → κ)
    (l : List α) (hk : ∀ a ∈ l, ∀ b ∈ l, (lt a b = true ↔ key a < key b)) :
    (std_sort lt l).Pairwise (fun x y => key x ≤ key y) := by
  induction l with
  | nil => simp [std_sort]
  | cons a l ih =>
    rw [std_sort]
    apply sort_insert_sorted
    · intro b hb
      exact hk a (List.mem_cons_self _ _) b
        (List.mem_cons_of_mem _ ((std_sort_perm lt l).subset hb))
    · exact ih (fun x hx y hy => hk x (List.mem_cons_of_mem _ hx) y (List.mem_cons_of_mem _ hy))

theorem map_eq_inj {α κ : Type} (key : α → κ) (l1 l2 : List α)
    (hm : l1.map key = l2.map key)
    (hinj : ∀ a ∈ l1, ∀ b ∈ l2, key a = key b → a = b) : l1 = l2 := by
  induction l1 generalizing l2 with
  | nil =>
    cases l2 with
    | nil => rfl
    | cons b l2 => cases hm
  | cons a l1 ih =>
    cases l2 with
    | nil => cases hm
    | cons b l2 =>
      rw [List.map_cons, List.map_cons, List.cons.injEq] at hm
      rw [hinj a (List.mem_cons_self _ _) b (List.mem_cons_self _ _) hm.1,
        ih l2 hm.2 (fun x hx y hy => hinj x (List.mem_cons_of_mem _ hx) y
          (List.mem_cons_of_mem _ hy))]

theorem sorted_unique {α κ : Type} [LinearOrder κ] (key : α → κ) (l1 l2 : List α)
    (hp : l1.Perm l2) (h1 : l1.Pairwise (fun x y => key x ≤ key y))
    (h2 : l2.Pairwise (fun x y => key x ≤ key y))
    (hinj : ∀ a ∈ l1, ∀ b ∈ l1, key a = key b → a = b) : l1 = l2 := by
  have hm : l1.map key = l2.map key :=
    @List.eq_of_perm_of_sorted κ (fun x y => x ≤ y) _ _ _ (hp.map key)
      (List.pairwise_map.mpr h1) (List.pairwise_map.mpr h2)
  exact map_eq_inj key l1 l2 hm (fun a ha b hb => hinj a ha b (hp.symm.subset hb))

/-! ## Ports of a module -/

theorem fixup_compare_iff (a b : Wire) :
    fixup_ports_compare a b = true ↔ fixup_ports_key a < fixup_ports_key b := by
  unfold fixup_ports_compare fixup_ports_key
  rw [Prod.Lex.lt_iff]
  simp only [Prod.Lex.lt_iff, ne_eq, not_not, ← string_lt_iff]
  by_cases ha : a.port_id = 0 <;> by_cases hb : b.port_id = 0
  · simp [ha, hb]
  · simp [ha, hb]
  · simp [ha, hb]
  · by_cases he : a.port_id = b.port_id
    · simp [ha, hb, he]
    · simp [ha, hb, he]

theorem set_port_id_ids (id : Nat) (v : Int) (wires : List (String × Wire)) :
    (set_port_id id v wires).map (fun kw => kw.2.id) = wires.map (fun kw => kw.2.id) := by
  unfold set_port_id
  rw [List.map_map]
  apply List.map_congr_left
  intro kw _
  simp only [Function.comp]
  split_ifs <;> rfl

/-- The `port_id` that the last loop of `fixup_ports` started at index `i` gives
to the wire with the address `id`, for the sorted vector `ps`. -/
theorem fixup_ports_assign_eq (ps : List Wire) (i : Nat) (wires : List (String × Wire))
    (hn : (ps.map (fun p => p.id)).Nodup) :
    fixup_ports_assign ps i wires =
      wires.map (fun kw =>
        if kw.2.id ∈ ps.map (fun p => p.id) then
          (kw.1, { kw.2 with
            port_id := ((i + (ps.map (fun p => p.id)).indexOf kw.2.id : Nat) : Int) + 1 })
        else kw) := by
  induction ps generalizing i wires with
  | nil => simp [fixup_ports_assign]
  | cons p ps ih =>
    rw [List.map_cons, List.nodup_cons] at hn
    rw [fixup_ports_assign, ih _ _ hn.2, set_port_id, List.map_map]
    apply List.map_congr_left
    intro kw _
    simp only [Function.comp, List.map_cons, List.mem_cons]
    by_cases h1 : kw.2.id = p.id
    · rw [if_pos h1]
      have h2 : ¬ p.id ∈ ps.map (fun p => p.id) := hn.1
      simp only [h1, h2, if_false, true_or, if_true, List.indexOf_cons_self]
      simp
    · rw [if_neg h1]
      by_cases h3 : kw.2.id ∈ ps.map (fun p => p.id)
      · rw [if_pos h3, if_pos (Or.inr h3), List.indexOf_cons_ne _ (fun h => h1 h.symm)]
        congr 2
        push_cast
        ring
      · rw [if_neg h3, if_neg (by tauto)]

theorem wires_ids (m : Module) :
    m.wires.map (fun kw => kw.2.id) = (m.wires.map Prod.snd).map (fun p => p.id) := by
  rw [List.map_map]; rfl

theorem all_ports_sub (m : Module) : ∀ w ∈ m.all_ports, w ∈ m.wires.map Prod.snd ∧
    (w.port_input || w.port_output) = true := by
  intro w hw
  exact List.mem_filter.mp hw

theorem all_ports_nodup (m : Module) (hid : (m.wires.map (fun kw => kw.2.id)).Nodup) :
    (m.all_ports.map (fun p => p.id)).Nodup := by
  rw [wires_ids] at hid
  exact List.Nodup.sublist (List.Sublist.map _ (List.filter_sublist _)) hid

theorem sorted_ports_nodup (m : Module) (hid : (m.wires.map (fun kw => kw.2.id)).Nodup) :
    ((std_sort fixup_ports_compare m.all_ports).map (fun p => p.id)).Nodup :=
  (List.Perm.nodup_iff ((std_sort_perm _ _).map _)).mpr (all_ports_nodup m hid)

theorem wire_eq_of_id (m : Module) (hid : (m.wires.map (fun kw => kw.2.id)).Nodup)
    (u v : Wire) (hu : u ∈ m.wires.map Prod.snd) (hv : v ∈ m.wires.map Prod.snd)
    (h : u.id = v.id) : u = v := by
  rw [wires_ids] at hid
  exact List.inj_on_of_nodup_map hid hu hv h

theorem sorted_ports_mem (m : Module) (w : Wire) :
    w ∈ std_sort fixup_ports_compare m.all_ports ↔ w ∈ m.all_ports :=
  (std_sort_perm _ _).mem_iff

/-- The wires of the module after `fixup_ports`. -/
theorem fixup_ports_wires (m : Module) (hid : (m.wires.map (fun kw => kw.2.id)).Nodup) :
    m.fixup_ports.wires =
      m.wires.map (fun kw => (kw.1, { kw.2 with port_id := m.new_port_id kw.2 })) := by
  unfold Module.fixup_ports
  simp only []
  rw [fixup_ports_assign_eq _ _ _ (sorted_ports_nodup m hid), List.map_map]
  apply List.map_congr_left
  intro kw hkw
  have hkw2 : kw.2 ∈ m.wires.map Prod.snd := List.mem_map.mpr ⟨kw, hkw, rfl⟩
  simp only [Function.comp, Module.new_port_id]
  by_cases hf : (kw.2.port_input || kw.2.port_output) = true
  · rw [if_pos hf, if_pos hf]
    have hin : kw.2.id ∈ (std_sort fixup_ports_compare m.all_ports).map (fun p => p.id) :=
      List.mem_map.mpr ⟨kw.2, (sorted_ports_mem m kw.2).mpr (List.mem_filter.mpr ⟨hkw2, hf⟩), rfl⟩
    rw [if_pos hin, Nat.zero_add]
  · rw [if_neg hf, if_neg hf]
    have hout : ¬ kw.2.id ∈ (std_sort fixup_ports_compare m.all_ports).map (fun p => p.id) := by
      intro hin
      obtain ⟨p, hp, hpid⟩ := List.mem_map.mp hin
      have hp2 := all_ports_sub m p ((sorted_ports_mem m p).mp hp)
      have := wire_eq_of_id m hid p kw.2 hp2.1 hkw2 hpid
      rw [this] at hp2
      exact hf hp2.2
    rw [if_neg hout]

theorem indexOf_map_self {α : Type} [DecidableEq α] (l : List α) (h : l.Nodup) :
    l.map (fun x => l.indexOf x) = List.range l.length := by
  induction l with
  | nil => rfl
  | cons a l ih =>
    rw [List.nodup_cons] at h
    rw [List.map_cons, List.indexOf_cons_self, List.length_cons, List.range_succ_eq_map,
      ← ih h.2, List.map_map]
    congr 1
    apply List.map_congr_left
    intro x hx
    have : a ≠ x := fun e => h.1 (e ▸ hx)
    simp only [Function.comp, List.indexOf_cons_ne _ this]

theorem indexOf_lt_of_key {α β κ : Type} [DecidableEq β] [LinearOrder κ] (key : α → κ)
    (g : α → β) (S : List α) (hs : S.Pairwise (fun x y => key x ≤ key y))
    (hn : (S.map g).Nodup) (u v : α) (hu : u ∈ S) (hv : v ∈ S) (h : key u < key v) :
    (S.map g).indexOf (g u) < (S.map g).indexOf (g v) := by
  induction S with
  | nil => cases hu
  | cons a S ih =>
    have hinj := List.inj_on_of_nodup_map hn
    rw [List.map_cons, List.nodup_cons] at hn
    rw [List.pairwise_cons] at hs
    rw [List.map_cons]
    by_cases h1 : g u = g a
    · have hua : u = a := hinj hu (List.mem_cons_self _ _) h1
      have h2 : g a ≠ g v := by
        intro e
        have hva : v = a := hinj hv (List.mem_cons_self _ _) e.symm
        rw [hua, hva] at h
        exact lt_irrefl _ h
      rw [h1, List.indexOf_cons_self, List.indexOf_cons_ne _ h2]
      exact Nat.succ_pos _
    · have huS : u ∈ S := by
        rcases List.mem_cons.mp hu with e | e
        · exact absurd (congrArg g e) h1
        · exact e
      by_cases h2 : g v = g a
      · have hva : v = a := hinj hv (List.mem_cons_self _ _) h2
        have := hs.1 u huS
        rw [hva] at h
        exact absurd (lt_of_lt_of_le h this) (lt_irrefl _)
      · have hvS : v ∈ S := by
          rcases List.mem_cons.mp hv with e | e
          · exact absurd (congrArg g e) h2
          · exact e
        rw [List.indexOf_cons_ne _ (fun e => h1 e.symm), List.indexOf_cons_ne _ (fun e => h2 e.symm)]
        exact Nat.succ_lt_succ (ih hs.2 hn.2 huS hvS)

theorem sorted_ports_sorted (m : Module) :
    (std_sort fixup_ports_compare m.all_ports).Pairwise
      (fun x y => fixup_ports_key x ≤ fixup_ports_key y) :=
  std_sort_sorted fixup_ports_compare fixup_ports_key _ (fun a _ b _ => fixup_compare_iff a b)

theorem new_port_id_sorted (m : Module) (hid : (m.wires.map (fun kw => kw.2.id)).Nodup) :
    (std_sort fixup_ports_compare m.all_ports).map m.new_port_id =
      (List.range m.all_ports.length).map (fun (i : Nat) => (i : Int) + 1) := by
  have hflag : ∀ w ∈ std_sort fixup_ports_compare m.all_ports,
      m.new_port_id w =
        ((((std_sort fixup_ports_compare m.all_ports).map (fun p => p.id)).indexOf w.id : Nat) : Int)
          + 1 := by
    intro w hw
    unfold Module.new_port_id
    rw [if_pos (all_ports_sub m w ((sorted_ports_mem m w).mp hw)).2]
  rw [List.map_congr_left hflag]
  have h1 := indexOf_map_self _ (sorted_ports_nodup m hid)
  rw [List.map_map, List.length_map, (std_sort_perm _ _).length_eq] at h1
  rw [← h1, List.map_map]
  rfl

theorem fixup_order_key (u v : Wire)
    (h : (u.port_id ≠ 0 ∧ v.port_id = 0) ∨
      ((u.port_id = 0 ↔ v.port_id = 0) ∧
        (u.port_id < v.port_id ∨ (u.port_id = v.port_id ∧ string_lt u.name v.name = true)))) :
    fixup_ports_key u < fixup_ports_key v := by
  unfold fixup_ports_key
  rw [Prod.Lex.lt_iff]
  simp only [Prod.Lex.lt_iff, ← string_lt_iff]
  rcases h with ⟨h1, h2⟩ | ⟨h1, h2⟩
  · left; simp [h1, h2]
  · right
    refine ⟨?_, h2⟩
    by_cases hu : u.port_id = 0
    · simp [hu, h1.mp hu]
    · have hv : ¬ v.port_id = 0 := fun hv => hu (h1.mpr hv)
      simp [hu, hv]

/-- C16 (amended): for a module whose wires are distinct objects, `fixup_ports`
changes the `port_id` of the wires only; a wire with neither `port_input` nor
`port_output` gets the `port_id` 0; the `k` wires with one of the flags get the
numbers `1..k`, each once, in this order: first the wires whose previous
`port_id` is not zero, in ascending order of the pair (previous `port_id`,
name), and after them the wires whose previous `port_id` is zero, in ascending
order of the name. -/
theorem fixup_ports_order (m : Module) (hid : (m.wires.map (fun kw => kw.2.id)).Nodup) :
    ∃ f : Wire → Int,
      m.fixup_ports.wires = m.wires.map (fun kw => (kw.1, { kw.2 with port_id := f kw.2 })) ∧
      (∀ w ∈ m.wires.map Prod.snd, w.port_input = false → w.port_output = false → f w = 0) ∧
      (m.all_ports.map f).Perm ((List.range m.all_ports.length).map (fun (i : Nat) => (i : Int) + 1)) ∧
      (∀ u ∈ m.all_ports, ∀ v ∈ m.all_ports,
        ((u.port_id ≠ 0 ∧ v.port_id = 0) ∨
          ((u.port_id = 0 ↔ v.port_id = 0) ∧
            (u.port_id < v.port_id ∨ (u.port_id = v.port_id ∧ string_lt u.name v.name = true)))) →
        f u < f v) := by
  refine ⟨m.new_port_id, fixup_ports_wires m hid, ?_, ?_, ?_⟩
  · intro w _ h1 h2
    unfold Module.new_port_id
    rw [h1, h2]
    rfl
  · rw [← new_port_id_sorted m hid]
    exact ((std_sort_perm _ _).map _).symm
  · intro u hu v hv h
    have hk := fixup_order_key u v h
    have hi := indexOf_lt_of_key fixup_ports_key (fun p => p.id) _ (sorted_ports_sorted m)
      (sorted_ports_nodup m hid) u v ((sorted_ports_mem m u).mpr hu)
      ((sorted_ports_mem m v).mpr hv) hk
    unfold Module.new_port_id
    rw [if_pos (all_ports_sub m u hu).2, if_pos (all_ports_sub m v hv).2]
    exact_mod_cast Nat.succ_lt_succ hi

theorem fixup_ports_order_witness :
    (exMod.wires.map (fun kw => kw.2.id)).Nodup ∧
    ∃ f : Wire → Int,
      exMod.fixup_ports.wires =
        exMod.wires.map (fun kw => (kw.1, { kw.2 with port_id := f kw.2 })) ∧
      (∀ w ∈ exMod.wires.map Prod.snd, w.port_input = false → w.port_output = false → f w = 0) ∧
      (exMod.all_ports.map f).Perm
        ((List.range exMod.all_ports.length).map (fun (i : Nat) => (i : Int) + 1)) ∧
      (∀ u ∈ exMod.all_ports, ∀ v ∈ exMod.all_ports,
        ((u.port_id ≠ 0 ∧ v.port_id = 0) ∨
          ((u.port_id = 0 ↔ v.port_id = 0) ∧
            (u.port_id < v.port_id ∨ (u.port_id = v.port_id ∧ string_lt u.name v.name = true)))) →
        f u < f v) :=
  ⟨by decide, fixup_ports_order exMod (by decide)⟩

/-- C16 as stated fails: in the module with the ports `\a` (previous `port_id`
0), `\b` (1) and `\c` (3), the wire `\a` comes first in the order of the pair
(previous `port_id`, name), and `fixup_ports` numbers it last: `\b` gets 1,
`\c` gets 2 and `\a` gets 3. -/
theorem fixup_ports_order_counterexample :
    exMod.all_ports.map (fun w => (w.name, w.port_id)) = [("\\a", 0), ("\\b", 1), ("\\c", 3)] ∧
    exMod.fixup_ports.wires.map (fun kw => (kw.1, kw.2.port_id)) =
      [("\\a", 3), ("\\b", 1), ("\\c", 2), ("\\n", 0)] := by
  decide

theorem indexOf_pairwise {α : Type} [DecidableEq α] (l : List α) (h : l.Nodup) :
    l.Pairwise (fun a b => l.indexOf a < l.indexOf b) := by
  rw [List.pairwise_iff_getElem]
  intro i j hi hj hij
  rw [List.indexOf_getElem h i hi, List.indexOf_getElem h j hj]
  exact hij

theorem fixup_key_numbered (w : Wire) (n : Nat) :
    fixup_ports_key { w with port_id := (n : Int) + 1 } = toLex (0, toLex ((n : Int) + 1, w.name)) := by
  unfold fixup_ports_key
  have : ¬ ((n : Int) + 1 = 0) := by omega
  simp [this]

/-- The vector `all_ports` of the module after `fixup_ports`, sorted. -/
theorem sorted_ports_fixup (m : Module) (hid : (m.wires.map (fun kw => kw.2.id)).Nodup) :
    m.fixup_ports.all_ports =
      m.all_ports.map (fun w => { w with port_id := m.new_port_id w }) ∧
    std_sort fixup_ports_compare m.fixup_ports.all_ports =
      (std_sort fixup_ports_compare m.all_ports).map
        (fun w => { w with port_id := m.new_port_id w }) := by
  have hA : m.fixup_ports.all_ports =
      m.all_ports.map (fun w => { w with port_id := m.new_port_id w }) := by
    unfold Module.all_ports
    have e1 : (m.wires.map (fun kw => (kw.1, ({ kw.2 with port_id := m.new_port_id kw.2 } : Wire)))).map
        Prod.snd =
        (m.wires.map Prod.snd).map (fun w => { w with port_id := m.new_port_id w }) := by
      rw [List.map_map, List.map_map]
      rfl
    rw [fixup_ports_wires m hid, e1, List.filter_map]
    rfl
  refine ⟨hA, ?_⟩
  have hn := sorted_ports_nodup m hid
  have hval : ∀ w ∈ std_sort fixup_ports_compare m.all_ports,
      m.new_port_id w =
        ((((std_sort fixup_ports_compare m.all_ports).map (fun p => p.id)).indexOf w.id : Nat) : Int)
          + 1 := by
    intro w hw
    unfold Module.new_port_id
    rw [if_pos (all_ports_sub m w ((sorted_ports_mem m w).mp hw)).2]
  symm
  apply sorted_unique fixup_ports_key
  · rw [hA]
    exact ((std_sort_perm _ _).map _).trans (std_sort_perm _ _).symm
  · rw [List.pairwise_map]
    have h1 := indexOf_pairwise _ hn
    rw [List.pairwise_map] at h1
    apply List.Pairwise.imp_of_mem _ h1
    intro a b ha hb hab
    rw [hval a ha, hval b hb, fixup_key_numbered, fixup_key_numbered]
    apply le_of_lt
    rw [Prod.Lex.lt_iff]
    right
    refine ⟨rfl, ?_⟩
    rw [Prod.Lex.lt_iff]
    left
    show ((_ : Nat) : Int) + 1 < ((_ : Nat) : Int) + 1
    omega
  · exact std_sort_sorted fixup_ports_compare fixup_ports_key _
      (fun a _ b _ => fixup_compare_iff a b)
  · intro a ha b hb hab
    obtain ⟨x, hx, rfl⟩ := List.mem_map.mp ha
    obtain ⟨y, hy, rfl⟩ := List.mem_map.mp hb
    rw [hval x hx, hval y hy, fixup_key_numbered, fixup_key_numbered] at hab
    have h2 : ((std_sort fixup_ports_compare m.all_ports).map (fun p => p.id)).indexOf x.id =
        ((std_sort fixup_ports_compare m.all_ports).map (fun p => p.id)).indexOf y.id := by
      have := congrArg (fun k => (ofLex (ofLex k).2).1) hab
      simp only [ofLex_toLex] at this
      omega
    have h3 : x.id = y.id :=
      (List.indexOf_inj (List.mem_map.mpr ⟨x, hx, rfl⟩) (List.mem_map.mpr ⟨y, hy, rfl⟩)).mp h2
    have h4 : x = y := wire_eq_of_id m hid x y
      (all_ports_sub m x ((sorted_ports_mem m x).mp hx)).1
      (all_ports_sub m y ((sorted_ports_mem m y).mp hy)).1 h3
    rw [h4]

/-- C15: for a module whose wires are distinct objects, `fixup_ports` applied
twice gives the module that `fixup_ports` applied once gives: every wire has
the same `port_id` after the second application as after the first. -/
theorem fixup_ports_idempotent (m : Module) (hid : (m.wires.map (fun kw => kw.2.id)).Nodup) :
    m.fixup_ports.fixup_ports = m.fixup_ports := by
  have hw := fixup_ports_wires m hid
  have hid1 : (m.fixup_ports.wires.map (fun kw => kw.2.id)).Nodup := by
    rw [hw, List.map_map]
    exact hid
  have h1 := fixup_ports_wires m.fixup_ports hid1
  have hs := (sorted_ports_fixup m hid).2
  have hnew : ∀ w : Wire,
      m.fixup_ports.new_port_id { w with port_id := m.new_port_id w } = m.new_port_id w := by
    intro w
    unfold Module.new_port_id
    rw [hs, List.map_map]
    rfl
  have h2 : m.fixup_ports.fixup_ports.wires = m.fixup_ports.wires := by
    rw [h1, hw, List.map_map]
    apply List.map_congr_left
    intro kw _
    simp only [Function.comp, hnew]
  have h3 : m.fixup_ports.fixup_ports =
      { m.fixup_ports with wires := m.fixup_ports.fixup_ports.wires } := rfl
  rw [h3, h2]

theorem fixup_ports_idempotent_witness :
    (exMod.wires.map (fun kw => kw.2.id)).Nodup ∧
    exMod.fixup_ports.fixup_ports = exMod.fixup_ports :=
  ⟨by decide, fixup_ports_idempotent exMod (by decide)⟩

/-! ## Sorting the bits of a signal -/

theorem state_toNat_inj (x y : State) (h : x.toNat = y.toNat) : x = y := by
  cases x <;> cases y <;> first | rfl | (exact absurd h (by decide))

theorem compare_const_const (x y : State) :
    SigChunk.compare ⟨none, ⟨[x], ""⟩, 1, 0⟩ ⟨none, ⟨[y], ""⟩, 1, 0⟩ = true ↔
      bit_key ⟨none, ⟨[x], ""⟩, 1, 0⟩ < bit_key ⟨none, ⟨[y], ""⟩, 1, 0⟩ := by
  unfold SigChunk.compare bit_key
  simp only [Prod.Lex.lt_iff, bits_lt, wire_ptr, wire_name]
  by_cases h1 : x.toNat < y.toNat
  · simp [h1]
  · by_cases h2 : y.toNat < x.toNat
    · simp [h1, h2]
    · simp [h1, h2]

theorem compare_const_wire (x : State) (w : Wire) (o : Nat) :
    (SigChunk.compare ⟨none, ⟨[x], ""⟩, 1, 0⟩ ⟨some w, Const.empty, 1, o⟩ = true ↔
      bit_key ⟨none, ⟨[x], ""⟩, 1, 0⟩ < bit_key ⟨some w, Const.empty, 1, o⟩) ∧
    (SigChunk.compare ⟨some w, Const.empty, 1, o⟩ ⟨none, ⟨[x], ""⟩, 1, 0⟩ = true ↔
      bit_key ⟨some w, Const.empty, 1, o⟩ < bit_key ⟨none, ⟨[x], ""⟩, 1, 0⟩) := by
  unfold SigChunk.compare bit_key
  simp [Prod.Lex.lt_iff, wire_ptr, wire_name]

theorem string_lt_irrefl (a : String) : string_lt a a = false := by
  cases h : string_lt a a with
  | false => rfl
  | true => exact absurd ((string_lt_iff a a).mp h) (lt_irrefl _)

theorem compare_wire_wire (w v : Wire) (o p : Nat) (hid : w.id = v.id → w = v) :
    SigChunk.compare ⟨some w, Const.empty, 1, o⟩ ⟨some v, Const.empty, 1, p⟩ = true ↔
      bit_key ⟨some w, Const.empty, 1, o⟩ < bit_key ⟨some v, Const.empty, 1, p⟩ := by
  unfold SigChunk.compare bit_key
  simp only [Prod.Lex.lt_iff, wire_ptr, wire_name, Const.empty, bits_lt, ← string_lt_iff]
  by_cases hwv : w = v
  · subst hwv
    by_cases hop : o = p
    · simp [hop, string_lt_irrefl]
    · simp [hop, string_lt_irrefl]
  · have hne : w.id ≠ v.id := fun h => hwv (hid h)
    by_cases hn : w.name = v.name
    · simp [hwv, hn, hne, string_lt_irrefl]
    · simp [hwv, hn]

theorem bit_shape (d : SigChunk) (j : Nat) :
    (∃ w, d.wire = some w ∧ d.bit j = ⟨some w, Const.empty, 1, d.offset + j⟩) ∨
    (d.wire = none ∧ ∃ x, d.bit j = ⟨none, ⟨[x], ""⟩, 1, 0⟩) := by
  cases hw : d.wire with
  | some w => exact Or.inl ⟨w, rfl, extract_wire d w hw j 1⟩
  | none => exact Or.inr ⟨rfl, _, bit_const d hw j⟩

theorem bits_mem_chunk (cs : List SigChunk) :
    ∀ c ∈ lbits SigChunk.bit cs, ∃ d ∈ cs, ∃ j, c = d.bit j := by
  intro c hc
  unfold lbits at hc
  obtain ⟨d, hd, hc2⟩ := List.mem_flatMap.mp hc
  obtain ⟨j, _, rfl⟩ := List.mem_map.mp hc2
  exact ⟨d, hd, j, rfl⟩

theorem compare_iff_key (s : SigSpec) (hw : s.wires_by_id) :
    ∀ a ∈ s.bits, ∀ b ∈ s.bits, (SigChunk.compare a b = true ↔ bit_key a < bit_key b) := by
  intro a ha b hb
  obtain ⟨da, hda, ja, rfl⟩ := bits_mem_chunk s.chunks a ha
  obtain ⟨db, hdb, jb, rfl⟩ := bits_mem_chunk s.chunks b hb
  rcases bit_shape da ja with ⟨w, h1, e1⟩ | ⟨_, x, e1⟩ <;>
    rcases bit_shape db jb with ⟨v, h2, e2⟩ | ⟨_, y, e2⟩ <;> rw [e1, e2]
  · exact compare_wire_wire w v _ _ (hw w (List.mem_filterMap.mpr ⟨da, hda, h1⟩) v
      (List.mem_filterMap.mpr ⟨db, hdb, h2⟩))
  · exact (compare_const_wire y w _).2
  · exact (compare_const_wire x v _).1
  · exact compare_const_const x y

theorem bit_key_inj (s : SigSpec) (hw : s.wires_by_id) :
    ∀ a ∈ s.bits, ∀ b ∈ s.bits, bit_key a = bit_key b → a = b := by
  intro a ha b hb
  obtain ⟨da, hda, ja, rfl⟩ := bits_mem_chunk s.chunks a ha
  obtain ⟨db, hdb, jb, rfl⟩ := bits_mem_chunk s.chunks b hb
  rcases bit_shape da ja with ⟨w, h1, e1⟩ | ⟨_, x, e1⟩ <;>
    rcases bit_shape db jb with ⟨v, h2, e2⟩ | ⟨_, y, e2⟩ <;> rw [e1, e2] <;>
    unfold bit_key <;> simp only [toLex_inj, Prod.mk.injEq, wire_ptr, wire_name] <;> intro h
  · have hid : w.id = v.id := by
      have := h.2.2.1
      omega
    have hwv := hw w (List.mem_filterMap.mpr ⟨da, hda, h1⟩) v
      (List.mem_filterMap.mpr ⟨db, hdb, h2⟩) hid
    rw [hwv, h.2.2.2.1]
  · simp at h
  · simp at h
  · have := state_toNat_inj x y (by simpa using h.2.2.2.2)
    rw [this]

theorem dup_iff_eq (s : SigSpec) (hw : s.wires_by_id) :
    ∀ a ∈ s.bits, ∀ b ∈ s.bits,
      ((!SigChunk.compare a b && !SigChunk.compare b a) = true ↔ a = b) := by
  intro a ha b hb
  have h1 := compare_iff_key s hw a ha b hb
  have h2 := compare_iff_key s hw b hb a ha
  constructor
  · intro h
    simp only [Bool.and_eq_true, Bool.not_eq_true', ← Bool.not_eq_true] at h
    apply bit_key_inj s hw a ha b hb
    exact le_antisymm (not_lt.mp (fun hc => h.2 (h2.mpr hc))) (not_lt.mp (fun hc => h.1 (h1.mpr hc)))
  · intro h
    subst h
    have : SigChunk.compare a a = false := by
      cases hc : SigChunk.compare a a with
      | false => rfl
      | true => exact absurd (h1.mp hc) (lt_irrefl _)
    rw [this]
    rfl

theorem unify_loop_dup_last (c ch2 : SigChunk) (w : Nat)
    (h : (!SigChunk.compare c ch2 && !SigChunk.compare ch2 c) = true) :
    unify_loop c [ch2] w = none := by
  conv => lhs; unfold unify_loop
  rw [if_pos h]

theorem unify_loop_dup (c ch2 next : SigChunk) (rest : List SigChunk) (w : Nat)
    (h : (!SigChunk.compare c ch2 && !SigChunk.compare ch2 c) = true) :
    unify_loop c (ch2 :: next :: rest) w = unify_loop c (next :: rest) (w - next.width) := by
  conv => lhs; unfold unify_loop
  rw [if_pos h]

theorem unify_loop_ne (c ch2 : SigChunk) (rest : List SigChunk) (w : Nat)
    (h : ¬ (!SigChunk.compare c ch2 && !SigChunk.compare ch2 c) = true) :
    unify_loop c (ch2 :: rest) w = (unify_loop ch2 rest w).map (fun r => (c :: r.1, r.2)) := by
  conv => lhs; unfold unify_loop
  rw [if_neg h]

theorem unify_some (B : List SigChunk)
    (hd : ∀ a ∈ B, ∀ b ∈ B, ((!SigChunk.compare a b && !SigChunk.compare b a) = true ↔ a = b))
    (hinj : ∀ a ∈ B, ∀ b ∈ B, bit_key a = bit_key b → a = b)
    (hw1 : ∀ a ∈ B, a.width = 1) (cs : List SigChunk) :
    ∀ (c : SigChunk) (width : Nat) (r : List SigChunk) (w' : Nat),
      (∀ a ∈ c :: cs, a ∈ B) → (c :: cs).Pairwise (fun a b => bit_key a ≤ bit_key b) →
      cs.length ≤ width → unify_loop c cs width = some (r, w') →
      r.Pairwise (fun a b => bit_key a < bit_key b) ∧ (∀ x, x ∈ r ↔ x ∈ c :: cs) ∧
        w' + cs.length + 1 = width + r.length := by
  induction cs with
  | nil =>
    intro c width r w' _ _ _ h
    rw [unify_loop] at h
    injection h with h
    injection h with h1 h2
    subst h1; subst h2
    simp
  | cons ch2 rest ih =>
    intro c width r w' hB hs hlen h
    have hcB := hB c (List.mem_cons_self _ _)
    have h2B := hB ch2 (List.mem_cons_of_mem _ (List.mem_cons_self _ _))
    rw [List.pairwise_cons] at hs
    by_cases hdup : (!SigChunk.compare c ch2 && !SigChunk.compare ch2 c) = true
    · have hcc : c = ch2 := (hd c hcB ch2 h2B).mp hdup
      cases rest with
      | nil => rw [unify_loop_dup_last c ch2 width hdup] at h; cases h
      | cons next rest =>
        rw [unify_loop_dup c ch2 next rest width hdup] at h
        have hn1 : next.width = 1 :=
          hw1 next (hB next (List.mem_cons_of_mem _ (List.mem_cons_of_mem _ (List.mem_cons_self _ _))))
        have hs2 : (c :: next :: rest).Pairwise (fun a b => bit_key a ≤ bit_key b) := by
          rw [List.pairwise_cons]
          refine ⟨fun x hx => hs.1 x (List.mem_cons_of_mem _ hx), ?_⟩
          exact (List.pairwise_cons.mp hs.2).2
        have := ih c (width - next.width) r w'
          (fun a ha => by
            rcases List.mem_cons.mp ha with e | e
            · rw [e]; exact hcB
            · exact hB a (List.mem_cons_of_mem _ (List.mem_cons_of_mem _ e)))
          hs2 (by rw [hn1]; simp only [List.length_cons] at hlen ⊢; omega) h
        refine ⟨this.1, ?_, ?_⟩
        · intro x
          rw [this.2.1 x, ← hcc]
          simp
        · have h3 := this.2.2
          simp only [List.length_cons] at hlen h3 ⊢
          omega
    · rw [unify_loop_ne c ch2 rest width hdup] at h
      cases hu : unify_loop ch2 rest width with
      | none => rw [hu] at h; cases h
      | some p =>
        obtain ⟨r', w2⟩ := p
        rw [hu] at h
        simp only [Option.map_some'] at h
        injection h with h
        injection h with h1 h2
        subst h1; subst h2
        have := ih ch2 width r' w2 (fun a ha => hB a (List.mem_cons_of_mem _ ha)) hs.2
          (by simp only [List.length_cons] at hlen; omega) hu
        have hne : c ≠ ch2 := fun e => hdup ((hd c hcB ch2 h2B).mpr e)
        have hlt : bit_key c < bit_key ch2 :=
          lt_of_le_of_ne (hs.1 ch2 (List.mem_cons_self _ _))
            (fun e => hne (hinj c hcB ch2 h2B e))
        refine ⟨?_, ?_, ?_⟩
        · rw [List.pairwise_cons]
          refine ⟨?_, this.1⟩
          intro x hx
          rcases List.mem_cons.mp ((this.2.1 x).mp hx) with e | e
          · rw [e]; exact hlt
          · exact lt_of_lt_of_le hlt ((List.pairwise_cons.mp hs.2).1 x e)
        · intro x
          rw [List.mem_cons, this.2.1 x, List.mem_cons (a := x) (b := c)]
        · have h3 := this.2.2
          simp only [List.length_cons] at h3 ⊢
          omega

theorem unify_none (B : List SigChunk)
    (hd : ∀ a ∈ B, ∀ b ∈ B, ((!SigChunk.compare a b && !SigChunk.compare b a) = true ↔ a = b))
    (cs : List SigChunk) :
    ∀ (c : SigChunk) (width : Nat), (∀ a ∈ c :: cs, a ∈ B) →
      (unify_loop c cs width = none ↔ ∃ pre x, c :: cs = pre ++ [x, x]) := by
  induction cs with
  | nil =>
    intro c width _
    rw [unify_loop]
    constructor
    · intro h; cases h
    · rintro ⟨pre, x, h⟩
      have := congrArg List.length h
      simp at this
  | cons ch2 rest ih =>
    intro c width hB
    have hcB := hB c (List.mem_cons_self _ _)
    have h2B := hB ch2 (List.mem_cons_of_mem _ (List.mem_cons_self _ _))
    by_cases hdup : (!SigChunk.compare c ch2 && !SigChunk.compare ch2 c) = true
    · have hcc : c = ch2 := (hd c hcB ch2 h2B).mp hdup
      cases rest with
      | nil =>
        rw [unify_loop_dup_last c ch2 width hdup]
        simp only [true_iff]
        exact ⟨[], c, by rw [hcc]; rfl⟩
      | cons next rest =>
        rw [unify_loop_dup c ch2 next rest width hdup,
          ih c _ (fun a ha => by
            rcases List.mem_cons.mp ha with e | e
            · rw [e]; exact hcB
            · exact hB a (List.mem_cons_of_mem _ (List.mem_cons_of_mem _ e)))]
        constructor
        · rintro ⟨pre, x, h⟩
          exact ⟨c :: pre, x, by rw [← hcc, h]; rfl⟩
        · rintro ⟨pre, x, h⟩
          cases pre with
          | nil =>
            have := congrArg List.length h
            simp at this
          | cons p pre =>
            rw [List.cons_append, List.cons.injEq] at h
            exact ⟨pre, x, by rw [hcc]; exact h.2⟩
    · rw [unify_loop_ne c ch2 rest width hdup, Option.map_eq_none',
        ih ch2 _ (fun a ha => hB a (List.mem_cons_of_mem _ ha))]
      constructor
      · rintro ⟨pre, x, h⟩
        exact ⟨c :: pre, x, by rw [h]; rfl⟩
      · rintro ⟨pre, x, h⟩
        cases pre with
        | nil =>
          rw [List.nil_append, List.cons.injEq, List.cons.injEq] at h
          exact absurd ((hd c hcB ch2 h2B).mpr (by rw [h.1, h.2.1])) hdup
        | cons p pre =>
          rw [List.cons_append, List.cons.injEq] at h
          exact ⟨pre, x, h.2⟩

theorem bits_elem (cs : List SigChunk) :
    ∀ c ∈ lbits SigChunk.bit cs, c.width = 1 ∧ c.bit 0 = c ∧ c.wf := by
  intro c hc
  obtain ⟨d, j, rfl⟩ := bits_mem cs c hc
  exact bit_wf d j

theorem bits_of_bits (l : List SigChunk) (w : Nat)
    (h : ∀ c ∈ l, c.width = 1 ∧ c.bit 0 = c ∧ c.wf) :
    (SigSpec.optimize ⟨l, w⟩).bits = l := by
  unfold SigSpec.bits SigSpec.optimize
  simp only []
  rw [bits_optimize_chunks l (fun d hd => (h d hd).2.2)]
  exact lbits_bit_self l (fun c hc => ⟨(h c hc).1, (h c hc).2.1⟩)

theorem sort_bits (s : SigSpec) : s.sort.bits = std_sort SigChunk.compare s.bits ∧
    s.sort.width = s.width := by
  refine ⟨?_, rfl⟩
  unfold SigSpec.sort
  rw [expand_eq_bits]
  apply bits_of_bits
  intro c hc
  exact bits_elem s.chunks c ((std_sort_perm _ _).subset hc)

/-- C12: for a signal that passes `check`, has no string-tagged constant and
whose wires are distinct objects, `sort` keeps the width and yields the bits of
the signal as a permutation that is sorted ascending under `SigChunk::compare`,
the only such arrangement of these bits.
`sort_and_unify` yields these sorted bits with every duplicate dropped, in
strictly ascending order, and the number of distinct bits as width, unless the
greatest bit of the signal occurs more than once: then the last two sorted
bits are duplicates, and after the last chunk has been erased
`width -= chunks[i].width` reads past the end of the vector, which leaves the
width undefined. -/
theorem sort_spec (s : SigSpec) (h : s.check = true) (_ht : ∀ c ∈ s.chunks, c.data.str = "")
    (hw : s.wires_by_id) :
    (s.sort.width = s.width ∧ s.sort.bits.Perm s.bits ∧
      s.sort.bits.Pairwise (fun a b => SigChunk.compare b a = false) ∧
      (∀ l : List SigChunk, l.Perm s.bits →
        l.Pairwise (fun a b => SigChunk.compare b a = false) → l = s.sort.bits)) ∧
    ((∃ pre x, s.sort.bits = pre ++ [x, x]) → s.sort_and_unify = none) ∧
    ((¬ ∃ pre x, s.sort.bits = pre ++ [x, x]) →
      ∃ r, s.sort_and_unify = some r ∧ r.bits = s.sort.bits.dedup ∧
        r.bits.Pairwise (fun a b => SigChunk.compare a b = true) ∧
        r.width = s.bits.dedup.length) := by
  have hperm := std_sort_perm SigChunk.compare s.bits
  have hkey := compare_iff_key s hw
  have hinj := bit_key_inj s hw
  have hd := dup_iff_eq s hw
  have hS := std_sort_sorted SigChunk.compare bit_key s.bits hkey
  have hmem : ∀ a ∈ std_sort SigChunk.compare s.bits, a ∈ s.bits := fun a ha => hperm.subset ha
  rw [(sort_bits s).1]
  refine ⟨⟨rfl, hperm, ?_, ?_⟩, ?_, ?_⟩
  · apply List.Pairwise.imp_of_mem _ hS
    intro a b ha hb hab
    cases hc : SigChunk.compare b a with
    | false => rfl
    | true => exact absurd ((hkey b (hmem b hb) a (hmem a ha)).mp hc) (not_lt.mpr hab)
  · intro l hl hsl
    apply sorted_unique bit_key l _ (hl.trans hperm.symm) _ hS
      (fun a ha b hb => hinj a (hl.subset ha) b (hl.subset hb))
    apply List.Pairwise.imp_of_mem _ hsl
    intro a b ha hb hab
    exact not_lt.mp (fun hc => by
      rw [(hkey b (hl.subset hb) a (hl.subset ha)).mpr hc] at hab
      cases hab)
  · intro hex
    unfold SigSpec.sort_and_unify
    rw [expand_eq_bits]
    cases hs : std_sort SigChunk.compare s.bits with
    | nil =>
      rw [hs] at hex
      obtain ⟨pre, x, e⟩ := hex
      have := congrArg List.length e
      simp at this
    | cons c cs =>
      rw [hs] at hex hmem
      simp only []
      rw [(unify_none s.bits hd cs c s.width hmem).mpr hex]
      rfl
  · intro hex
    unfold SigSpec.sort_and_unify
    rw [expand_eq_bits]
    have hlen : s.bits.length = s.width := bits_length s h
    cases hs : std_sort SigChunk.compare s.bits with
    | nil =>
      have hb : s.bits = [] := by
        have := hperm.length_eq
        rw [hs] at this
        exact List.length_eq_zero.mp this.symm
      refine ⟨_, rfl, ?_, ?_, ?_⟩
      · rw [bits_of_bits [] _ (by simp)]; rfl
      · rw [bits_of_bits [] _ (by simp)]; exact List.Pairwise.nil
      · show s.width = _
        rw [← hlen, hb]; rfl
    | cons c cs =>
      rw [hs] at hex hmem hS
      simp only []
      cases hu : unify_loop c cs s.width with
      | none => exact absurd ((unify_none s.bits hd cs c s.width hmem).mp hu) hex
      | some p =>
        obtain ⟨r, w'⟩ := p
        have hcs : cs.length + 1 = s.width := by
          rw [← hlen, ← hperm.length_eq, hs]; rfl
        obtain ⟨hr1, hr2, hr3⟩ := unify_some s.bits hd hinj
          (fun a ha => (bits_elem s.chunks a ha).1) cs c s.width r w' hmem hS (by omega) hu
        have hrB : ∀ a ∈ r, a ∈ s.bits := fun a ha => hmem a ((hr2 a).mp ha)
        have hbits : (SigSpec.optimize ⟨r, w'⟩).bits = r :=
          bits_of_bits r w' (fun a ha => bits_elem s.chunks a (hrB a ha))
        have hded : r = (c :: cs).dedup := by
          apply sorted_unique bit_key
          · apply (List.perm_ext_iff_of_nodup _ (List.nodup_dedup _)).mpr
            · intro a
              rw [hr2 a, List.mem_dedup]
            · exact hr1.imp (fun hab e => absurd (congrArg bit_key e) (ne_of_lt hab))
          · exact hr1.imp le_of_lt
          · exact List.Pairwise.sublist (List.dedup_sublist _) hS
          · exact fun a ha b hb => hinj a (hrB a ha) b (hrB b hb)
        refine ⟨_, rfl, ?_, ?_, ?_⟩
        · rw [hbits]; exact hded
        · rw [hbits]
          apply List.Pairwise.imp_of_mem _ hr1
          intro a b ha hb hab
          exact (hkey a (hrB a ha) b (hrB b hb)).mpr hab
        · show w' = _
          have h1 : (c :: cs).dedup.length = s.bits.dedup.length := by
            rw [← hs]; exact (List.Perm.dedup hperm).length_eq
          rw [← h1, ← hded]
          omega

theorem sort_spec_witness :
    exDup.check = true ∧ exDup.sort.bits = [(SigChunk.ofWire exW 1 0).bit 0,
      (SigChunk.ofWire exW 1 1).bit 0, (SigChunk.ofWire exW 1 1).bit 0] ∧
    exDup.sort_and_unify = none ∧
    exSort.check = true ∧
    ∃ r, exSort.sort_and_unify = some r ∧ r.bits = exSort.sort.bits.dedup ∧
      r.bits.Pairwise (fun a b => SigChunk.compare a b = true) ∧
      r.width = exSort.bits.dedup.length :=
  ⟨by decide, by decide,
    (sort_spec exDup (by decide) (by decide) (by unfold SigSpec.wires_by_id; decide)).2.1
      ⟨[(SigChunk.ofWire exW 1 0).bit 0], (SigChunk.ofWire exW 1 1).bit 0, by decide⟩,
    by decide,
    (sort_spec exSort (by decide) (by decide) (by unfold SigSpec.wires_by_id; decide)).2.2
      (by
        have hS : exSort.sort.bits.reverse.take 2 =
            [(SigChunk.ofWire exW 1 1).bit 0, (SigChunk.ofWire exW 1 0).bit 0] := by decide
        rintro ⟨pre, x, h⟩
        rw [h] at hS
        simp at hS
        have h1 := hS.1
        rw [h1] at hS
        exact absurd hS.2 (by decide))⟩

/-! ## Removing a pattern from a signal -/

theorem remove2_find_some (ch1 : SigChunk) (ps : List SigChunk) (lo up : Nat)
    (h : remove2_find ch1 ps = some (lo, up)) :
    ∃ ch2 ∈ ps, ch1.wire = ch2.wire ∧ lo = max ch1.offset ch2.offset ∧
      up = min (ch1.offset + ch1.width) (ch2.offset + ch2.width) ∧ lo < up := by
  induction ps with
  | nil => cases h
  | cons ch2 rest ih =>
    rw [remove2_find] at h
    by_cases hw : ch1.wire = ch2.wire
    · rw [if_pos hw] at h
      simp only [] at h
      by_cases hlt : max ch1.offset ch2.offset <
          min (ch1.offset + ch1.width) (ch2.offset + ch2.width)
      · rw [if_pos hlt] at h
        injection h with h
        injection h with h1 h2
        exact ⟨ch2, List.mem_cons_self _ _, hw, h1.symm, h2.symm, by rw [← h1, ← h2]; exact hlt⟩
      · rw [if_neg hlt] at h
        obtain ⟨c, hc, hr⟩ := ih h
        exact ⟨c, List.mem_cons_of_mem _ hc, hr⟩
    · rw [if_neg hw] at h
      obtain ⟨c, hc, hr⟩ := ih h
      exact ⟨c, List.mem_cons_of_mem _ hc, hr⟩

theorem remove2_find_none (ch1 : SigChunk) (ps : List SigChunk)
    (h : remove2_find ch1 ps = none) :
    ∀ ch2 ∈ ps, ch1.wire = ch2.wire →
      ¬ max ch1.offset ch2.offset < min (ch1.offset + ch1.width) (ch2.offset + ch2.width) := by
  induction ps with
  | nil => intro ch2 hc; cases hc
  | cons c rest ih =>
    rw [remove2_find] at h
    intro ch2 hc hw
    by_cases hwc : ch1.wire = c.wire
    · rw [if_pos hwc] at h
      simp only [] at h
      by_cases hlt : max ch1.offset c.offset < min (ch1.offset + ch1.width) (c.offset + c.width)
      · rw [if_pos hlt] at h; cases h
      · rw [if_neg hlt] at h
        rcases List.mem_cons.mp hc with e | e
        · rw [e]; exact hlt
        · exact ih h ch2 e hw
    · rw [if_neg hwc] at h
      rcases List.mem_cons.mp hc with e | e
      · rw [e] at hw; exact absurd hw hwc
      · exact ih h ch2 e hw

/-- The bits of a pattern of wire-backed chunks. -/
theorem mem_pattern_bits (ps : List SigChunk) (hp : ∀ c ∈ ps, c.wire ≠ none) (b : SigChunk) :
    b ∈ lbits SigChunk.bit ps ↔
      ∃ ch2 ∈ ps, ∃ w o, ch2.wire = some w ∧ ch2.offset ≤ o ∧ o < ch2.offset + ch2.width ∧
        b = ⟨some w, Const.empty, 1, o⟩ := by
  unfold lbits
  rw [List.mem_flatMap]
  constructor
  · rintro ⟨ch2, hc, hb⟩
    obtain ⟨j, hj, rfl⟩ := List.mem_map.mp hb
    have hj2 := List.mem_range.mp hj
    obtain ⟨w, hw⟩ := Option.ne_none_iff_exists'.mp (hp ch2 hc)
    exact ⟨ch2, hc, w, ch2.offset + j, hw, by omega, by omega, extract_wire ch2 w hw j 1⟩
  · rintro ⟨ch2, hc, w, o, hw, h1, h2, rfl⟩
    refine ⟨ch2, hc, List.mem_map.mpr ⟨o - ch2.offset, List.mem_range.mpr (by omega), ?_⟩⟩
    unfold SigChunk.bit
    rw [extract_wire ch2 w hw]
    congr 1
    omega

theorem const_bit_not_mem (ps : List SigChunk) (hp : ∀ c ∈ ps, c.wire ≠ none) (c : SigChunk)
    (hc : c.wire = none) (j : Nat) : c.bit j ∉ lbits SigChunk.bit ps := by
  intro h
  obtain ⟨ch2, _, w, o, _, _, _, e⟩ := (mem_pattern_bits ps hp _).mp h
  unfold SigChunk.bit at e
  rw [bit_const c hc] at e
  cases e

theorem wire_bit_mem (ps : List SigChunk) (hp : ∀ c ∈ ps, c.wire ≠ none) (c : SigChunk)
    (w : Wire) (hc : c.wire = some w) (j : Nat) :
    c.bit j ∈ lbits SigChunk.bit ps ↔
      ∃ ch2 ∈ ps, ch2.wire = some w ∧ ch2.offset ≤ c.offset + j ∧
        c.offset + j < ch2.offset + ch2.width := by
  rw [mem_pattern_bits ps hp]
  unfold SigChunk.bit
  rw [extract_wire c w hc]
  constructor
  · rintro ⟨ch2, h2, v, o, hv, h3, h4, e⟩
    injection e with e1 _ _ e4
    injection e1 with e1
    subst e1; subst e4
    exact ⟨ch2, h2, hv, h3, h4⟩
  · rintro ⟨ch2, h2, hv, h3, h4⟩
    exact ⟨ch2, h2, w, _, hv, h3, h4, rfl⟩

theorem chunk_split_bits (c : SigChunk) (a n : Nat) (h : a + n ≤ c.width) :
    lbits SigChunk.bit [c] =
      (List.range a).map (SigChunk.bit c) ++
        ((List.range n).map (fun j => c.bit (a + j)) ++
          (List.range (c.width - (a + n))).map (fun j => c.bit (a + n + j))) := by
  have e : c.width = a + (n + (c.width - (a + n))) := by omega
  rw [lbits_cons, lbits_nil, List.append_nil]
  conv => lhs; rw [e]
  rw [List.range_add, List.range_add]
  simp only [List.map_append, List.map_map]
  congr 2
  apply List.map_congr_left
  intro j _
  simp only [Function.comp, Nat.add_assoc]

theorem lbits_piece (c : SigChunk) (o k : Nat) :
    lbits SigChunk.bit (if k = 0 then [] else [c.extract o k]) =
      (List.range k).map (fun j => c.bit (o + j)) := by
  by_cases hk : k = 0
  · rw [if_pos hk, hk]; rfl
  · rw [if_neg hk, lbits_cons, lbits_nil, List.append_nil, extract_width]
    apply List.map_congr_left
    intro j hj
    exact sliceable_bit c o k j (List.mem_range.mp hj)

theorem pieces_bits (c : SigChunk) (a n : Nat) (post : List SigChunk) :
    lbits SigChunk.bit ((if a = 0 then [] else [c.extract 0 a]) ++
      ((if c.width - (a + n) = 0 then []
        else [c.extract (a + n) (c.width - (a + n))]) ++ post)) =
      (List.range a).map (SigChunk.bit c) ++
        ((List.range (c.width - (a + n))).map (fun j => c.bit (a + n + j)) ++
          lbits SigChunk.bit post) := by
  rw [lbits_append, lbits_append, lbits_piece, lbits_piece]
  congr 1
  apply List.map_congr_left
  intro j _
  rw [Nat.zero_add]

theorem remove2_loop_succ (p : SigSpec) (fuel : Nat) (s : SigSpec) (i pos : Nat) :
    remove2_loop p (fuel + 1) s i pos =
      match s.chunks.get? i with
      | none => some (s, true)
      | some ch1 =>
        if ch1.wire ≠ none then
          match remove2_find ch1 p.chunks with
          | some (lower, upper) =>
            if i = (s.remove (pos + lower - ch1.offset) (upper - lower)).chunks.length then
              some (s.remove (pos + lower - ch1.offset) (upper - lower), false)
            else remove2_loop p fuel (s.remove (pos + lower - ch1.offset) (upper - lower)) i pos
          | none => remove2_loop p fuel s (i + 1) (pos + ch1.width)
        else remove2_loop p fuel s (i + 1) (pos + ch1.width) := by
  rw [remove2_loop]

theorem get?_middle {α : Type} (pre : List α) (c : α) (post : List α) :
    (pre ++ c :: post).get? pre.length = some c := by
  rw [List.get?_eq_getElem?, List.getElem?_append_right (Nat.le_refl _), Nat.sub_self]
  simp

theorem filter_all_false {α : Type} (q : α → Bool) (l : List α) (h : ∀ x ∈ l, q x = false) :
    l.filter q = [] := by
  apply List.filter_eq_nil_iff.mpr
  intro x hx
  rw [h x hx]
  simp

theorem filter_all_true {α : Type} (q : α → Bool) (l : List α) (h : ∀ x ∈ l, q x = true) :
    l.filter q = l := List.filter_eq_self.mpr h

theorem remove2_advance_bits (P : List SigChunk) (pre post : List SigChunk) (c : SigChunk)
    (hc : ∀ j, j < c.width → c.bit j ∉ P) :
    lbits SigChunk.bit (pre ++ [c]) ++ (lbits SigChunk.bit post).filter (fun b => decide (b ∉ P)) =
      lbits SigChunk.bit pre ++
        (lbits SigChunk.bit (c :: post)).filter (fun b => decide (b ∉ P)) ∧
    ((lbits SigChunk.bit post).filter (fun b => decide (b ∈ P))).length =
      ((lbits SigChunk.bit (c :: post)).filter (fun b => decide (b ∈ P))).length := by
  rw [lbits_append, lbits_cons SigChunk.bit c post, lbits_cons, lbits_nil, List.append_nil,
    List.filter_append, List.filter_append, List.append_assoc]
  have h1 : ((List.range c.width).map (SigChunk.bit c)).filter (fun b => decide (b ∉ P)) =
      (List.range c.width).map (SigChunk.bit c) := by
    apply filter_all_true
    intro x hx
    obtain ⟨j, hj, rfl⟩ := List.mem_map.mp hx
    exact decide_eq_true (hc j (List.mem_range.mp hj))
  have h2 : ((List.range c.width).map (SigChunk.bit c)).filter (fun b => decide (b ∈ P)) = [] := by
    apply filter_all_false
    intro x hx
    obtain ⟨j, hj, rfl⟩ := List.mem_map.mp hx
    exact decide_eq_false (hc j (List.mem_range.mp hj))
  rw [h1, h2]
  exact ⟨rfl, rfl⟩

theorem remove2_restart_bits (P : List SigChunk) (post : List SigChunk) (c : SigChunk)
    (a n : Nat) (h : a + n ≤ c.width) (hc : ∀ j, j < n → c.bit (a + j) ∈ P) :
    (lbits SigChunk.bit ((if a = 0 then [] else [c.extract 0 a]) ++
        ((if c.width - (a + n) = 0 then []
          else [c.extract (a + n) (c.width - (a + n))]) ++ post))).filter
        (fun b => decide (b ∉ P)) =
      (lbits SigChunk.bit (c :: post)).filter (fun b => decide (b ∉ P)) ∧
    n + ((lbits SigChunk.bit ((if a = 0 then [] else [c.extract 0 a]) ++
        ((if c.width - (a + n) = 0 then []
          else [c.extract (a + n) (c.width - (a + n))]) ++ post))).filter
        (fun b => decide (b ∈ P))).length =
      ((lbits SigChunk.bit (c :: post)).filter (fun b => decide (b ∈ P))).length := by
  have e : lbits SigChunk.bit (c :: post) = lbits SigChunk.bit [c] ++ lbits SigChunk.bit post := by
    rw [lbits_cons, lbits_cons, lbits_nil, List.append_nil]
  rw [pieces_bits, e, chunk_split_bits c a n h]
  simp only [List.filter_append, List.length_append]
  have h1 : ((List.range n).map (fun j => c.bit (a + j))).filter (fun b => decide (b ∉ P)) = [] := by
    apply filter_all_false
    intro x hx
    obtain ⟨j, hj, rfl⟩ := List.mem_map.mp hx
    exact decide_eq_false (not_not.mpr (hc j (List.mem_range.mp hj)))
  have h2 : ((List.range n).map (fun j => c.bit (a + j))).filter (fun b => decide (b ∈ P)) =
      (List.range n).map (fun j => c.bit (a + j)) := by
    apply filter_all_true
    intro x hx
    obtain ⟨j, hj, rfl⟩ := List.mem_map.mp hx
    exact decide_eq_true (hc j (List.mem_range.mp hj))
  rw [h1, h2, List.length_map, List.length_range]
  refine ⟨by simp, by omega⟩

theorem pieces_measure (c : SigChunk) (a n : Nat) (post : List SigChunk) (h : a + n ≤ c.width) :
    wsum ((if a = 0 then [] else [c.extract 0 a]) ++
        ((if c.width - (a + n) = 0 then []
          else [c.extract (a + n) (c.width - (a + n))]) ++ post)) + n = wsum (c :: post) ∧
    ((if a = 0 then [] else [c.extract 0 a]) ++
        ((if c.width - (a + n) = 0 then []
          else [c.extract (a + n) (c.width - (a + n))]) ++ post)).length ≤ post.length + 2 := by
  constructor
  · rw [wsum_append, wsum_append, wsum_cons]
    have h1 : wsum (if a = 0 then [] else [c.extract 0 a]) = a := by
      split_ifs with h0
      · rw [h0]; rfl
      · rw [wsum_cons, wsum_nil, extract_width]; rfl
    have h2 : wsum (if c.width - (a + n) = 0 then []
        else [c.extract (a + n) (c.width - (a + n))]) = c.width - (a + n) := by
      split_ifs with h0
      · rw [h0]; rfl
      · rw [wsum_cons, wsum_nil, extract_width]; rfl
    rw [h1, h2]
    omega
  · rw [List.length_append, List.length_append]
    have h1 : (if a = 0 then [] else [c.extract 0 a]).length ≤ 1 := by
      split_ifs <;> simp
    have h2 : (if c.width - (a + n) = 0 then []
        else [c.extract (a + n) (c.width - (a + n))]).length ≤ 1 := by
      split_ifs <;> simp
    omega

theorem remove2_loop_spec (p : SigSpec) (hp : ∀ c ∈ p.chunks, c.wire ≠ none) :
    ∀ (fuel : Nat) (pre rest : List SigChunk) (width : Nat),
      2 * wsum rest + rest.length < fuel →
      ∃ r f, remove2_loop p fuel ⟨pre ++ rest, width⟩ pre.length (wsum pre) = some (r, f) ∧
        lbits SigChunk.bit r.chunks = lbits SigChunk.bit pre ++
          (lbits SigChunk.bit rest).filter
            (fun b => decide (b ∉ lbits SigChunk.bit p.chunks)) ∧
        r.width = width - ((lbits SigChunk.bit rest).filter
          (fun b => decide (b ∈ lbits SigChunk.bit p.chunks))).length := by
  intro fuel
  induction fuel with
  | zero => intro pre rest width h; omega
  | succ fuel ih =>
    intro pre rest width hfuel
    rw [remove2_loop_succ]
    cases rest with
    | nil =>
      have hg : (pre ++ ([] : List SigChunk)).get? pre.length = none := by
        rw [List.append_nil]
        exact List.get?_eq_none.mpr (Nat.le_refl _)
      simp only [hg]
      exact ⟨_, _, rfl, by simp [lbits_nil], by simp [lbits_nil]⟩
    | cons c post =>
      simp only [get?_middle]
      have hadv : (∀ j, j < c.width → c.bit j ∉ lbits SigChunk.bit p.chunks) →
          ∃ r f, remove2_loop p fuel ⟨pre ++ c :: post, width⟩ (pre.length + 1)
              (wsum pre + c.width) = some (r, f) ∧
            lbits SigChunk.bit r.chunks = lbits SigChunk.bit pre ++
              (lbits SigChunk.bit (c :: post)).filter
                (fun b => decide (b ∉ lbits SigChunk.bit p.chunks)) ∧
            r.width = width - ((lbits SigChunk.bit (c :: post)).filter
              (fun b => decide (b ∈ lbits SigChunk.bit p.chunks))).length := by
        intro hc
        have hm : 2 * wsum post + post.length < fuel := by
          rw [wsum_cons, List.length_cons] at hfuel; omega
        obtain ⟨r, f, h1, h2, h3⟩ := ih (pre ++ [c]) post width hm
        have e1 : (pre ++ [c]) ++ post = pre ++ c :: post := by simp
        have e2 : (pre ++ [c]).length = pre.length + 1 := by simp
        have e3 : wsum (pre ++ [c]) = wsum pre + c.width := by
          rw [wsum_append, wsum_cons, wsum_nil]; rfl
        rw [e1, e2, e3] at h1
        have hb := remove2_advance_bits (lbits SigChunk.bit p.chunks) pre post c hc
        exact ⟨r, f, h1, by rw [h2, hb.1], by rw [h3, hb.2]⟩
      cases hw : c.wire with
      | none =>
        rw [if_neg (by simp)]
        exact hadv (fun j _ => const_bit_not_mem p.chunks hp c hw j)
      | some w =>
        rw [if_pos (by simp)]
        cases hf : remove2_find c p.chunks with
        | none =>
          simp only []
          apply hadv
          intro j hj hmem
          obtain ⟨ch2, h2, hv, h3, h4⟩ := (wire_bit_mem p.chunks hp c w hw j).mp hmem
          have := remove2_find_none c p.chunks hf ch2 h2 (by rw [hw, hv])
          apply this
          rw [Nat.max_lt, Nat.lt_min, Nat.lt_min]
          omega
        | some lu =>
          obtain ⟨lo, up⟩ := lu
          simp only []
          obtain ⟨ch2, h2, hv, hlo, hup, hlt⟩ := remove2_find_some c p.chunks lo up hf
          have hlo1 : c.offset ≤ lo := by rw [hlo]; exact Nat.le_max_left _ _
          have hlo2 : ch2.offset ≤ lo := by rw [hlo]; exact Nat.le_max_right _ _
          have hup1 : up ≤ c.offset + c.width := by rw [hup]; exact Nat.min_le_left _ _
          have hup2 : up ≤ ch2.offset + ch2.width := by rw [hup]; exact Nat.min_le_right _ _
          have ha : (lo - c.offset) + (up - lo) ≤ c.width := by omega
          have hn : 0 < up - lo := by omega
          have eo : wsum pre + lo - c.offset = 0 + wsum pre + (lo - c.offset) := by omega
          have hrem : (⟨pre ++ c :: post, width⟩ : SigSpec).remove (wsum pre + lo - c.offset)
              (up - lo) =
              ⟨pre ++ ((if lo - c.offset = 0 then [] else [c.extract 0 (lo - c.offset)]) ++
                ((if c.width - ((lo - c.offset) + (up - lo)) = 0 then []
                  else [c.extract ((lo - c.offset) + (up - lo))
                    (c.width - ((lo - c.offset) + (up - lo)))]) ++ post)), width - (up - lo)⟩ := by
            unfold SigSpec.remove
            simp only []
            rw [eo, remove_loop_within pre c post 0 (lo - c.offset) (up - lo) width ha hn]
          rw [hrem]
          have hin : ∀ j, j < up - lo →
              c.bit ((lo - c.offset) + j) ∈ lbits SigChunk.bit p.chunks := by
            intro j hj
            apply (wire_bit_mem p.chunks hp c w hw _).mpr
            exact ⟨ch2, h2, by rw [← hv, hw], by omega, by omega⟩
          have hb := remove2_restart_bits (lbits SigChunk.bit p.chunks) post c (lo - c.offset)
            (up - lo) ha hin
          have hmeas := pieces_measure c (lo - c.offset) (up - lo) post ha
          generalize hrest : ((if lo - c.offset = 0 then [] else [c.extract 0 (lo - c.offset)]) ++
                ((if c.width - ((lo - c.offset) + (up - lo)) = 0 then []
                  else [c.extract ((lo - c.offset) + (up - lo))
                    (c.width - ((lo - c.offset) + (up - lo)))]) ++ post)) = rest' at hb hmeas ⊢
          by_cases hend : pre.length = (pre ++ rest').length
          · simp only []
            rw [if_pos hend]
            have hnil : rest' = [] := by
              rw [List.length_append] at hend
              exact List.length_eq_zero.mp (by omega)
            refine ⟨_, _, rfl, ?_, ?_⟩
            · simp only []
              rw [← hb.1, hnil]
              simp [lbits_nil]
            · simp only []
              rw [← hb.2, hnil]
              simp [lbits_nil]
          · simp only []
            rw [if_neg hend]
            have hm : 2 * wsum rest' + rest'.length < fuel := by
              have := hmeas.1
              have := hmeas.2
              rw [List.length_cons] at hfuel
              omega
            obtain ⟨r, f, h1, h2', h3⟩ := ih pre rest' (width - (up - lo)) hm
            refine ⟨r, f, h1, by rw [h2', hb.1], ?_⟩
            rw [h3, ← hb.2]
            omega

theorem last_kept_tail (P : List SigChunk) (c : SigChunk) (post : List SigChunk)
    (h : last_kept P (c :: post) = true) : last_kept P post = true := by
  cases post with
  | nil => rfl
  | cons d post =>
    unfold last_kept at h ⊢
    rw [List.getLast?_cons_cons] at h
    exact h

theorem last_kept_append (P : List SigChunk) (l post : List SigChunk) (hne : post ≠ [])
    (c : SigChunk) (h : last_kept P (c :: post) = true) : last_kept P (l ++ post) = true := by
  cases post with
  | nil => exact absurd rfl hne
  | cons d post =>
    unfold last_kept at h ⊢
    rw [List.getLast?_cons_cons] at h
    have e : (l ++ d :: post).getLast? = (d :: post).getLast? := by
      rw [List.getLast?_append, List.getLast?_cons]
      rfl
    rw [e]
    exact h

/-- Where the test `last_kept` holds for the chunks that `remove2` still has to
go through, the loop does not read `chunks[i]` past the end: the flag of its
result is true. -/
theorem remove2_loop_flag (p : SigSpec) (hp : ∀ c ∈ p.chunks, c.wire ≠ none) :
    ∀ (fuel : Nat) (pre rest : List SigChunk) (width : Nat) (r : SigSpec) (f : Bool),
      last_kept (lbits SigChunk.bit p.chunks) rest = true →
      remove2_loop p fuel ⟨pre ++ rest, width⟩ pre.length (wsum pre) = some (r, f) →
      f = true := by
  intro fuel
  induction fuel with
  | zero =>
    intro pre rest width r f _ h
    rw [remove2_loop] at h
    cases h
  | succ fuel ih =>
    intro pre rest width r f hk h
    rw [remove2_loop_succ] at h
    cases rest with
    | nil =>
      have hg : (pre ++ ([] : List SigChunk)).get? pre.length = none := by
        rw [List.append_nil]
        exact List.get?_eq_none.mpr (Nat.le_refl _)
      simp only [hg] at h
      exact (Prod.mk.inj (Option.some.inj h)).2.symm
    | cons c post =>
      simp only [get?_middle] at h
      have hadv : remove2_loop p fuel ⟨pre ++ c :: post, width⟩ (pre.length + 1)
          (wsum pre + c.width) = some (r, f) → f = true := by
        intro h1
        have e1 : (pre ++ [c]) ++ post = pre ++ c :: post := by simp
        have e2 : (pre ++ [c]).length = pre.length + 1 := by simp
        have e3 : wsum (pre ++ [c]) = wsum pre + c.width := by
          rw [wsum_append, wsum_cons, wsum_nil]; rfl
        apply ih (pre ++ [c]) post width r f (last_kept_tail _ c post hk)
        rw [e1, e2, e3]
        exact h1
      cases hw : c.wire with
      | none =>
        rw [hw, if_neg (by simp)] at h
        exact hadv h
      | some w =>
        rw [hw, if_pos (by simp)] at h
        cases hf : remove2_find c p.chunks with
        | none =>
          rw [hf] at h
          exact hadv h
        | some lu =>
          obtain ⟨lo, up⟩ := lu
          rw [hf] at h
          simp only [] at h
          obtain ⟨ch2, h2, hv, hlo, hup, hlt⟩ := remove2_find_some c p.chunks lo up hf
          have hlo1 : c.offset ≤ lo := by rw [hlo]; exact Nat.le_max_left _ _
          have hlo2 : ch2.offset ≤ lo := by rw [hlo]; exact Nat.le_max_right _ _
          have hup1 : up ≤ c.offset + c.width := by rw [hup]; exact Nat.min_le_left _ _
          have hup2 : up ≤ ch2.offset + ch2.width := by rw [hup]; exact Nat.min_le_right _ _
          have ha : (lo - c.offset) + (up - lo) ≤ c.width := by omega
          have hn : 0 < up - lo := by omega
          have eo : wsum pre + lo - c.offset = 0 + wsum pre + (lo - c.offset) := by omega
          have hrem : (⟨pre ++ c :: post, width⟩ : SigSpec).remove (wsum pre + lo - c.offset)
              (up - lo) =
              ⟨pre ++ ((if lo - c.offset = 0 then [] else [c.extract 0 (lo - c.offset)]) ++
                ((if c.width - ((lo - c.offset) + (up - lo)) = 0 then []
                  else [c.extract ((lo - c.offset) + (up - lo))
                    (c.width - ((lo - c.offset) + (up - lo)))]) ++ post)), width - (up - lo)⟩ := by
            unfold SigSpec.remove
            simp only []
            rw [eo, remove_loop_within pre c post 0 (lo - c.offset) (up - lo) width ha hn]
          rw [hrem] at h
          have hin : ∀ j, j < up - lo →
              c.bit ((lo - c.offset) + j) ∈ lbits SigChunk.bit p.chunks := by
            intro j hj
            apply (wire_bit_mem p.chunks hp c w hw _).mpr
            exact ⟨ch2, h2, by rw [← hv, hw], by omega, by omega⟩
          -- the highest bit of `c` is kept when `c` is the last chunk
          have htop : post = [] → (lo - c.offset) + (up - lo) < c.width := by
            intro hpost
            rw [hpost] at hk
            unfold last_kept at hk
            simp only [List.getLast?_singleton, Bool.or_eq_true, decide_eq_true_eq] at hk
            rcases hk with hk | hk
            · omega
            · by_contra hge
              have e : c.width - 1 = (lo - c.offset) + (up - lo - 1) := by omega
              rw [e] at hk
              exact hk (hin _ (by omega))
          have hkeep : last_kept (lbits SigChunk.bit p.chunks)
              ((if lo - c.offset = 0 then [] else [c.extract 0 (lo - c.offset)]) ++
                ((if c.width - ((lo - c.offset) + (up - lo)) = 0 then []
                  else [c.extract ((lo - c.offset) + (up - lo))
                    (c.width - ((lo - c.offset) + (up - lo)))]) ++ post)) = true := by
            by_cases hpost : post = []
            · have hlt2 := htop hpost
              have hk2 := hk
              rw [hpost] at hk2 ⊢
              rw [if_neg (show ¬ (c.width - ((lo - c.offset) + (up - lo)) = 0) by omega),
                List.append_nil]
              unfold last_kept at hk2 ⊢
              simp only [List.getLast?_singleton, Bool.or_eq_true, decide_eq_true_eq] at hk2
              have e : ((if lo - c.offset = 0 then [] else [c.extract 0 (lo - c.offset)]) ++
                  [c.extract ((lo - c.offset) + (up - lo))
                    (c.width - ((lo - c.offset) + (up - lo)))]).getLast? =
                  some (c.extract ((lo - c.offset) + (up - lo))
                    (c.width - ((lo - c.offset) + (up - lo)))) := by simp
              rw [e]
              simp only [Bool.or_eq_true, decide_eq_true_eq, extract_width]
              right
              have hs := sliceable_bit c ((lo - c.offset) + (up - lo))
                (c.width - ((lo - c.offset) + (up - lo)))
                (c.width - ((lo - c.offset) + (up - lo)) - 1) (by omega)
              rw [hs]
              have e2 : (lo - c.offset) + (up - lo) +
                  (c.width - ((lo - c.offset) + (up - lo)) - 1) = c.width - 1 := by omega
              rw [e2]
              rcases hk2 with hk2 | hk2
              · omega
              · exact hk2
            · rw [← List.append_assoc]
              exact last_kept_append _ _ post hpost c hk
          generalize hrest : ((if lo - c.offset = 0 then [] else [c.extract 0 (lo - c.offset)]) ++
                ((if c.width - ((lo - c.offset) + (up - lo)) = 0 then []
                  else [c.extract ((lo - c.offset) + (up - lo))
                    (c.width - ((lo - c.offset) + (up - lo)))]) ++ post)) = rest' at h hkeep
          by_cases hend : pre.length = (pre ++ rest').length
          · exfalso
            have hnil : rest' = [] := by
              rw [List.length_append] at hend
              exact List.length_eq_zero.mp (by omega)
            rw [hnil] at hrest
            have hp1 := (List.append_eq_nil.mp hrest).2
            have hp2 := (List.append_eq_nil.mp hp1).2
            have hp3 := (List.append_eq_nil.mp hp1).1
            have hlt2 := htop hp2
            rw [if_neg (show ¬ (c.width - ((lo - c.offset) + (up - lo)) = 0) by omega)] at hp3
            cases hp3
          · simp only [] at h
            rw [if_neg hend] at h
            exact ih pre rest' (width - (up - lo)) r f hkeep h

theorem remove_pattern_eq (s p r : SigSpec) :
    s.remove_pattern p = some r ↔ s.remove2 p = some (r, true) := by
  unfold SigSpec.remove_pattern
  cases h : s.remove2 p with
  | none => simp
  | some q =>
    obtain ⟨r1, f⟩ := q
    cases f <;> simp

theorem remove2_result (s p : SigSpec) (hp : ∀ c ∈ p.chunks, c.wire ≠ none) :
    ∃ r f, s.remove2 p = some (r, f) ∧
      r.bits = s.bits.filter (fun b => decide (b ∉ p.bits)) ∧
      r.width = s.width - (s.bits.filter (fun b => decide (b ∈ p.bits))).length := by
  obtain ⟨r, f, h1, h2, h3⟩ := remove2_loop_spec p hp (2 * s.chunk_width_sum + s.chunks.length + 1)
    [] s.chunks s.width (by rw [chunk_width_sum_eq]; omega)
  refine ⟨r, f, h1, ?_, h3⟩
  unfold SigSpec.bits
  rw [h2, lbits_nil, List.nil_append]

/-- Where the last chunk of `s` passes the test `last_kept`, the call
`s.remove(p)` does not read past the end of the chunk vector. -/
theorem remove_pattern_defined (s p : SigSpec) (hp : ∀ c ∈ p.chunks, c.wire ≠ none)
    (hk : last_kept p.bits s.chunks = true) : ∃ r, s.remove_pattern p = some r := by
  obtain ⟨r, f, h1, _, _⟩ := remove2_result s p hp
  have hf : f = true := by
    have h2 : remove2_loop p (2 * s.chunk_width_sum + s.chunks.length + 1)
        ⟨[] ++ s.chunks, s.width⟩ ([] : List SigChunk).length (wsum []) = some (r, f) := h1
    exact remove2_loop_flag p hp _ [] s.chunks s.width r f hk h2
  rw [hf] at h1
  exact ⟨r, (remove_pattern_eq s p r).mpr h1⟩

/-- A single wire-backed chunk of a width above zero, removed by itself: the
chunk is erased and `pos += chunks[i].width` reads the empty vector. -/
theorem remove2_self (w : Wire) (n o : Nat) (hn : 0 < n) :
    (SigSpec.ofChunk (SigChunk.ofWire w n o)).remove2 (SigSpec.ofChunk (SigChunk.ofWire w n o)) =
      some ({ chunks := [], width := 0 }, false) := by
  unfold SigSpec.remove2
  rw [remove2_loop]
  have hf : remove2_find (SigChunk.ofWire w n o) [SigChunk.ofWire w n o] = some (o, o + n) := by
    simp [remove2_find, SigChunk.ofWire, hn]
  have hr : (SigSpec.ofChunk (SigChunk.ofWire w n o)).remove (0 + o - o) (o + n - o) =
      { chunks := [], width := 0 } := by
    have e1 : 0 + o - o = 0 := by omega
    have e2 : o + n - o = n := by omega
    rw [e1, e2]
    simp [SigSpec.remove, SigSpec.ofChunk, SigChunk.ofWire, remove_loop, slice_off_len,
      SigChunk.extract, hn]
  simp only [SigSpec.ofChunk, List.get?_cons_zero] at hr ⊢
  have hw : (SigChunk.ofWire w n o).wire ≠ none := by simp [SigChunk.ofWire]
  rw [if_pos hw]
  simp only [hf]
  have ho : (SigChunk.ofWire w n o).offset = o := rfl
  rw [ho, hr]
  rfl

/-- C11: let `s` pass `check` and let `p` be a pattern of wire-backed chunks.
Whenever `s.remove(p)` does not read past the end of the chunk vector, no bit
of `s` is a bit of `p` afterwards, the bits of `s` are the former bits that are
not in `p`, in their former order, and the width has gone down by the number of
positions of `s` whose bit was in `p`.  This is so whenever the last chunk of
`s` has the width zero or its highest bit is not a bit of `p`.  Where `s` is one
wire-backed chunk of a width above zero and `p` is that chunk, the call erases
the last chunk and reads `chunks[i]` past the end. -/
theorem remove_pattern_spec (s p : SigSpec) (h : s.check = true)
    (hp : ∀ c ∈ p.chunks, c.wire ≠ none) :
    (∀ r, s.remove_pattern p = some r →
      (∀ b ∈ r.bits, b ∉ p.bits) ∧
      r.bits = s.bits.filter (fun b => decide (b ∉ p.bits)) ∧
      r.width + (s.bits.filter (fun b => decide (b ∈ p.bits))).length = s.width) ∧
    (last_kept p.bits s.chunks = true → ∃ r, s.remove_pattern p = some r) ∧
    (∀ (w : Wire) (n o : Nat), 0 < n →
      (SigSpec.ofChunk (SigChunk.ofWire w n o)).remove_pattern
        (SigSpec.ofChunk (SigChunk.ofWire w n o)) = none) := by
  refine ⟨?_, remove_pattern_defined s p hp, ?_⟩
  · intro r hr
    obtain ⟨r1, f, h1, hbits, h3⟩ := remove2_result s p hp
    have e := (remove_pattern_eq s p r).mp hr
    rw [h1] at e
    have e1 : r1 = r := (Prod.mk.inj (Option.some.inj e)).1
    rw [e1] at hbits h3
    refine ⟨?_, hbits, ?_⟩
    · intro b hb
      rw [hbits] at hb
      simpa using (List.mem_filter.mp hb).2
    · rw [h3]
      have hlen : s.bits.length = s.width := bits_length s h
      have hle := List.length_filter_le (fun b => decide (b ∈ p.bits)) s.bits
      omega
  · intro w n o hn
    unfold SigSpec.remove_pattern
    rw [remove2_self w n o hn]

theorem remove_pattern_spec_witness :
    (∃ r, exRem.remove_pattern exRemPat = some r ∧
      (∀ b ∈ r.bits, b ∉ exRemPat.bits) ∧
      r.bits = exRem.bits.filter (fun b => decide (b ∉ exRemPat.bits)) ∧
      r.width + (exRem.bits.filter (fun b => decide (b ∈ exRemPat.bits))).length =
        exRem.width) ∧
    exLo.remove_pattern exLo = none :=
  ⟨((remove_pattern_spec exRem exRemPat (by decide) (by decide)).2.1 (by decide)).imp
      (fun r hr => ⟨hr, (remove_pattern_spec exRem exRemPat (by decide) (by decide)).1 r hr⟩),
    (remove_pattern_spec exRem exRemPat (by decide) (by decide)).2.2 exW 2 0 (by decide)⟩


/-! ## Re-encoding of state machines -/

theorem state_index_count (r i : Nat) :
    ((List.range i).filter (fun j => decide (j ≠ r))).length = if r < i then i - 1 else i := by
  induction i with
  | zero => simp
  | succ i ih =>
    rw [List.range_succ, List.filter_append, List.length_append, ih]
    by_cases h : i = r
    · subst h
      simp
    · have e : List.filter (fun j => decide (j ≠ r)) [i] = [i] := by simp [h]
      rw [e]
      split_ifs <;> simp <;> omega

theorem state_index_eq (r i : Nat) :
    state_index r i = if i = r then 0 else if i < r then i + 1 else i := by
  unfold state_index
  rw [state_index_count]
  split_ifs <;> omega

theorem state_index_lt (r i n : Nat) (hr : r < n) (hi : i < n) : state_index r i < n := by
  rw [state_index_eq]
  split_ifs <;> omega

theorem fsm_recode_loop_reset (e : String) (sb r : Nat) (code : Nat → Const)
    (hcode : ∀ k, fsm_new_code e sb k = some (code k)) (t : List Const) :
    ∀ i, fsm_recode_loop e sb (r : Int) t i
        (((List.range i).filter (fun j => decide (j ≠ r))).length + 1) =
      some ((List.range t.length).map (fun j => code (state_index r (i + j)))) := by
  induction t with
  | nil => intro i; rfl
  | cons c t ih =>
    intro i
    rw [fsm_recode_loop]
    have hidx : (if (r : Int) = (i : Int) then 0
        else ((List.range i).filter (fun j => decide (j ≠ r))).length + 1) = state_index r i := by
      unfold state_index
      by_cases h : i = r
      · subst h; simp
      · have h2 : ¬ ((r : Int) = (i : Int)) := by omega
        rw [if_neg h2, if_neg h]
    have hcnt : (if (r : Int) = (i : Int)
          then ((List.range i).filter (fun j => decide (j ≠ r))).length + 1
        else ((List.range i).filter (fun j => decide (j ≠ r))).length + 1 + 1) =
        ((List.range (i + 1)).filter (fun j => decide (j ≠ r))).length + 1 := by
      rw [List.range_succ, List.filter_append, List.length_append]
      by_cases h : i = r
      · subst h; simp
      · have h2 : ¬ ((r : Int) = (i : Int)) := by omega
        rw [if_neg h2]
        simp [h]
    rw [hidx, hcnt, hcode, ih (i + 1)]
    simp only [Option.map_some', List.length_cons, List.range_succ_eq_map, List.map_cons,
      List.map_map, Nat.add_zero]
    congr 2
    apply List.map_congr_left
    intro j _
    simp only [Function.comp]
    congr 2
    omega

theorem fsm_recode_loop_noreset (e : String) (sb : Nat) (rs : Int) (hrs : rs < 0)
    (code : Nat → Const) (hcode : ∀ k, fsm_new_code e sb k = some (code k)) (t : List Const) :
    ∀ i, fsm_recode_loop e sb rs t i i =
      some ((List.range t.length).map (fun j => code (i + j))) := by
  induction t with
  | nil => intro i; rfl
  | cons c t ih =>
    intro i
    rw [fsm_recode_loop]
    have h2 : ¬ (rs = (i : Int)) := by omega
    rw [if_neg h2, if_neg h2, hcode, ih (i + 1)]
    simp only [Option.map_some', List.length_cons, List.range_succ_eq_map, List.map_cons,
      List.map_map, Nat.add_zero]
    congr 2
    apply List.map_congr_left
    intro j _
    simp only [Function.comp]
    congr 1
    omega

theorem one_hot_new_code (n k : Nat) : fsm_new_code "one-hot" n k = some (one_hot_code n k) := by
  unfold fsm_new_code one_hot_code Const.ofState
  rw [if_pos rfl]
  congr 2
  apply List.ext_getElem
  · simp
  · intro j h1 h2
    simp only [List.getElem_set, List.getElem_replicate, List.getElem_map, List.getElem_range]
    by_cases h : k = j
    · simp [h]
    · have : ¬ j = k := fun e => h e.symm
      simp [h, this]

theorem binary_new_code (n k : Nat) : fsm_new_code "binary" n k = some (binary_code n k) := by
  unfold fsm_new_code binary_code Const.ofInt
  rw [if_neg (by decide), if_pos (Or.inr rfl)]
  congr 2
  apply List.map_congr_left
  intro j _
  rw [Nat.testBit_to_div_mod]
  have : k / 2 ^ j % 2 = 0 ∨ k / 2 ^ j % 2 = 1 := by omega
  rcases this with h | h <;> simp [h]

theorem ceil_log2_from_spec (n : Nat) :
    ∀ fuel k, (∀ j, j < k → 2 ^ j < n) → n ≤ fuel + k →
      n ≤ 2 ^ ceil_log2_from n fuel k ∧ ∀ j, j < ceil_log2_from n fuel k → 2 ^ j < n := by
  intro fuel
  induction fuel with
  | zero =>
    intro k hk hn
    rw [ceil_log2_from]
    exact ⟨le_trans (by omega) (le_of_lt (Nat.lt_two_pow k)), hk⟩
  | succ fuel ih =>
    intro k hk hn
    rw [ceil_log2_from]
    split_ifs with h
    · exact ⟨h, hk⟩
    · apply ih (k + 1)
      · intro j hj
        rcases Nat.lt_succ_iff_lt_or_eq.mp hj with h1 | h1
        · exact hk j h1
        · rw [h1]; omega
      · omega

/-- The number `ceil_log2 n` is the least `k` with `n ≤ 2 ^ k`. -/
theorem ceil_log2_spec (n : Nat) :
    n ≤ 2 ^ ceil_log2 n ∧ ∀ j, j < ceil_log2 n → 2 ^ j < n :=
  ceil_log2_from_spec n n 0 (fun j hj => absurd hj (Nat.not_lt_zero j)) (Nat.le_add_right n 0)

theorem auto_new_code (n k : Nat) : fsm_new_code "auto" n k = some (binary_code n k) := by
  unfold fsm_new_code binary_code Const.ofInt
  rw [if_neg (by decide), if_pos (Or.inl rfl)]
  congr 2
  apply List.map_congr_left
  intro j _
  rw [Nat.testBit_to_div_mod]
  have : k / 2 ^ j % 2 = 0 ∨ k / 2 ^ j % 2 = 1 := by omega
  rcases this with h | h <;> simp [h]

/-- Claim C21: with the one-hot encoding, a table of `n` states and the reset
state at index `r < n`, `fsm_recode` returns with `state_bits = n`, and the new
code of state `i` is the constant of `n` bits with `S1` at bit `state_index r i`
and `Sa` at every other bit, where the index is 0 for `i = r` and otherwise one
more than the number of states before `i` that are not the reset state; the
index is below `n`.  For `n = 4` and `r = 2` the indices are 1, 2, 0, 3. -/
theorem fsm_recode_one_hot (attr : Option String) (default_encoding : String) (d : FsmData)
    (r : Nat) (henc : fsm_encoding attr default_encoding = "one-hot")
    (hr : d.reset_state = (r : Int)) (hlt : r < d.state_table.length) :
    fsm_recode attr default_encoding d =
        some { state_bits := d.state_table.length, reset_state := d.reset_state,
               state_table := (List.range d.state_table.length).map
                 (fun i => one_hot_code d.state_table.length (state_index r i)) } ∧
      (∀ i, i < d.state_table.length → state_index r i < d.state_table.length ∧
        (one_hot_code d.state_table.length (state_index r i)).bits.length
            = d.state_table.length ∧
        ∀ k, k < d.state_table.length →
          (one_hot_code d.state_table.length (state_index r i)).bits.get? k =
            some (if k = state_index r i then State.S1 else State.Sa)) ∧
      (List.range 4).map (state_index 2) = [1, 2, 0, 3] := by
  refine ⟨?_, ?_, by decide⟩
  · unfold fsm_recode
    simp only [henc]
    rw [if_neg (by decide)]
    simp only [if_true, hr]
    rw [if_pos (by omega)]
    have h := fsm_recode_loop_reset "one-hot" d.state_table.length r
      (one_hot_code d.state_table.length) (one_hot_new_code d.state_table.length)
      d.state_table 0
    simp only [List.range_zero, List.filter_nil, List.length_nil, Nat.zero_add] at h
    rw [h]
    rfl
  · intro i hi
    refine ⟨state_index_lt r i _ hlt hi, by simp [one_hot_code], ?_⟩
    intro k hk
    simp [one_hot_code, List.getElem?_range hk, hk]

theorem fsm_recode_one_hot_witness :
    fsm_recode (some "one-hot") "binary" exFsm =
      some { state_bits := 4, reset_state := 2,
             state_table := [⟨[State.Sa, State.S1, State.Sa, State.Sa], ""⟩,
                             ⟨[State.Sa, State.Sa, State.S1, State.Sa], ""⟩,
                             ⟨[State.S1, State.Sa, State.Sa, State.Sa], ""⟩,
                             ⟨[State.Sa, State.Sa, State.Sa, State.S1], ""⟩] } :=
  (fsm_recode_one_hot (some "one-hot") "binary" exFsm 2 (by decide) (by decide)
    (by decide)).1.trans (by decide)

/-- Claim C22: with the binary encoding (`binary`, or `auto`), a table of
`n ≥ 1` states and the reset state at index `r < n`, `fsm_recode` returns with
`state_bits` the least `k` with `n ≤ 2 ^ k`, and the new code of state `i` is
the constant of `state_bits` bits whose bit `j` is the binary digit `j` of
`state_index r i` (low bit first); the index fits into `state_bits` bits, and
the reset state has the index 0, hence the code of all `S0`. -/
theorem fsm_recode_binary (attr : Option String) (default_encoding : String) (d : FsmData)
    (r : Nat)
    (henc : fsm_encoding attr default_encoding = "binary" ∨
      fsm_encoding attr default_encoding = "auto")
    (hr : d.reset_state = (r : Int)) (hlt : r < d.state_table.length) :
    ∃ sb, fsm_recode attr default_encoding d =
        some { state_bits := sb, reset_state := d.reset_state,
               state_table := (List.range d.state_table.length).map
                 (fun i => binary_code sb (state_index r i)) } ∧
      d.state_table.length ≤ 2 ^ sb ∧ (∀ j, j < sb → 2 ^ j < d.state_table.length) ∧
      (∀ i, i < d.state_table.length → state_index r i < 2 ^ sb ∧
        (binary_code sb (state_index r i)).bits.length = sb ∧
        ∀ j, j < sb → (binary_code sb (state_index r i)).bits.get? j =
          some (if (state_index r i) / 2 ^ j % 2 = 1 then State.S1 else State.S0)) ∧
      state_index r r = 0 ∧ binary_code sb 0 = Const.ofState State.S0 sb := by
  have hs := ceil_log2_spec d.state_table.length
  refine ⟨ceil_log2 d.state_table.length, ?_, hs.1, hs.2, ?_, by simp [state_index], ?_⟩
  · unfold fsm_recode
    rcases henc with henc | henc
    · simp only [henc]
      rw [if_neg (by decide), if_neg (by decide)]
      simp only [or_true, if_true, hr]
      rw [if_pos (by omega)]
      have h := fsm_recode_loop_reset "binary" (ceil_log2 d.state_table.length) r
        (binary_code (ceil_log2 d.state_table.length))
        (binary_new_code (ceil_log2 d.state_table.length)) d.state_table 0
      simp only [List.range_zero, List.filter_nil, List.length_nil, Nat.zero_add] at h
      rw [h]
      rfl
    · simp only [henc]
      rw [if_neg (by decide), if_neg (by decide)]
      simp only [true_or, if_true, hr]
      rw [if_pos (by omega)]
      have h := fsm_recode_loop_reset "auto" (ceil_log2 d.state_table.length) r
        (binary_code (ceil_log2 d.state_table.length))
        (auto_new_code (ceil_log2 d.state_table.length)) d.state_table 0
      simp only [List.range_zero, List.filter_nil, List.length_nil, Nat.zero_add] at h
      rw [h]
      rfl
  · intro i hi
    refine ⟨lt_of_lt_of_le (state_index_lt r i _ hlt hi) hs.1, by simp [binary_code], ?_⟩
    intro j hj
    simp [binary_code, List.getElem?_range hj, hj, Nat.testBit_to_div_mod]
  · unfold binary_code Const.ofState
    congr 1
    apply List.ext_getElem
    · simp
    · intro j h1 h2
      simp

theorem fsm_recode_binary_witness :
    ∃ sb, fsm_recode (some "binary") "one-hot" exFsm =
        some { state_bits := sb, reset_state := 2,
               state_table := (List.range 4).map (fun i => binary_code sb (state_index 2 i)) } ∧
      4 ≤ 2 ^ sb ∧ (∀ j, j < sb → 2 ^ j < 4) :=
  (fsm_recode_binary (some "binary") "one-hot" exFsm 2 (Or.inl (by decide)) (by decide)
    (by decide)).imp (fun _ h => ⟨h.1, h.2.1, h.2.2.1⟩)


/-! ## The fail marker of `techmap` -/

theorem techmap_fail_name_iff (name : String) :
    techmap_fail_name name = true ↔
      (name = "\\TECHMAP_FAIL" ∨
        ∃ mid : List Char, name.data = '\\' :: (mid ++ ".TECHMAP_FAIL".data)) := by
  unfold techmap_fail_name
  by_cases h1 : name = "\\TECHMAP_FAIL"
  · simp [h1]
  · rw [if_neg h1]
    have hlen : name.length = name.data.length := rfl
    constructor
    · intro h
      right
      split_ifs at h with h2
      obtain ⟨hl, hh, hd⟩ := h2
      have hsplit := List.take_append_drop (name.length - 13) name.data
      rw [hd] at hsplit
      cases ht : List.take (name.length - 13) name.data with
      | nil =>
        have := congrArg List.length ht
        rw [List.length_take] at this
        simp at this
        omega
      | cons c mid =>
        rw [ht] at hsplit
        rw [← hsplit] at hh
        simp at hh
        refine ⟨mid, ?_⟩
        rw [← hsplit, hh]
        rfl
    · rintro (h | ⟨mid, hm⟩)
      · exact absurd h h1
      · rw [if_pos]
        refine ⟨?_, ?_, ?_⟩
        · rw [hlen, hm]
          simp
        · rw [hm]; rfl
        · rw [hlen, hm]
          have e : ('\\' :: (mid ++ ".TECHMAP_FAIL".data)) =
              ('\\' :: mid) ++ ".TECHMAP_FAIL".data := rfl
          rw [e]
          have l : (('\\' :: mid) ++ ".TECHMAP_FAIL".data).length - 13 = ('\\' :: mid).length := by
            rw [List.length_append]
            have : (".TECHMAP_FAIL".data).length = 13 := by decide
            omega
          rw [l, List.drop_left]

theorem techmap_fail_loop_iff (wires : List (String × Wire)) :
    techmap_fail_loop wires = true ↔ ∃ it, it ∈ wires ∧ techmap_fail_name it.1 = true := by
  induction wires with
  | nil => simp [techmap_fail_loop]
  | cons it rest ih =>
    rw [techmap_fail_loop]
    by_cases h : techmap_fail_name it.1 = true
    · rw [if_pos h]
      simp [h]
    · rw [if_neg h, ih]
      simp [h]

/-- Claim C24, as the code has it: on a module that is not in the cache,
`techmap_fail_check` returns true exactly when the module has a wire whose key
is `\TECHMAP_FAIL`, or begins with a backslash and ends in `.TECHMAP_FAIL`; the
result is entered into the cache. -/
theorem techmap_fail_check_spec (cache : List (Module × Bool)) (module : Module)
    (hc : cache.lookup module = none) :
    ((techmap_fail_check cache (some module)).1 = true ↔
      ∃ it, it ∈ module.wires ∧ (it.1 = "\\TECHMAP_FAIL" ∨
        ∃ mid : List Char, it.1.data = '\\' :: (mid ++ ".TECHMAP_FAIL".data))) ∧
    (techmap_fail_check cache (some module)).2 =
      (module, (techmap_fail_check cache (some module)).1) :: cache := by
  unfold techmap_fail_check
  simp only [hc]
  refine ⟨?_, trivial⟩
  rw [techmap_fail_loop_iff]
  constructor
  · rintro ⟨it, hm, h⟩
    exact ⟨it, hm, (techmap_fail_name_iff it.1).mp h⟩
  · rintro ⟨it, hm, h⟩
    exact ⟨it, hm, (techmap_fail_name_iff it.1).mpr h⟩

theorem techmap_fail_check_spec_witness :
    (techmap_fail_check [] (some exFailSub)).1 = true ∧
      ∃ it, it ∈ exFailSub.wires ∧ (it.1 = "\\TECHMAP_FAIL" ∨
        ∃ mid : List Char, it.1.data = '\\' :: (mid ++ ".TECHMAP_FAIL".data)) :=
  ⟨by decide, (techmap_fail_check_spec [] exFailSub rfl).1.mp (by decide)⟩

/-- Claim C24, counterexample: a module that is not in the cache and whose only
wire is named `$x.TECHMAP_FAIL`, a name that ends in `.TECHMAP_FAIL`, is not
reported as failed. -/
theorem techmap_fail_check_counterexample :
    (techmap_fail_check [] (some exFailDollar)).1 = false ∧
      (∃ it, it ∈ exFailDollar.wires ∧ it.2.name = it.1 ∧
        ∃ front : List Char, it.1.data = front ++ ".TECHMAP_FAIL".data) :=
  ⟨by decide, ⟨_, List.mem_singleton.mpr rfl, rfl, ['$', 'x'], by decide⟩⟩

/-! ## Formatting of numbers -/

theorem dec_digit_toNat (d : Nat) (h : d < 10) : (dec_digit d).toNat = 48 + d := by
  interval_cases d <;> rfl

theorem dec_digit_range (d : Nat) (h : d < 10) : '0' ≤ dec_digit d ∧ dec_digit d ≤ '9' := by
  interval_cases d <;> decide

theorem dec_value_append (xs : List Char) (c : Char) :
    dec_value (xs ++ [c]) = 10 * dec_value xs + (c.toNat - 48) := by
  unfold dec_value
  rw [List.foldl_append]
  rfl

theorem dec_value_digits : ∀ fuel n, n < fuel → dec_value (dec_digits fuel n) = n := by
  intro fuel
  induction fuel with
  | zero => intro n h; omega
  | succ fuel ih =>
    intro n h
    rw [dec_digits]
    split_ifs with h10
    · show 10 * 0 + ((dec_digit n).toNat - 48) = n
      rw [dec_digit_toNat n h10]
      omega
    · rw [dec_value_append, ih (n / 10) (by omega), dec_digit_toNat (n % 10) (by omega)]
      omega

theorem dec_value_zeros (k : Nat) (cs : List Char) :
    dec_value (List.replicate k '0' ++ cs) = dec_value cs := by
  unfold dec_value
  rw [List.foldl_append]
  congr 1
  induction k with
  | zero => rfl
  | succ k ih =>
    rw [List.replicate_succ, List.foldl_cons]
    exact ih

theorem format_d_value (n : Nat) : dec_value (format_d n) = n :=
  dec_value_digits (n + 1) n (Nat.lt_succ_self n)

theorem format_05d_value (n : Nat) : dec_value (format_05d n) = n := by
  unfold format_05d
  rw [dec_value_zeros, format_d_value]

theorem format_d_inj (a b : Nat) (h : format_d a = format_d b) : a = b := by
  rw [← format_d_value a, ← format_d_value b, h]

theorem format_05d_inj (a b : Nat) (h : format_05d a = format_05d b) : a = b := by
  rw [← format_05d_value a, ← format_05d_value b, h]

theorem dec_digits_range : ∀ fuel n c, c ∈ dec_digits fuel n → '0' ≤ c ∧ c ≤ '9' := by
  intro fuel
  induction fuel with
  | zero => intro n c h; simp [dec_digits] at h
  | succ fuel ih =>
    intro n c h
    rw [dec_digits] at h
    split_ifs at h with h10
    · rw [List.mem_singleton] at h
      rw [h]
      exact dec_digit_range n h10
    · rw [List.mem_append, List.mem_singleton] at h
      rcases h with h | h
      · exact ih _ c h
      · rw [h]
        exact dec_digit_range _ (by omega)

theorem dec_digits_ne_nil (fuel n : Nat) : dec_digits (fuel + 1) n ≠ [] := by
  rw [dec_digits]
  split_ifs <;> simp

theorem format_d_range (n : Nat) (c : Char) (h : c ∈ format_d n) : '0' ≤ c ∧ c ≤ '9' :=
  dec_digits_range _ _ c h

theorem format_d_ne_nil (n : Nat) : format_d n ≠ [] := dec_digits_ne_nil n n

theorem format_05d_range (n : Nat) (c : Char) (h : c ∈ format_05d n) : '0' ≤ c ∧ c ≤ '9' := by
  unfold format_05d at h
  rw [List.mem_append] at h
  rcases h with h | h
  · rw [(List.mem_replicate.mp h).2]
    decide
  · exact format_d_range n c h

theorem format_05d_ne_nil (n : Nat) : format_05d n ≠ [] := by
  unfold format_05d
  intro h
  exact format_d_ne_nil n (List.append_eq_nil.mp h).2

/-! ## Maps with string keys -/

theorem mem_map_set {β : Type} (k : String) (v : β) (m : List (String × β)) (x : String × β)
    (h : x ∈ map_set k v m) : x = (k, v) ∨ x ∈ m := by
  induction m with
  | nil => left; simpa [map_set] using h
  | cons kv rest ih =>
    rw [map_set] at h
    split_ifs at h with h1 h2
    · rcases List.mem_cons.mp h with h | h
      · left; exact h
      · right; exact List.mem_cons_of_mem _ h
    · rcases List.mem_cons.mp h with h | h
      · left; exact h
      · right; exact h
    · rcases List.mem_cons.mp h with h | h
      · right; rw [h]; exact List.mem_cons_self _ _
      · rcases ih h with h | h
        · left; exact h
        · right; exact List.mem_cons_of_mem _ h

theorem lookup_map_set_self {β : Type} (k : String) (v : β) (m : List (String × β)) :
    (map_set k v m).lookup k = some v := by
  induction m with
  | nil => simp [map_set, List.lookup]
  | cons kv rest ih =>
    obtain ⟨k1, v1⟩ := kv
    rw [map_set]
    split_ifs with h1 h2
    · simp [List.lookup]
    · simp [List.lookup]
    · have : (k == k1) = false := by simpa using h1
      simp only [List.lookup, this]
      exact ih

theorem lookup_map_set_ne {β : Type} (k : String) (v : β) (m : List (String × β)) (k2 : String)
    (hne : k2 ≠ k) : (map_set k v m).lookup k2 = m.lookup k2 := by
  have hk : (k2 == k) = false := by simpa using hne
  induction m with
  | nil => simp [map_set, List.lookup, hk]
  | cons kv rest ih =>
    obtain ⟨k1, v1⟩ := kv
    rw [map_set]
    split_ifs with h1 h2
    · simp only at h1
      subst h1
      simp [List.lookup, hk]
    · simp [List.lookup, hk]
    · by_cases h3 : k2 = k1
      · subst h3; simp [List.lookup]
      · have : (k2 == k1) = false := by simpa using h3
        simp only [List.lookup, this]
        exact ih

/-! ## Names of the EDIF backend -/

theorem getLast_cons_ne (c : Char) (cs : List Char) (h1 : cs = [] → c ≠ '_')
    (h2 : cs ≠ [] → cs.getLast? ≠ some '_') : (c :: cs).getLast? ≠ some '_' := by
  cases cs with
  | nil =>
    have := h1 rfl
    simpa using this
  | cons d ds =>
    rw [List.getLast?_cons_cons]
    exact h2 (List.cons_ne_nil d ds)

theorem edif_check_rest (size : Nat) : ∀ (cs : List Char) (i : Nat), 0 < i →
    i + cs.length = size → edif_check_loop size cs i = true →
    cs.all edif_name_char = true ∧ (cs ≠ [] → cs.getLast? ≠ some '_') := by
  intro cs
  induction cs with
  | nil => intro i _ _ _; exact ⟨rfl, fun h => absurd rfl h⟩
  | cons c cs ih =>
    intro i hi hs h
    rw [List.length_cons] at hs
    rw [edif_check_loop] at h
    have hrec : edif_check_loop size cs (i + 1) = true →
        cs.all edif_name_char = true ∧ (cs ≠ [] → cs.getLast? ≠ some '_') :=
      ih (i + 1) (Nat.succ_pos i) (by omega)
    split_ifs at h with h1 h2 h3 h4
    · have hc : edif_name_char c = true := by simp [edif_name_char, edif_letter, h1]
      have hu : c ≠ '_' := by
        intro e; rw [e] at h1; exact absurd h1 (by decide)
      obtain ⟨ha, hl⟩ := hrec h
      exact ⟨by rw [List.all_cons, hc, ha]; rfl, fun _ => getLast_cons_ne c cs (fun _ => hu) hl⟩
    · have hc : edif_name_char c = true := by simp [edif_name_char, edif_letter, h2]
      have hu : c ≠ '_' := by
        intro e; rw [e] at h2; exact absurd h2 (by decide)
      obtain ⟨ha, hl⟩ := hrec h
      exact ⟨by rw [List.all_cons, hc, ha]; rfl, fun _ => getLast_cons_ne c cs (fun _ => hu) hl⟩
    · have hc : edif_name_char c = true := by simp [edif_name_char, h3.1, h3.2.1]
      have hu : c ≠ '_' := by
        intro e; rw [e] at h3; exact absurd h3.2.1 (by decide)
      obtain ⟨ha, hl⟩ := hrec h
      exact ⟨by rw [List.all_cons, hc, ha]; rfl, fun _ => getLast_cons_ne c cs (fun _ => hu) hl⟩
    · have hc : edif_name_char c = true := by simp [edif_name_char, h4.1]
      have hne : cs ≠ [] := by
        intro e
        rw [e] at hs
        simp at hs
        omega
      obtain ⟨ha, hl⟩ := hrec h
      exact ⟨by rw [List.all_cons, hc, ha]; rfl,
        fun _ => getLast_cons_ne c cs (fun e => absurd e hne) hl⟩

theorem edif_valid_of_check (id : String) (hne : id ≠ "") (h1 : ¬ (id = "GND" ∨ id = "VCC"))
    (h : edif_check_loop id.length id.data 0 = true) : edif_valid id = true := by
  have hlen : id.length = id.data.length := rfl
  unfold edif_valid
  cases hd : id.data with
  | nil =>
    exfalso
    apply hne
    exact String.ext hd
  | cons c cs =>
    rw [hd] at h
    rw [edif_check_loop] at h
    have hrec := edif_check_rest id.length cs 1 Nat.one_pos (by rw [hlen, hd]; simp; omega)
    have hfirst : edif_letter c = true ∧ edif_check_loop id.length cs (0 + 1) = true := by
      split_ifs at h with h2 h3 h4 h5
      · exact ⟨by simp [edif_letter, h2], h⟩
      · exact ⟨by simp [edif_letter, h3], h⟩
      · exact absurd h4.2.2 (Nat.lt_irrefl 0)
      · exact absurd h5.2.1 (Nat.lt_irrefl 0)
    obtain ⟨ha, hl⟩ := hrec hfirst.2
    have hlast : (c :: cs).getLast? ≠ some '_' := by
      apply getLast_cons_ne c cs _ hl
      intro _ e
      rw [e] at hfirst
      exact absurd hfirst.1 (by decide)
    have hg : id ≠ "GND" := fun e => h1 (Or.inl e)
    have hv : id ≠ "VCC" := fun e => h1 (Or.inr e)
    simp [hfirst.1, ha, hlast, hg, hv]

theorem edif_gen_name_valid (n : Nat) : edif_valid (edif_gen_name n) = true := by
  unfold edif_valid
  show (edif_letter 'i' && ('d' :: format_05d n).all edif_name_char &&
      decide (('i' :: 'd' :: format_05d n).getLast? ≠ some '_') &&
      decide (edif_gen_name n ≠ "GND") && decide (edif_gen_name n ≠ "VCC")) = true
  have hd : ∀ c, c ∈ format_05d n → edif_name_char c = true := by
    intro c hc
    have := format_05d_range n c hc
    simp [edif_name_char, this.1, this.2]
  have hall : ('d' :: format_05d n).all edif_name_char = true := by
    rw [List.all_cons, List.all_eq_true.mpr hd]
    rfl
  have hlast : ('d' :: format_05d n).getLast? ≠ some '_' := by
    cases hf : format_05d n with
    | nil => exact absurd hf (format_05d_ne_nil n)
    | cons c cs =>
      rw [List.getLast?_cons_cons]
      intro e
      have hm : '_' ∈ format_05d n := by
        rw [hf]
        exact List.mem_of_getLast?_eq_some e
      exact absurd (format_05d_range n '_' hm) (by decide)
  have hg : edif_gen_name n ≠ "GND" := by
    intro e
    have := congrArg String.data e
    simp [edif_gen_name] at this
  have hv : edif_gen_name n ≠ "VCC" := by
    intro e
    have := congrArg String.data e
    simp [edif_gen_name] at this
  have hlast2 : ('i' :: 'd' :: format_05d n).getLast? ≠ some '_' := by
    rw [List.getLast?_cons_cons]
    exact hlast
  rw [hall, decide_eq_true hlast2, decide_eq_true hg, decide_eq_true hv]
  decide

theorem edif_gen_name_inj (a b : Nat) (h : edif_gen_name a = edif_gen_name b) : a = b := by
  apply format_05d_inj
  have := congrArg String.data h
  simpa [edif_gen_name] using this

theorem edif_gen_loop_none (G U : List String) : ∀ fuel counter,
    edif_gen_loop G U fuel counter = none →
    ∀ i, i < fuel → edif_gen_name (counter + i) ∈ G ++ U := by
  intro fuel
  induction fuel with
  | zero => intro c _ i hi; omega
  | succ fuel ih =>
    intro c h i hi
    rw [edif_gen_loop] at h
    split_ifs at h with h1
    cases i with
    | zero =>
      rw [Nat.add_zero, List.mem_append]
      by_contra hc
      exact h1 ⟨fun x => hc (Or.inl x), fun x => hc (Or.inr x)⟩
    | succ i =>
      have := ih (c + 1) h i (by omega)
      rw [show c + (i + 1) = c + 1 + i by omega]
      exact this

theorem edif_gen_loop_some (G U : List String) : ∀ fuel counter g c1,
    edif_gen_loop G U fuel counter = some (g, c1) →
    ∃ i, g = edif_gen_name (counter + i) ∧ c1 = counter + i + 1 ∧ g ∉ G ∧ g ∉ U ∧
      ∀ j, j < i → edif_gen_name (counter + j) ∈ G ++ U := by
  intro fuel
  induction fuel with
  | zero => intro c g c1 h; simp [edif_gen_loop] at h
  | succ fuel ih =>
    intro c g c1 h
    rw [edif_gen_loop] at h
    split_ifs at h with h1
    · simp only [Option.some.injEq, Prod.mk.injEq] at h
      refine ⟨0, h.1.symm, h.2.symm, ?_, ?_, fun j hj => absurd hj (Nat.not_lt_zero j)⟩
      · rw [← h.1]; exact h1.1
      · rw [← h.1]; exact h1.2
    · obtain ⟨i, hg, hc, hG, hU, hall⟩ := ih (c + 1) g c1 h
      refine ⟨i + 1, ?_, ?_, hG, hU, ?_⟩
      · rw [hg]; congr 1; omega
      · omega
      · intro j hj
        cases j with
        | zero =>
          rw [Nat.add_zero, List.mem_append]
          by_contra hc2
          exact h1 ⟨fun x => hc2 (Or.inl x), fun x => hc2 (Or.inr x)⟩
        | succ j =>
          have := hall j (by omega)
          rw [show c + (j + 1) = c + 1 + j by omega]
          exact this

theorem edif_gen_loop_total (G U : List String) (counter : Nat) :
    edif_gen_loop G U (G.length + U.length + 1) counter ≠ none := by
  intro h
  have hall := edif_gen_loop_none G U _ counter h
  have hnd : ((List.range (G.length + U.length + 1)).map
      (fun i => edif_gen_name (counter + i))).Nodup := by
    apply List.Nodup.map _ (List.nodup_range _)
    intro a b hab
    have := edif_gen_name_inj _ _ hab
    omega
  have hsub : ((List.range (G.length + U.length + 1)).map
      (fun i => edif_gen_name (counter + i))) ⊆ G ++ U := by
    intro x hx
    obtain ⟨i, hi, rfl⟩ := List.mem_map.mp hx
    exact hall i (List.mem_range.mp hi)
  have := (List.subperm_of_subset hnd hsub).length_le
  simp at this

theorem edif_do_rename_spec (st : EdifNames) (id : String) (hwf : st.wf) :
    ∃ n st1, st.do_rename id =
        some ("(rename " ++ edif_gen_name n ++ " \"" ++ id ++ "\")", st1) ∧
      st1.wf ∧ st1.name_map.lookup id = some (edif_gen_name n) := by
  unfold EdifNames.do_rename
  cases hl : edif_gen_loop st.generated_names st.used_names
      (st.generated_names.length + st.used_names.length + 1) st.counter with
  | none => exact absurd hl (edif_gen_loop_total _ _ _)
  | some p =>
    obtain ⟨g, c1⟩ := p
    obtain ⟨i, hg, _, _, _, _⟩ := edif_gen_loop_some _ _ _ _ g c1 hl
    subst hg
    refine ⟨st.counter + i, _, rfl, ?_, ?_⟩
    · intro kv hkv
      rcases mem_map_set id _ st.name_map kv hkv with h | h
      · rw [h]
        exact edif_gen_name_valid _
      · exact hwf kv h
    · exact lookup_map_set_self _ _ _

theorem lookup_mem {β : Type} (m : List (String × β)) (k : String) (v : β)
    (h : m.lookup k = some v) : (k, v) ∈ m := by
  induction m with
  | nil => simp [List.lookup] at h
  | cons kv rest ih =>
    obtain ⟨k1, v1⟩ := kv
    by_cases hk : k = k1
    · subst hk
      simp [List.lookup] at h
      rw [h]
      exact List.mem_cons_self _ _
    · have : (k == k1) = false := by simpa using hk
      simp only [List.lookup, this] at h
      exact List.mem_cons_of_mem _ (ih h)

/-- Claim C23, as the code has it: a call of `edif_names(id)` on an object
whose map holds names of the valid form returns, and leaves such an object;
the string returned is the name that stands for `id` afterwards, or the text
`(rename name "id")` with that name.  For every identifier other than the
empty string this name has the form asked for: a letter, then letters, digits
and underscores, no underscore at the end, neither `GND` nor `VCC`.  The object
that the constructor makes is of this kind. -/
theorem edif_names_valid (st : EdifNames) (id : String) (hwf : st.wf) :
    (∃ r st1, st.call id = some (r, st1) ∧ st1.wf ∧
      (r = st1.assigned id ∨ r = "(rename " ++ st1.assigned id ++ " \"" ++ id ++ "\")") ∧
      (id ≠ "" → edif_valid (st1.assigned id) = true)) ∧
    EdifNames.init.wf := by
  refine ⟨?_, ?_⟩
  · have hren : ∃ r st1, st.do_rename id = some (r, st1) ∧ st1.wf ∧
        (r = st1.assigned id ∨ r = "(rename " ++ st1.assigned id ++ " \"" ++ id ++ "\")") ∧
        (id ≠ "" → edif_valid (st1.assigned id) = true) := by
      obtain ⟨n, st1, h1, h2, h3⟩ := edif_do_rename_spec st id hwf
      have ha : st1.assigned id = edif_gen_name n := by
        unfold EdifNames.assigned
        rw [h3]
      exact ⟨_, st1, h1, h2, Or.inr (by rw [ha]), fun _ => by rw [ha]; exact edif_gen_name_valid n⟩
    unfold EdifNames.call
    cases hl : st.name_map.lookup id with
    | some name =>
      have ha : st.assigned id = name := by
        unfold EdifNames.assigned
        rw [hl]
      exact ⟨name, st, rfl, hwf, Or.inl ha.symm,
        fun _ => by rw [ha]; exact hwf (id, name) (lookup_mem _ _ _ hl)⟩
    | none =>
      simp only []
      split_ifs with h1 h2 h3
      · exact hren
      · exact hren
      · have ha : ({ st with used_names := set_insert id st.used_names } : EdifNames).assigned id
            = id := by
          unfold EdifNames.assigned
          simp only [hl]
        exact ⟨id, _, rfl, hwf, Or.inl ha.symm,
          fun hne => by rw [ha]; exact edif_valid_of_check id hne h2 h3⟩
      · exact hren
  · intro kv hkv
    simp [EdifNames.init] at hkv

/-- Claim C23, counterexample: the first call of a new object with the empty
identifier returns the empty string and enters it among the used names; the
name that stands for it is the empty string, which is not of the form asked
for. -/
theorem edif_names_counterexample :
    EdifNames.init.call "" = some ("", { EdifNames.init with used_names := [""] }) ∧
      ({ EdifNames.init with used_names := [""] } : EdifNames).assigned "" = "" ∧
      edif_valid "" = false := by
  decide

theorem edif_names_valid_witness :
    ∃ r st1, EdifNames.init.call "a_" = some (r, st1) ∧ st1.wf ∧
      (r = st1.assigned "a_" ∨ r = "(rename " ++ st1.assigned "a_" ++ " \"" ++ "a_" ++ "\")") ∧
      ("a_" ≠ "" → edif_valid (st1.assigned "a_") = true) :=
  (edif_names_valid EdifNames.init "a_" (fun kv hkv => absurd hkv (List.not_mem_nil kv))).1


/-! ## The truth tables of the BLIF reader -/

theorem blif_match_loop_iff (i : Nat) : ∀ (cs : List Char) (j : Nat),
    blif_match_loop i cs j = true ↔
      ∀ t, t < cs.length →
        cs.get? t = some '-' ∨ cs.get? t = some (if Nat.testBit i (j + t) then '1' else '0') := by
  intro cs
  induction cs with
  | nil => intro j; simp [blif_match_loop]
  | cons c1 rest ih =>
    intro j
    have hbit : (if (i / 2 ^ j) % 2 ≠ 0 then '1' else '0') =
        (if Nat.testBit i j then '1' else '0') := by
      rw [Nat.testBit_to_div_mod]
      have : i / 2 ^ j % 2 = 0 ∨ i / 2 ^ j % 2 = 1 := by omega
      rcases this with h | h <;> simp [h]
    have hrec : blif_match_loop i rest (j + 1) = true ↔
        ∀ t, t < rest.length → (c1 :: rest).get? (t + 1) = some '-' ∨
          (c1 :: rest).get? (t + 1) = some (if Nat.testBit i (j + (t + 1)) then '1' else '0') := by
      rw [ih (j + 1)]
      constructor
      · intro h t ht
        have := h t ht
        rw [show j + 1 + t = j + (t + 1) by omega] at this
        simpa using this
      · intro h t ht
        have := h t ht
        rw [show j + 1 + t = j + (t + 1) by omega]
        simpa using this
    have hsplit : (∀ t, t < (c1 :: rest).length → (c1 :: rest).get? t = some '-' ∨
          (c1 :: rest).get? t = some (if Nat.testBit i (j + t) then '1' else '0')) ↔
        ((c1 = '-' ∨ c1 = (if Nat.testBit i j then '1' else '0')) ∧
          ∀ t, t < rest.length → (c1 :: rest).get? (t + 1) = some '-' ∨
            (c1 :: rest).get? (t + 1) =
              some (if Nat.testBit i (j + (t + 1)) then '1' else '0')) := by
      constructor
      · intro h
        refine ⟨?_, fun t ht => h (t + 1) (by simp; omega)⟩
        have := h 0 (by simp)
        simpa using this
      · rintro ⟨h0, hs⟩ t ht
        cases t with
        | zero => simpa using h0
        | succ t => exact hs t (by simpa using ht)
    rw [hsplit, ← hrec, blif_match_loop]
    simp only [hbit]
    by_cases h1 : c1 = '-'
    · simp [h1]
    · by_cases h2 : c1 = (if Nat.testBit i j then '1' else '0')
      · rw [if_pos h1, if_neg (not_not.mpr h2)]
        simp [h2]
      · rw [if_pos h1, if_pos h2]
        simp [h1, h2]

theorem blif_match_iff (input : List Char) (i : Nat) :
    blif_match_loop i input 0 = true ↔ blif_matches input i := by
  rw [blif_match_loop_iff]
  unfold blif_matches
  simp only [Nat.zero_add]

theorem blif_cover_loop_spec (input : List Char) (v : State) : ∀ (n i : Nat) (bits : List State),
    i + n ≤ bits.length →
    ∃ bits1, blif_cover_loop input v n i bits = some bits1 ∧ bits1.length = bits.length ∧
      ∀ j, bits1[j]? =
        if i ≤ j ∧ j < i + n ∧ blif_match_loop j input 0 = true then some v else bits[j]? := by
  intro n
  induction n with
  | zero =>
    intro i bits _
    refine ⟨bits, rfl, rfl, fun j => ?_⟩
    rw [if_neg]
    omega
  | succ n ih =>
    intro i bits h
    rw [blif_cover_loop]
    by_cases hm : blif_match_loop i input 0 = true
    · rw [if_pos hm, if_pos (by omega)]
      obtain ⟨b1, h1, h2, h3⟩ := ih (i + 1) (bits.set i v) (by rw [List.length_set]; omega)
      refine ⟨b1, h1, by rw [h2, List.length_set], fun j => ?_⟩
      rw [h3 j, List.getElem?_set]
      by_cases hj : i = j
      · subst hj
        have hl : i < bits.length := by omega
        simp [hm, hl]
      · rw [if_neg hj]
        by_cases hc : blif_match_loop j input 0 = true
        · simp only [hc, and_true]
          by_cases hr : i + 1 ≤ j ∧ j < i + 1 + n
          · rw [if_pos hr, if_pos (by omega)]
          · rw [if_neg hr, if_neg (by omega)]
        · simp only [hc]
          simp
    · rw [if_neg hm]
      obtain ⟨b1, h1, h2, h3⟩ := ih (i + 1) bits (by omega)
      refine ⟨b1, h1, h2, fun j => ?_⟩
      rw [h3 j]
      by_cases hj : i = j
      · subst hj
        simp [hm]
      · by_cases hc : blif_match_loop j input 0 = true
        · simp only [hc, and_true]
          by_cases hr : i + 1 ≤ j ∧ j < i + 1 + n
          · rw [if_pos hr, if_pos (by omega)]
          · rw [if_neg hr, if_neg (by omega)]
        · simp only [hc]
          simp

theorem blif_cover_step (k : Nat) (hk1 : 1 ≤ k) (hk8 : k ≤ 8) (c : List Char × Bool)
    (hlen : c.1.length = k) (hch : ∀ ch, ch ∈ c.1 → ch = '0' ∨ ch = '1' ∨ ch = '-')
    (bits : List State) (str : String) (rest : List Const) (d : State)
    (hb : bits.length = 2 ^ k) :
    ∃ bits1, blif_line (blif_cover_tokens c) ⟨⟨bits, str⟩ :: rest, true, d⟩ =
        BlifStep.next ⟨⟨bits1, str⟩ :: rest, true, blif_out (!c.2)⟩ ∧
      bits1.length = 2 ^ k ∧
      ∀ j, j < 2 ^ k → bits1[j]? =
        if blif_match_loop j c.1 0 = true then some (blif_out c.2) else bits[j]? := by
  obtain ⟨input, o⟩ := c
  simp only at hlen hch
  obtain ⟨bits1, h1, h2, h3⟩ := blif_cover_loop_spec input (blif_out o) (2 ^ k) 0 bits
    (by omega)
  refine ⟨bits1, ?_, by rw [h2, hb], fun j hj => ?_⟩
  · cases input with
    | nil => simp at hlen; omega
    | cons ch cs =>
      have hc := hch ch (List.mem_cons_self _ _)
      have hn1 : ch ≠ '#' := by rcases hc with h | h | h <;> rw [h] <;> decide
      have hn2 : ch ≠ '.' := by rcases hc with h | h | h <;> rw [h] <;> decide
      have hl : (String.mk (ch :: cs)).length = k := hlen
      cases o with
      | false =>
        unfold blif_line blif_cover_tokens
        simp only [List.head?_cons, Option.some.injEq, hn1, hn2, if_false, Bool.false_eq_true]
        unfold blif_cover
        simp only [hl]
        rw [if_neg (by decide), if_neg (by decide), if_neg (by omega)]
        simp only [blif_out, Bool.false_eq_true, if_false, if_true] at h1 ⊢
        rw [h1]
        rfl
      | true =>
        unfold blif_line blif_cover_tokens
        simp only [List.head?_cons, Option.some.injEq, hn1, hn2, if_false, if_true]
        unfold blif_cover
        simp only [hl]
        rw [if_neg (by decide), if_neg (by decide), if_neg (by omega)]
        simp only [blif_out, if_true] at h1 ⊢
        rw [if_neg (by decide), h1]
        rfl
  · rw [h3 j]
    simp [hj]

theorem blif_covers_run (k : Nat) (hk1 : 1 ≤ k) (hk8 : k ≤ 8) (tail : List (List String))
    (str : String) (rest : List Const) :
    ∀ (covers : List (List Char × Bool)),
      (∀ c, c ∈ covers → c.1.length = k ∧ ∀ ch, ch ∈ c.1 → ch = '0' ∨ ch = '1' ∨ ch = '-') →
      ∀ (bits : List State) (d : State), bits.length = 2 ^ k →
      ∃ bits1, blif_lines (covers.map blif_cover_tokens ++ tail) ⟨⟨bits, str⟩ :: rest, true, d⟩ =
          blif_lines tail ⟨⟨bits1, str⟩ :: rest, true,
            (match covers.getLast? with
              | some c => blif_out (!c.2)
              | none => d)⟩ ∧
        bits1.length = 2 ^ k ∧
        ∀ j, j < 2 ^ k → bits1[j]? =
          match covers.reverse.find? (fun c => blif_match_loop j c.1 0) with
          | some c => some (blif_out c.2)
          | none => bits[j]? := by
  intro covers
  induction covers with
  | nil =>
    intro _ bits d hb
    exact ⟨bits, rfl, hb, fun j _ => rfl⟩
  | cons c cs ih =>
    intro hcov bits d hb
    obtain ⟨hlen, hch⟩ := hcov c (List.mem_cons_self _ _)
    obtain ⟨b1, s1, s2, s3⟩ := blif_cover_step k hk1 hk8 c hlen hch bits str rest d hb
    obtain ⟨b2, r1, r2, r3⟩ := ih (fun x hx => hcov x (List.mem_cons_of_mem _ hx)) b1
      (blif_out (!c.2)) s2
    refine ⟨b2, ?_, r2, fun j hj => ?_⟩
    · rw [List.map_cons, List.cons_append, blif_lines, s1]
      simp only []
      rw [r1]
      congr 2
      cases cs with
      | nil => rfl
      | cons x xs =>
        rw [List.getLast?_cons_cons]
        have hy := List.getLast?_eq_getLast (x :: xs) (List.cons_ne_nil x xs)
        rw [hy]
    · rw [r3 j hj, List.reverse_cons, List.find?_append]
      cases hf : cs.reverse.find? (fun c => blif_match_loop j c.1 0) with
      | some x => rfl
      | none =>
        simp only [Option.or_none, Option.none_or]
        rw [s3 j hj]
        by_cases hm : blif_match_loop j c.1 0 = true
        · simp [List.find?, hm]
        · simp [List.find?, hm]

/-- Claim C25, as the code has it: for a `.names` line with `k` inputs, where
`1 ≤ k ≤ 8`, followed by cover lines of `k` characters `0`, `1` and `-` each
and closed by `.end`, the reader ends with a new table of `2 ^ k` bits whose
bit `i` is the output bit of the last cover line that matches `i`, the
complement of the output bit of the last cover line when no line matches `i`,
and `Sx` when there is no cover line; a line matches `i` when every character
`j` is a dash or the binary digit `j` of `i`.  Without cover lines the table is
all `Sx` for every number of inputs. -/
theorem blif_lut_spec (st : BlifState) (names : List String) (k : Nat)
    (covers : List (List Char × Bool)) (hn : names.length = k + 1) (hk1 : 1 ≤ k) (hk8 : k ≤ 8)
    (hcov : ∀ c, c ∈ covers →
      c.1.length = k ∧ ∀ ch, ch ∈ c.1 → ch = '0' ∨ ch = '1' ∨ ch = '-') :
    (∃ lut, blif_lines ((".names" :: names) :: (covers.map blif_cover_tokens ++ [[".end"]])) st =
        BlifStep.done ⟨lut :: (blif_close st).luts, false, State.Sx⟩ ∧
      lut.bits.length = 2 ^ k ∧
      ∀ i, i < 2 ^ k → lut.bits[i]? = some (blif_lut_bit covers i)) ∧
    (∀ (c : List Char) (i : Nat), blif_match_loop i c 0 = true ↔ blif_matches c i) ∧
    (∀ (n : Nat) (names1 : List String), names1.length = n + 1 →
      blif_lines [".names" :: names1, [".end"]] st =
        BlifStep.done ⟨Const.ofState State.Sx (2 ^ n) :: (blif_close st).luts, false,
          State.Sx⟩) := by
  have hfirst : ∀ (n : Nat) (names1 : List String) (more : List (List String)),
      names1.length = n + 1 →
      blif_lines ((".names" :: names1) :: more) st =
        blif_lines more ⟨⟨List.replicate (2 ^ n) State.Sx, ""⟩ :: (blif_close st).luts, true,
          State.Sx⟩ := by
    intro n names1 more h
    cases names1 with
    | nil => simp at h
    | cons x xs =>
      rw [blif_lines, blif_line]
      have e1 : (".names" : String).data.head? ≠ some '#' := by decide
      have e2 : (".names" : String).data.head? = some '.' := by decide
      rw [if_neg e1, if_pos e2]
      simp only []
      rw [if_neg (by decide), if_neg (by decide), if_neg (by decide)]
      simp only [if_true, blif_names, Const.ofState]
      rw [show (x :: xs).length - 1 = n by omega]
  have hend : ∀ (bits : List State) (rest : List Const) (d : State),
      blif_lines [[".end"]] ⟨⟨bits, ""⟩ :: rest, true, d⟩ =
        BlifStep.done ⟨⟨bits.map (fun bit => if bit = State.Sx then d else bit), ""⟩ :: rest,
          false, State.Sx⟩ := by
    intro bits rest d
    rfl
  refine ⟨?_, blif_match_iff, ?_⟩
  · obtain ⟨bits1, r1, r2, r3⟩ := blif_covers_run k hk1 hk8 [[".end"]] "" (blif_close st).luts
      covers hcov (List.replicate (2 ^ k) State.Sx) State.Sx (List.length_replicate _ _)
    rw [hfirst k names _ hn, r1, hend]
    refine ⟨_, rfl, by simp [r2], fun i hi => ?_⟩
    simp only [List.getElem?_map, r3 i hi]
    unfold blif_lut_bit
    cases hf : covers.reverse.find? (fun c => blif_match_loop i c.1 0) with
    | some c =>
      simp only [Option.map_some']
      cases c.2 <;> simp [blif_out]
    | none =>
      have hget : (List.replicate (2 ^ k) State.Sx)[i]? = some State.Sx := by
        rw [List.getElem?_replicate, if_pos hi]
      simp only [hget, Option.map_some', if_true]
  · intro n names1 h
    rw [hfirst n names1 _ h, hend]
    simp [Const.ofState]

theorem blif_lut_spec_witness :
    ∃ lut, blif_lines ((".names" :: ["a", "b", "y"]) ::
          ([("1-".data, true), ("01".data, false)].map blif_cover_tokens ++ [[".end"]]))
          BlifState.init =
        BlifStep.done ⟨lut :: (blif_close BlifState.init).luts, false, State.Sx⟩ ∧
      lut.bits.length = 2 ^ 2 ∧
      ∀ i, i < 2 ^ 2 →
        lut.bits[i]? = some (blif_lut_bit [("1-".data, true), ("01".data, false)] i) :=
  (blif_lut_spec BlifState.init ["a", "b", "y"] 2 [("1-".data, true), ("01".data, false)]
    rfl (by decide) (by decide) (by decide)).1

/-- Claim C25, counterexample: a `.names` line with nine inputs followed by a
cover line of nine characters is a syntax error, and so is a `.names` line
without inputs followed by the cover line `1`: no table comes out. -/
theorem blif_lut_counterexample :
    blif_lines [[".names", "a", "b", "c", "d", "e", "f", "g", "h", "i", "y"],
        ["---------", "1"], [".end"]] BlifState.init = BlifStep.error ∧
      blif_lines [[".names", "y"], ["1"], [".end"]] BlifState.init = BlifStep.error := by
  decide


/-! ## Renaming of objects -/

theorem not_key_of_lookup_none {β : Type} (m : List (String × β)) (k : String)
    (h : m.lookup k = none) : ∀ x, x ∈ m → x.1 ≠ k := by
  induction m with
  | nil => intro x hx; simp at hx
  | cons kv rest ih =>
    obtain ⟨k1, v1⟩ := kv
    by_cases hk : k = k1
    · subst hk
      simp [List.lookup] at h
    · have : (k == k1) = false := by simpa using hk
      simp only [List.lookup, this] at h
      intro x hx
      rcases List.mem_cons.mp hx with hx | hx
      · rw [hx]; exact fun e => hk e.symm
      · exact ih h x hx

theorem map_set_keys_nodup {β : Type} (k : String) (v : β) (m : List (String × β))
    (hnd : (m.map Prod.fst).Nodup) (hk : ∀ x, x ∈ m → x.1 ≠ k) :
    ((map_set k v m).map Prod.fst).Nodup := by
  induction m with
  | nil => simp [map_set]
  | cons kv rest ih =>
    have hnd0 := hnd
    rw [List.map_cons, List.nodup_cons] at hnd
    have hrest : ∀ x, x ∈ rest → x.1 ≠ k := fun x hx => hk x (List.mem_cons_of_mem _ hx)
    rw [map_set]
    split_ifs with h1 h2
    · exact absurd h1.symm (hk kv (List.mem_cons_self _ _))
    · rw [List.map_cons, List.nodup_cons]
      refine ⟨?_, hnd0⟩
      intro hm
      obtain ⟨x, hx, he⟩ := List.mem_map.mp hm
      exact hk x hx he
    · rw [List.map_cons, List.nodup_cons]
      refine ⟨?_, ih hnd.2 hrest⟩
      intro hm
      obtain ⟨x, hx, he⟩ := List.mem_map.mp hm
      rcases mem_map_set k v rest x hx with h | h
      · rw [h] at he
        exact h1 he
      · apply hnd.1
        rw [← he]
        exact List.mem_map_of_mem _ h

theorem map_count_none {β : Type} (k : String) (m : List (String × β))
    (h : m.lookup k = none) : map_count k m = 0 := by
  unfold map_count
  rw [h]
  rfl

theorem map_count_some {β : Type} (k : String) (m : List (String × β)) (v : β)
    (h : m.lookup k = some v) : map_count k m = 1 := by
  unfold map_count
  rw [h]
  rfl

theorem enumerate_name_inj (a b : Nat) (h : enumerate_name a = enumerate_name b) : a = b := by
  apply format_d_inj
  have h1 := congrArg String.data h
  simp only [enumerate_name, List.cons.injEq, true_and] at h1
  exact List.append_cancel_right h1

theorem enumerate_name_head (n : Nat) : (enumerate_name n).data.head? = some '\\' := rfl

theorem enumerate_fresh_none (cnt : String → Nat) : ∀ fuel counter,
    enumerate_fresh cnt fuel counter = none →
    ∀ i, i < fuel → cnt (enumerate_name (counter + i)) > 0 := by
  intro fuel
  induction fuel with
  | zero => intro c _ i hi; omega
  | succ fuel ih =>
    intro c h i hi
    rw [enumerate_fresh] at h
    split_ifs at h with h1
    cases i with
    | zero => exact h1
    | succ i =>
      have := ih (c + 1) h i (by omega)
      rw [show c + (i + 1) = c + 1 + i by omega]
      exact this

theorem enumerate_fresh_some (cnt : String → Nat) : ∀ fuel counter name c1,
    enumerate_fresh cnt fuel counter = some (name, c1) →
    ∃ i, name = enumerate_name (counter + i) ∧ c1 = counter + i + 1 ∧ cnt name = 0 := by
  intro fuel
  induction fuel with
  | zero => intro c n c1 h; simp [enumerate_fresh] at h
  | succ fuel ih =>
    intro c n c1 h
    rw [enumerate_fresh] at h
    split_ifs at h with h1
    · obtain ⟨i, hn, hc, h0⟩ := ih (c + 1) n c1 h
      exact ⟨i + 1, by rw [hn]; congr 1; omega, by omega, h0⟩
    · simp only [Option.some.injEq, Prod.mk.injEq] at h
      refine ⟨0, h.1.symm, h.2.symm, ?_⟩
      rw [← h.1]
      omega

theorem enumerate_fresh_total (cnt : String → Nat) (T : List String)
    (hT : ∀ s, cnt s > 0 → s ∈ T) (fuel counter : Nat) (hf : T.length < fuel) :
    enumerate_fresh cnt fuel counter ≠ none := by
  intro h
  have hall := enumerate_fresh_none cnt fuel counter h
  have hnd : ((List.range fuel).map (fun i => enumerate_name (counter + i))).Nodup := by
    apply List.Nodup.map _ (List.nodup_range _)
    intro a b hab
    have := enumerate_name_inj _ _ hab
    omega
  have hsub : ((List.range fuel).map (fun i => enumerate_name (counter + i))) ⊆ T := by
    intro x hx
    obtain ⟨i, hi, rfl⟩ := List.mem_map.mp hx
    exact hT _ (hall i (List.mem_range.mp hi))
  have := (List.subperm_of_subset hnd hsub).length_le
  simp at this
  omega

theorem map_set_perm {β : Type} (k : String) (v : β) (m : List (String × β))
    (hk : ∀ x, x ∈ m → x.1 ≠ k) : (map_set k v m).Perm ((k, v) :: m) := by
  induction m with
  | nil => exact List.Perm.refl _
  | cons kv rest ih =>
    rw [map_set]
    split_ifs with h1 h2
    · exact absurd h1.symm (hk kv (List.mem_cons_self _ _))
    · exact List.Perm.refl _
    · exact ((ih (fun x hx => hk x (List.mem_cons_of_mem _ hx))).cons kv).trans
        (List.Perm.swap _ _ _)

theorem forall₂_mem_right {α β : Type} (R : α → β → Prop) :
    ∀ (a : List α) (b : List β), List.Forall₂ R a b → ∀ y, y ∈ b → ∃ x, x ∈ a ∧ R x y := by
  intro a b h
  induction h with
  | nil => intro y hy; simp at hy
  | cons hr _ ih =>
    intro y hy
    rcases List.mem_cons.mp hy with hy | hy
    · exact ⟨_, List.mem_cons_self _ _, hy ▸ hr⟩
    · obtain ⟨x, hx, hxy⟩ := ih y hy
      exact ⟨x, List.mem_cons_of_mem _ hx, hxy⟩

theorem enumerate_loop_spec {β : Type} (get_name : β → String) (set_name : β → String → β)
    (hgs : ∀ b n, get_name (set_name b n) = n) (selected : String → Bool)
    (cnt : String → Nat) (T : List String) (hT : ∀ s, cnt s > 0 → s ∈ T) (fuel : Nat)
    (hf : T.length < fuel) :
    ∀ (items : List (String × β)) (counter : Nat) (new_map : List (String × β)),
      (items.map Prod.fst).Nodup →
      (∀ it, it ∈ items → get_name it.2 = it.1 ∧ cnt it.1 > 0) →
      (new_map.map Prod.fst).Nodup →
      (∀ kv, kv ∈ new_map → get_name kv.2 = kv.1) →
      (∀ kv, kv ∈ new_map → (cnt kv.1 > 0 ∧ kv.1 ∉ items.map Prod.fst) ∨
        (∃ N, N < counter ∧ kv.1 = enumerate_name N ∧ cnt kv.1 = 0)) →
      ∃ c1 nm l, enumerate_loop get_name set_name selected cnt fuel items counter new_map =
          some (c1, nm) ∧
        (nm.map Prod.fst).Nodup ∧ (∀ kv, kv ∈ nm → get_name kv.2 = kv.1) ∧
        nm.Perm (l ++ new_map) ∧
        List.Forall₂ (enumerate_rel get_name set_name selected) items l := by
  intro items
  induction items with
  | nil =>
    intro counter new_map _ _ h3 h4 _
    exact ⟨counter, new_map, [], rfl, h3, h4, List.Perm.refl _, List.Forall₂.nil⟩
  | cons it rest ih =>
    intro counter new_map h1 h2 h3 h4 h5
    rw [List.map_cons, List.nodup_cons] at h1
    obtain ⟨hname, hcnt⟩ := h2 it (List.mem_cons_self _ _)
    have h2r : ∀ x, x ∈ rest → get_name x.2 = x.1 ∧ cnt x.1 > 0 :=
      fun x hx => h2 x (List.mem_cons_of_mem _ hx)
    rw [enumerate_loop]
    by_cases hc : it.1.data.head? = some '$' ∧ selected (get_name it.2) = true
    · rw [if_pos hc]
      cases hfr : enumerate_fresh cnt fuel counter with
      | none => exact absurd hfr (enumerate_fresh_total cnt T hT fuel counter hf)
      | some p =>
        obtain ⟨name, counter1⟩ := p
        obtain ⟨i, hn, hc1, h0⟩ := enumerate_fresh_some cnt fuel counter name counter1 hfr
        have hfresh : ∀ x, x ∈ new_map → x.1 ≠ name := by
          intro x hx e
          rcases h5 x hx with h | ⟨N, hN, hx1, _⟩
          · rw [e, h0] at h
            exact absurd h.1 (Nat.lt_irrefl 0)
          · rw [e, hn] at hx1
            have := enumerate_name_inj _ _ hx1
            omega
        obtain ⟨c2, nm, l, r1, r2, r3, r4, r5⟩ := ih counter1
          (map_set name (set_name it.2 name) new_map) h1.2 h2r
          (map_set_keys_nodup _ _ _ h3 hfresh)
          (by
            intro kv hkv
            rcases mem_map_set _ _ _ kv hkv with h | h
            · rw [h]; exact hgs _ _
            · exact h4 kv h)
          (by
            intro kv hkv
            rcases mem_map_set _ _ _ kv hkv with h | h
            · right
              rw [h]
              exact ⟨counter + i, by omega, hn, h0⟩
            · rcases h5 kv h with h | ⟨N, hN, hx1, hx2⟩
              · left
                refine ⟨h.1, fun hm => h.2 ?_⟩
                rw [List.map_cons]
                exact List.mem_cons_of_mem _ hm
              · right
                exact ⟨N, by omega, hx1, hx2⟩)
        refine ⟨c2, nm, (name, set_name it.2 name) :: l, r1, r2, r3, ?_, ?_⟩
        · refine r4.trans ?_
          refine (List.Perm.append_left l (map_set_perm _ _ _ hfresh)).trans ?_
          exact List.perm_middle
        · refine List.Forall₂.cons ?_ r5
          unfold enumerate_rel
          rw [if_pos hc]
          exact ⟨counter + i, hn, rfl⟩
    · rw [if_neg hc]
      have hfresh : ∀ x, x ∈ new_map → x.1 ≠ get_name it.2 := by
        intro x hx e
        rw [hname] at e
        rcases h5 x hx with h | ⟨N, hN, hx1, hx2⟩
        · apply h.2
          rw [e, List.map_cons]
          exact List.mem_cons_self _ _
        · rw [e] at hx2
          omega
      obtain ⟨c2, nm, l, r1, r2, r3, r4, r5⟩ := ih counter
        (map_set (get_name it.2) it.2 new_map) h1.2 h2r
        (map_set_keys_nodup _ _ _ h3 hfresh)
        (by
          intro kv hkv
          rcases mem_map_set _ _ _ kv hkv with h | h
          · rw [h]
          · exact h4 kv h)
        (by
          intro kv hkv
          rcases mem_map_set _ _ _ kv hkv with h | h
          · left
            rw [h]
            simp only
            rw [hname]
            exact ⟨hcnt, h1.1⟩
          · rcases h5 kv h with h | ⟨N, hN, hx1, hx2⟩
            · left
              refine ⟨h.1, fun hm => h.2 ?_⟩
              rw [List.map_cons]
              exact List.mem_cons_of_mem _ hm
            · right
              exact ⟨N, hN, hx1, hx2⟩)
      refine ⟨c2, nm, (get_name it.2, it.2) :: l, r1, r2, r3, ?_, ?_⟩
      · refine r4.trans ?_
        refine (List.Perm.append_left l (map_set_perm _ _ _ hfresh)).trans ?_
        exact List.perm_middle
      · refine List.Forall₂.cons ?_ r5
        unfold enumerate_rel
        rw [if_neg hc, hname]

theorem lookup_some_of_mem {β : Type} (m : List (String × β)) (kv : String × β)
    (h : kv ∈ m) : m.lookup kv.1 ≠ none :=
  fun hn => not_key_of_lookup_none m kv.1 hn kv h rfl

theorem map_count_pos_of_mem {β : Type} (m : List (String × β)) (kv : String × β)
    (h : kv ∈ m) : map_count kv.1 m = 1 := by
  cases hl : m.lookup kv.1 with
  | none => exact absurd hl (lookup_some_of_mem m kv h)
  | some v => exact map_count_some _ _ v hl

theorem map_count_pos_key {β : Type} (m : List (String × β)) (s : String)
    (h : map_count s m > 0) : s ∈ m.map Prod.fst := by
  cases hl : m.lookup s with
  | none => rw [map_count_none s m hl] at h; omega
  | some v => exact List.mem_map_of_mem Prod.fst (lookup_mem m s v hl)

theorem count_id_pos_mem (m : Module) (s : String) (h : m.count_id s > 0) :
    s ∈ m.wires.map Prod.fst ++ m.memories ++ m.cells.map Prod.fst ++ m.processes := by
  unfold Module.count_id at h
  simp only [List.mem_append]
  by_cases h1 : map_count s m.wires > 0
  · exact Or.inl (Or.inl (Or.inl (map_count_pos_key _ _ h1)))
  · by_cases h2 : s ∈ m.memories
    · exact Or.inl (Or.inl (Or.inr h2))
    · by_cases h3 : map_count s m.cells > 0
      · exact Or.inl (Or.inr (map_count_pos_key _ _ h3))
      · by_cases h4 : s ∈ m.processes
        · exact Or.inr h4
        · rw [if_neg h2, if_neg h4] at h
          omega

theorem enumerate_fuel_gt (m : Module) :
    (m.wires.map Prod.fst ++ m.memories ++ m.cells.map Prod.fst ++ m.processes).length <
      m.enumerate_fuel := by
  unfold Module.enumerate_fuel
  simp only [List.length_append, List.length_map]
  omega

theorem enumerate_rel_head {β : Type} (get_name : β → String) (set_name : β → String → β)
    (selected : String → Bool) (hsel : ∀ n, selected n = true) (old new : String × β)
    (h : enumerate_rel get_name set_name selected old new) :
    new.1.data.head? ≠ some '$' := by
  unfold enumerate_rel at h
  split_ifs at h with hc
  · obtain ⟨N, hN, _⟩ := h
    rw [hN, enumerate_name_head]
    decide
  · rw [h]
    intro e
    exact hc ⟨e, hsel _⟩

/-- Claim C27: for a module in which every key is the name of its object and
no id names two objects, and in which every object is selected,
`rename -enumerate` returns; afterwards no wire and no cell has a name that
begins with a dollar sign, the wires (and likewise the cells) are the former
ones, each with a name of the form `\_N_` when its name began with a dollar
sign and as it was otherwise, their numbers are as before, no two have the same
key, and every key is the name of its object. -/
theorem rename_enumerate_spec (selected : String → Bool) (m : Module) (hok : m.keys_ok)
    (hsel : ∀ n, selected n = true) :
    ∃ m1 lw lc, rename_enumerate selected m = some m1 ∧
      m1 = { m with wires := m1.wires, cells := m1.cells } ∧
      m1.wires.Perm lw ∧
      List.Forall₂ (enumerate_rel (fun (w : Wire) => w.name) (fun w n => { w with name := n })
        selected) m.wires lw ∧
      m1.cells.Perm lc ∧
      List.Forall₂ (enumerate_rel (fun (c : Cell) => c.name) (fun c n => { c with name := n })
        selected) m.cells lc ∧
      (m1.wires.map Prod.fst).Nodup ∧ (m1.cells.map Prod.fst).Nodup ∧
      (∀ kv, kv ∈ m1.wires → kv.2.name = kv.1 ∧ kv.1.data.head? ≠ some '$') ∧
      (∀ kv, kv ∈ m1.cells → kv.2.name = kv.1 ∧ kv.1.data.head? ≠ some '$') ∧
      m1.wires.length = m.wires.length ∧ m1.cells.length = m.cells.length := by
  obtain ⟨hw, hc, hkw, hkc, _⟩ := hok
  obtain ⟨c1, nw, lw, w1, w2, w3, w4, w5⟩ :=
    enumerate_loop_spec (fun (w : Wire) => w.name) (fun w n => { w with name := n })
      (fun _ _ => rfl) selected m.count_id _ (count_id_pos_mem m) m.enumerate_fuel
      (enumerate_fuel_gt m) m.wires 0 [] hw
      (fun it hit => ⟨hkw it hit, by
        unfold Module.count_id
        rw [map_count_pos_of_mem m.wires it hit]
        omega⟩)
      List.nodup_nil (fun kv hkv => absurd hkv (List.not_mem_nil kv))
      (fun kv hkv => absurd hkv (List.not_mem_nil kv))
  rw [List.append_nil] at w4
  obtain ⟨c2, nc, lc, d1, d2, d3, d4, d5⟩ :=
    enumerate_loop_spec (fun (c : Cell) => c.name) (fun c n => { c with name := n })
      (fun _ _ => rfl) selected ({ m with wires := nw } : Module).count_id _
      (count_id_pos_mem { m with wires := nw })
      ({ m with wires := nw } : Module).enumerate_fuel
      (enumerate_fuel_gt { m with wires := nw }) m.cells c1 [] hc
      (fun it hit => ⟨hkc it hit, by
        unfold Module.count_id
        rw [map_count_pos_of_mem m.cells it hit]
        omega⟩)
      List.nodup_nil (fun kv hkv => absurd hkv (List.not_mem_nil kv))
      (fun kv hkv => absurd hkv (List.not_mem_nil kv))
  rw [List.append_nil] at d4
  refine ⟨{ m with wires := nw, cells := nc }, lw, lc, ?_, rfl, w4, w5, d4, d5, w2, d2, ?_, ?_,
    ?_, ?_⟩
  · unfold rename_enumerate
    rw [w1]
    simp only []
    rw [d1]
  · intro kv hkv
    refine ⟨w3 kv hkv, ?_⟩
    obtain ⟨old, _, hr⟩ := forall₂_mem_right _ _ _ w5 kv (w4.subset hkv)
    exact enumerate_rel_head _ _ selected hsel old kv hr
  · intro kv hkv
    refine ⟨d3 kv hkv, ?_⟩
    obtain ⟨old, _, hr⟩ := forall₂_mem_right _ _ _ d5 kv (d4.subset hkv)
    exact enumerate_rel_head _ _ selected hsel old kv hr
  · show nw.length = m.wires.length
    rw [w4.length_eq, w5.length_eq]
  · show nc.length = m.cells.length
    rw [d4.length_eq, d5.length_eq]

theorem exEnum_keys_ok : exEnum.keys_ok := by
  refine ⟨by decide, by decide, by decide, by decide, ?_⟩
  intro id
  by_cases h1 : id = "$1"
  · subst h1; decide
  · by_cases h2 : id = "$2"
    · subst h2; decide
    · by_cases h3 : id = "\\_0_"
      · subst h3; decide
      · by_cases h4 : id = "\\a"
        · subst h4; decide
        · by_cases h5 : id = "$c"
          · subst h5; decide
          · by_cases h6 : id = "\\_2_"
            · subst h6; decide
            · have e1 : (id == "$1") = false := by simpa using h1
              have e2 : (id == "$2") = false := by simpa using h2
              have e3 : (id == "\\_0_") = false := by simpa using h3
              have e4 : (id == "\\a") = false := by simpa using h4
              have e5 : (id == "$c") = false := by simpa using h5
              have e6 : (id == "\\_2_") = false := by simpa using h6
              simp [Module.count_id, map_count, exEnum, List.lookup, e1, e2, e3, e4, e5, e6]

theorem rename_enumerate_spec_witness :
    ∃ m1 lw lc, rename_enumerate (fun _ => true) exEnum = some m1 ∧
      m1 = { exEnum with wires := m1.wires, cells := m1.cells } ∧
      m1.wires.Perm lw ∧
      List.Forall₂ (enumerate_rel (fun (w : Wire) => w.name) (fun w n => { w with name := n })
        (fun _ => true)) exEnum.wires lw ∧
      m1.cells.Perm lc ∧
      List.Forall₂ (enumerate_rel (fun (c : Cell) => c.name) (fun c n => { c with name := n })
        (fun _ => true)) exEnum.cells lc ∧
      (m1.wires.map Prod.fst).Nodup ∧ (m1.cells.map Prod.fst).Nodup ∧
      (∀ kv, kv ∈ m1.wires → kv.2.name = kv.1 ∧ kv.1.data.head? ≠ some '$') ∧
      (∀ kv, kv ∈ m1.cells → kv.2.name = kv.1 ∧ kv.1.data.head? ≠ some '$') ∧
      m1.wires.length = exEnum.wires.length ∧ m1.cells.length = exEnum.cells.length :=
  rename_enumerate_spec (fun _ => true) exEnum exEnum_keys_ok (fun _ => rfl)


/-! ## Removal of flip-flops -/

theorem conn_at_fst (cell : Cell) (port : String) :
    (conn_at cell port).1 = (cell.connections.lookup port).getD SigSpec.empty := by
  unfold conn_at
  cases cell.connections.lookup port <;> rfl

theorem conn_at_lookup_ne (cell : Cell) (port p2 : String) (h : p2 ≠ port) :
    (conn_at cell port).2.connections.lookup p2 = cell.connections.lookup p2 := by
  unfold conn_at
  cases cell.connections.lookup port with
  | some sig => rfl
  | none => exact lookup_map_set_ne _ _ _ _ h

theorem conn_at_parameters (cell : Cell) (port : String) :
    (conn_at cell port).2.parameters = cell.parameters := by
  unfold conn_at
  cases cell.connections.lookup port <;> rfl

theorem conn_at_type (cell : Cell) (port : String) : (conn_at cell port).2.type = cell.type := by
  unfold conn_at
  cases cell.connections.lookup port <;> rfl

theorem param_at_fst (cell : Cell) (name : String) :
    (param_at cell name).1 = (cell.parameters.lookup name).getD Const.empty := by
  unfold param_at
  cases cell.parameters.lookup name <;> rfl

theorem param_at_lookup_ne (cell : Cell) (name p2 : String) (h : p2 ≠ name) :
    (param_at cell name).2.parameters.lookup p2 = cell.parameters.lookup p2 := by
  unfold param_at
  cases cell.parameters.lookup name with
  | some sig => rfl
  | none => exact lookup_map_set_ne _ _ _ _ h

theorem handle_dff_signals_spec (dff : Cell) (s : DffSignals)
    (hs : handle_dff_signals dff = some s) :
    s.sig_d = (dff.connections.lookup "\\D").getD SigSpec.empty ∧
    s.sig_q = (dff.connections.lookup "\\Q").getD SigSpec.empty ∧
    ((dff.type = "$_DFF_N_" ∨ dff.type = "$_DFF_P_" ∨ dff.type = "$dff") →
      s.sig_r = SigSpec.empty) ∧
    (dff.type = "$adff" →
      s.sig_r = (dff.connections.lookup "\\ARST").getD SigSpec.empty ∧
      s.val_rv = (dff.parameters.lookup "\\ARST_VALUE").getD Const.empty) ∧
    (∀ c p r, (c = 'N' ∨ c = 'P') → (p = 'N' ∨ p = 'P') → (r = '0' ∨ r = '1') →
      dff.type = ⟨"$_DFF_".data ++ [c, p, r, '_']⟩ →
      s.sig_r = (dff.connections.lookup "\\R").getD SigSpec.empty ∧
      s.val_rv = ⟨[if r = '1' then State.S1 else State.S0], ""⟩) := by
  unfold handle_dff_signals at hs
  by_cases h1 : dff.type = "$_DFF_N_" ∨ dff.type = "$_DFF_P_"
  · rw [if_pos h1] at hs
    simp only [Option.some.injEq] at hs
    subst hs
    refine ⟨conn_at_fst _ _, ?_, fun _ => rfl, ?_, ?_⟩
    · simp only [conn_at_fst]
      rw [conn_at_lookup_ne _ _ _ (by decide)]
    · intro h; rw [h] at h1; exact absurd h1 (by decide)
    · intro c p r hc hp hr h
      rw [h] at h1
      rcases hc with rfl | rfl <;> rcases hp with rfl | rfl <;> rcases hr with rfl | rfl <;>
        exact absurd h1 (by decide)
  rw [if_neg h1] at hs
  by_cases h2 : dff.type.data.take 6 = "$_DFF_".data ∧ dff.type.length < 9
  · rw [if_pos h2] at hs
    exact Option.noConfusion hs
  rw [if_neg h2] at hs
  by_cases h3 : dff.type.data.take 6 = "$_DFF_".data ∧ dff.type.data.drop 9 = "_".data ∧
      (dff.type.data.get? 6 = some 'N' ∨ dff.type.data.get? 6 = some 'P') ∧
      (dff.type.data.get? 7 = some 'N' ∨ dff.type.data.get? 7 = some 'P') ∧
      (dff.type.data.get? 8 = some '0' ∨ dff.type.data.get? 8 = some '1')
  · rw [if_pos h3] at hs
    simp only [Option.some.injEq] at hs
    subst hs
    refine ⟨conn_at_fst _ _, ?_, ?_, ?_, ?_⟩
    · simp only [conn_at_fst]
      rw [conn_at_lookup_ne _ _ _ (by decide)]
    · intro h
      rcases h with h | h | h
      · exact absurd (Or.inl h) h1
      · exact absurd (Or.inr h) h1
      · rw [h] at h3; exact absurd h3.1 (by decide)
    · intro h; rw [h] at h3; exact absurd h3.1 (by decide)
    · intro c p r hc hp hr h
      refine ⟨?_, ?_⟩
      · simp only [conn_at_fst]
        rw [conn_at_lookup_ne _ _ _ (by decide), conn_at_lookup_ne _ _ _ (by decide),
          conn_at_lookup_ne _ _ _ (by decide)]
      · simp only [h]
        rcases hc with rfl | rfl <;> rcases hp with rfl | rfl <;> rcases hr with rfl | rfl <;>
          decide
  rw [if_neg h3] at hs
  by_cases h4 : dff.type = "$dff"
  · rw [if_pos h4] at hs
    simp only [Option.some.injEq] at hs
    subst hs
    refine ⟨conn_at_fst _ _, ?_, fun _ => rfl, ?_, ?_⟩
    · simp only [conn_at_fst]
      rw [conn_at_lookup_ne _ _ _ (by decide)]
    · intro h; rw [h] at h4; exact absurd h4 (by decide)
    · intro c p r hc hp hr h
      rw [h] at h4
      rcases hc with rfl | rfl <;> rcases hp with rfl | rfl <;> rcases hr with rfl | rfl <;>
        exact absurd h4 (by decide)
  rw [if_neg h4] at hs
  by_cases h5 : dff.type = "$adff"
  · rw [if_pos h5] at hs
    simp only [Option.some.injEq] at hs
    subst hs
    refine ⟨conn_at_fst _ _, ?_, ?_, ?_, ?_⟩
    · simp only [conn_at_fst]
      rw [conn_at_lookup_ne _ _ _ (by decide)]
    · intro h
      rcases h with h | h | h
      · exact absurd (Or.inl h) h1
      · exact absurd (Or.inr h) h1
      · exact absurd h h4
    · intro _
      refine ⟨?_, ?_⟩
      · simp only [conn_at_fst]
        rw [conn_at_lookup_ne _ _ _ (by decide), conn_at_lookup_ne _ _ _ (by decide),
          conn_at_lookup_ne _ _ _ (by decide)]
      · simp only [param_at_fst]
        rw [param_at_lookup_ne _ _ _ (by decide), param_at_lookup_ne _ _ _ (by decide)]
        simp only [conn_at_parameters]
    · intro c p r hc hp hr h
      rw [h] at h5
      rcases hc with rfl | rfl <;> rcases hp with rfl | rfl <;> rcases hr with rfl | rfl <;>
        exact absurd h5 (by decide)
  rw [if_neg h5] at hs
  exact Option.noConfusion hs

/-- Claim C28: let `handle_dff` find the signals of the cell, with `D` and `Q`
equal (`operator==`) after `assign_map`, and for a `$dff` let no multiplexer
match.  Then for `$_DFF_N_`, `$_DFF_P_` and `$dff`, which have no reset, and a
`D` that is not fully constant, the call returns true with the cell erased and
the connections of the module as they were; and for a reset signal of a width
above zero the call returns true with the cell erased and exactly the
connection `(Q, reset value)` appended.  The signals are those of the ports
`\D`, `\Q` and of `\R` or `\ARST`, and the reset value is the bit named in
the type of a gate and the parameter `\ARST_VALUE` of an `$adff`. -/
theorem handle_dff_spec (assign_map : SigSpec → SigSpec) (mux_has : SigSpec → Bool)
    (mux_find : SigSpec → List Cell) (mod : Module) (dff : Cell) (s : DffSignals)
    (hs : handle_dff_signals dff = some s)
    (heq : (assign_map s.sig_d).eq (assign_map s.sig_q) = true)
    (hmux : dff.type = "$dff" → mux_has (assign_map s.sig_d) = true →
      handle_dff_muxes assign_map (assign_map s.sig_q) (mux_find (assign_map s.sig_d)) =
        some none) :
    ((dff.type = "$_DFF_N_" ∨ dff.type = "$_DFF_P_" ∨ dff.type = "$dff") →
      (assign_map SigSpec.empty).width = 0 → (assign_map s.sig_d).is_fully_const = false →
      handle_dff assign_map mux_has mux_find mod dff =
        some (true, { mod with cells := map_erase dff.name mod.cells })) ∧
    ((assign_map s.sig_r).width > 0 →
      handle_dff assign_map mux_has mux_find mod dff =
        some (true,
          { mod with
            connections := mod.connections ++ [(assign_map s.sig_q, SigSpec.ofConst s.val_rv)]
            cells := map_erase dff.name mod.cells })) ∧
    s.sig_d = (dff.connections.lookup "\\D").getD SigSpec.empty ∧
    s.sig_q = (dff.connections.lookup "\\Q").getD SigSpec.empty ∧
    ((dff.type = "$_DFF_N_" ∨ dff.type = "$_DFF_P_" ∨ dff.type = "$dff") →
      s.sig_r = SigSpec.empty) ∧
    (dff.type = "$adff" →
      s.sig_r = (dff.connections.lookup "\\ARST").getD SigSpec.empty ∧
      s.val_rv = (dff.parameters.lookup "\\ARST_VALUE").getD Const.empty) ∧
    (∀ c p r, (c = 'N' ∨ c = 'P') → (p = 'N' ∨ p = 'P') → (r = '0' ∨ r = '1') →
      dff.type = ⟨"$_DFF_".data ++ [c, p, r, '_']⟩ →
      s.sig_r = (dff.connections.lookup "\\R").getD SigSpec.empty ∧
      s.val_rv = ⟨[if r = '1' then State.S1 else State.S0], ""⟩) := by
  have hsig := handle_dff_signals_spec dff s hs
  have hm : (if dff.type = "$dff" ∧ mux_has (assign_map s.sig_d) = true then
        handle_dff_muxes assign_map (assign_map s.sig_q) (mux_find (assign_map s.sig_d))
      else some none) = some none := by
    by_cases h : dff.type = "$dff" ∧ mux_has (assign_map s.sig_d) = true
    · rw [if_pos h]
      exact hmux h.1 h.2
    · rw [if_neg h]
  refine ⟨?_, ?_, hsig⟩
  · intro ht he hc
    have hr : (assign_map s.sig_r).width = 0 := by
      rw [hsig.2.2.1 ht]
      exact he
    unfold handle_dff
    rw [hs]
    simp only [hm]
    rw [if_neg (by rw [hc]; exact fun h => Bool.noConfusion h.1), if_pos heq,
      if_neg (by omega)]
    unfold handle_dff_delete
    rw [List.append_nil]
  · intro hr
    unfold handle_dff
    rw [hs]
    simp only [hm]
    rw [if_neg (by intro h; omega), if_pos heq, if_pos hr]
    rfl

theorem handle_dff_spec_witness :
    handle_dff (fun x => x) (fun _ => false) (fun _ => []) (exDffMod exDff) exDff =
        some (true, { exDffMod exDff with cells := map_erase exDff.name (exDffMod exDff).cells }) ∧
      handle_dff (fun x => x) (fun _ => false) (fun _ => []) (exDffMod exDffR) exDffR =
        some (true,
          { exDffMod exDffR with
            connections := [(SigSpec.ofChunk (SigChunk.ofWire exQ 1 0),
              SigSpec.ofConst ⟨[State.S1], ""⟩)]
            cells := [] }) :=
  ⟨(handle_dff_spec (fun x => x) (fun _ => false) (fun _ => []) (exDffMod exDff) exDff
      ⟨SigSpec.ofChunk (SigChunk.ofWire exQ 1 0), SigSpec.ofChunk (SigChunk.ofWire exQ 1 0),
        SigSpec.ofChunk (SigChunk.ofWire exR 1 0), SigSpec.empty, Const.empty, exDff⟩
      (by decide) (by decide) (fun h => absurd h (by decide))).1
      (Or.inr (Or.inl rfl)) (by decide) (by decide),
    (handle_dff_spec (fun x => x) (fun _ => false) (fun _ => []) (exDffMod exDffR) exDffR
      ⟨SigSpec.ofChunk (SigChunk.ofWire exQ 1 0), SigSpec.ofChunk (SigChunk.ofWire exQ 1 0),
        SigSpec.ofChunk (SigChunk.ofWire exR 1 0), SigSpec.ofChunk (SigChunk.ofWire exR 1 0),
        ⟨[State.S1], ""⟩, exDffR⟩
      (by decide) (by decide) (fun h => absurd h (by decide))).2.1 (by decide)⟩


/-! ## Comparison of signals and cells -/

theorem bits_lt_asymm : ∀ (a b : List State), bits_lt a b = true → bits_lt b a = false := by
  intro a
  induction a with
  | nil => intro b _; cases b <;> rfl
  | cons x xs ih =>
    intro b h
    cases b with
    | nil => simp [bits_lt] at h
    | cons y ys =>
      rw [bits_lt] at h ⊢
      split_ifs at h with h1 h2
      · rw [if_neg (by omega), if_pos h1]
      · rw [if_neg h1, if_neg h2]
        exact ih ys h

theorem bits_lt_total : ∀ (a b : List State), bits_lt a b = false → bits_lt b a = false →
    a = b := by
  intro a
  induction a with
  | nil =>
    intro b h _
    cases b with
    | nil => rfl
    | cons y ys => simp [bits_lt] at h
  | cons x xs ih =>
    intro b h1 h2
    cases b with
    | nil => simp [bits_lt] at h2
    | cons y ys =>
      rw [bits_lt] at h1 h2
      by_cases a1 : x.toNat < y.toNat
      · rw [if_pos a1] at h1
        exact Bool.noConfusion h1
      · rw [if_neg a1] at h1
        by_cases a2 : y.toNat < x.toNat
        · rw [if_pos a2] at h2
          exact Bool.noConfusion h2
        · rw [if_neg a2] at h1
          rw [if_neg a2, if_neg a1] at h2
          have : x = y := state_toNat_inj x y (by omega)
          rw [this, ih ys h1 h2]

theorem string_lt_asymm (a b : String) (h : string_lt a b = true) : string_lt b a = false := by
  cases h2 : string_lt b a with
  | false => rfl
  | true => exact absurd ((string_lt_iff b a).mp h2) (lt_asymm ((string_lt_iff a b).mp h))

theorem string_lt_total (a b : String) (h1 : string_lt a b = false) (h2 : string_lt b a = false) :
    a = b := by
  rcases lt_trichotomy a b with h | h | h
  · rw [(string_lt_iff a b).mpr h] at h1; exact Bool.noConfusion h1
  · exact h
  · rw [(string_lt_iff b a).mpr h] at h2; exact Bool.noConfusion h2

theorem chunk_ne_iff (a b : SigChunk) : a.ne b = true ↔ a.eq b = false := by
  unfold SigChunk.ne
  cases a.eq b <;> simp

theorem chunk_eq_symm (a b : SigChunk) : a.eq b = b.eq a := by
  cases h : a.eq b with
  | true =>
    obtain ⟨h1, h2, h3, h4⟩ := (chunk_eq_iff a b).mp h
    exact ((chunk_eq_iff b a).mpr ⟨h1.symm, h2.symm, h3.symm, h4.symm⟩).symm
  | false =>
    cases h2 : b.eq a with
    | false => rfl
    | true =>
      obtain ⟨h1, h2, h3, h4⟩ := (chunk_eq_iff b a).mp h2
      rw [(chunk_eq_iff a b).mpr ⟨h1.symm, h2.symm, h3.symm, h4.symm⟩] at h
      exact Bool.noConfusion h

theorem chunk_lt_asymm (a b : SigChunk) (h : a.lt b = true) : b.lt a = false := by
  unfold SigChunk.lt at h ⊢
  by_cases h1 : a.wire.isSome ∧ b.wire.isSome ∧ wire_name a.wire ≠ wire_name b.wire
  · rw [if_pos h1] at h
    rw [if_pos ⟨h1.2.1, h1.1, fun e => h1.2.2 e.symm⟩]
    exact string_lt_asymm _ _ h
  · rw [if_neg h1] at h
    rw [if_neg (fun c => h1 ⟨c.2.1, c.1, fun e => c.2.2 e.symm⟩)]
    by_cases h2 : a.wire = b.wire
    · rw [if_neg (not_not.mpr h2)] at h
      rw [if_neg (not_not.mpr h2.symm)]
      by_cases h3 : a.offset = b.offset
      · rw [if_neg (not_not.mpr h3)] at h
        rw [if_neg (not_not.mpr h3.symm)]
        by_cases h4 : a.width = b.width
        · rw [if_neg (not_not.mpr h4)] at h
          rw [if_neg (not_not.mpr h4.symm)]
          by_cases h5 : a.data.bits = b.data.bits
          · rw [if_neg (not_not.mpr h5)] at h
            exact Bool.noConfusion h
          · rw [if_pos h5] at h
            rw [if_pos (fun e => h5 e.symm)]
            exact bits_lt_asymm _ _ h
        · rw [if_pos h4] at h
          rw [if_pos (fun e => h4 e.symm)]
          simp only [decide_eq_true_eq, decide_eq_false_iff_not] at h ⊢
          omega
      · rw [if_pos h3] at h
        rw [if_pos (fun e => h3 e.symm)]
        simp only [decide_eq_true_eq, decide_eq_false_iff_not] at h ⊢
        omega
    · rw [if_pos h2] at h
      rw [if_pos (fun e => h2 e.symm)]
      simp only [decide_eq_true_eq, decide_eq_false_iff_not] at h ⊢
      omega

theorem chunk_lt_total (a b : SigChunk)
    (hid : ∀ w v, a.wire = some w → b.wire = some v → w.id = v.id → w = v)
    (h1 : a.lt b = false) (h2 : b.lt a = false) : a.eq b = true := by
  unfold SigChunk.lt at h1 h2
  by_cases c1 : a.wire.isSome ∧ b.wire.isSome ∧ wire_name a.wire ≠ wire_name b.wire
  · rw [if_pos c1] at h1
    rw [if_pos ⟨c1.2.1, c1.1, fun e => c1.2.2 e.symm⟩] at h2
    exact absurd (string_lt_total _ _ h1 h2) c1.2.2
  · rw [if_neg c1] at h1
    rw [if_neg (fun c => c1 ⟨c.2.1, c.1, fun e => c.2.2 e.symm⟩)] at h2
    have hw : a.wire = b.wire := by
      by_contra c2
      rw [if_pos c2] at h1
      rw [if_pos (fun e => c2 e.symm)] at h2
      simp only [decide_eq_false_iff_not] at h1 h2
      have hp : wire_ptr a.wire = wire_ptr b.wire := by omega
      cases ha : a.wire with
      | none =>
        cases hb : b.wire with
        | none => exact c2 (ha.trans hb.symm)
        | some v => rw [ha, hb] at hp; simp [wire_ptr] at hp
      | some w =>
        cases hb : b.wire with
        | none => rw [ha, hb] at hp; simp [wire_ptr] at hp
        | some v =>
          rw [ha, hb] at hp
          simp only [wire_ptr, Nat.add_right_cancel_iff] at hp
          exact c2 (by rw [ha, hb, hid w v ha hb hp])
    rw [if_neg (not_not.mpr hw)] at h1
    rw [if_neg (not_not.mpr hw.symm)] at h2
    have ho : a.offset = b.offset := by
      by_contra c3
      rw [if_pos c3] at h1
      rw [if_pos (fun e => c3 e.symm)] at h2
      simp only [decide_eq_false_iff_not] at h1 h2
      omega
    rw [if_neg (not_not.mpr ho)] at h1
    rw [if_neg (not_not.mpr ho.symm)] at h2
    have hwd : a.width = b.width := by
      by_contra c4
      rw [if_pos c4] at h1
      rw [if_pos (fun e => c4 e.symm)] at h2
      simp only [decide_eq_false_iff_not] at h1 h2
      omega
    rw [if_neg (not_not.mpr hwd)] at h1
    rw [if_neg (not_not.mpr hwd.symm)] at h2
    have hb : a.data.bits = b.data.bits := by
      by_contra c5
      rw [if_pos c5] at h1
      rw [if_pos (fun e => c5 e.symm)] at h2
      exact c5 (bits_lt_total _ _ h1 h2)
    exact (chunk_eq_iff a b).mpr ⟨hw, hwd, ho, hb⟩

theorem chunks_lt_asymm : ∀ (as bs : List SigChunk), chunks_lt as bs = true →
    chunks_lt bs as = false := by
  intro as
  induction as with
  | nil => intro bs h; simp [chunks_lt] at h
  | cons a as ih =>
    intro bs h
    cases bs with
    | nil => simp [chunks_lt] at h
    | cons b bs =>
      rw [chunks_lt] at h ⊢
      by_cases hn : a.ne b = true
      · rw [if_pos hn] at h
        have hn2 : b.ne a = true := by
          rw [chunk_ne_iff, ← chunk_eq_symm]
          exact (chunk_ne_iff a b).mp hn
        rw [if_pos hn2]
        exact chunk_lt_asymm a b h
      · rw [if_neg hn] at h
        have hn2 : ¬ b.ne a = true := by
          rw [chunk_ne_iff, ← chunk_eq_symm, ← chunk_ne_iff]
          exact hn
        rw [if_neg hn2]
        exact ih bs h

theorem chunks_lt_total : ∀ (as bs : List SigChunk), as.length = bs.length →
    wires_by_id2 as bs → chunks_lt as bs = false → chunks_lt bs as = false →
    chunks_all_eq as bs = true := by
  intro as
  induction as with
  | nil => intro bs _ _ _ _; cases bs <;> rfl
  | cons a as ih =>
    intro bs hl hid h1 h2
    cases bs with
    | nil => simp at hl
    | cons b bs =>
      rw [chunks_lt] at h1 h2
      rw [chunks_all_eq]
      have hida : ∀ w v, a.wire = some w → b.wire = some v → w.id = v.id → w = v :=
        hid a (List.mem_cons_self _ _) b (List.mem_cons_self _ _)
      by_cases hn : a.ne b = true
      · rw [if_pos hn] at h1
        have hn2 : b.ne a = true := by
          rw [chunk_ne_iff, ← chunk_eq_symm]
          exact (chunk_ne_iff a b).mp hn
        rw [if_pos hn2] at h2
        have := chunk_lt_total a b hida h1 h2
        rw [(chunk_ne_iff a b).mp hn] at this
        exact Bool.noConfusion this
      · rw [if_neg hn] at h1
        have hn2 : ¬ b.ne a = true := by
          rw [chunk_ne_iff, ← chunk_eq_symm, ← chunk_ne_iff]
          exact hn
        rw [if_neg hn2] at h2
        rw [if_neg hn]
        exact ih bs (by simpa using hl)
          (fun c hc d hd => hid c (List.mem_cons_of_mem _ hc) d (List.mem_cons_of_mem _ hd))
          h1 h2

theorem sigspec_lt_asymm (a b : SigSpec) (h : a.lt b = true) : b.lt a = false := by
  unfold SigSpec.lt at h ⊢
  by_cases h1 : a.width = b.width
  · rw [if_neg (not_not.mpr h1)] at h
    rw [if_neg (not_not.mpr h1.symm)]
    by_cases h2 : a.optimize.chunks.length = b.optimize.chunks.length
    · rw [if_neg (not_not.mpr h2)] at h
      rw [if_neg (not_not.mpr h2.symm)]
      exact chunks_lt_asymm _ _ h
    · rw [if_pos h2] at h
      rw [if_pos (fun e => h2 e.symm)]
      simp only [decide_eq_true_eq, decide_eq_false_iff_not] at h ⊢
      omega
  · rw [if_pos h1] at h
    rw [if_pos (fun e => h1 e.symm)]
    simp only [decide_eq_true_eq, decide_eq_false_iff_not] at h ⊢
    omega

theorem sigspec_lt_total (a b : SigSpec)
    (hid : wires_by_id2 a.optimize.chunks b.optimize.chunks)
    (h1 : a.lt b = false) (h2 : b.lt a = false) :
    a.width = b.width ∧ a.optimize.chunks.length = b.optimize.chunks.length ∧
      chunks_all_eq a.optimize.chunks b.optimize.chunks = true := by
  unfold SigSpec.lt at h1 h2
  have hw : a.width = b.width := by
    by_contra c
    rw [if_pos c] at h1
    rw [if_pos (fun e => c e.symm)] at h2
    simp only [decide_eq_false_iff_not] at h1 h2
    omega
  rw [if_neg (not_not.mpr hw)] at h1
  rw [if_neg (not_not.mpr hw.symm)] at h2
  have hl : a.optimize.chunks.length = b.optimize.chunks.length := by
    by_contra c
    rw [if_pos c] at h1
    rw [if_pos (fun e => c e.symm)] at h2
    simp only [decide_eq_false_iff_not] at h1 h2
    omega
  rw [if_neg (not_not.mpr hl)] at h1
  rw [if_neg (not_not.mpr hl.symm)] at h2
  exact ⟨hw, hl, chunks_lt_total _ _ hl hid h1 h2⟩

theorem hash_chunks_congr : ∀ (as bs : List SigChunk), as.length = bs.length →
    chunks_all_eq as bs = true → hash_chunks as = hash_chunks bs := by
  intro as
  induction as with
  | nil => intro bs hl _; cases bs with
    | nil => rfl
    | cons b bs => simp at hl
  | cons a as ih =>
    intro bs hl h
    cases bs with
    | nil => simp at hl
    | cons b bs =>
      rw [chunks_all_eq] at h
      by_cases hn : a.ne b = true
      · rw [if_pos hn] at h; exact Bool.noConfusion h
      · rw [if_neg hn] at h
        have he : a.eq b = true := by
          cases hab : a.eq b with
          | true => rfl
          | false => exact absurd ((chunk_ne_iff a b).mpr hab) hn
        obtain ⟨h1, h2, h3, h4⟩ := (chunk_eq_iff a b).mp he
        rw [hash_chunks, hash_chunks, ih bs (by simpa using hl) h, h1, h2, h3]
        unfold Const.as_string
        rw [h4]

theorem wires_by_id2_symm (cs ds : List SigChunk) (h : wires_by_id2 cs ds) :
    wires_by_id2 ds cs :=
  fun d hd c hc v w hv hw e => (h c hc d hd w v hw hv e.symm).symm

theorem sigspec_eq_of_total (a b : SigSpec)
    (hid : wires_by_id2 a.optimize.chunks b.optimize.chunks)
    (h1 : a.lt b = false) (h2 : b.lt a = false) : a.eq b = true := by
  obtain ⟨hw, hl, hc⟩ := sigspec_lt_total a b hid h1 h2
  unfold SigSpec.eq
  rw [if_neg (not_not.mpr hw), if_neg (not_not.mpr hl)]
  exact hc

theorem map_eq_const_refl : ∀ (p : List (String × Const)), map_eq Const.eq p p = true := by
  intro p
  induction p with
  | nil => rfl
  | cons a as ih =>
    rw [map_eq, ih]
    simp [Const.eq]

theorem cell_output_abY (ct : CellTypes) (type : String) (h : type ∈ ct.cell_types) :
    ct.cell_output type "\\A" = false ∧ ct.cell_output type "\\B" = false ∧
      ct.cell_output type "\\Y" = true := by
  refine ⟨?_, ?_, ?_⟩
  · unfold CellTypes.cell_output
    rw [if_neg (not_not.mpr h), if_neg (by decide), if_neg (fun c => absurd c.2 (by decide)),
      if_neg (fun c => absurd c.2 (by decide)), if_neg (fun c => absurd c.2 (by decide))]
  · unfold CellTypes.cell_output
    rw [if_neg (not_not.mpr h), if_neg (by decide), if_neg (fun c => absurd c.2 (by decide)),
      if_neg (fun c => absurd c.2 (by decide)), if_neg (fun c => absurd c.2 (by decide))]
  · unfold CellTypes.cell_output
    rw [if_neg (not_not.mpr h), if_pos (Or.inl rfl)]

theorem hash_cell_text_comm (assign_map : SigSpec → SigSpec) (ct : CellTypes) (cell : Cell)
    (a b o : SigSpec) (hc : opt_share_commutative cell.type = true)
    (hct : cell.type ∈ ct.cell_types)
    (hconn : cell.connections = [("\\A", a), ("\\B", b), ("\\Y", o)]) :
    hash_cell_text assign_map ct cell =
      some (if (assign_map a).lt (assign_map b) = true then
          comm_hash_text cell.type cell.parameters (assign_map b) (assign_map a)
        else comm_hash_text cell.type cell.parameters (assign_map a) (assign_map b)) := by
  obtain ⟨oa, ob, oy⟩ := cell_output_abY ct cell.type hct
  unfold hash_cell_text
  simp only [hc, if_true, hconn]
  have l1 : List.lookup "\\A" [("\\A", a), ("\\B", b), ("\\Y", o)] = some a := rfl
  have l2 : List.lookup "\\B" [("\\A", a), ("\\B", b), ("\\Y", o)] = some b := rfl
  have l3 : map_set "\\B" a (map_set "\\A" b [("\\A", a), ("\\B", b), ("\\Y", o)]) =
      [("\\A", b), ("\\B", a), ("\\Y", o)] := rfl
  rw [l1, l2]
  simp only [l3]
  by_cases hlt : (assign_map a).lt (assign_map b) = true
  · rw [if_pos hlt, if_pos hlt]
    simp only [List.foldl_cons, List.foldl_nil, oa, ob, oy, if_true, Bool.false_eq_true,
      if_false]
    rfl
  · rw [if_neg hlt, if_neg hlt]
    simp only [List.foldl_cons, List.foldl_nil, oa, ob, oy, if_true, Bool.false_eq_true,
      if_false]
    rfl

theorem hash_cached (sha1 : String → String) (assign_map : SigSpec → SigSpec) (ct : CellTypes)
    (cache : List (Cell × String)) (cell : Cell) (text : String)
    (hk : cache_coherent sha1 assign_map ct cache)
    (ht : hash_cell_text assign_map ct cell = some text) :
    ∃ k, hash_cell_parameters_and_connections sha1 assign_map ct cache cell =
        some (sha1 text, k) ∧ cache_coherent sha1 assign_map ct k := by
  unfold hash_cell_parameters_and_connections
  cases hl : cache.lookup cell with
  | some h =>
    obtain ⟨t2, e1, e2⟩ := hk cell h hl
    rw [ht] at e1
    simp only [Option.some.injEq] at e1
    exact ⟨cache, by rw [e2, e1], hk⟩
  | none =>
    simp only [ht]
    refine ⟨_, rfl, ?_⟩
    intro c h hc
    by_cases e : c = cell
    · subst e
      simp only [List.lookup, beq_self_eq_true] at hc
      simp only [Option.some.injEq] at hc
      exact ⟨text, ht, hc.symm⟩
    · have : (c == cell) = false := by simpa using e
      simp only [List.lookup, this] at hc
      exact hk c h hc

theorem compare_conn_comm (assign_map : SigSpec → SigSpec) (ct : CellTypes) (type : String)
    (a b o : SigSpec) (hc : opt_share_commutative type = true) (hct : type ∈ ct.cell_types) :
    compare_conn_order type
        (compare_conn_map assign_map ct type [("\\A", a), ("\\B", b), ("\\Y", o)]) =
      some (if (assign_map a).lt (assign_map b) = true then
          [("\\A", assign_map b), ("\\B", assign_map a), ("\\Y", SigSpec.empty)]
        else [("\\A", assign_map a), ("\\B", assign_map b), ("\\Y", SigSpec.empty)]) := by
  obtain ⟨oa, ob, oy⟩ := cell_output_abY ct type hct
  have hm : compare_conn_map assign_map ct type [("\\A", a), ("\\B", b), ("\\Y", o)] =
      [("\\A", assign_map a), ("\\B", assign_map b), ("\\Y", SigSpec.empty)] := by
    simp only [compare_conn_map, List.map_cons, List.map_nil, oa, ob, oy, if_true,
      Bool.false_eq_true, if_false]
  rw [hm]
  unfold compare_conn_order
  simp only [hc, if_true]
  have l1 : List.lookup "\\A"
      [("\\A", assign_map a), ("\\B", assign_map b), ("\\Y", SigSpec.empty)] =
      some (assign_map a) := rfl
  have l2 : List.lookup "\\B"
      [("\\A", assign_map a), ("\\B", assign_map b), ("\\Y", SigSpec.empty)] =
      some (assign_map b) := rfl
  have l3 : map_set "\\B" (assign_map a) (map_set "\\A" (assign_map b)
      [("\\A", assign_map a), ("\\B", assign_map b), ("\\Y", SigSpec.empty)]) =
      [("\\A", assign_map b), ("\\B", assign_map a), ("\\Y", SigSpec.empty)] := rfl
  rw [l1, l2]
  simp only [l3]
  by_cases hlt : (assign_map a).lt (assign_map b) = true
  · rw [if_pos hlt, if_pos hlt]
  · rw [if_neg hlt, if_neg hlt]

theorem map_eq_three (a b c d : SigSpec) (h1 : a.eq c = true) (h2 : b.eq d = true) :
    map_eq SigSpec.eq [("\\A", a), ("\\B", b), ("\\Y", SigSpec.empty)]
      [("\\A", c), ("\\B", d), ("\\Y", SigSpec.empty)] = true := by
  simp only [map_eq, h1, h2, sigspec_eq_refl, decide_True, Bool.and_self]

theorem compare_cells_comm_aux (sha1 : String → String) (assign_map : SigSpec → SigSpec)
    (cell_ptr : Cell → Nat) (ct : CellTypes) (cache : List (Cell × String)) (c1 c2 : Cell)
    (x y o1 o2 : SigSpec) (hcomm : opt_share_commutative c1.type = true)
    (htype : c2.type = c1.type) (hct : c1.type ∈ ct.cell_types)
    (hpar : c2.parameters = c1.parameters)
    (hc1 : c1.connections = [("\\A", x), ("\\B", y), ("\\Y", o1)])
    (hc2 : c2.connections = [("\\A", y), ("\\B", x), ("\\Y", o2)])
    (hox : (assign_map x).optimize = assign_map x)
    (hoy : (assign_map y).optimize = assign_map y)
    (hid : wires_by_id2 (assign_map x).chunks (assign_map y).chunks)
    (hk : cache_coherent sha1 assign_map ct cache) :
    ∃ k, compare_cells sha1 assign_map cell_ptr ct cache c1 c2 = some (false, k) ∧
      cache_coherent sha1 assign_map ct k := by
  have hid1 : wires_by_id2 (assign_map x).optimize.chunks (assign_map y).optimize.chunks := by
    rw [hox, hoy]; exact hid
  have hid2 : wires_by_id2 (assign_map y).optimize.chunks (assign_map x).optimize.chunks := by
    rw [hox, hoy]; exact wires_by_id2_symm _ _ hid
  have ht1 := hash_cell_text_comm assign_map ct c1 x y o1 hcomm hct hc1
  have ht2 := hash_cell_text_comm assign_map ct c2 y x o2 (by rw [htype]; exact hcomm)
    (by rw [htype]; exact hct) hc2
  rw [htype, hpar] at ht2
  have htext : (if (assign_map x).lt (assign_map y) = true then
        comm_hash_text c1.type c1.parameters (assign_map y) (assign_map x)
      else comm_hash_text c1.type c1.parameters (assign_map x) (assign_map y)) =
      (if (assign_map y).lt (assign_map x) = true then
        comm_hash_text c1.type c1.parameters (assign_map x) (assign_map y)
      else comm_hash_text c1.type c1.parameters (assign_map y) (assign_map x)) := by
    by_cases h1 : (assign_map x).lt (assign_map y) = true
    · rw [if_pos h1, if_neg (by rw [sigspec_lt_asymm _ _ h1]; exact Bool.noConfusion)]
    · by_cases h2 : (assign_map y).lt (assign_map x) = true
      · rw [if_neg h1, if_pos h2]
      · rw [if_neg h1, if_neg h2]
        obtain ⟨_, hl, hc⟩ := sigspec_lt_total _ _ hid1 (Bool.eq_false_iff.mpr h1)
          (Bool.eq_false_iff.mpr h2)
        rw [hox, hoy] at hl hc
        unfold comm_hash_text
        rw [hash_chunks_congr _ _ hl hc]
  have hconn : ∃ conn1 conn2,
      compare_conn_order c1.type (compare_conn_map assign_map ct c1.type c1.connections) =
        some conn1 ∧
      compare_conn_order c1.type (compare_conn_map assign_map ct c2.type c2.connections) =
        some conn2 ∧ map_eq SigSpec.eq conn1 conn2 = true := by
    rw [htype, hc1, hc2, compare_conn_comm assign_map ct c1.type x y o1 hcomm hct,
      compare_conn_comm assign_map ct c1.type y x o2 hcomm hct]
    refine ⟨_, _, rfl, rfl, ?_⟩
    by_cases h1 : (assign_map x).lt (assign_map y) = true
    · rw [if_pos h1, if_neg (by rw [sigspec_lt_asymm _ _ h1]; exact Bool.noConfusion)]
      exact map_eq_three _ _ _ _ (sigspec_eq_refl _) (sigspec_eq_refl _)
    · by_cases h2 : (assign_map y).lt (assign_map x) = true
      · rw [if_neg h1, if_pos h2]
        exact map_eq_three _ _ _ _ (sigspec_eq_refl _) (sigspec_eq_refl _)
      · rw [if_neg h1, if_neg h2]
        exact map_eq_three _ _ _ _
          (sigspec_eq_of_total _ _ hid1 (Bool.eq_false_iff.mpr h1) (Bool.eq_false_iff.mpr h2))
          (sigspec_eq_of_total _ _ hid2 (Bool.eq_false_iff.mpr h2) (Bool.eq_false_iff.mpr h1))
  obtain ⟨k1, e1, hk1⟩ := hash_cached sha1 assign_map ct cache c1 _ hk ht1
  obtain ⟨k2, e2, hk2⟩ := hash_cached sha1 assign_map ct k1 c2 _ hk1 ht2
  obtain ⟨conn1, conn2, q1, q2, q3⟩ := hconn
  refine ⟨k2, ?_, hk2⟩
  unfold compare_cells
  rw [if_neg (not_not.mpr htype.symm)]
  have hkn : ct.cell_known c1.type = true := by
    unfold CellTypes.cell_known
    rw [if_pos hct]
  rw [if_neg (by rw [hkn]; exact Bool.noConfusion)]
  unfold compare_cell_parameters_and_connections
  rw [e1]
  simp only []
  rw [e2]
  simp only []
  rw [if_neg (not_not.mpr (by rw [htext])), hpar,
    if_neg (by rw [map_eq_const_refl]; exact Bool.noConfusion), q1, q2]
  simp only []
  rw [if_neg (by rw [q3]; exact Bool.noConfusion)]

set_option maxRecDepth 100000 in
theorem opt_share_ct_commutative (type : String) (h : opt_share_commutative type = true) :
    type ∈ opt_share_ct.cell_types := by
  unfold opt_share_commutative at h
  simp only [decide_eq_true_eq] at h
  rcases h with h | h | h | h | h | h | h | h | h | h | h <;> rw [h] <;> decide

/-- Claim C29: let two cells have the same type, one of the commutative types
of the catalog, and equal parameters; let the ports of the one be `\A = x`,
`\B = y` and an output `\Y`, and those of the other `\A = y`, `\B = x` and
an output `\Y`.  Then `compare_cells` returns false for the two cells in
either order, whatever the two outputs are.  This is for a map `assign_map`
that yields the two inputs in canonical form, for wires that are told apart
by their addresses, and for a cache that holds hashes of this round. -/
theorem compare_cells_commutative (sha1 : String → String) (assign_map : SigSpec → SigSpec)
    (cell_ptr : Cell → Nat) (ct : CellTypes) (cache : List (Cell × String)) (c1 c2 : Cell)
    (x y o1 o2 : SigSpec) (hcomm : opt_share_commutative c1.type = true)
    (htype : c2.type = c1.type) (hct : c1.type ∈ ct.cell_types)
    (hpar : c2.parameters = c1.parameters)
    (hc1 : c1.connections = [("\\A", x), ("\\B", y), ("\\Y", o1)])
    (hc2 : c2.connections = [("\\A", y), ("\\B", x), ("\\Y", o2)])
    (hox : (assign_map x).optimize = assign_map x)
    (hoy : (assign_map y).optimize = assign_map y)
    (hid : wires_by_id2 (assign_map x).chunks (assign_map y).chunks)
    (hk : cache_coherent sha1 assign_map ct cache) :
    (∃ k, compare_cells sha1 assign_map cell_ptr ct cache c1 c2 = some (false, k)) ∧
    (∃ k, compare_cells sha1 assign_map cell_ptr ct cache c2 c1 = some (false, k)) ∧
    (∀ type, opt_share_commutative type = true ↔
      type ∈ ["$and", "$or", "$xor", "$xnor", "$add", "$mul", "$logic_and", "$logic_or",
        "$_AND_", "$_OR_", "$_XOR_"]) ∧
    (∀ type, opt_share_commutative type = true → type ∈ opt_share_ct.cell_types) := by
  refine ⟨?_, ?_, ?_, ?_⟩
  · obtain ⟨k, h, _⟩ := compare_cells_comm_aux sha1 assign_map cell_ptr ct cache c1 c2 x y o1 o2
      hcomm htype hct hpar hc1 hc2 hox hoy hid hk
    exact ⟨k, h⟩
  · obtain ⟨k, h, _⟩ := compare_cells_comm_aux sha1 assign_map cell_ptr ct cache c2 c1 y x o2 o1
      (by rw [htype]; exact hcomm) htype.symm (by rw [htype]; exact hct) hpar.symm hc2 hc1
      hoy hox (wires_by_id2_symm _ _ hid) hk
    exact ⟨k, h⟩
  · intro type
    unfold opt_share_commutative
    simp only [decide_eq_true_eq, List.mem_cons, List.mem_singleton, List.not_mem_nil,
      or_false]
  · exact opt_share_ct_commutative

set_option maxRecDepth 100000 in
theorem compare_cells_commutative_witness :
    (∃ k, compare_cells (fun s => s) (fun s => s) (fun _ => 0) opt_share_ct []
      (exAnd "$1" exW exV exQ) (exAnd "$2" exV exW exR) = some (false, k)) ∧
    (∃ k, compare_cells (fun s => s) (fun s => s) (fun _ => 0) opt_share_ct []
      (exAnd "$2" exV exW exR) (exAnd "$1" exW exV exQ) = some (false, k)) :=
  let h := compare_cells_commutative (fun s => s) (fun s => s) (fun _ => 0) opt_share_ct []
    (exAnd "$1" exW exV exQ) (exAnd "$2" exV exW exR)
    (SigSpec.ofChunk (SigChunk.ofWire exW 1 0)) (SigSpec.ofChunk (SigChunk.ofWire exV 1 0))
    (SigSpec.ofChunk (SigChunk.ofWire exQ 1 0)) (SigSpec.ofChunk (SigChunk.ofWire exR 1 0))
    (by decide) rfl (by decide) rfl rfl rfl (by decide) (by decide)
    (by
      intro c hc d hd w v hw hv e
      rw [List.mem_singleton.mp hc] at hw
      rw [List.mem_singleton.mp hd] at hv
      cases hw
      cases hv
      exact absurd e (by decide))
    (fun _ _ h => Option.noConfusion h)
  ⟨h.1, h.2.1⟩


/-! ## The topological root of `freduce` -/

theorem sort_and_unify_bit (w : Wire) (o : Nat) :
    (bit_sig w o).sort_and_unify = some (bit_sig w o) := by
  simp [bit_sig, SigSpec.sort_and_unify, SigSpec.expand, SigSpec.ofChunk, SigChunk.ofWire,
    SigChunk.extract, std_sort, sort_insert, unify_loop, SigSpec.optimize, optimize_chunks,
    optimize_erase, optimize_merge]

theorem wire_bit_in_bits (cs : List SigChunk) (w : Wire) (o : Nat) :
    (⟨some w, Const.empty, 1, o⟩ : SigChunk) ∈ lbits SigChunk.bit cs ↔
      ∃ ch, ch ∈ cs ∧ ch.wire = some w ∧ ch.offset ≤ o ∧ o < ch.offset + ch.width := by
  constructor
  · intro h
    unfold lbits at h
    obtain ⟨ch, hc, hb⟩ := List.mem_flatMap.mp h
    obtain ⟨j, hj, e⟩ := List.mem_map.mp hb
    have hj2 := List.mem_range.mp hj
    rcases bit_shape ch j with ⟨v, hv, e2⟩ | ⟨_, x, e2⟩
    · rw [e2] at e
      injection e with e1 _ _ e4
      injection e1 with e1
      subst e1
      exact ⟨ch, hc, hv, by omega, by omega⟩
    · rw [e2] at e
      injection e with e1
      exact Option.noConfusion e1
  · rintro ⟨ch, hc, hw, h1, h2⟩
    unfold lbits
    refine List.mem_flatMap.mpr ⟨ch, hc, List.mem_map.mpr ⟨o - ch.offset,
      List.mem_range.mpr (by omega), ?_⟩⟩
    unfold SigChunk.bit
    rw [extract_wire ch w hw]
    congr 1
    omega

theorem extract_pattern_inner_bit (s : SigSpec) (ch1 : SigChunk) (pos : Nat) (w : Wire)
    (o : Nat) (ret : SigSpec) :
    extract_pattern_inner s ch1 pos [SigChunk.ofWire w 1 o] ret =
      some (if ch1.wire = some w ∧ ch1.offset ≤ o ∧ o < ch1.offset + ch1.width then
          ret.append (s.extract (pos + o - ch1.offset) 1)
        else ret) := by
  unfold extract_pattern_inner
  have h0 : ¬ ((SigChunk.ofWire w 1 o).wire = none) := by simp [SigChunk.ofWire]
  rw [if_neg h0]
  simp only [SigChunk.ofWire, extract_pattern_inner]
  by_cases hw : ch1.wire = some w
  · rw [if_pos hw]
    by_cases hr : ch1.offset ≤ o ∧ o < ch1.offset + ch1.width
    · rw [if_pos (by omega), if_pos ⟨hw, hr⟩]
      congr 3
      · omega
      · omega
    · rw [if_neg (by omega), if_neg (fun c => hr c.2)]
  · rw [if_neg hw, if_neg (fun c => hw c.1)]

theorem extract_pattern_loop_bit (s : SigSpec) (w : Wire) (o : Nat) :
    ∀ (rest pre : List SigChunk) (ret : SigSpec), s.chunks = pre ++ rest →
      ∃ ret1, extract_pattern_loop s [SigChunk.ofWire w 1 o] rest (wsum pre) ret = some ret1 ∧
        ret1.width = ret.width + (rest.filter (fun ch =>
          decide (ch.wire = some w ∧ ch.offset ≤ o ∧ o < ch.offset + ch.width))).length := by
  intro rest
  induction rest with
  | nil => intro pre ret _; exact ⟨ret, rfl, rfl⟩
  | cons ch1 rest ih =>
    intro pre ret hs
    have hs2 : s.chunks = (pre ++ [ch1]) ++ rest := by rw [hs]; simp
    have hw2 : wsum (pre ++ [ch1]) = wsum pre + ch1.width := by
      rw [wsum_append, wsum_cons, wsum_nil]; rfl
    have htot : wsum s.chunks = wsum pre + ch1.width + wsum rest := by
      rw [hs, wsum_append, wsum_cons]; omega
    rw [extract_pattern_loop]
    by_cases hm : ch1.wire = some w ∧ ch1.offset ≤ o ∧ o < ch1.offset + ch1.width
    · rw [if_pos (by rw [hm.1]; exact fun c => Option.noConfusion c),
        extract_pattern_inner_bit, if_pos hm]
      simp only []
      obtain ⟨r1, e1, e2⟩ := ih (pre ++ [ch1])
        (ret.append (s.extract (wsum pre + o - ch1.offset) 1)) hs2
      rw [hw2] at e1
      refine ⟨r1, e1, ?_⟩
      rw [e2, append_eq, extract_ok, extract_spec_width _ _ _ (by omega)]
      simp only [List.filter_cons, hm, decide_True, if_true, List.length_cons, and_self]
      omega
    · by_cases hn : ch1.wire ≠ none
      · rw [if_pos hn, extract_pattern_inner_bit, if_neg hm]
        simp only []
        obtain ⟨r1, e1, e2⟩ := ih (pre ++ [ch1]) ret hs2
        rw [hw2] at e1
        refine ⟨r1, e1, ?_⟩
        rw [e2]
        simp only [List.filter_cons, hm, decide_False, Bool.false_eq_true, if_false]
      · rw [if_neg hn]
        obtain ⟨r1, e1, e2⟩ := ih (pre ++ [ch1]) ret hs2
        rw [hw2] at e1
        refine ⟨r1, e1, ?_⟩
        rw [e2]
        simp only [List.filter_cons, hm, decide_False, Bool.false_eq_true, if_false]

theorem extract_pattern_bit (s : SigSpec) (w : Wire) (o : Nat) :
    ∃ e, s.extract_pattern (bit_sig w o) = some e ∧
      (e.width ≠ 0 ↔ SigChunk.ofWire w 1 o ∈ s.bits) := by
  unfold SigSpec.extract_pattern
  rw [sort_and_unify_bit]
  obtain ⟨r1, e1, e2⟩ := extract_pattern_loop_bit s w o s.chunks [] SigSpec.empty rfl
  refine ⟨r1, e1, ?_⟩
  have hb : (SigChunk.ofWire w 1 o ∈ s.bits) ↔
      ∃ ch, ch ∈ s.chunks ∧ ch.wire = some w ∧ ch.offset ≤ o ∧ o < ch.offset + ch.width :=
    wire_bit_in_bits s.chunks w o
  rw [hb, e2]
  simp only [SigSpec.empty, Nat.zero_add, ne_eq, List.length_eq_zero, List.filter_eq_nil_iff,
    decide_eq_true_eq, not_forall, not_not]
  constructor
  · rintro ⟨ch, hc, hm⟩
    exact ⟨ch, hc, hm⟩
  · rintro ⟨ch, hc, hm⟩
    exact ⟨ch, hc, hm⟩

theorem bits_append_bit (s : SigSpec) (w : Wire) (o : Nat) :
    (s.append (bit_sig w o)).bits = s.bits ++ [SigChunk.ofWire w 1 o] := by
  rw [append_eq]
  unfold SigSpec.bits
  simp only [bit_sig, SigSpec.ofChunk]
  rw [lbits_append]
  congr 1

theorem toproot_next_sound (rec : SigSpec → SigSpec → Option (Bool × SigSpec))
    (Inv : SigSpec → Prop) :
    ∀ (L : List SigSpec),
      (∀ it D D1, it ∈ L → Inv D → rec it D = some (true, D1) →
        Inv D1 ∧ (∀ d, d ∈ D.bits → d ∈ D1.bits) ∧ ∃ b, b ∈ D1.bits ∧ it = SigSpec.ofChunk b) →
      ∀ D D1, Inv D → toproot_next rec L D = some (true, D1) →
        Inv D1 ∧ (∀ d, d ∈ D.bits → d ∈ D1.bits) ∧
          ∀ it, it ∈ L → ∃ b, b ∈ D1.bits ∧ it = SigSpec.ofChunk b := by
  intro L
  induction L with
  | nil =>
    intro _ D D1 hI h
    simp only [toproot_next, Option.some.injEq, Prod.mk.injEq, true_and] at h
    subst h
    exact ⟨hI, fun d hd => hd, fun it hit => absurd hit (List.not_mem_nil it)⟩
  | cons x L ih =>
    intro hrec D D1 hI h
    rw [toproot_next] at h
    cases hx : rec x D with
    | none => rw [hx] at h; exact Option.noConfusion h
    | some p =>
      obtain ⟨b, D2⟩ := p
      rw [hx] at h
      cases b with
      | false =>
        simp only [Option.some.injEq, Prod.mk.injEq, Bool.false_eq_true, false_and] at h
      | true =>
        simp only [] at h
        obtain ⟨i1, i2, xb, i3, i4⟩ := hrec x D D2 (List.mem_cons_self _ _) hI hx
        obtain ⟨j1, j2, j3⟩ := ih
          (fun it E E1 hit => hrec it E E1 (List.mem_cons_of_mem _ hit)) D2 D1 i1 h
        refine ⟨j1, fun d hd => j2 d (i2 d hd), ?_⟩
        intro it hit
        rcases List.mem_cons.mp hit with e | hit
        · exact ⟨xb, j2 xb i3, by rw [e, i4]⟩
        · exact j3 it hit

theorem toproot_helper_sound (find : SigSpec → List SigSpec)
    (hfind : ∀ x n, n ∈ find x → ∃ w o, n = bit_sig w o) (B : List SigChunk) :
    ∀ (fuel : Nat) (w : Wire) (o : Nat) (stop D D1 : SigSpec),
      (∀ b, b ∈ B → b ∈ stop.bits) → done_closed find B D →
      toproot_helper find fuel (bit_sig w o) stop D = some (true, D1) →
      done_closed find B D1 ∧ (∀ d, d ∈ D.bits → d ∈ D1.bits) ∧
        ∃ b, b ∈ D1.bits ∧ bit_sig w o = SigSpec.ofChunk b := by
  intro fuel
  induction fuel with
  | zero => intro w o stop D D1 _ _ h; exact Option.noConfusion h
  | succ fuel ih =>
    intro w o stop D D1 hB hD h
    rw [toproot_helper] at h
    obtain ⟨e1, x1, y1⟩ := extract_pattern_bit stop w o
    obtain ⟨e2, x2, y2⟩ := extract_pattern_bit D w o
    rw [x1] at h
    simp only [] at h
    by_cases c1 : e1.width ≠ 0
    · rw [if_pos c1] at h
      simp only [Option.some.injEq, Prod.mk.injEq, Bool.false_eq_true, false_and] at h
    · rw [if_neg c1, x2] at h
      simp only [] at h
      have hns : SigChunk.ofWire w 1 o ∉ stop.bits := fun hm => c1 (y1.mpr hm)
      by_cases c2 : e2.width ≠ 0
      · rw [if_pos c2] at h
        simp only [Option.some.injEq, Prod.mk.injEq, true_and] at h
        subst h
        exact ⟨hD, fun d hd => hd, SigChunk.ofWire w 1 o, y2.mp c2, rfl⟩
      · rw [if_neg c2] at h
        cases hn : toproot_next
            (fun it d => toproot_helper find fuel it (stop.append (bit_sig w o)) d)
            (find (bit_sig w o)) D with
        | none => rw [hn] at h; exact Option.noConfusion h
        | some p =>
          obtain ⟨b, D2⟩ := p
          rw [hn] at h
          cases b with
          | false =>
            simp only [Option.some.injEq, Prod.mk.injEq, Bool.false_eq_true, false_and] at h
          | true =>
            simp only [Option.some.injEq, Prod.mk.injEq, true_and] at h
            subst h
            have hB2 : ∀ b, b ∈ B → b ∈ (stop.append (bit_sig w o)).bits := by
              intro b hb
              rw [bits_append_bit]
              exact List.mem_append_left _ (hB b hb)
            obtain ⟨j1, j2, j3⟩ := toproot_next_sound
              (fun it d => toproot_helper find fuel it (stop.append (bit_sig w o)) d)
              (done_closed find B) (find (bit_sig w o))
              (by
                intro it E E1 hit hE hr
                obtain ⟨w2, o2, rfl⟩ := hfind _ it hit
                exact ih w2 o2 _ E E1 hB2 hE hr)
              D D2 hD hn
            refine ⟨?_, ?_, SigChunk.ofWire w 1 o, ?_, rfl⟩
            · intro d hd
              rw [bits_append_bit] at hd
              rcases List.mem_append.mp hd with hd | hd
              · obtain ⟨k1, k2⟩ := j1 d hd
                refine ⟨k1, fun n hn2 => ?_⟩
                obtain ⟨nb, k3, k4⟩ := k2 n hn2
                exact ⟨nb, by rw [bits_append_bit]; exact List.mem_append_left _ k3, k4⟩
              · rw [List.mem_singleton] at hd
                subst hd
                refine ⟨fun hb => hns (hB _ hb), fun n hn2 => ?_⟩
                obtain ⟨nb, k3, k4⟩ := j3 n hn2
                exact ⟨nb, by rw [bits_append_bit]; exact List.mem_append_left _ k3, k4⟩
            · intro d hd
              rw [bits_append_bit]
              exact List.mem_append_left _ (j2 d hd)
            · rw [bits_append_bit]
              exact List.mem_append_right _ (List.mem_singleton.mpr rfl)

theorem done_closed_reach (find : SigSpec → List SigSpec) (B : List SigChunk) (D : SigSpec)
    (hD : done_closed find B D) (d : SigChunk) (hd : d ∈ D.bits) (m : SigSpec)
    (h : Relation.TransGen (source_step find) (SigSpec.ofChunk d) m) :
    ∃ mb, mb ∈ D.bits ∧ m = SigSpec.ofChunk mb := by
  induction h with
  | single h1 => exact (hD d hd).2 _ h1
  | tail _ h2 ih =>
    obtain ⟨xb, hx, rfl⟩ := ih
    exact (hD xb hx).2 _ h2

theorem toproot_next_total (rec : SigSpec → SigSpec → Option (Bool × SigSpec)) :
    ∀ (L : List SigSpec), (∀ it, it ∈ L → ∀ D, ∃ b D1, rec it D = some (b, D1)) →
      ∀ D, ∃ b D1, toproot_next rec L D = some (b, D1) := by
  intro L
  induction L with
  | nil => intro _ D; exact ⟨true, D, rfl⟩
  | cons x L ih =>
    intro hrec D
    obtain ⟨b, D1, h1⟩ := hrec x (List.mem_cons_self _ _) D
    rw [toproot_next, h1]
    cases b with
    | false => exact ⟨false, D1, rfl⟩
    | true => exact ih (fun it hit => hrec it (List.mem_cons_of_mem _ hit)) D1

theorem toproot_next_true (rec : SigSpec → SigSpec → Option (Bool × SigSpec)) :
    ∀ (L : List SigSpec), (∀ it, it ∈ L → ∀ D, ∃ D1, rec it D = some (true, D1)) →
      ∀ D, ∃ D1, toproot_next rec L D = some (true, D1) := by
  intro L
  induction L with
  | nil => intro _ D; exact ⟨D, rfl⟩
  | cons x L ih =>
    intro hrec D
    obtain ⟨D1, h1⟩ := hrec x (List.mem_cons_self _ _) D
    rw [toproot_next, h1]
    exact ih (fun it hit => hrec it (List.mem_cons_of_mem _ hit)) D1

theorem toproot_helper_total (find : SigSpec → List SigSpec)
    (hfind : ∀ x n, n ∈ find x → ∃ w o, n = bit_sig w o) (rank : SigSpec → Nat)
    (hrank : ∀ x n, n ∈ find x → rank n < rank x) :
    ∀ (fuel : Nat) (w : Wire) (o : Nat) (stop D : SigSpec), rank (bit_sig w o) < fuel →
      ∃ b D1, toproot_helper find fuel (bit_sig w o) stop D = some (b, D1) := by
  intro fuel
  induction fuel with
  | zero => intro w o stop D h; omega
  | succ fuel ih =>
    intro w o stop D hr
    rw [toproot_helper]
    obtain ⟨e1, x1, _⟩ := extract_pattern_bit stop w o
    obtain ⟨e2, x2, _⟩ := extract_pattern_bit D w o
    rw [x1]
    simp only []
    by_cases c1 : e1.width ≠ 0
    · rw [if_pos c1]; exact ⟨false, D, rfl⟩
    · rw [if_neg c1, x2]
      simp only []
      by_cases c2 : e2.width ≠ 0
      · rw [if_pos c2]; exact ⟨true, D, rfl⟩
      · rw [if_neg c2]
        obtain ⟨b, D1, h1⟩ := toproot_next_total
          (fun it d => toproot_helper find fuel it (stop.append (bit_sig w o)) d)
          (find (bit_sig w o))
          (by
            intro it hit E
            obtain ⟨w2, o2, rfl⟩ := hfind _ it hit
            exact ih w2 o2 _ E (by have := hrank _ _ hit; omega))
          D
        rw [h1]
        cases b with
        | false => exact ⟨false, D1, rfl⟩
        | true => exact ⟨true, _, rfl⟩

theorem toproot_helper_complete (find : SigSpec → List SigSpec)
    (hfind : ∀ x n, n ∈ find x → ∃ w o, n = bit_sig w o) (rank : SigSpec → Nat)
    (hrank : ∀ x n, n ∈ find x → rank n < rank x) (B : List SigChunk) :
    ∀ (fuel : Nat) (w : Wire) (o : Nat) (stop D : SigSpec), rank (bit_sig w o) < fuel →
      (∀ s, s ∈ stop.bits → s ∈ B ∨ rank (bit_sig w o) < rank (SigSpec.ofChunk s)) →
      SigChunk.ofWire w 1 o ∉ B →
      (∀ m, Relation.TransGen (source_step find) (bit_sig w o) m →
        ∀ mb, m = SigSpec.ofChunk mb → mb ∉ B) →
      ∃ D1, toproot_helper find fuel (bit_sig w o) stop D = some (true, D1) := by
  intro fuel
  induction fuel with
  | zero => intro w o stop D h; omega
  | succ fuel ih =>
    intro w o stop D hr hstop hcb hreach
    rw [toproot_helper]
    obtain ⟨e1, x1, y1⟩ := extract_pattern_bit stop w o
    obtain ⟨e2, x2, _⟩ := extract_pattern_bit D w o
    rw [x1]
    simp only []
    have c1 : ¬ e1.width ≠ 0 := by
      intro c
      rcases hstop _ (y1.mp c) with h | h
      · exact hcb h
      · exact Nat.lt_irrefl _ h
    rw [if_neg c1, x2]
    simp only []
    by_cases c2 : e2.width ≠ 0
    · rw [if_pos c2]; exact ⟨D, rfl⟩
    · rw [if_neg c2]
      obtain ⟨D1, h1⟩ := toproot_next_true
        (fun it d => toproot_helper find fuel it (stop.append (bit_sig w o)) d)
        (find (bit_sig w o))
        (by
          intro it hit E
          have hlt := hrank _ _ hit
          obtain ⟨w2, o2, rfl⟩ := hfind _ it hit
          have hstep : Relation.TransGen (source_step find) (bit_sig w o) (bit_sig w2 o2) :=
            Relation.TransGen.single hit
          refine ih w2 o2 _ E (by omega) ?_ (hreach _ hstep _ rfl) ?_
          · intro s hs
            rw [bits_append_bit] at hs
            rcases List.mem_append.mp hs with hs | hs
            · rcases hstop s hs with h | h
              · exact Or.inl h
              · exact Or.inr (by omega)
            · rw [List.mem_singleton] at hs
              subst hs
              exact Or.inr hlt
          · intro m hm mb e
            exact hreach m (Relation.TransGen.trans hstep hm) mb e)
        D
      rw [h1]
      exact ⟨_, rfl⟩

theorem rank_reach (find : SigSpec → List SigSpec) (rank : SigSpec → Nat)
    (hrank : ∀ x n, n ∈ find x → rank n < rank x) (a b : SigSpec)
    (h : Relation.TransGen (source_step find) a b) : rank b < rank a := by
  induction h with
  | single h1 => exact hrank _ _ h1
  | tail _ h2 ih => exact lt_trans (hrank _ _ h2) ih

theorem ofChunk_inj (a b : SigChunk) (h : SigSpec.ofChunk a = SigSpec.ofChunk b) : a = b := by
  unfold SigSpec.ofChunk at h
  injection h with h1 _
  exact List.head_eq_of_cons_eq h1

theorem wire_bits_shape (sig : SigSpec) (hS : ∀ c, c ∈ sig.chunks → c.wire ≠ none)
    (c : SigChunk) (hc : c ∈ sig.bits) : ∃ w o, c = SigChunk.ofWire w 1 o := by
  obtain ⟨d, hd, j, rfl⟩ := bits_mem_chunk sig.chunks c hc
  rcases bit_shape d j with ⟨w, _, e⟩ | ⟨hn, _⟩
  · exact ⟨w, d.offset + j, e⟩
  · exact absurd hn (hS d hd)

theorem toproot_stoplist_bits (sig : SigSpec) (c : SigChunk) (w : Wire) (o : Nat)
    (hc : c = SigChunk.ofWire w 1 o) (st : SigSpec)
    (h : sig.expand.remove_pattern (SigSpec.ofChunk c) = some st) :
    st.bits = sig.bits.filter (fun b => decide (b ≠ c)) := by
  have hp : ∀ x ∈ (SigSpec.ofChunk c).chunks, x.wire ≠ none := by
    intro x hx
    rw [List.mem_singleton.mp hx, hc]
    exact fun e => Option.noConfusion e
  obtain ⟨r, f, h1, h2, _⟩ := remove2_result sig.expand (SigSpec.ofChunk c) hp
  have e := (remove_pattern_eq _ _ st).mp h
  rw [h1] at e
  have e0 : r = st := (Prod.mk.inj (Option.some.inj e)).1
  rw [e0] at h2
  have e1 : sig.expand.bits = sig.bits := by
    unfold SigSpec.bits
    rw [expand_eq_bits]
    exact lbits_bit_self _ (fun x hx => ⟨(bits_are_bits sig x hx).1, (bits_are_bits sig x hx).2.1⟩)
  have e2 : (SigSpec.ofChunk c).bits = [c] := by
    rw [hc]
    rfl
  rw [h2, e1, e2]
  apply List.filter_congr
  intro x _
  simp

theorem toproot_stoplist_some (sig : SigSpec) (c : SigChunk) (w : Wire) (o : Nat)
    (hc : c = SigChunk.ofWire w 1 o) (hl : sig.bits.getLast? ≠ some c) :
    ∃ st, sig.expand.remove_pattern (SigSpec.ofChunk c) = some st ∧
      st.bits = sig.bits.filter (fun b => decide (b ≠ c)) := by
  have hp : ∀ x ∈ (SigSpec.ofChunk c).chunks, x.wire ≠ none := by
    intro x hx
    rw [List.mem_singleton.mp hx, hc]
    exact fun e => Option.noConfusion e
  have e2 : (SigSpec.ofChunk c).bits = [c] := by
    rw [hc]
    rfl
  have hk : last_kept (SigSpec.ofChunk c).bits sig.expand.chunks = true := by
    rw [e2, expand_eq_bits]
    unfold last_kept
    simp only []
    cases hg : sig.bits.getLast? with
    | none => rfl
    | some d =>
      have hd := bits_are_bits sig d (List.mem_of_getLast?_eq_some hg)
      simp only [Bool.or_eq_true, decide_eq_true_eq]
      right
      rw [hd.1, Nat.sub_self, hd.2.1, List.mem_singleton]
      intro e
      exact hl (by rw [hg, e])
  obtain ⟨st, hst⟩ := remove_pattern_defined sig.expand (SigSpec.ofChunk c) hp hk
  exact ⟨st, hst, toproot_stoplist_bits sig c w o hc st hst⟩

/-- On a signal of one bit `toproot` erases the last chunk of `stoplist`, and
`remove2` reads past the end of the chunk vector. -/
theorem toproot_single (find : SigSpec → List SigSpec) (fuel : Nat) (w : Wire) (o : Nat) :
    toproot find fuel (bit_sig w o) = none := by
  have e : (bit_sig w o).expand = SigSpec.ofChunk (SigChunk.ofWire w 1 o) := by
    simp [bit_sig, SigSpec.expand, SigSpec.ofChunk, SigChunk.ofWire, SigChunk.extract,
      List.range_succ]
  unfold toproot
  rw [e]
  have e2 : (SigSpec.ofChunk (SigChunk.ofWire w 1 o)).chunks = [SigChunk.ofWire w 1 o] := rfl
  rw [e2, toproot_loop]
  have e3 : (SigSpec.ofChunk (SigChunk.ofWire w 1 o)).remove_pattern
      (SigSpec.ofChunk (SigChunk.ofWire w 1 o)) = none := by
    unfold SigSpec.remove_pattern
    rw [remove2_self w 1 o (by decide)]
  rw [e3]

theorem toproot_root_of_helper (find : SigSpec → List SigSpec)
    (hfind : ∀ x n, n ∈ find x → ∃ w o, n = bit_sig w o) (sig st D1 : SigSpec) (fuel : Nat)
    (w : Wire) (o : Nat)
    (hst : st.bits = sig.bits.filter (fun b => decide (b ≠ SigChunk.ofWire w 1 o)))
    (h : toproot_helper find fuel (bit_sig w o) st SigSpec.empty = some (true, D1)) :
    ∀ d, d ∈ sig.bits → d ≠ SigChunk.ofWire w 1 o →
      ¬ Relation.TransGen (source_step find) (bit_sig w o) (SigSpec.ofChunk d) := by
  obtain ⟨i1, _, b, i3, i4⟩ := toproot_helper_sound find hfind
    (sig.bits.filter (fun b => decide (b ≠ SigChunk.ofWire w 1 o))) fuel w o st
    SigSpec.empty D1 (by intro b hb; rw [hst]; exact hb)
    (by intro d hd; exact absurd hd (List.not_mem_nil d)) h
  have hb : b = SigChunk.ofWire w 1 o := (ofChunk_inj _ _ i4).symm
  subst hb
  intro d hd hne hreach
  obtain ⟨mb, m1, m2⟩ := done_closed_reach find _ D1 i1 _ i3 _ hreach
  have := ofChunk_inj _ _ m2
  subst this
  exact (i1 d m1).1 (List.mem_filter.mpr ⟨hd, by simpa using hne⟩)

theorem toproot_loop_sound (find : SigSpec → List SigSpec)
    (hfind : ∀ x n, n ∈ find x → ∃ w o, n = bit_sig w o) (sig : SigSpec)
    (hS : ∀ c, c ∈ sig.chunks → c.wire ≠ none) (fuel : Nat) :
    ∀ (cs : List SigChunk), (∀ c, c ∈ cs → c ∈ sig.bits) → ∀ r,
      toproot_loop find fuel sig.expand cs = some r → r.width ≠ 0 →
      ∃ c, c ∈ cs ∧ r = SigSpec.ofChunk c ∧ ∀ d, d ∈ sig.bits → d ≠ c →
        ¬ Relation.TransGen (source_step find) (SigSpec.ofChunk c) (SigSpec.ofChunk d) := by
  intro cs
  induction cs with
  | nil =>
    intro _ r h hw
    simp only [toproot_loop, Option.some.injEq] at h
    rw [← h] at hw
    exact absurd rfl hw
  | cons c cs ih =>
    intro hcs r h hw
    obtain ⟨w, o, hc⟩ := wire_bits_shape sig hS c (hcs c (List.mem_cons_self _ _))
    rw [toproot_loop] at h
    cases s1 : sig.expand.remove_pattern (SigSpec.ofChunk c) with
    | none => rw [s1] at h; exact Option.noConfusion h
    | some st =>
      have s2 := toproot_stoplist_bits sig c w o hc st s1
      rw [s1] at h
      simp only [] at h
      cases hh : toproot_helper find fuel (SigSpec.ofChunk c) st SigSpec.empty with
      | none => rw [hh] at h; exact Option.noConfusion h
      | some p =>
        obtain ⟨b, D1⟩ := p
        rw [hh] at h
        cases b with
        | true =>
          simp only [Option.some.injEq] at h
          refine ⟨c, List.mem_cons_self _ _, h.symm, ?_⟩
          subst hc
          exact toproot_root_of_helper find hfind sig st D1 fuel w o s2 hh
        | false =>
          simp only [] at h
          obtain ⟨c2, h1, h2, h3⟩ := ih (fun x hx => hcs x (List.mem_cons_of_mem _ hx)) r h hw
          exact ⟨c2, List.mem_cons_of_mem _ h1, h2, h3⟩

theorem toproot_loop_complete (find : SigSpec → List SigSpec)
    (hfind : ∀ x n, n ∈ find x → ∃ w o, n = bit_sig w o) (rank : SigSpec → Nat)
    (hrank : ∀ x n, n ∈ find x → rank n < rank x) (sig : SigSpec)
    (hS : ∀ c, c ∈ sig.chunks → c.wire ≠ none) (fuel : Nat) :
    ∀ (cs : List SigChunk), (∀ c, c ∈ cs → c ∈ sig.bits) →
      (∀ c, c ∈ cs → rank (SigSpec.ofChunk c) < fuel) →
      (∀ c, c ∈ cs → sig.bits.getLast? ≠ some c) →
      (∃ c, c ∈ cs ∧ ∀ m, Relation.TransGen (source_step find) (SigSpec.ofChunk c) m →
        ∀ mb, m = SigSpec.ofChunk mb → mb ∈ sig.bits → mb = c) →
      ∀ tail : List SigChunk, ∃ c, c ∈ cs ∧
        toproot_loop find fuel sig.expand (cs ++ tail) = some (SigSpec.ofChunk c) := by
  intro cs
  induction cs with
  | nil => intro _ _ _ h; obtain ⟨c, hc, _⟩ := h; exact absurd hc (List.not_mem_nil c)
  | cons c cs ih =>
    intro hcs hfuel hlast hgood tail
    obtain ⟨w, o, hc⟩ := wire_bits_shape sig hS c (hcs c (List.mem_cons_self _ _))
    obtain ⟨st, s1, s2⟩ := toproot_stoplist_some sig c w o hc (hlast c (List.mem_cons_self _ _))
    rw [List.cons_append, toproot_loop, s1]
    simp only []
    have hcr : rank (bit_sig w o) < fuel := by
      have := hfuel c (List.mem_cons_self _ _)
      rw [hc] at this
      exact this
    obtain ⟨b, D1, hh⟩ := toproot_helper_total find hfind rank hrank fuel w o st SigSpec.empty hcr
    have hcs2 : SigSpec.ofChunk c = bit_sig w o := by rw [hc]; rfl
    rw [hcs2, hh]
    cases b with
    | true => exact ⟨c, List.mem_cons_self _ _, by rw [hcs2]⟩
    | false =>
      simp only []
      have hrest : ∃ c2, c2 ∈ cs ∧ ∀ m,
          Relation.TransGen (source_step find) (SigSpec.ofChunk c2) m →
          ∀ mb, m = SigSpec.ofChunk mb → mb ∈ sig.bits → mb = c2 := by
        obtain ⟨g, hg, hgood2⟩ := hgood
        rcases List.mem_cons.mp hg with e | hg2
        · exfalso
          subst e
          obtain ⟨D2, hD2⟩ := toproot_helper_complete find hfind rank hrank
            (sig.bits.filter (fun b => decide (b ≠ SigChunk.ofWire w 1 o))) fuel w o st
            SigSpec.empty hcr
            (by intro s hs; rw [s2, hc] at hs; exact Or.inl hs)
            (by intro hm; simpa using (List.mem_filter.mp hm).2)
            (by
              intro m hm mb e hmb
              have h1 := List.mem_filter.mp hmb
              have h2 := hgood2 m (by rw [hcs2]; exact hm) mb e h1.1
              rw [h2, hc] at h1
              simpa using h1.2)
          rw [hD2] at hh
          simp only [Option.some.injEq, Prod.mk.injEq, Bool.true_eq_false, false_and] at hh
        · exact ⟨g, hg2, hgood2⟩
      obtain ⟨c2, h1, h2⟩ := ih (fun x hx => hcs x (List.mem_cons_of_mem _ hx))
        (fun x hx => hfuel x (List.mem_cons_of_mem _ hx))
        (fun x hx => hlast x (List.mem_cons_of_mem _ hx)) hrest tail
      exact ⟨c2, List.mem_cons_of_mem _ h1, h2⟩

theorem exists_min_rank (f : SigChunk → Nat) : ∀ (l : List SigChunk), l ≠ [] →
    ∃ c, c ∈ l ∧ ∀ d, d ∈ l → f c ≤ f d := by
  intro l
  induction l with
  | nil => intro h; exact absurd rfl h
  | cons a l ih =>
    intro _
    cases l with
    | nil =>
      refine ⟨a, List.mem_cons_self _ _, fun d hd => ?_⟩
      rw [List.mem_singleton.mp hd]
    | cons b l =>
      obtain ⟨c, hc, hmin⟩ := ih (List.cons_ne_nil b l)
      by_cases h : f a ≤ f c
      · refine ⟨a, List.mem_cons_self _ _, fun d hd => ?_⟩
        rcases List.mem_cons.mp hd with e | hd
        · rw [e]
        · exact le_trans h (hmin d hd)
      · refine ⟨c, List.mem_cons_of_mem _ hc, fun d hd => ?_⟩
        rcases List.mem_cons.mp hd with e | hd
        · rw [e]; omega
        · exact hmin d hd

/-- Claim C30: let the signal `S` hold bits of wires and let every source that
`source_signals` yields be a single bit of a wire.  Whenever `toproot(S)`
returns a signal that is not empty, with or without loops in the fan-in
relation, this signal is a bit `c` of `S` from which no other bit of `S` is
reached through the sources.  When the relation has no loop, which a rank that
falls along every step shows, and a bit of least rank stands in `S` before
every bit that equals the last bit of `S`, `toproot(S)` returns such a bit `c`,
for every bound on the nested calls above the ranks of the bits up to there.
For the last bit of `S` the call `stoplist.remove(c)` erases the last chunk of
`stoplist` and reads past the end of the chunk vector; on a signal `S` of one
bit this is the first thing that `toproot` does. -/
theorem toproot_spec (find : SigSpec → List SigSpec) (sig : SigSpec)
    (hS : ∀ c, c ∈ sig.chunks → c.wire ≠ none)
    (hfind : ∀ x n, n ∈ find x → ∃ w o, n = bit_sig w o) :
    (∀ fuel r, toproot find fuel sig = some r → r.width ≠ 0 →
      ∃ c, c ∈ sig.bits ∧ r = SigSpec.ofChunk c ∧ ∀ d, d ∈ sig.bits → d ≠ c →
        ¬ Relation.TransGen (source_step find) (SigSpec.ofChunk c) (SigSpec.ofChunk d)) ∧
    (∀ rank : SigSpec → Nat, (∀ x n, n ∈ find x → rank n < rank x) →
      ∀ (fuel : Nat) (pre post : List SigChunk), sig.bits = pre ++ post →
      (∀ c, c ∈ pre → rank (SigSpec.ofChunk c) < fuel) →
      (∀ c, c ∈ pre → sig.bits.getLast? ≠ some c) →
      (∃ c, c ∈ pre ∧ ∀ d, d ∈ sig.bits →
        rank (SigSpec.ofChunk c) ≤ rank (SigSpec.ofChunk d)) →
      ∃ c, c ∈ pre ∧ toproot find fuel sig = some (SigSpec.ofChunk c) ∧
        (SigSpec.ofChunk c).width ≠ 0 ∧ ∀ d, d ∈ sig.bits → d ≠ c →
          ¬ Relation.TransGen (source_step find) (SigSpec.ofChunk c) (SigSpec.ofChunk d)) ∧
    (∀ (fuel : Nat) (w : Wire) (o : Nat), toproot find fuel (bit_sig w o) = none) := by
  have hsound : ∀ fuel r, toproot find fuel sig = some r → r.width ≠ 0 →
      ∃ c, c ∈ sig.bits ∧ r = SigSpec.ofChunk c ∧ ∀ d, d ∈ sig.bits → d ≠ c →
        ¬ Relation.TransGen (source_step find) (SigSpec.ofChunk c) (SigSpec.ofChunk d) := by
    intro fuel r h hw
    unfold toproot at h
    exact toproot_loop_sound find hfind sig hS fuel sig.expand.chunks (fun c hc => hc) r h hw
  refine ⟨hsound, ?_, toproot_single find⟩
  intro rank hrank fuel pre post hsplit hfuel hlast hmin
  have hpre : ∀ c, c ∈ pre → c ∈ sig.bits := by
    intro c hc
    rw [hsplit]
    exact List.mem_append_left _ hc
  obtain ⟨c0, hc0, hmin⟩ := hmin
  obtain ⟨c, hc, hr⟩ := toproot_loop_complete find hfind rank hrank sig hS fuel
    pre hpre hfuel hlast
    ⟨c0, hc0, by
      intro m hm mb e hmb
      have h1 := rank_reach find rank hrank _ _ hm
      have h2 := hmin mb hmb
      rw [e] at h1
      omega⟩ post
  have hr2 : toproot find fuel sig = some (SigSpec.ofChunk c) := by
    unfold toproot
    have e : sig.expand.chunks = pre ++ post := by
      rw [expand_eq_bits]
      exact hsplit
    rw [e]
    exact hr
  have hw : (SigSpec.ofChunk c).width ≠ 0 := by
    obtain ⟨w, o, e⟩ := wire_bits_shape sig hS c (hpre c hc)
    rw [e]
    exact Nat.one_ne_zero
  obtain ⟨c2, _, e2, h3⟩ := hsound fuel _ hr2 hw
  have := ofChunk_inj _ _ e2
  subst this
  exact ⟨c, hc, hr2, hw, h3⟩

theorem exFind_bits (x n : SigSpec) (h : n ∈ exFind x) : ∃ w o, n = bit_sig w o := by
  unfold exFind at h
  split_ifs at h
  · simp only [List.mem_cons, List.mem_singleton, List.not_mem_nil, or_false] at h
    rcases h with h | h
    · exact ⟨exW, 1, h⟩
    · exact ⟨exW, 2, h⟩
  · exact ⟨exW, 1, List.mem_singleton.mp h⟩
  · exact ⟨exW, 0, List.mem_singleton.mp h⟩
  · exact absurd h (List.not_mem_nil n)

theorem exFind_rank (x n : SigSpec) (h : n ∈ exFind x) : exRank n < exRank x := by
  unfold exFind at h
  split_ifs at h with h1 h2 h3
  · simp only [List.mem_cons, List.mem_singleton, List.not_mem_nil, or_false] at h
    rcases h with h | h <;> rw [h, h1] <;> decide
  · rw [List.mem_singleton.mp h, h2]; decide
  · rw [List.mem_singleton.mp h, h3]; decide
  · exact absurd h (List.not_mem_nil n)

theorem toproot_spec_witness :
    (∃ c, c ∈ [SigChunk.ofWire exW 1 1] ∧
      toproot exFind 5 ⟨[SigChunk.ofWire exW 1 1, SigChunk.ofWire exW 2 2], 3⟩ =
        some (SigSpec.ofChunk c) ∧
      (SigSpec.ofChunk c).width ≠ 0 ∧
      ∀ d, d ∈ (⟨[SigChunk.ofWire exW 1 1, SigChunk.ofWire exW 2 2], 3⟩ : SigSpec).bits →
        d ≠ c →
        ¬ Relation.TransGen (source_step exFind) (SigSpec.ofChunk c) (SigSpec.ofChunk d)) ∧
    toproot exFind 5 (bit_sig exW 1) = none :=
  ⟨(toproot_spec exFind ⟨[SigChunk.ofWire exW 1 1, SigChunk.ofWire exW 2 2], 3⟩
      (by decide) exFind_bits).2.1 exRank exFind_rank 5 [SigChunk.ofWire exW 1 1]
      [SigChunk.ofWire exW 1 2, SigChunk.ofWire exW 1 3] (by decide) (by decide) (by decide)
      ⟨SigChunk.ofWire exW 1 1, by decide, by decide⟩,
    (toproot_spec exFind ⟨[SigChunk.ofWire exW 1 1, SigChunk.ofWire exW 2 2], 3⟩
      (by decide) exFind_bits).2.2 5 exW 1⟩


/-! ## Distinct codes of `fsm_recode` -/

theorem state_index_inj (r i j : Nat) (h : state_index r i = state_index r j) : i = j := by
  rw [state_index_eq, state_index_eq] at h
  split_ifs at h <;> omega

theorem one_hot_code_inj (n i j : Nat) (hi : i < n)
    (h : one_hot_code n i = one_hot_code n j) : i = j := by
  have h1 : (one_hot_code n i).bits.get? i = (one_hot_code n j).bits.get? i := by rw [h]
  simp only [one_hot_code, List.get?_eq_getElem?, List.getElem?_map, List.getElem?_range hi,
    Option.map_some', if_true, Option.some.injEq] at h1
  by_contra hne
  rw [if_neg hne] at h1
  exact absurd h1 (by decide)

theorem binary_code_inj (sb i j : Nat) (hi : i < 2 ^ sb) (hj : j < 2 ^ sb)
    (h : binary_code sb i = binary_code sb j) : i = j := by
  apply Nat.eq_of_testBit_eq
  intro k
  by_cases hk : k < sb
  · have h1 : (binary_code sb i).bits.get? k = (binary_code sb j).bits.get? k := by rw [h]
    simp only [binary_code, List.get?_eq_getElem?, List.getElem?_map, List.getElem?_range hk,
      Option.map_some', Option.some.injEq] at h1
    cases ha : Nat.testBit i k <;> cases hb : Nat.testBit j k <;> simp [ha, hb] at h1 <;> rfl
  · have hk2 : sb ≤ k := Nat.le_of_not_lt hk
    rw [Nat.testBit_lt_two_pow (lt_of_lt_of_le hi (Nat.pow_le_pow_right (by decide) hk2)),
      Nat.testBit_lt_two_pow (lt_of_lt_of_le hj (Nat.pow_le_pow_right (by decide) hk2))]

/-- The indices that the loop of `fsm_recode` hands to `new_code` over a table
of `n` states with the reset state `rs`, `-1 ≤ rs < n`: they are pairwise
distinct and below `n`. -/
theorem fsm_recode_loop_indices (e : String) (sb : Nat) (rs : Int) (code : Nat → Const)
    (hcode : ∀ k, fsm_new_code e sb k = some (code k)) (t : List Const)
    (hlo : -1 ≤ rs) (hhi : rs < (t.length : Int)) :
    ∃ idx : List Nat, idx.length = t.length ∧ idx.Nodup ∧ (∀ k ∈ idx, k < t.length) ∧
      fsm_recode_loop e sb rs t 0 (if rs ≥ 0 then 1 else 0) = some (idx.map code) := by
  by_cases h0 : rs ≥ 0
  · obtain ⟨r, hr⟩ := Int.eq_ofNat_of_zero_le h0
    subst hr
    have hr : r < t.length := by omega
    refine ⟨(List.range t.length).map (state_index r), by simp, ?_, ?_, ?_⟩
    · exact (List.nodup_range _).map_on (fun i _ j _ h => state_index_inj r i j h)
    · intro k hk
      obtain ⟨i, hi, rfl⟩ := List.mem_map.mp hk
      exact state_index_lt r i _ hr (List.mem_range.mp hi)
    · rw [if_pos h0]
      have h := fsm_recode_loop_reset e sb r code hcode t 0
      simp only [List.range_zero, List.filter_nil, List.length_nil, Nat.zero_add] at h
      rw [h, List.map_map]
      rfl
  · refine ⟨List.range t.length, by simp, List.nodup_range _, ?_, ?_⟩
    · intro k hk
      exact List.mem_range.mp hk
    · rw [if_neg h0]
      have h := fsm_recode_loop_noreset e sb rs (by omega) code hcode t 0
      simp only [Nat.zero_add] at h
      exact h

/-- Claim C37: for a table of `n` states (`n ≥ 1` included), a reset index `r` with
`-1 ≤ r < n` and the encoding one-hot or binary, `fsm_recode` returns a table
of `n` codes, the code of each state being `new_code` for an index of the list
`idx`; the indices are pairwise distinct, the codes are pairwise distinct, and
with the one-hot encoding every index (the bit that is written) is below
`state_bits`; with the binary encoding every index is below `2 ^ state_bits`. -/
theorem fsm_recode_distinct (attr : Option String) (default_encoding : String) (d : FsmData)
    (henc : fsm_encoding attr default_encoding = "one-hot" ∨
      fsm_encoding attr default_encoding = "binary")
    (hlo : -1 ≤ d.reset_state)
    (hhi : d.reset_state < (d.state_table.length : Int)) :
    ∃ (sb : Nat) (idx : List Nat) (table : List Const),
      fsm_recode attr default_encoding d =
        some { state_bits := sb, reset_state := d.reset_state, state_table := table } ∧
      List.Forall₂ (fun k c => fsm_new_code (fsm_encoding attr default_encoding) sb k = some c)
        idx table ∧
      table.length = d.state_table.length ∧ idx.Nodup ∧ table.Nodup ∧
      (fsm_encoding attr default_encoding = "one-hot" → ∀ k ∈ idx, k < sb) ∧
      (fsm_encoding attr default_encoding = "binary" → ∀ k ∈ idx, k < 2 ^ sb) := by
  rcases henc with henc | henc
  · obtain ⟨idx, hlen, hnd, hlt, hloop⟩ := fsm_recode_loop_indices "one-hot"
      d.state_table.length d.reset_state (one_hot_code d.state_table.length)
      (one_hot_new_code d.state_table.length) d.state_table hlo hhi
    refine ⟨d.state_table.length, idx, idx.map (one_hot_code d.state_table.length),
      ?_, ?_, by simp [hlen], hnd, ?_, fun _ => hlt, ?_⟩
    · unfold fsm_recode
      simp only [henc]
      rw [if_neg (by decide)]
      simp only [if_true]
      rw [hloop]
      rfl
    · rw [henc, List.forall₂_map_right_iff]
      exact List.forall₂_same.mpr (fun k _ => one_hot_new_code _ k)
    · exact hnd.map_on (fun i hi j _ h => one_hot_code_inj _ i j (hlt i hi) h)
    · intro h
      rw [henc] at h
      exact absurd h (by decide)
  · have hs := ceil_log2_spec d.state_table.length
    obtain ⟨idx, hlen, hnd, hlt, hloop⟩ := fsm_recode_loop_indices "binary"
      (ceil_log2 d.state_table.length) d.reset_state
      (binary_code (ceil_log2 d.state_table.length))
      (binary_new_code (ceil_log2 d.state_table.length)) d.state_table hlo hhi
    have hlt2 : ∀ k ∈ idx, k < 2 ^ ceil_log2 d.state_table.length :=
      fun k hk => lt_of_lt_of_le (hlt k hk) hs.1
    refine ⟨ceil_log2 d.state_table.length, idx,
      idx.map (binary_code (ceil_log2 d.state_table.length)),
      ?_, ?_, by simp [hlen], hnd, ?_, ?_, fun _ => hlt2⟩
    · unfold fsm_recode
      simp only [henc]
      rw [if_neg (by decide), if_neg (by decide)]
      simp only [or_true, if_true]
      rw [hloop]
      rfl
    · rw [henc, List.forall₂_map_right_iff]
      exact List.forall₂_same.mpr (fun k _ => binary_new_code _ k)
    · exact hnd.map_on
        (fun i hi j hj h => binary_code_inj _ i j (hlt2 i hi) (hlt2 j hj) h)
    · intro h
      rw [henc] at h
      exact absurd h (by decide)

theorem fsm_recode_distinct_witness :
    ∃ (sb : Nat) (idx : List Nat) (table : List Const),
      fsm_recode (some "one-hot") "binary" { exFsm with reset_state := -1 } =
        some { state_bits := sb, reset_state := -1, state_table := table } ∧
      table.length = 4 ∧ idx.Nodup ∧ table.Nodup ∧ ∀ k ∈ idx, k < sb :=
  (fsm_recode_distinct (some "one-hot") "binary" { exFsm with reset_state := -1 }
    (Or.inl (by decide)) (by decide) (by decide)).imp
    (fun _ h => h.imp (fun _ h => h.imp (fun _ h =>
      ⟨h.1, h.2.2.1, h.2.2.2.1, h.2.2.2.2.1, h.2.2.2.2.2.1 (by decide)⟩)))

/-! ## Names of mapped objects -/

theorem takeWhile_dot_append (p a : List Char) :
    (p ++ '.' :: a).takeWhile (fun c => c != '.') = p.takeWhile (fun c => c != '.') := by
  induction p with
  | nil => simp
  | cons c p ih =>
    by_cases h : c = '.'
    · simp [h]
    · simp [List.takeWhile_cons, h, ih]

/-- A name `p ++ "." ++ a` is never a name `"$techmap" ++ p ++ "." ++ y`: the
part before the first dot of the second one is eight characters longer. -/
theorem apply_prefix_cross (p a y : List Char) :
    p ++ ".".data ++ a ≠ "$techmap".data ++ p ++ ".".data ++ y := by
  intro h
  have h1 := congrArg (fun l => (l.takeWhile (fun c => c != '.')).length) h
  have e1 : p ++ ".".data ++ a = p ++ '.' :: a := by simp
  have e2 : "$techmap".data ++ p ++ ".".data ++ y =
      '$' :: 't' :: 'e' :: 'c' :: 'h' :: 'm' :: 'a' :: 'p' :: (p ++ '.' :: y) := by simp
  simp only [e1, e2, takeWhile_dot_append] at h1
  have e3 : ∀ l : List Char,
      (('$' :: 't' :: 'e' :: 'c' :: 'h' :: 'm' :: 'a' :: 'p' :: l).takeWhile
        (fun c => c != '.')).length = (l.takeWhile (fun c => c != '.')).length + 8 := by
    intro l
    simp [List.takeWhile_cons]
  rw [e3, takeWhile_dot_append] at h1
  omega

theorem apply_prefix_inj (pfx x y : String)
    (h : apply_prefix pfx x = apply_prefix pfx y) : x = y := by
  unfold apply_prefix at h
  by_cases hx : x.data.head? = some '\\' <;> by_cases hy : y.data.head? = some '\\'
  · rw [if_pos hx, if_pos hy] at h
    have h1 := congrArg String.data h
    simp only [List.append_assoc, List.append_cancel_left_eq] at h1
    apply String.ext
    cases hxd : x.data with
    | nil => rw [hxd] at hx; exact absurd hx (by simp)
    | cons c cs =>
      cases hyd : y.data with
      | nil => rw [hyd] at hy; exact absurd hy (by simp)
      | cons e es =>
        rw [hxd] at hx h1
        rw [hyd] at hy h1
        simp only [List.head?_cons, Option.some.injEq] at hx hy
        simp only [List.drop_succ_cons, List.drop_zero] at h1
        rw [hx, hy, h1]
  · rw [if_pos hx, if_neg hy] at h
    exact absurd (congrArg String.data h) (apply_prefix_cross _ _ _)
  · rw [if_neg hx, if_pos hy] at h
    exact absurd (congrArg String.data h).symm (apply_prefix_cross _ _ _)
  · rw [if_neg hx, if_neg hy] at h
    have h1 := congrArg String.data h
    simp only [List.append_assoc, List.append_cancel_left_eq] at h1
    exact String.ext h1

/-- Claim C38: for every fixed cell-name prefix the mapping
`apply_prefix(prefix, id)` is injective: two different ids never map to the
same name.  This holds for all ids, so also for the non-empty ids that begin
with a backslash or a dollar sign. -/
theorem apply_prefix_injective (pfx x y : String) (hne : x ≠ y) :
    apply_prefix pfx x ≠ apply_prefix pfx y :=
  fun h => hne (apply_prefix_inj pfx x y h)

theorem apply_prefix_injective_witness :
    apply_prefix "\\c1" "\\w" = "\\c1.w" ∧ apply_prefix "\\c1" "$w" = "$techmap\\c1.$w" ∧
      apply_prefix "\\c1" "\\w" ≠ apply_prefix "\\c1" "$w" :=
  ⟨by decide, by decide, apply_prefix_injective "\\c1" "\\w" "$w" (by decide)⟩

/-! ## The random numbers of `freduce` -/

theorem bool_xor_cancel (a b c : Bool) (h : xor a c = xor b c) : a = b := by
  cases a <;> cases b <;> cases c <;> simp_all

theorem xor_shl_testBit (k x i : Nat) :
    (x ^^^ ((x <<< k) % 2 ^ 32)).testBit i =
      xor (x.testBit i) (decide (i < 32) && (decide (k ≤ i) && x.testBit (i - k))) := by
  rw [Nat.testBit_xor, Nat.testBit_mod_two_pow, Nat.testBit_shiftLeft]

theorem xor_shr_testBit (k x i : Nat) :
    (x ^^^ (x >>> k)).testBit i = xor (x.testBit i) (x.testBit (k + i)) := by
  rw [Nat.testBit_xor, Nat.testBit_shiftRight]

theorem xor_shl_inj (k : Nat) (hk : 0 < k) (x y : Nat)
    (h : x ^^^ ((x <<< k) % 2 ^ 32) = y ^^^ ((y <<< k) % 2 ^ 32)) : x = y := by
  apply Nat.eq_of_testBit_eq
  intro i
  induction i using Nat.strong_induction_on with
  | _ i ih =>
    have h1 := congrArg (fun n => Nat.testBit n i) h
    simp only [xor_shl_testBit] at h1
    by_cases hki : k ≤ i
    · rw [ih (i - k) (by omega)] at h1
      exact bool_xor_cancel _ _ _ h1
    · simp only [hki, decide_False, Bool.false_and, Bool.and_false, Bool.xor_false] at h1
      exact h1

theorem xor_shr_inj (k : Nat) (hk : 0 < k) (x y : Nat) (hx : x < 2 ^ 32) (hy : y < 2 ^ 32)
    (h : x ^^^ (x >>> k) = y ^^^ (y >>> k)) : x = y := by
  apply Nat.eq_of_testBit_eq
  have key : ∀ d i, 32 ≤ i + d → x.testBit i = y.testBit i := by
    intro d
    induction d with
    | zero =>
      intro i hi
      have hi : 32 ≤ i := hi
      rw [Nat.testBit_lt_two_pow (lt_of_lt_of_le hx (Nat.pow_le_pow_right (by decide) hi)),
        Nat.testBit_lt_two_pow (lt_of_lt_of_le hy (Nat.pow_le_pow_right (by decide) hi))]
    | succ d ih =>
      intro i hi
      have h1 := congrArg (fun n => Nat.testBit n i) h
      simp only [xor_shr_testBit] at h1
      rw [ih (k + i) (by omega)] at h1
      exact bool_xor_cancel _ _ _ h1
  intro i
  exact key 32 i (by omega)

theorem xor_shl_lt (k x : Nat) (hx : x < 2 ^ 32) : x ^^^ ((x <<< k) % 2 ^ 32) < 2 ^ 32 :=
  Nat.xor_lt_two_pow hx (Nat.mod_lt _ (by decide))

theorem xor_shr_lt (k x : Nat) (hx : x < 2 ^ 32) : x ^^^ (x >>> k) < 2 ^ 32 := by
  apply Nat.xor_lt_two_pow hx
  rw [Nat.shiftRight_eq_div_pow]
  exact lt_of_le_of_lt (Nat.div_le_self _ _) hx

theorem xorshift32_lt (x : Nat) (hx : x < 2 ^ 32) : xorshift32 x < 2 ^ 32 := by
  unfold xorshift32
  exact xor_shl_lt 5 _ (xor_shr_lt 17 _ (xor_shl_lt 13 _ hx))

theorem xorshift32_inj (x y : Nat) (hx : x < 2 ^ 32) (hy : y < 2 ^ 32)
    (h : xorshift32 x = xorshift32 y) : x = y := by
  unfold xorshift32 at h
  have h1 := xor_shl_inj 5 (by decide) _ _ h
  have h2 := xor_shr_inj 17 (by decide) _ _ (xor_shl_lt 13 _ hx) (xor_shl_lt 13 _ hy) h1
  exact xor_shl_inj 13 (by decide) _ _ h2

theorem xorshift32_zero : xorshift32 0 = 0 := by decide

theorem xorshift32_surj (y : Nat) (hy : y < 2 ^ 32) :
    ∃ x, x < 2 ^ 32 ∧ xorshift32 x = y := by
  have himg : (Finset.range (2 ^ 32)).image xorshift32 = Finset.range (2 ^ 32) := by
    apply Finset.eq_of_subset_of_card_le
    · intro z hz
      obtain ⟨x, hx, rfl⟩ := Finset.mem_image.mp hz
      exact Finset.mem_range.mpr (xorshift32_lt x (Finset.mem_range.mp hx))
    · rw [Finset.card_image_of_injOn]
      intro a ha b hb hab
      exact xorshift32_inj a b (Finset.mem_range.mp (Finset.mem_coe.mp ha))
        (Finset.mem_range.mp (Finset.mem_coe.mp hb)) hab
  have hmem : y ∈ (Finset.range (2 ^ 32)).image xorshift32 := by
    rw [himg]
    exact Finset.mem_range.mpr hy
  obtain ⟨x, hx, hxy⟩ := Finset.mem_image.mp hmem
  exact ⟨x, Finset.mem_range.mp hx, hxy⟩

theorem xorshift32_steps_ne_zero (n : Nat) :
    ∀ x, x < 2 ^ 32 → x ≠ 0 → xorshift32_steps n x < 2 ^ 32 ∧ xorshift32_steps n x ≠ 0 := by
  induction n with
  | zero => intro x hx h0; exact ⟨hx, h0⟩
  | succ n ih =>
    intro x hx h0
    rw [xorshift32_steps]
    apply ih _ (xorshift32_lt x hx)
    intro h
    exact h0 (xorshift32_inj x 0 hx (by decide) (h.trans xorshift32_zero.symm))

/-- Claim C40: the step of `xorshift32` maps words of 32 bits to words of 32
bits, is injective and surjective on them (a bijection), and fixes 0; so from
the seed 123456789 the state of the generator is not 0 after any number of
steps.  After the three calls of the constructor the state is 1250077441. -/
theorem xorshift32_bijective :
    (∀ x, x < 2 ^ 32 → xorshift32 x < 2 ^ 32) ∧
      (∀ x y, x < 2 ^ 32 → y < 2 ^ 32 → xorshift32 x = xorshift32 y → x = y) ∧
      (∀ y, y < 2 ^ 32 → ∃ x, x < 2 ^ 32 ∧ xorshift32 x = y) ∧
      xorshift32 0 = 0 ∧
      (∀ n, xorshift32_steps n xorshift32_seed ≠ 0) ∧
      xorshift32_steps 3 xorshift32_seed = 1250077441 :=
  ⟨xorshift32_lt, xorshift32_inj, xorshift32_surj, xorshift32_zero,
    fun n => (xorshift32_steps_ne_zero n xorshift32_seed (by decide) (by decide)).2,
    by decide⟩


/-! ## Reads past the end of the chunk vector -/

/-- Claim C33: in `sort_and_unify`, for a signal whose wires are distinct
objects, the read of `chunks[i]` by `width -= chunks[i].width` after a duplicate
has been erased is past the end of the chunk vector (the result `none`) exactly
when the last two sorted bits are duplicates of each other: then the erased
chunk was the last one and `i` equals `chunks.size()`.  In every other case the
read is within the vector. -/
theorem sort_and_unify_read (s : SigSpec) (hw : s.wires_by_id) :
    s.sort_and_unify = none ↔
      ∃ pre x, std_sort SigChunk.compare s.expand.chunks = pre ++ [x, x] := by
  have hperm := std_sort_perm SigChunk.compare s.bits
  have hd := dup_iff_eq s hw
  have hmem : ∀ a ∈ std_sort SigChunk.compare s.bits, a ∈ s.bits := fun a ha => hperm.subset ha
  unfold SigSpec.sort_and_unify
  rw [expand_eq_bits]
  simp only []
  cases hs : std_sort SigChunk.compare s.bits with
  | nil =>
    simp only []
    constructor
    · intro h; cases h
    · rintro ⟨pre, x, e⟩
      have := congrArg List.length e
      simp at this
  | cons c cs =>
    rw [hs] at hmem
    simp only [Option.map_eq_none']
    exact unify_none s.bits hd cs c s.width hmem

theorem sort_and_unify_read_witness :
    exDup.sort_and_unify = none ∧
      std_sort SigChunk.compare exDup.expand.chunks =
        [SigChunk.ofWire exW 1 0] ++ [SigChunk.ofWire exW 1 1, SigChunk.ofWire exW 1 1] :=
  ⟨(sort_and_unify_read exDup (by unfold SigSpec.wires_by_id; decide)).mpr
      ⟨[SigChunk.ofWire exW 1 0], SigChunk.ofWire exW 1 1, by decide⟩,
    by decide⟩

/-- Claim C34: in `remove2`, where the receiver is one wire-backed chunk of a
width above zero and the pattern is that same chunk, `remove` erases the chunk,
`i == chunks.size()` leaves the inner loop, and `pos += chunks[i].width` reads
`chunks[0]` of the vector that is now empty: the flag of the result is false.
The receiver after the call is the empty signal. -/
theorem remove2_read (w : Wire) (n o : Nat) (hn : 0 < n) :
    (SigSpec.ofChunk (SigChunk.ofWire w n o)).remove2 (SigSpec.ofChunk (SigChunk.ofWire w n o)) =
      some ({ chunks := [], width := 0 }, false) := by
  unfold SigSpec.remove2
  rw [remove2_loop]
  have hf : remove2_find (SigChunk.ofWire w n o) [SigChunk.ofWire w n o] = some (o, o + n) := by
    simp [remove2_find, SigChunk.ofWire, hn]
  have hr : (SigSpec.ofChunk (SigChunk.ofWire w n o)).remove (0 + o - o) (o + n - o) =
      { chunks := [], width := 0 } := by
    have e1 : 0 + o - o = 0 := by omega
    have e2 : o + n - o = n := by omega
    rw [e1, e2]
    simp [SigSpec.remove, SigSpec.ofChunk, SigChunk.ofWire, remove_loop, slice_off_len,
      SigChunk.extract, hn]
  simp only [SigSpec.ofChunk, List.get?_cons_zero] at hr ⊢
  have hw : (SigChunk.ofWire w n o).wire ≠ none := by simp [SigChunk.ofWire]
  rw [if_pos hw]
  simp only [hf]
  have ho : (SigChunk.ofWire w n o).offset = o := rfl
  rw [ho, hr]
  rfl

theorem remove2_read_witness :
    exLo.remove2 exLo = some ({ chunks := [], width := 0 }, false) ∧
      (exRem.remove2 exRemPat).map Prod.snd = some true :=
  ⟨remove2_read exW 2 0 (by decide), by decide⟩

/-! ## Termination of `toproot_helper` -/

/-- The number of elements of `L` outside `S` falls when an element of `L`
outside `S` is added to `S`. -/
theorem filter_not_mem_lt (x : SigChunk) (S : List SigChunk) (hx : x ∉ S) :
    ∀ (L : List SigChunk),
      (L.filter (fun b => decide (b ∉ S ++ [x]))).length ≤
          (L.filter (fun b => decide (b ∉ S))).length ∧
        (x ∈ L → (L.filter (fun b => decide (b ∉ S ++ [x]))).length <
          (L.filter (fun b => decide (b ∉ S))).length) := by
  intro L
  induction L with
  | nil => exact ⟨Nat.le_refl _, fun h => absurd h (List.not_mem_nil x)⟩
  | cons a L ih =>
    by_cases ha : a ∈ S
    · have h1 : a ∈ S ++ [x] := List.mem_append_left _ ha
      have hax : a ≠ x := fun e => hx (e ▸ ha)
      simp only [List.filter_cons, ha, h1, not_true_eq_false, decide_False, Bool.false_eq_true,
        if_false]
      refine ⟨ih.1, fun h => ih.2 ?_⟩
      rcases List.mem_cons.mp h with e | h
      · exact absurd e.symm hax
      · exact h
    · by_cases hax : a = x
      · subst hax
        have h1 : a ∈ S ++ [a] := List.mem_append_right _ (List.mem_singleton_self _)
        simp only [List.filter_cons, ha, h1, not_true_eq_false, not_false_eq_true, decide_False,
          decide_True, Bool.false_eq_true, if_false, if_true, List.length_cons]
        exact ⟨by omega, fun _ => by omega⟩
      · have h1 : a ∉ S ++ [x] := by
          intro h
          rcases List.mem_append.mp h with h | h
          · exact ha h
          · exact hax (List.mem_singleton.mp h)
        simp only [List.filter_cons, ha, h1, not_false_eq_true, decide_True, if_true,
          List.length_cons]
        refine ⟨by omega, fun h => ?_⟩
        rcases List.mem_cons.mp h with e | h
        · exact absurd e.symm hax
        · have := ih.2 h
          omega

/-- The call `toproot_helper` returns when the bound on the nested calls is
above the number of bits of `U` that are not in the stoplist, whatever the
fan-in relation over `U` is. -/
theorem toproot_helper_fuel (find : SigSpec → List SigSpec) (U : List SigChunk)
    (hfind : ∀ x n, n ∈ find x → ∃ w o, n = bit_sig w o ∧ SigChunk.ofWire w 1 o ∈ U) :
    ∀ (fuel : Nat) (w : Wire) (o : Nat) (stop D : SigSpec), SigChunk.ofWire w 1 o ∈ U →
      (U.filter (fun b => decide (b ∉ stop.bits))).length < fuel →
      ∃ b D1, toproot_helper find fuel (bit_sig w o) stop D = some (b, D1) := by
  intro fuel
  induction fuel with
  | zero => intro w o stop D _ h; omega
  | succ fuel ih =>
    intro w o stop D hU hr
    rw [toproot_helper]
    obtain ⟨e1, x1, y1⟩ := extract_pattern_bit stop w o
    obtain ⟨e2, x2, _⟩ := extract_pattern_bit D w o
    rw [x1]
    simp only []
    by_cases c1 : e1.width ≠ 0
    · rw [if_pos c1]; exact ⟨false, D, rfl⟩
    · rw [if_neg c1, x2]
      simp only []
      by_cases c2 : e2.width ≠ 0
      · rw [if_pos c2]; exact ⟨true, D, rfl⟩
      · rw [if_neg c2]
        have hns : SigChunk.ofWire w 1 o ∉ stop.bits := fun h => c1 (y1.mpr h)
        obtain ⟨b, D1, h1⟩ := toproot_next_total
          (fun it d => toproot_helper find fuel it (stop.append (bit_sig w o)) d)
          (find (bit_sig w o))
          (by
            intro it hit E
            obtain ⟨w2, o2, rfl, hU2⟩ := hfind _ it hit
            apply ih w2 o2 _ E hU2
            rw [bits_append_bit]
            have := (filter_not_mem_lt _ _ hns U).2 hU
            omega)
          D
        rw [h1]
        cases b with
        | false => exact ⟨false, D1, rfl⟩
        | true => exact ⟨true, _, rfl⟩

theorem exFindLoop_bits (x n : SigSpec) (h : n ∈ exFindLoop x) :
    ∃ w o, n = bit_sig w o ∧ SigChunk.ofWire w 1 o ∈
      [SigChunk.ofWire exW 1 0, SigChunk.ofWire exW 1 1, SigChunk.ofWire exW 1 2,
        SigChunk.ofWire exW 1 3] := by
  unfold exFindLoop exFind at h
  split_ifs at h with h0 h1 h2 h3
  · exact ⟨exW, 3, List.mem_singleton.mp h, by decide⟩
  · simp only [List.mem_cons, List.mem_singleton, List.not_mem_nil, or_false] at h
    rcases h with h | h
    · exact ⟨exW, 1, h, by decide⟩
    · exact ⟨exW, 2, h, by decide⟩
  · exact ⟨exW, 1, List.mem_singleton.mp h, by decide⟩
  · exact ⟨exW, 0, List.mem_singleton.mp h, by decide⟩
  · exact absurd h (List.not_mem_nil n)

/-- Claim C39: let every source that `source_signals` yields be a single bit
of a wire out of a finite list `U` of bits, loops in the relation allowed.  Then
`toproot_helper` returns for every cursor of `U`, every stoplist and every
donelist, with no more nested calls than the number of distinct bits of `U`
plus one.  A call whose cursor is in the stoplist returns at once, so a nested
call is only made for a cursor that is not in the stoplist, and the stoplist
handed down is the former one with that bit appended. -/
theorem toproot_helper_terminates (find : SigSpec → List SigSpec) (U : List SigChunk)
    (hfind : ∀ x n, n ∈ find x → ∃ w o, n = bit_sig w o ∧ SigChunk.ofWire w 1 o ∈ U)
    (w : Wire) (o : Nat) (hc : SigChunk.ofWire w 1 o ∈ U) (stop D : SigSpec) :
    (∃ b D1, toproot_helper find (U.dedup.length + 1) (bit_sig w o) stop D = some (b, D1)) ∧
      (SigChunk.ofWire w 1 o ∈ stop.bits →
        ∀ fuel, toproot_helper find (fuel + 1) (bit_sig w o) stop D = some (false, D)) ∧
      (stop.append (bit_sig w o)).bits = stop.bits ++ [SigChunk.ofWire w 1 o] := by
  refine ⟨?_, ?_, bits_append_bit stop w o⟩
  · apply toproot_helper_fuel find U.dedup _ (U.dedup.length + 1) w o stop D
      (List.mem_dedup.mpr hc)
    · exact Nat.lt_succ_of_le (List.length_filter_le _ _)
    · intro x n hn
      obtain ⟨w2, o2, e, hU⟩ := hfind x n hn
      exact ⟨w2, o2, e, List.mem_dedup.mpr hU⟩
  · intro hs fuel
    rw [toproot_helper]
    obtain ⟨e1, x1, y1⟩ := extract_pattern_bit stop w o
    rw [x1]
    simp only []
    rw [if_pos (y1.mpr hs)]

theorem toproot_helper_terminates_witness :
    (∃ b D1, toproot_helper exFindLoop 5 (bit_sig exW 3) SigSpec.empty SigSpec.empty =
      some (b, D1)) ∧
    toproot_helper exFindLoop 5 (bit_sig exW 3) SigSpec.empty SigSpec.empty =
      some (false, SigSpec.empty) ∧
    toproot_helper exFindLoop 3 (bit_sig exW 3) SigSpec.empty SigSpec.empty = none :=
  ⟨(toproot_helper_terminates exFindLoop
      [SigChunk.ofWire exW 1 0, SigChunk.ofWire exW 1 1, SigChunk.ofWire exW 1 2,
        SigChunk.ofWire exW 1 3] exFindLoop_bits exW 3 (by decide) SigSpec.empty
      SigSpec.empty).1,
    by decide, by decide⟩

/-! ## Distinct names of the EDIF backend -/

theorem mem_set_insert (x a : String) (s : List String) :
    x ∈ set_insert a s ↔ x = a ∨ x ∈ s := by
  unfold set_insert
  split_ifs with h
  · constructor
    · exact Or.inr
    · rintro (e | e)
      · rw [e]; exact h
      · exact e
  · exact List.mem_cons

theorem edif_init_inv : EdifNames.init.inv := by
  refine ⟨?_, ?_, ?_, ?_, ?_⟩
  · intro k v h; cases h
  · intro k1 k2 v h; cases h
  · intro g h; cases h
  · intro u h; cases h
  · intro u h; cases h

theorem edif_inv_injective (st : EdifNames) (h : st.inv) (x y : String)
    (hx : st.called x) (hy : st.called y) (hne : x ≠ y) : st.assigned x ≠ st.assigned y := by
  obtain ⟨i1, i2, i3, _, i5⟩ := h
  unfold EdifNames.assigned
  rcases hx with hx | hx <;> rcases hy with hy | hy
  · rw [i5 x hx, i5 y hy]; exact hne
  · obtain ⟨g, hg⟩ := Option.isSome_iff_exists.mp hy
    rw [i5 x hx, hg]
    simp only []
    intro e
    exact i3 g (i1 y g hg) (e ▸ hx)
  · obtain ⟨g, hg⟩ := Option.isSome_iff_exists.mp hx
    rw [i5 y hy, hg]
    simp only []
    intro e
    exact i3 g (i1 x g hg) (e ▸ hy)
  · obtain ⟨g, hg⟩ := Option.isSome_iff_exists.mp hx
    obtain ⟨g2, hg2⟩ := Option.isSome_iff_exists.mp hy
    rw [hg, hg2]
    simp only []
    intro e
    subst e
    exact hne (i2 x y g hg hg2)

/-- The part of `operator()` from `do_rename` on, for an identifier that is
new to the object. -/
theorem edif_do_rename_step (st : EdifNames) (id : String) (h : st.inv)
    (hl : st.name_map.lookup id = none) (hu : id ∉ st.used_names) :
    ∃ r st1, st.do_rename id = some (r, st1) ∧ st1.inv ∧ st1.called id ∧
      (∀ x, st.called x → st1.called x ∧ st1.assigned x = st.assigned x) ∧
      r = "(rename " ++ st1.assigned id ++ " \"" ++ id ++ "\")" := by
  obtain ⟨i1, i2, i3, i4, i5⟩ := h
  unfold EdifNames.do_rename
  cases hg : edif_gen_loop st.generated_names st.used_names
      (st.generated_names.length + st.used_names.length + 1) st.counter with
  | none => exact absurd hg (edif_gen_loop_total _ _ _)
  | some p =>
    obtain ⟨g, c1⟩ := p
    obtain ⟨i, _, _, hgG, hgU, _⟩ := edif_gen_loop_some _ _ _ _ g c1 hg
    have hself : (map_set id g st.name_map).lookup id = some g := lookup_map_set_self _ _ _
    have hother : ∀ k, k ≠ id → (map_set id g st.name_map).lookup k = st.name_map.lookup k :=
      fun k hk => lookup_map_set_ne _ _ _ k hk
    refine ⟨_, _, rfl, ⟨?_, ?_, ?_, i4, ?_⟩, Or.inr (by simp only [hself]; rfl), ?_, ?_⟩
    · intro k v hk
      simp only [] at hk ⊢
      rw [mem_set_insert]
      by_cases e : k = id
      · rw [e, hself] at hk
        exact Or.inl (Option.some.inj hk).symm
      · rw [hother k e] at hk
        exact Or.inr (i1 k v hk)
    · intro k1 k2 v h1 h2
      simp only [] at h1 h2
      by_cases e1 : k1 = id <;> by_cases e2 : k2 = id
      · rw [e1, e2]
      · rw [e1, hself] at h1
        rw [hother k2 e2] at h2
        rw [← Option.some.inj h1] at h2
        exact absurd (i1 k2 g h2) hgG
      · rw [e2, hself] at h2
        rw [hother k1 e1] at h1
        rw [← Option.some.inj h2] at h1
        exact absurd (i1 k1 g h1) hgG
      · rw [hother k1 e1] at h1
        rw [hother k2 e2] at h2
        exact i2 k1 k2 v h1 h2
    · intro x hx
      simp only [] at hx ⊢
      rcases (mem_set_insert x g _).mp hx with e | e
      · rw [e]; exact hgU
      · exact i3 x e
    · intro u hu2
      simp only [] at hu2 ⊢
      have e : u ≠ id := fun e => hu (e ▸ hu2)
      rw [hother u e]
      exact i5 u hu2
    · intro x hx
      have e : x ≠ id := by
        intro e
        subst e
        rcases hx with hx | hx
        · exact hu hx
        · rw [hl] at hx; cases hx
      constructor
      · rcases hx with hx | hx
        · exact Or.inl hx
        · right
          simp only []
          rw [hother x e]
          exact hx
      · unfold EdifNames.assigned
        simp only []
        rw [hother x e]
    · unfold EdifNames.assigned
      simp only [hself]

/-- One call `edif_names(id)` in a state that the object reaches: the call
returns, the state afterwards is again such a state, the identifier is known
afterwards, and no identifier known before changes its name. -/
theorem edif_call_step (st : EdifNames) (id : String) (h : st.inv) :
    ∃ r st1, st.call id = some (r, st1) ∧ st1.inv ∧ st1.called id ∧
      (∀ x, st.called x → st1.called x ∧ st1.assigned x = st.assigned x) ∧
      (r = st1.assigned id ∨ r = "(rename " ++ st1.assigned id ++ " \"" ++ id ++ "\")") := by
  have hren : st.name_map.lookup id = none → id ∉ st.used_names →
      ∃ r st1, st.do_rename id = some (r, st1) ∧ st1.inv ∧ st1.called id ∧
        (∀ x, st.called x → st1.called x ∧ st1.assigned x = st.assigned x) ∧
        (r = st1.assigned id ∨ r = "(rename " ++ st1.assigned id ++ " \"" ++ id ++ "\")") := by
    intro hl hu
    obtain ⟨r, st1, h1, h2, h3, h4, h5⟩ := edif_do_rename_step st id h hl hu
    exact ⟨r, st1, h1, h2, h3, h4, Or.inr h5⟩
  obtain ⟨i1, i2, i3, i4, i5⟩ := h
  unfold EdifNames.call
  cases hl : st.name_map.lookup id with
  | some name =>
    refine ⟨name, st, rfl, ⟨i1, i2, i3, i4, i5⟩, Or.inr (by rw [hl]; rfl),
      fun x hx => ⟨hx, rfl⟩, Or.inl ?_⟩
    unfold EdifNames.assigned
    rw [hl]
  | none =>
    simp only []
    by_cases c1 : id ∈ st.generated_names
    · rw [if_pos c1]
      exact hren hl (i3 id c1)
    · rw [if_neg c1]
      by_cases c2 : id = "GND" ∨ id = "VCC"
      · rw [if_pos c2]
        apply hren hl
        intro hu
        have := i4 id hu
        rcases c2 with c2 | c2
        · exact this.1 c2
        · exact this.2.1 c2
      · rw [if_neg c2]
        by_cases c3 : edif_check_loop id.length id.data 0 = true
        · rw [if_pos c3]
          refine ⟨id, _, rfl, ⟨i1, i2, ?_, ?_, ?_⟩, Or.inl ?_, ?_, Or.inl ?_⟩
          · intro g hg hgu
            simp only [] at hg hgu
            rcases (mem_set_insert g id _).mp hgu with e | e
            · exact c1 (e ▸ hg)
            · exact i3 g hg e
          · intro u hu
            simp only [] at hu
            rcases (mem_set_insert u id _).mp hu with e | e
            · rw [e]
              exact ⟨fun e1 => c2 (Or.inl e1), fun e1 => c2 (Or.inr e1), c3⟩
            · exact i4 u e
          · intro u hu
            simp only [] at hu ⊢
            rcases (mem_set_insert u id _).mp hu with e | e
            · rw [e]; exact hl
            · exact i5 u e
          · exact (mem_set_insert id id _).mpr (Or.inl rfl)
          · intro x hx
            refine ⟨?_, rfl⟩
            rcases hx with hx | hx
            · exact Or.inl ((mem_set_insert x id _).mpr (Or.inr hx))
            · exact Or.inr hx
          · unfold EdifNames.assigned
            simp only [hl]
        · rw [if_neg c3]
          apply hren hl
          intro hu
          exact c3 (i4 id hu).2.2

theorem edif_calls_spec : ∀ (ids : List String) (st : EdifNames), st.inv →
    ∃ rs st2, st.calls ids = some (rs, st2) ∧ st2.inv ∧
      (∀ x, st.called x → st2.called x ∧ st2.assigned x = st.assigned x) ∧
      (∀ x, x ∈ ids → st2.called x) ∧
      List.Forall₂ (fun id r => r = st2.assigned id ∨
        r = "(rename " ++ st2.assigned id ++ " \"" ++ id ++ "\")") ids rs := by
  intro ids
  induction ids with
  | nil =>
    intro st h
    exact ⟨[], st, rfl, h, fun x hx => ⟨hx, rfl⟩, fun x hx => absurd hx (List.not_mem_nil x),
      List.Forall₂.nil⟩
  | cons id ids ih =>
    intro st h
    obtain ⟨r, st1, h1, h2, h3, h4, h5⟩ := edif_call_step st id h
    obtain ⟨rs, st2, k1, k2, k3, k4, k5⟩ := ih st1 h2
    refine ⟨r :: rs, st2, ?_, k2, ?_, ?_, ?_⟩
    · rw [EdifNames.calls, h1]
      simp only [k1]
    · intro x hx
      exact ⟨(k3 x (h4 x hx).1).1, ((k3 x (h4 x hx).1).2).trans (h4 x hx).2⟩
    · intro x hx
      rcases List.mem_cons.mp hx with e | e
      · rw [e]; exact (k3 id h3).1
      · exact k4 x e
    · refine List.Forall₂.cons ?_ k5
      rw [(k3 id h3).2]
      exact h5

theorem edif_calls_append : ∀ (pre post : List String) (st : EdifNames) (rs : List String)
    (st2 : EdifNames), st.calls (pre ++ post) = some (rs, st2) →
    ∃ rs1 st1 rs2, st.calls pre = some (rs1, st1) ∧ st1.calls post = some (rs2, st2) := by
  intro pre
  induction pre with
  | nil =>
    intro post st rs st2 h
    exact ⟨[], st, rs, rfl, h⟩
  | cons id pre ih =>
    intro post st rs st2 h
    rw [List.cons_append, EdifNames.calls] at h
    cases h1 : st.call id with
    | none => rw [h1] at h; cases h
    | some p =>
      obtain ⟨r, sta⟩ := p
      rw [h1] at h
      simp only [] at h
      cases h2 : sta.calls (pre ++ post) with
      | none => rw [h2] at h; cases h
      | some q =>
        obtain ⟨rs', stb⟩ := q
        rw [h2] at h
        simp only [Option.some.injEq, Prod.mk.injEq] at h
        obtain ⟨rs1, st1, rs2, k1, k2⟩ := ih post sta rs' stb h2
        refine ⟨r :: rs1, st1, rs2, ?_, ?_⟩
        · rw [EdifNames.calls, h1]
          simp only [k1]
        · rw [k2, h.2]

/-- Claim C36: within one `EdifNames` object, a sequence of calls with the
identifiers `ids` returns for every call; every string returned is the EDIF
name of the identifier, or the text `(rename name "id")` with that name (at the
call that renames the identifier); two different identifiers of the sequence
never have the same EDIF name, be they passed through or given a generated
name; and the name that an identifier has after any part of the calls is the
name it has at the end, so a repeated call yields the same name. -/
theorem edif_names_injective (ids : List String) :
    ∃ rs st, EdifNames.init.calls ids = some (rs, st) ∧
      List.Forall₂ (fun id r => r = st.assigned id ∨
        r = "(rename " ++ st.assigned id ++ " \"" ++ id ++ "\")") ids rs ∧
      (∀ x, x ∈ ids → ∀ y, y ∈ ids → x ≠ y → st.assigned x ≠ st.assigned y) ∧
      (∀ pre post, ids = pre ++ post →
        ∃ rs1 st1, EdifNames.init.calls pre = some (rs1, st1) ∧
          ∀ x, x ∈ pre → st1.assigned x = st.assigned x) := by
  obtain ⟨rs, st, h1, h2, _, h4, h5⟩ := edif_calls_spec ids EdifNames.init edif_init_inv
  refine ⟨rs, st, h1, h5, ?_, ?_⟩
  · intro x hx y hy hne
    exact edif_inv_injective st h2 x y (h4 x hx) (h4 y hy) hne
  · intro pre post e
    subst e
    obtain ⟨rs1, st1, rs2, k1, k2⟩ := edif_calls_append pre post EdifNames.init rs st h1
    obtain ⟨rs1', st1', m1, m2, _, m4, _⟩ := edif_calls_spec pre EdifNames.init edif_init_inv
    have e2 : st1' = st1 := by
      rw [k1] at m1
      exact (Prod.mk.inj (Option.some.inj m1)).2.symm
    rw [e2] at m2 m4
    obtain ⟨rs2', st2', n1, _, n3, _, _⟩ := edif_calls_spec post st1 m2
    have e3 : st2' = st := by
      rw [k2] at n1
      exact (Prod.mk.inj (Option.some.inj n1)).2.symm
    rw [e3] at n3
    exact ⟨rs1, st1, k1, fun x hx => (n3 x (m4 x hx)).2.symm⟩

theorem edif_names_injective_witness :
    EdifNames.init.calls ["id00001", "a$", "b$", "a$", "id00002"] =
      some (["id00001", "(rename id00002 \"a$\")", "(rename id00003 \"b$\")", "id00002",
          "(rename id00004 \"id00002\")"],
        { counter := 5, generated_names := ["id00004", "id00003", "id00002"],
          used_names := ["id00001"],
          name_map := [("a$", "id00002"), ("b$", "id00003"), ("id00002", "id00004")] }) ∧
    ∃ rs st, EdifNames.init.calls ["id00001", "a$", "b$", "a$", "id00002"] = some (rs, st) ∧
      ∀ x, x ∈ ["id00001", "a$", "b$", "a$", "id00002"] →
        ∀ y, y ∈ ["id00001", "a$", "b$", "a$", "id00002"] →
          x ≠ y → st.assigned x ≠ st.assigned y :=
  ⟨by decide,
    (edif_names_injective ["id00001", "a$", "b$", "a$", "id00002"]).imp
      (fun _ h => h.imp (fun _ h => ⟨h.1, h.2.2.1⟩))⟩


/-! ## The constant of a signal -/

theorem optimize_erase_filter (cs : List SigChunk) (h : ∀ d ∈ cs, d.is_auto = false) :
    optimize_erase cs = cs.filter (fun c => decide (c.width ≠ 0)) := by
  induction cs with
  | nil => rfl
  | cons c cs ih =>
    have hc := h c (List.mem_cons_self _ _)
    have ih2 := ih (fun d hd => h d (List.mem_cons_of_mem _ hd))
    rw [optimize_erase, hc]
    simp only [Bool.false_eq_true, if_false]
    by_cases hw : c.width = 0
    · rw [if_pos hw, ih2]
      simp [List.filter_cons, hw]
    · rw [if_neg hw, ih2]
      simp [List.filter_cons, hw]

theorem is_auto_const (c : SigChunk) (h : c.wire = none) : c.is_auto = false := by
  unfold SigChunk.is_auto
  rw [h]

/-- The second loop of `optimize` merges constants that all carry a string, or
all carry none, into one chunk with their bits in order. -/
theorem optimize_merge_const : ∀ (rest : List SigChunk) (ch1 : SigChunk), ch1.wire = none →
    (∀ d ∈ rest, d.wire = none ∧ (ch1.data.str = "" ↔ d.data.str = "")) →
    ∃ c, optimize_merge ch1 rest = [c] ∧
      c.data.bits = ch1.data.bits ++ rest.flatMap (fun d => d.data.bits) := by
  intro rest
  induction rest with
  | nil =>
    intro ch1 _ _
    exact ⟨ch1, rfl, by simp⟩
  | cons ch2 rest ih =>
    intro ch1 h1 hr
    obtain ⟨h2, ht⟩ := hr ch2 (List.mem_cons_self _ _)
    rw [optimize_merge, is_auto_const ch1 h1, is_auto_const ch2 h2]
    simp only [Bool.false_eq_true, if_false]
    rw [if_pos (h1.trans h2.symm), if_neg (fun h => h.1 h1)]
    have hdec : decide (ch1.data.str = "") = decide (ch2.data.str = "") := by
      by_cases e : ch1.data.str = ""
      · simp [e, ht.mp e]
      · have e2 : ¬ ch2.data.str = "" := fun e2 => e (ht.mpr e2)
        simp [e, e2]
    rw [if_pos ⟨h1, hdec⟩]
    obtain ⟨c, hc1, hc2⟩ := ih
      { ch1 with
        data := ⟨ch1.data.bits ++ ch2.data.bits, ch2.data.str ++ ch1.data.str⟩,
        width := ch1.width + ch2.width } h1
      (by
        intro d hd
        obtain ⟨hd1, hd2⟩ := hr d (List.mem_cons_of_mem _ hd)
        refine ⟨hd1, ?_⟩
        simp only []
        rw [← hd2]
        constructor
        · intro e
          have hd := congrArg String.data e
          rw [String.data_append] at hd
          exact String.ext (List.append_eq_nil.mp hd).2
        · intro e
          rw [e, ht.mp e]
          rfl)
    refine ⟨c, hc1, ?_⟩
    rw [hc2]
    simp

theorem const_chunk_bits (c : SigChunk) (hc : c.check = true)
    (hf : (!(decide (c.width > 0) && c.wire.isSome)) = true) :
    c.data.bits.length = c.width ∧
      (List.range c.width).map (SigChunk.bit c) =
        c.data.bits.map (fun b => SigChunk.ofConst ⟨[b], ""⟩) := by
  unfold SigChunk.check at hc
  cases hw : c.wire with
  | none =>
    rw [hw] at hc
    simp only [Bool.and_eq_true, decide_eq_true_eq] at hc
    refine ⟨hc.1.2, ?_⟩
    apply List.ext_getElem
    · simp [hc.1.2]
    · intro j h1 h2
      simp only [List.length_map, List.length_range] at h1
      have h3 : j < c.data.bits.length := by rw [hc.1.2]; exact h1
      simp [SigChunk.bit, SigChunk.extract, hw, SigChunk.ofConst, List.range_succ,
        List.getElem?_eq_getElem h3]
  | some w =>
    rw [hw] at hc hf
    simp only [Bool.and_eq_true, decide_eq_true_eq] at hc
    have h0 : c.width = 0 := by
      simp at hf
      exact hf
    rw [h0, List.length_eq_zero.mp hc.1.2]
    exact ⟨rfl, rfl⟩

theorem flatMap_filter_width (cs : List SigChunk)
    (h : ∀ c ∈ cs, c.data.bits.length = c.width) :
    (cs.filter (fun c => decide (c.width ≠ 0))).flatMap (fun c => c.data.bits) =
      cs.flatMap (fun c => c.data.bits) := by
  induction cs with
  | nil => rfl
  | cons c cs ih =>
    have ih2 := ih (fun d hd => h d (List.mem_cons_of_mem _ hd))
    have hc := h c (List.mem_cons_self _ _)
    by_cases hw : c.width = 0
    · have e : c.data.bits = [] := List.length_eq_zero.mp (hc.trans hw)
      rw [List.filter_cons_of_neg (by simp [hw]), List.flatMap_cons, e, List.nil_append, ih2]
    · rw [List.filter_cons_of_pos (by simp [hw]), List.flatMap_cons, List.flatMap_cons, ih2]

theorem flatMap_bits_length (cs : List SigChunk)
    (h : ∀ c ∈ cs, c.data.bits.length = c.width) :
    (cs.flatMap (fun c => c.data.bits)).length = wsum cs := by
  induction cs with
  | nil => rfl
  | cons c cs ih =>
    have ih2 := ih (fun d hd => h d (List.mem_cons_of_mem _ hd))
    have hc := h c (List.mem_cons_self _ _)
    simp only [List.flatMap_cons, List.length_append, ih2, hc, wsum, List.map_cons, List.sum_cons]

theorem lbits_const (cs : List SigChunk)
    (h : ∀ c ∈ cs, (List.range c.width).map (SigChunk.bit c) =
      c.data.bits.map (fun b => SigChunk.ofConst ⟨[b], ""⟩)) :
    lbits SigChunk.bit cs =
      (cs.flatMap (fun c => c.data.bits)).map (fun b => SigChunk.ofConst ⟨[b], ""⟩) := by
  induction cs with
  | nil => rfl
  | cons c cs ih =>
    have ih2 := ih (fun d hd => h d (List.mem_cons_of_mem _ hd))
    have hc := h c (List.mem_cons_self _ _)
    rw [lbits_cons, ih2, hc]
    simp

/-- Claim C32, the part that holds: for a signal that passes `check`, is fully
constant, has no chunk of an `auto_width` wire, and whose literal chunks of a
width above zero either all carry a string or all carry none, `as_const`
returns a constant of `s.width` bits, the bits of the chunks of `s` in order.
For a signal that mixes a string-tagged and an untagged literal chunk,
`optimize` keeps two chunks and `as_const` returns the bits of `chunks[0]`
only: for `Const("a")` followed by the bit `S1`, a signal of 9 bits, these are
the 8 bits of `Const("a")`. -/
theorem as_const_spec (s : SigSpec) (hcheck : s.check = true)
    (hconst : s.is_fully_const = true) (hauto : ∀ c ∈ s.chunks, c.is_auto = false)
    (htag : ∀ c ∈ s.chunks, ∀ d ∈ s.chunks, c.width ≠ 0 → d.width ≠ 0 →
      (c.data.str = "" ↔ d.data.str = "")) :
    (∃ k, s.as_const = some k ∧ k.bits.length = s.width ∧
      k.bits = s.chunks.flatMap (fun c => c.data.bits) ∧
      s.bits = k.bits.map (fun b => SigChunk.ofConst ⟨[b], ""⟩)) ∧
    (exMixed.check = true ∧ exMixed.is_fully_const = true ∧
      exMixed.as_const = some (Const.ofString "a") ∧
      (Const.ofString "a").bits.length = 8 ∧ exMixed.width = 9) := by
  refine ⟨?_, by decide⟩
  unfold SigSpec.check at hcheck
  simp only [Bool.and_eq_true, List.all_eq_true, decide_eq_true_eq] at hcheck
  obtain ⟨hck, hsum⟩ := hcheck
  unfold SigSpec.is_fully_const at hconst
  rw [List.all_eq_true] at hconst
  have hb : ∀ c ∈ s.chunks, c.data.bits.length = c.width :=
    fun c hc => (const_chunk_bits c (hck c hc) (hconst c hc)).1
  have hbits : s.bits =
      (s.chunks.flatMap (fun c => c.data.bits)).map (fun b => SigChunk.ofConst ⟨[b], ""⟩) :=
    lbits_const s.chunks (fun c hc => (const_chunk_bits c (hck c hc) (hconst c hc)).2)
  have hlen : (s.chunks.flatMap (fun c => c.data.bits)).length = s.width := by
    rw [flatMap_bits_length s.chunks hb, ← hsum]
    rfl
  have hfc : s.is_fully_const = true := by
    unfold SigSpec.is_fully_const
    rw [List.all_eq_true]
    exact hconst
  have hopt : s.optimize.chunks =
      optimize_chunks s.chunks := rfl
  unfold SigSpec.as_const
  rw [if_pos hfc]
  simp only []
  have hwd : s.optimize.width = s.width := rfl
  rw [hwd]
  by_cases hw0 : s.width = 0
  · rw [if_neg (fun h => h hw0)]
    refine ⟨Const.empty, rfl, by rw [hw0]; rfl, ?_, ?_⟩
    · rw [hw0] at hlen
      rw [List.length_eq_zero.mp hlen]
      rfl
    · rw [hbits]
      rw [hw0] at hlen
      rw [List.length_eq_zero.mp hlen]
      rfl
  · rw [if_pos hw0, hopt]
    unfold optimize_chunks
    rw [optimize_erase_filter s.chunks hauto]
    have hF := flatMap_filter_width s.chunks hb
    cases hfl : s.chunks.filter (fun c => decide (c.width ≠ 0)) with
    | nil =>
      rw [hfl] at hF
      rw [← hF] at hlen
      exact absurd hlen.symm hw0
    | cons c rest =>
      have hmem : ∀ d, d ∈ c :: rest → d ∈ s.chunks ∧ d.width ≠ 0 := by
        intro d hd
        rw [← hfl] at hd
        have := List.mem_filter.mp hd
        exact ⟨this.1, by simpa using this.2⟩
      have hnone : ∀ d, d ∈ c :: rest → d.wire = none := by
        intro d hd
        obtain ⟨h1, h2⟩ := hmem d hd
        have h3 := hconst d h1
        cases hwr : d.wire with
        | none => rfl
        | some w =>
          rw [hwr] at h3
          have h4 : 0 < d.width := Nat.pos_of_ne_zero h2
          simp [h4] at h3
      obtain ⟨m, hm1, hm2⟩ := optimize_merge_const rest c (hnone c (List.mem_cons_self _ _))
        (fun d hd => ⟨hnone d (List.mem_cons_of_mem _ hd),
          htag c (hmem c (List.mem_cons_self _ _)).1 d (hmem d (List.mem_cons_of_mem _ hd)).1
            (hmem c (List.mem_cons_self _ _)).2 (hmem d (List.mem_cons_of_mem _ hd)).2⟩)
      simp only []
      rw [hm1]
      have hk : m.data.bits = s.chunks.flatMap (fun c => c.data.bits) := by
        rw [hm2, ← hF, hfl]
        rfl
      refine ⟨m.data, rfl, ?_, hk, ?_⟩
      · rw [hk]; exact hlen
      · rw [hk]; exact hbits

theorem as_const_spec_witness :
    ∃ k, exPlain.as_const = some k ∧ k.bits.length = exPlain.width ∧
      k.bits = [State.S0, State.S1, State.S1] :=
  (as_const_spec exPlain (by decide) (by decide) (by decide) (by decide)).1.imp
    (fun _ h => ⟨h.1, h.2.1, h.2.2.1⟩)

/-! ## Selections -/

theorem set_erase_list_eq (del : List String) : ∀ (s : List String),
    set_erase_list del s = s.filter (fun y => decide (y ∉ del)) := by
  induction del with
  | nil =>
    intro s
    simp [set_erase_list]
  | cons d del ih =>
    intro s
    have h : set_erase_list (d :: del) s = set_erase_list del (set_erase d s) := rfl
    rw [h, ih, set_erase, List.filter_filter]
    apply List.filter_congr
    intro y _
    by_cases e : y = d <;> by_cases e2 : y ∈ del <;> simp [e, e2]

theorem map_erase_eq_filter {β : Type} (k : String) (m : List (String × β))
    (hnd : (m.map Prod.fst).Nodup) :
    map_erase k m = m.filter (fun kv => decide (kv.1 ≠ k)) := by
  induction m with
  | nil => rfl
  | cons kv rest ih =>
    rw [List.map_cons, List.nodup_cons] at hnd
    rw [map_erase]
    by_cases e : k = kv.1
    · rw [if_pos e, List.filter_cons_of_neg (by simp [e])]
      symm
      apply List.filter_eq_self.mpr
      intro a ha
      have : a.1 ≠ kv.1 := fun e2 => hnd.1 (e2 ▸ List.mem_map_of_mem Prod.fst ha)
      simp [e, this]
    · rw [if_neg e, List.filter_cons_of_pos (by simp [Ne.symm e]), ih hnd.2]

theorem keys_nodup_filter {β : Type} (m : List (String × β)) (p : String × β → Bool)
    (hnd : (m.map Prod.fst).Nodup) : ((m.filter p).map Prod.fst).Nodup :=
  List.Nodup.sublist ((List.filter_sublist m).map Prod.fst) hnd

theorem map_erase_list_eq {β : Type} (del : List String) : ∀ (m : List (String × β)),
    (m.map Prod.fst).Nodup →
    map_erase_list del m = m.filter (fun kv => decide (kv.1 ∉ del)) := by
  induction del with
  | nil =>
    intro m _
    simp [map_erase_list]
  | cons d del ih =>
    intro m hnd
    have h : map_erase_list (d :: del) m = map_erase_list del (map_erase d m) := rfl
    rw [h, map_erase_eq_filter d m hnd, ih _ (keys_nodup_filter m _ hnd), List.filter_filter]
    apply List.filter_congr
    intro y _
    by_cases e : y.1 = d <;> by_cases e2 : y.1 ∈ del <;> simp [e, e2]

theorem mem_set_insert_list (add : List String) : ∀ (s : List String) (x : String),
    x ∈ set_insert_list add s ↔ x ∈ s ∨ x ∈ add := by
  induction add with
  | nil => intro s x; simp [set_insert_list]
  | cons a add ih =>
    intro s x
    have h : set_insert_list (a :: add) s = set_insert_list add (set_insert a s) := rfl
    rw [h, ih, mem_set_insert, List.mem_cons]
    constructor
    · rintro ((h | h) | h)
      · exact Or.inr (Or.inl h)
      · exact Or.inl h
      · exact Or.inr (Or.inr h)
    · rintro (h | h | h)
      · exact Or.inl (Or.inr h)
      · exact Or.inl (Or.inl h)
      · exact Or.inr h

theorem nodup_set_insert (a : String) (s : List String) (h : s.Nodup) :
    (set_insert a s).Nodup := by
  unfold set_insert
  split_ifs with e
  · exact h
  · exact List.nodup_cons.mpr ⟨e, h⟩

theorem nodup_set_insert_list (add : List String) : ∀ (s : List String), s.Nodup →
    (set_insert_list add s).Nodup := by
  induction add with
  | nil => intro s h; exact h
  | cons a add ih =>
    intro s h
    exact ih _ (nodup_set_insert a s h)

theorem optimize_entry_eq (m : Module) (S : List String) :
    optimize_entry m S = S.filter (fun x => decide (m.count_id x ≠ 0)) := by
  unfold optimize_entry
  rw [set_erase_list_eq]
  apply List.filter_congr
  intro y hy
  by_cases e : m.count_id y = 0
  · have : y ∈ S.filter (fun memb_name => decide (m.count_id memb_name = 0)) :=
      List.mem_filter.mpr ⟨hy, by simp [e]⟩
    simp [e, this]
  · have : y ∉ S.filter (fun memb_name => decide (m.count_id memb_name = 0)) := by
      intro h
      have := (List.mem_filter.mp h).2
      simp [e] at this
    simp [e, this]

theorem optimize_members_eq (design : Design) : ∀ (mm : List (String × List String)),
    (∀ it, it ∈ mm → design.modules.lookup it.1 ≠ none) →
    optimize_members design mm = some (live_members design mm) := by
  intro mm
  induction mm with
  | nil => intro _; rfl
  | cons it rest ih =>
    intro h
    rw [optimize_members]
    cases hl : design.modules.lookup it.1 with
    | none => exact absurd hl (h it (List.mem_cons_self _ _))
    | some m =>
      simp only []
      rw [ih (fun x hx => h x (List.mem_cons_of_mem _ hx))]
      simp only [Option.map_some', live_members, List.map_cons, Design.count_id, hl,
        optimize_entry_eq]

theorem optimize_lists_eq (design : Design) : ∀ (mm : List (String × List String)),
    (∀ it, it ∈ mm → design.modules.lookup it.1 ≠ none) →
    optimize_lists design mm =
      some ((mm.filter (fun it => decide (it.2.length = 0))).map Prod.fst,
        (mm.filter (fun it =>
          decide (it.2.length ≠ 0 ∧ it.2.length = design.member_count it.1))).map Prod.fst) := by
  intro mm
  induction mm with
  | nil => intro _; rfl
  | cons it rest ih =>
    intro h
    have ih2 := ih (fun x hx => h x (List.mem_cons_of_mem _ hx))
    rw [optimize_lists]
    by_cases h0 : it.2.length = 0
    · rw [if_pos h0, ih2]
      simp [List.filter_cons, h0, -List.length_eq_zero]
    · rw [if_neg h0]
      cases hl : design.modules.lookup it.1 with
      | none => exact absurd hl (h it (List.mem_cons_self _ _))
      | some m =>
        simp only []
        have hmc : design.member_count it.1 =
            m.wires.length + m.memories.length + m.cells.length + m.processes.length := by
          unfold Design.member_count
          rw [hl]
        by_cases h1 : it.2.length =
            m.wires.length + m.memories.length + m.cells.length + m.processes.length
        · rw [if_pos h1, ih2]
          have h2 : it.2.length = design.member_count it.1 := h1.trans hmc.symm
          have h3 : ¬ design.member_count it.1 = 0 := fun e => h0 (h2.trans e)
          simp [List.filter_cons, h2, h3, -List.length_eq_zero]
        · rw [if_neg h1, ih2]
          have h2 : ¬ it.2.length = design.member_count it.1 := fun e => h1 (e.trans hmc)
          simp [List.filter_cons, h0, h2, -List.length_eq_zero]

theorem live_members_keys (design : Design) (mm : List (String × List String)) :
    (live_members design mm).map Prod.fst = mm.map Prod.fst := by
  unfold live_members
  rw [List.map_map]
  rfl

theorem mem_filter_keys {β : Type} (m : List (String × β)) (hnd : (m.map Prod.fst).Nodup)
    (p : String × β → Bool) (it : String × β) (hit : it ∈ m) :
    it.1 ∈ (m.filter p).map Prod.fst ↔ p it = true := by
  constructor
  · intro h
    obtain ⟨it2, h2, e⟩ := List.mem_map.mp h
    have h3 := List.mem_filter.mp h2
    have e2 : it2 = it := List.inj_on_of_nodup_map hnd h3.1 hit e
    rw [← e2]
    exact h3.2
  · intro h
    exact List.mem_map_of_mem Prod.fst (List.mem_filter.mpr ⟨hit, h⟩)

theorem lookup_ne_none_of_count {β : Type} (k : String) (m : List (String × β))
    (h : map_count k m ≠ 0) : m.lookup k ≠ none :=
  fun e => h (map_count_none k m e)

theorem opt_members2_keys (sel : Selection) (design : Design) (it : String × List String)
    (h : it ∈ (sel.selected_members.filter
        (fun kv => decide (kv.1 ∉ sel.selected_modules))).filter
      (fun kv => decide (map_count kv.1 design.modules ≠ 0))) :
    it ∈ sel.selected_members ∧ it.1 ∉ sel.selected_modules ∧
      map_count it.1 design.modules ≠ 0 := by
  have h1 := List.mem_filter.mp h
  have h2 := List.mem_filter.mp h1.1
  exact ⟨h2.1, by simpa using h2.2, by simpa using h1.2⟩

theorem opt_members3_keys_nodup (sel : Selection) (design : Design) (hwf : sel.wf) :
    ((sel.opt_members3 design).map Prod.fst).Nodup := by
  unfold Selection.opt_members3
  rw [live_members_keys]
  exact keys_nodup_filter _ _ (keys_nodup_filter _ _ hwf.2.1)

theorem opt_members3_mem (sel : Selection) (design : Design) (it : String × List String)
    (h : it ∈ sel.opt_members3 design) :
    it.1 ∉ sel.selected_modules ∧ map_count it.1 design.modules ≠ 0 ∧
      ∃ S, (it.1, S) ∈ sel.selected_members ∧
        it.2 = S.filter (fun x => decide (design.count_id it.1 x ≠ 0)) := by
  unfold Selection.opt_members3 live_members at h
  obtain ⟨it0, h0, e⟩ := List.mem_map.mp h
  obtain ⟨k1, k2, k3⟩ := opt_members2_keys sel design it0 h0
  rw [← e]
  exact ⟨k2, k3, it0.2, k1, rfl⟩

/-- The function `Selection::optimize` on a selection that is not full, in
closed form. -/
theorem selection_optimize_closed (sel : Selection) (design : Design) (hwf : sel.wf)
    (hfull : sel.full_selection = false) :
    sel.optimize design =
      some (if (sel.opt_modules design).length = design.modules.length then
          { full_selection := true, selected_modules := [], selected_members := [] }
        else
          { full_selection := false, selected_modules := sel.opt_modules design,
            selected_members := sel.opt_members design }) := by
  obtain ⟨w1, w2, _⟩ := hwf
  have hwf : sel.wf := ⟨w1, w2, by assumption⟩
  have e1 : set_erase_list (sel.selected_modules.filter
      (fun mod_name => decide (map_count mod_name design.modules = 0))) sel.selected_modules =
      sel.opt_modules1 design := by
    rw [set_erase_list_eq]
    unfold Selection.opt_modules1
    apply List.filter_congr
    intro y hy
    by_cases e : map_count y design.modules = 0
    · have : y ∈ sel.selected_modules.filter
          (fun mod_name => decide (map_count mod_name design.modules = 0)) :=
        List.mem_filter.mpr ⟨hy, by simp [e]⟩
      simp [e, this]
    · have : y ∉ sel.selected_modules.filter
          (fun mod_name => decide (map_count mod_name design.modules = 0)) := by
        intro h
        have := (List.mem_filter.mp h).2
        simp [e] at this
      simp [e, this]
  have e2 : map_erase_list sel.selected_modules sel.selected_members =
      sel.selected_members.filter (fun kv => decide (kv.1 ∉ sel.selected_modules)) :=
    map_erase_list_eq _ _ w2
  have n2 : ((sel.selected_members.filter
      (fun kv => decide (kv.1 ∉ sel.selected_modules))).map Prod.fst).Nodup :=
    keys_nodup_filter _ _ w2
  have e3 : map_erase_list
      (((sel.selected_members.filter (fun kv => decide (kv.1 ∉ sel.selected_modules))).filter
        (fun it => decide (map_count it.1 design.modules = 0))).map Prod.fst)
      (sel.selected_members.filter (fun kv => decide (kv.1 ∉ sel.selected_modules))) =
      (sel.selected_members.filter (fun kv => decide (kv.1 ∉ sel.selected_modules))).filter
        (fun kv => decide (map_count kv.1 design.modules ≠ 0)) := by
    rw [map_erase_list_eq _ _ n2]
    apply List.filter_congr
    intro y hy
    have hk := mem_filter_keys _ n2 (fun it => decide (map_count it.1 design.modules = 0)) y hy
    by_cases e : map_count y.1 design.modules = 0
    · have : y.1 ∈ ((sel.selected_members.filter
          (fun kv => decide (kv.1 ∉ sel.selected_modules))).filter
          (fun it => decide (map_count it.1 design.modules = 0))).map Prod.fst :=
        hk.mpr (by simp [e])
      simp only [this, not_true_eq_false, decide_False, e, ne_eq]
    · have : y.1 ∉ ((sel.selected_members.filter
          (fun kv => decide (kv.1 ∉ sel.selected_modules))).filter
          (fun it => decide (map_count it.1 design.modules = 0))).map Prod.fst := by
        intro h
        have := hk.mp h
        simp [e] at this
      simp only [this, not_false_eq_true, decide_True, e, ne_eq]
  have e4 : optimize_members design
      ((sel.selected_members.filter (fun kv => decide (kv.1 ∉ sel.selected_modules))).filter
        (fun kv => decide (map_count kv.1 design.modules ≠ 0))) =
      some (sel.opt_members3 design) :=
    optimize_members_eq design _
      (fun it hit => lookup_ne_none_of_count _ _ (opt_members2_keys sel design it hit).2.2)
  have n3 := opt_members3_keys_nodup sel design hwf
  have e5 := optimize_lists_eq design (sel.opt_members3 design)
    (fun it hit => lookup_ne_none_of_count _ _ (opt_members3_mem sel design it hit).2.1)
  have e6 : map_erase_list (sel.opt_add design)
      (map_erase_list (((sel.opt_members3 design).filter
        (fun it => decide (it.2.length = 0))).map Prod.fst) (sel.opt_members3 design)) =
      sel.opt_members design := by
    rw [map_erase_list_eq _ _ n3, map_erase_list_eq _ _ (keys_nodup_filter _ _ n3),
      List.filter_filter]
    unfold Selection.opt_members
    apply List.filter_congr
    intro y hy
    have hk1 := mem_filter_keys _ n3 (fun it => decide (it.2.length = 0)) y hy
    have hk2 := mem_filter_keys _ n3
      (fun it => decide (it.2.length ≠ 0 ∧ it.2.length = design.member_count it.1)) y hy
    have hk2' : y.1 ∈ sel.opt_add design ↔
        decide (y.2.length ≠ 0 ∧ y.2.length = design.member_count y.1) = true := hk2
    by_cases c1 : y.2.length = 0
    · have m1 : y.1 ∈ ((sel.opt_members3 design).filter
          (fun it => decide (it.2.length = 0))).map Prod.fst := hk1.mpr (by simp [c1])
      simp only [m1, not_true_eq_false, decide_False, Bool.and_false, c1, ne_eq, false_and]
    · have m1 : y.1 ∉ ((sel.opt_members3 design).filter
          (fun it => decide (it.2.length = 0))).map Prod.fst := by
        intro h
        have := hk1.mp h
        simp [c1] at this
      by_cases c2 : y.2.length = design.member_count y.1
      · have m2 : y.1 ∈ sel.opt_add design := hk2'.mpr (decide_eq_true ⟨c1, c2⟩)
        simp only [m1, m2, not_true_eq_false, not_false_eq_true, decide_False, decide_True,
          Bool.false_and, c1, c2, ne_eq, and_false]
      · have m2 : y.1 ∉ sel.opt_add design := by
          intro h
          have := hk2'.mp h
          rw [decide_eq_true_eq] at this
          exact c2 this.2
        simp only [m1, m2, not_false_eq_true, decide_True, Bool.and_self, c1, c2, ne_eq,
          and_self]
  unfold Selection.optimize
  rw [hfull]
  simp only [Bool.false_eq_true, if_false]
  rw [e1, e2, e3, e4]
  simp only []
  rw [e5]
  simp only []
  have e7 : ((sel.opt_members3 design).filter
      (fun it => decide (it.2.length ≠ 0 ∧ it.2.length = design.member_count it.1))).map
      Prod.fst = sel.opt_add design := rfl
  rw [e7, e6]
  have e8 : set_insert_list (sel.opt_add design) (sel.opt_modules1 design) =
      sel.opt_modules design := rfl
  rw [e8]
  split_ifs <;> rfl

theorem selected_member_iff (sel : Selection) (hnd : (sel.selected_members.map Prod.fst).Nodup)
    (mod_name memb_name : String) :
    sel.selected_member mod_name memb_name = true ↔
      sel.full_selection = true ∨ mod_name ∈ sel.selected_modules ∨
        ∃ S, (mod_name, S) ∈ sel.selected_members ∧ memb_name ∈ S := by
  unfold Selection.selected_member
  by_cases h1 : sel.full_selection = true
  · simp [h1]
  · by_cases h2 : mod_name ∈ sel.selected_modules
    · simp [h2]
    · rw [if_neg h1, if_neg h2]
      cases hl : sel.selected_members.lookup mod_name with
      | none =>
        simp only [Bool.false_eq_true, false_iff]
        rintro (h | h | ⟨S, hS, _⟩)
        · exact h1 h
        · exact h2 h
        · exact not_key_of_lookup_none _ _ hl _ hS rfl
      | some S =>
        simp only [decide_eq_true_eq]
        constructor
        · intro h
          exact Or.inr (Or.inr ⟨S, lookup_mem _ _ _ hl, h⟩)
        · rintro (h | h | ⟨S2, hS2, hx⟩)
          · exact absurd h h1
          · exact absurd h h2
          · have e : (mod_name, S2) = (mod_name, S) :=
              List.inj_on_of_nodup_map hnd hS2 (lookup_mem _ _ _ hl) rfl
            rw [← (Prod.mk.inj e).2]
            exact hx

theorem opt_members3_intro (sel : Selection) (design : Design) (mod_name : String)
    (S : List String) (h1 : (mod_name, S) ∈ sel.selected_members)
    (h2 : mod_name ∉ sel.selected_modules) (h3 : map_count mod_name design.modules ≠ 0) :
    (mod_name, S.filter (fun x => decide (design.count_id mod_name x ≠ 0))) ∈
      sel.opt_members3 design := by
  unfold Selection.opt_members3 live_members
  apply List.mem_map.mpr
  refine ⟨(mod_name, S), ?_, rfl⟩
  apply List.mem_filter.mpr
  refine ⟨List.mem_filter.mpr ⟨h1, by simpa using h2⟩, by simpa using h3⟩

/-- An entry with as many names as the module has objects, each of them found
by `count_id` and none listed twice, holds every name of the module. -/
theorem full_entry_mem (m : Module) (S : List String) (hS : S.Nodup)
    (hc : ∀ y, y ∈ S → m.count_id y ≠ 0)
    (hlen : S.length = m.wires.length + m.memories.length + m.cells.length + m.processes.length)
    (x : String) (hx : m.count_id x ≠ 0) : x ∈ S := by
  have hsub : S ⊆ m.wires.map Prod.fst ++ m.memories ++ m.cells.map Prod.fst ++ m.processes :=
    fun y hy => count_id_pos_mem m y (Nat.pos_of_ne_zero (hc y hy))
  have hsp := List.subperm_of_subset hS hsub
  have hperm := hsp.perm_of_length_le (by
    simp only [List.length_append, List.length_map]
    omega)
  exact hperm.symm.subset (count_id_pos_mem m x (Nat.pos_of_ne_zero hx))

theorem design_count_id (design : Design) (mod_name : String) (m : Module)
    (h : design.modules.lookup mod_name = some m) (x : String) :
    design.count_id mod_name x = m.count_id x := by
  unfold Design.count_id
  rw [h]

theorem design_member_count (design : Design) (mod_name : String) (m : Module)
    (h : design.modules.lookup mod_name = some m) :
    design.member_count mod_name =
      m.wires.length + m.memories.length + m.cells.length + m.processes.length := by
  unfold Design.member_count
  rw [h]

theorem opt_modules_mem (sel : Selection) (design : Design) (n : String) :
    n ∈ sel.opt_modules design ↔
      (n ∈ sel.selected_modules ∧ map_count n design.modules ≠ 0) ∨ n ∈ sel.opt_add design := by
  unfold Selection.opt_modules
  rw [mem_set_insert_list]
  unfold Selection.opt_modules1
  rw [List.mem_filter]
  simp

theorem opt_add_mem (sel : Selection) (design : Design) (n : String)
    (h : n ∈ sel.opt_add design) :
    ∃ S, (n, S) ∈ sel.opt_members3 design ∧ S.length ≠ 0 ∧
      S.length = design.member_count n := by
  unfold Selection.opt_add at h
  obtain ⟨it, h1, e⟩ := List.mem_map.mp h
  have h2 := List.mem_filter.mp h1
  have h3 := h2.2
  rw [decide_eq_true_eq] at h3
  subst e
  exact ⟨it.2, h2.1, h3.1, h3.2⟩

theorem opt_modules_in_design (sel : Selection) (design : Design) (n : String)
    (h : n ∈ sel.opt_modules design) : map_count n design.modules ≠ 0 := by
  rcases (opt_modules_mem sel design n).mp h with h | h
  · exact h.2
  · obtain ⟨S, hS, _, _⟩ := opt_add_mem sel design n h
    exact (opt_members3_mem sel design _ hS).2.1

/-- A module of the design that is in `selected_modules` after `optimize` had
every one of its members selected before. -/
theorem opt_modules_selected (sel : Selection) (design : Design) (hwf : sel.wf)
    (mod_name : String) (m : Module) (hm : design.modules.lookup mod_name = some m)
    (x : String) (hx : m.count_id x ≠ 0) (h : mod_name ∈ sel.opt_modules design) :
    sel.selected_member mod_name x = true := by
  rw [selected_member_iff sel hwf.2.1]
  rcases (opt_modules_mem sel design mod_name).mp h with h | h
  · exact Or.inr (Or.inl h.1)
  · obtain ⟨S1, hS1, _, hlen⟩ := opt_add_mem sel design mod_name h
    obtain ⟨_, _, S, hS, e⟩ := opt_members3_mem sel design _ hS1
    simp only [] at hS e
    have hnd : S1.Nodup := by
      rw [e]
      exact (hwf.2.2 _ hS).filter _
    have hc : ∀ y, y ∈ S1 → m.count_id y ≠ 0 := by
      intro y hy
      rw [e] at hy
      have := (List.mem_filter.mp hy).2
      rw [decide_eq_true_eq, design_count_id design mod_name m hm] at this
      exact this
    have hx1 : x ∈ S1 := full_entry_mem m S1 hnd hc
      (hlen.trans (design_member_count design mod_name m hm)) x hx
    rw [e] at hx1
    exact Or.inr (Or.inr ⟨S, hS, (List.mem_filter.mp hx1).1⟩)

theorem opt_members_selected (sel : Selection) (design : Design) (hwf : sel.wf)
    (hfull : sel.full_selection = false)
    (mod_name : String) (m : Module) (hm : design.modules.lookup mod_name = some m)
    (x : String) (hx : m.count_id x ≠ 0) (h : mod_name ∉ sel.opt_modules design) :
    (∃ S, (mod_name, S) ∈ sel.opt_members design ∧ x ∈ S) ↔
      sel.selected_member mod_name x = true := by
  have hcnt : map_count mod_name design.modules ≠ 0 := by
    rw [map_count_some _ _ m hm]
    exact Nat.one_ne_zero
  have hns : mod_name ∉ sel.selected_modules :=
    fun hc => h ((opt_modules_mem sel design mod_name).mpr (Or.inl ⟨hc, hcnt⟩))
  rw [selected_member_iff sel hwf.2.1]
  constructor
  · rintro ⟨S1, hS1, hx1⟩
    unfold Selection.opt_members at hS1
    obtain ⟨_, _, S, hS, e⟩ := opt_members3_mem sel design _ (List.mem_filter.mp hS1).1
    simp only [] at hS e
    rw [e] at hx1
    exact Or.inr (Or.inr ⟨S, hS, (List.mem_filter.mp hx1).1⟩)
  · rintro (hf | hs | ⟨S, hS, hxS⟩)
    · rw [hfull] at hf; cases hf
    · exact absurd hs hns
    · have h3 := opt_members3_intro sel design mod_name S hS hns hcnt
      have hx1 : x ∈ S.filter (fun x => decide (design.count_id mod_name x ≠ 0)) :=
        List.mem_filter.mpr ⟨hxS, by
          rw [decide_eq_true_eq, design_count_id design mod_name m hm]
          exact hx⟩
      have hne0 : (S.filter (fun x => decide (design.count_id mod_name x ≠ 0))).length ≠ 0 :=
        Nat.pos_iff_ne_zero.mp (List.length_pos_of_mem hx1)
      refine ⟨_, ?_, hx1⟩
      unfold Selection.opt_members
      apply List.mem_filter.mpr
      refine ⟨h3, ?_⟩
      rw [decide_eq_true_eq]
      constructor
      · exact hne0
      · intro e
        apply h
        apply (opt_modules_mem sel design mod_name).mpr
        right
        unfold Selection.opt_add
        apply List.mem_map.mpr
        refine ⟨_, List.mem_filter.mpr ⟨h3, ?_⟩, rfl⟩
        rw [decide_eq_true_eq]
        exact ⟨hne0, e⟩

theorem opt_result_wf (sel : Selection) (design : Design) (hwf : sel.wf) :
    (⟨false, sel.opt_modules design, sel.opt_members design⟩ : Selection).wf := by
  refine ⟨?_, ?_, ?_⟩
  · exact nodup_set_insert_list _ _ (hwf.1.filter _)
  · exact keys_nodup_filter _ _ (opt_members3_keys_nodup sel design hwf)
  · intro it hit
    have h1 : it ∈ sel.opt_members3 design := (List.mem_filter.mp hit).1
    obtain ⟨_, _, S, hS, e⟩ := opt_members3_mem sel design it h1
    rw [e]
    exact (hwf.2.2 _ hS).filter _

/-- A selection in the form that `optimize` aims at is left as it is by
`optimize`. -/
theorem optimize_fixed_of (design : Design) (M : List String) (R : List (String × List String))
    (hwf : (⟨false, M, R⟩ : Selection).wf)
    (hM : ∀ n, n ∈ M → map_count n design.modules ≠ 0)
    (hR1 : ∀ it, it ∈ R → it.1 ∉ M)
    (hR2 : ∀ it, it ∈ R → map_count it.1 design.modules ≠ 0)
    (hR3 : ∀ it, it ∈ R → ∀ y, y ∈ it.2 → design.count_id it.1 y ≠ 0)
    (hR4 : ∀ it, it ∈ R → it.2.length ≠ 0 ∧ it.2.length ≠ design.member_count it.1)
    (hlen : M.length ≠ design.modules.length) :
    (⟨false, M, R⟩ : Selection).optimize design = some ⟨false, M, R⟩ := by
  have e1 : Selection.opt_modules1 ⟨false, M, R⟩ design = M := by
    unfold Selection.opt_modules1
    exact List.filter_eq_self.mpr (fun n hn => decide_eq_true (hM n hn))
  have e2 : Selection.opt_members3 ⟨false, M, R⟩ design = R := by
    unfold Selection.opt_members3
    simp only []
    have f1 : R.filter (fun kv => decide (kv.1 ∉ M)) = R :=
      List.filter_eq_self.mpr (fun it hit => decide_eq_true (hR1 it hit))
    have f2 : R.filter (fun kv => decide (map_count kv.1 design.modules ≠ 0)) = R :=
      List.filter_eq_self.mpr (fun it hit => decide_eq_true (hR2 it hit))
    rw [f1, f2]
    unfold live_members
    conv => rhs; rw [← List.map_id R]
    apply List.map_congr_left
    intro it hit
    have e3 : it.2.filter (fun x => decide (design.count_id it.1 x ≠ 0)) = it.2 :=
      List.filter_eq_self.mpr (fun y hy => decide_eq_true (hR3 it hit y hy))
    rw [e3]
    rfl
  have e3 : Selection.opt_add ⟨false, M, R⟩ design = [] := by
    unfold Selection.opt_add
    rw [e2]
    have : R.filter
        (fun it => decide (it.2.length ≠ 0 ∧ it.2.length = design.member_count it.1)) = [] := by
      apply List.filter_eq_nil_iff.mpr
      intro it hit hc
      rw [decide_eq_true_eq] at hc
      exact (hR4 it hit).2 hc.2
    rw [this]
    rfl
  have e4 : Selection.opt_modules ⟨false, M, R⟩ design = M := by
    unfold Selection.opt_modules
    rw [e3, e1]
    rfl
  have e5 : Selection.opt_members ⟨false, M, R⟩ design = R := by
    unfold Selection.opt_members
    rw [e2]
    exact List.filter_eq_self.mpr (fun it hit => decide_eq_true (hR4 it hit))
  rw [selection_optimize_closed _ design hwf rfl, e4, e5, if_neg hlen]

/-- The selection that `optimize` leaves is left as it is by `optimize`. -/
theorem opt_result_fixed (sel : Selection) (design : Design) (hwf : sel.wf)
    (hlen : (sel.opt_modules design).length ≠ design.modules.length) :
    (⟨false, sel.opt_modules design, sel.opt_members design⟩ : Selection).optimize design =
      some ⟨false, sel.opt_modules design, sel.opt_members design⟩ := by
  have hR : ∀ it, it ∈ sel.opt_members design →
      it ∈ sel.opt_members3 design ∧ it.2.length ≠ 0 ∧
        it.2.length ≠ design.member_count it.1 := by
    intro it hit
    have h1 := List.mem_filter.mp hit
    have h2 := h1.2
    rw [decide_eq_true_eq] at h2
    exact ⟨h1.1, h2.1, h2.2⟩
  apply optimize_fixed_of design _ _ (opt_result_wf sel design hwf)
    (opt_modules_in_design sel design) _ _ _ (fun it hit => (hR it hit).2) hlen
  · intro it hit hM
    obtain ⟨h1, _, h3⟩ := hR it hit
    rcases (opt_modules_mem sel design it.1).mp hM with h | h
    · exact (opt_members3_mem sel design it h1).1 h.1
    · have := (mem_filter_keys _ (opt_members3_keys_nodup sel design hwf)
        (fun it => decide (it.2.length ≠ 0 ∧ it.2.length = design.member_count it.1))
        it h1).mp h
      rw [decide_eq_true_eq] at this
      exact h3 this.2
  · intro it hit
    exact (opt_members3_mem sel design it (hR it hit).1).2.1
  · intro it hit y hy
    obtain ⟨_, _, S, _, e⟩ := opt_members3_mem sel design it (hR it hit).1
    rw [e] at hy
    have := (List.mem_filter.mp hy).2
    rw [decide_eq_true_eq] at this
    exact this

/-- Claim C35: for a selection whose sets and map list no name twice,
`optimize(design)` returns a selection `sel1` of this kind; for every module
`m` of the design and every name `x` that `count_id` finds in `m` (a member of
`m`), `selected_member(m, x)` is the same after `optimize` as before; and
`optimize` leaves `sel1` as it is.  The condition `count_id <= 1` on the
modules is not needed. -/
theorem selection_optimize_spec (sel : Selection) (design : Design) (hwf : sel.wf) :
    ∃ sel1, sel.optimize design = some sel1 ∧ sel1.wf ∧
      (∀ mod_name m x, design.modules.lookup mod_name = some m → m.count_id x ≠ 0 →
        sel1.selected_member mod_name x = sel.selected_member mod_name x) ∧
      sel1.optimize design = some sel1 := by
  by_cases hfull : sel.full_selection = true
  · refine ⟨(⟨true, [], []⟩ : Selection),
      ?_, ?_, ?_, rfl⟩
    · unfold Selection.optimize
      rw [if_pos hfull]
    · exact ⟨List.nodup_nil, List.nodup_nil, fun it hit => absurd hit (List.not_mem_nil it)⟩
    · intro mod_name m x _ _
      unfold Selection.selected_member
      rw [if_pos hfull]
      rfl
  · have hfull : sel.full_selection = false := by
      cases h : sel.full_selection with
      | false => rfl
      | true => exact absurd h hfull
    have hc := selection_optimize_closed sel design hwf hfull
    by_cases hlen : (sel.opt_modules design).length = design.modules.length
    · rw [if_pos hlen] at hc
      refine ⟨_, hc, ?_, ?_, rfl⟩
      · exact ⟨List.nodup_nil, List.nodup_nil, fun it hit => absurd hit (List.not_mem_nil it)⟩
      · intro mod_name m x hm hx
        have hall : design.modules.map Prod.fst ⊆ sel.opt_modules design := by
          have hnd : (sel.opt_modules design).Nodup :=
            nodup_set_insert_list _ _ (hwf.1.filter _)
          have hsub : sel.opt_modules design ⊆ design.modules.map Prod.fst :=
            fun n hn => map_count_pos_key _ _
              (Nat.pos_of_ne_zero (opt_modules_in_design sel design n hn))
          have hperm := (List.subperm_of_subset hnd hsub).perm_of_length_le (by
            rw [List.length_map, hlen])
          exact hperm.symm.subset
        have hM : mod_name ∈ sel.opt_modules design :=
          hall (List.mem_map_of_mem Prod.fst (lookup_mem _ _ _ hm))
        rw [opt_modules_selected sel design hwf mod_name m hm x hx hM]
        rfl
    · rw [if_neg hlen] at hc
      have hwf1 := opt_result_wf sel design hwf
      refine ⟨_, hc, hwf1, ?_, opt_result_fixed sel design hwf hlen⟩
      intro mod_name m x hm hx
      by_cases hM : mod_name ∈ sel.opt_modules design
      · rw [opt_modules_selected sel design hwf mod_name m hm x hx hM]
        exact (selected_member_iff _ hwf1.2.1 mod_name x).mpr (Or.inr (Or.inl hM))
      · have h1 := opt_members_selected sel design hwf hfull mod_name m hm x hx hM
        have h2 := selected_member_iff _ hwf1.2.1 mod_name x
        apply Bool.eq_iff_iff.mpr
        rw [h2, ← h1]
        constructor
        · rintro (h | h | h)
          · cases h
          · exact absurd h hM
          · exact h
        · exact fun h => Or.inr (Or.inr h)

theorem selection_optimize_spec_witness :
    exSel.optimize exDesign = some ⟨false, ["\\a"], []⟩ ∧
    ∃ sel1, exSel.optimize exDesign = some sel1 ∧ sel1.wf ∧
      (∀ mod_name m x, exDesign.modules.lookup mod_name = some m → m.count_id x ≠ 0 →
        sel1.selected_member mod_name x = exSel.selected_member mod_name x) ∧
      sel1.optimize exDesign = some sel1 :=
  ⟨by decide,
    selection_optimize_spec exSel exDesign
      ⟨by decide, by decide, by
        intro it hit
        simp only [exSel, List.mem_cons, List.mem_singleton, List.not_mem_nil, or_false] at hit
        rcases hit with h | h <;> rw [h] <;> decide⟩⟩


/-! ## The order of signals -/

theorem lex_cons_iff {α : Type} [LinearOrder α] (x y : α) (xs ys : List α) :
    x :: xs < y :: ys ↔ x < y ∨ x = y ∧ xs < ys := by
  constructor
  · intro h
    cases h with
    | rel hab => exact Or.inl hab
    | cons h3 => exact Or.inr ⟨rfl, h3⟩
  · rintro (h | ⟨e, h⟩)
    · exact List.Lex.rel h
    · rw [e]
      exact List.Lex.cons h

theorem bits_lt_iff (l1 l2 : List State) :
    bits_lt l1 l2 = true ↔ l1.map State.toNat < l2.map State.toNat := by
  induction l1 generalizing l2 with
  | nil =>
    cases l2 with
    | nil => simp [bits_lt]
    | cons b bs =>
      simp only [bits_lt, true_iff]
      exact List.Lex.nil
  | cons a as ih =>
    cases l2 with
    | nil => simp [bits_lt]
    | cons b bs =>
      rw [bits_lt, List.map_cons, List.map_cons, lex_cons_iff, ← ih bs]
      by_cases h1 : a.toNat < b.toNat
      · simp [h1]
      · by_cases h2 : b.toNat < a.toNat
        · have h3 : ¬ a.toNat = b.toNat := by omega
          simp [h1, h2, h3]
        · have h3 : a.toNat = b.toNat := by omega
          simp [h1, h2, h3]

theorem bits_toNat_inj (l1 l2 : List State)
    (h : l1.map State.toNat = l2.map State.toNat) : l1 = l2 :=
  List.map_injective_iff.mpr (fun x y e => state_toNat_inj x y e) h

theorem bits_lt_irrefl (l : List State) : bits_lt l l = false := by
  cases h : bits_lt l l with
  | false => rfl
  | true => exact absurd ((bits_lt_iff l l).mp h) (lt_irrefl _)

theorem chunk_tail_lt_iff (a b : SigChunk) :
    (if a.offset ≠ b.offset then decide (a.offset < b.offset)
      else if a.width ≠ b.width then decide (a.width < b.width)
      else if a.data.bits ≠ b.data.bits then bits_lt a.data.bits b.data.bits
      else false) = true ↔
    (a.offset < b.offset ∨ a.offset = b.offset ∧
      (a.width < b.width ∨ a.width = b.width ∧
        a.data.bits.map State.toNat < b.data.bits.map State.toNat)) := by
  rw [← bits_lt_iff]
  by_cases h1 : a.offset = b.offset
  · by_cases h2 : a.width = b.width
    · by_cases h3 : a.data.bits = b.data.bits
      · simp [h1, h2, h3, bits_lt_irrefl]
      · simp [h1, h2, h3]
    · simp [h1, h2]
  · simp [h1]

theorem chunk_lt_iff_key (a b : SigChunk)
    (hid : ∀ w v, a.wire = some w → b.wire = some v → w.id = v.id → w = v) :
    a.lt b = true ↔ chunk_key a < chunk_key b := by
  unfold SigChunk.lt chunk_key
  simp only [Prod.Lex.lt_iff, ← string_lt_iff]
  have ht := chunk_tail_lt_iff a b
  cases ha : a.wire with
  | none =>
    cases hb : b.wire with
    | none =>
      simp only [Option.isSome_none, Bool.false_eq_true, false_and, if_false, ne_eq,
        not_true_eq_false, if_true, wire_name, wire_ptr, lt_irrefl, string_lt_irrefl,
        true_and, false_or]
      exact ht
    | some v =>
      simp [wire_name, wire_ptr]
  | some w =>
    cases hb : b.wire with
    | none =>
      simp [wire_name, wire_ptr]
    | some v =>
      by_cases hn : w.name = v.name
      · by_cases hwv : w = v
        · subst hwv
          simp only [Option.isSome_some, true_and, wire_name, ne_eq, not_true_eq_false,
            if_false, wire_ptr, lt_irrefl, string_lt_irrefl, false_or, Bool.false_eq_true,
            reduceCtorEq]
          simpa using ht
        · have hne : w.id ≠ v.id := fun h => hwv (hid w v ha hb h)
          have hne2 : ¬ (some w = some v) := fun h => hwv (Option.some.inj h)
          simp [wire_name, wire_ptr, hn, hne2, hne, string_lt_irrefl]
      · simp [wire_name, hn]

theorem chunk_eq_iff_key (a b : SigChunk)
    (hid : ∀ w v, a.wire = some w → b.wire = some v → w.id = v.id → w = v) :
    a.eq b = true ↔ chunk_key a = chunk_key b := by
  rw [chunk_eq_iff]
  unfold chunk_key
  constructor
  · rintro ⟨h1, h2, h3, h4⟩
    rw [h1, h2, h3, h4]
  · intro h
    have h' := congrArg ofLex h
    simp only [ofLex_toLex, Prod.mk.injEq] at h'
    obtain ⟨k1, k2⟩ := h'
    have k2' := congrArg ofLex k2
    simp only [ofLex_toLex, Prod.mk.injEq] at k2'
    obtain ⟨_, k3⟩ := k2'
    have k3' := congrArg ofLex k3
    simp only [ofLex_toLex, Prod.mk.injEq] at k3'
    obtain ⟨k4, k5⟩ := k3'
    have k5' := congrArg ofLex k5
    simp only [ofLex_toLex, Prod.mk.injEq] at k5'
    obtain ⟨k6, k7⟩ := k5'
    have k7' := congrArg ofLex k7
    simp only [ofLex_toLex, Prod.mk.injEq] at k7'
    obtain ⟨k8, k9⟩ := k7'
    refine ⟨?_, k8, k6, bits_toNat_inj _ _ k9⟩
    cases ha : a.wire with
    | none =>
      cases hb : b.wire with
      | none => rfl
      | some v => rw [ha, hb] at k1; simp at k1
    | some w =>
      cases hb : b.wire with
      | none => rw [ha, hb] at k1; simp at k1
      | some v =>
        rw [ha, hb] at k4
        simp only [wire_ptr, Nat.add_right_cancel_iff] at k4
        rw [hid w v ha hb k4]

theorem wires_by_id2_cons (a b : SigChunk) (as bs : List SigChunk)
    (h : wires_by_id2 (a :: as) (b :: bs)) :
    (∀ w v, a.wire = some w → b.wire = some v → w.id = v.id → w = v) ∧ wires_by_id2 as bs :=
  ⟨fun w v hw hv e => h a (List.mem_cons_self _ _) b (List.mem_cons_self _ _) w v hw hv e,
    fun c hc d hd => h c (List.mem_cons_of_mem _ hc) d (List.mem_cons_of_mem _ hd)⟩

theorem chunks_lt_iff_key : ∀ (as bs : List SigChunk), as.length = bs.length →
    wires_by_id2 as bs →
    (chunks_lt as bs = true ↔ as.map chunk_key < bs.map chunk_key) := by
  intro as
  induction as with
  | nil =>
    intro bs hl _
    cases bs with
    | nil => simp [chunks_lt]
    | cons b bs => simp at hl
  | cons a as ih =>
    intro bs hl hid
    cases bs with
    | nil => simp at hl
    | cons b bs =>
      obtain ⟨h1, h2⟩ := wires_by_id2_cons a b as bs hid
      have hl2 : as.length = bs.length := by simpa using hl
      rw [chunks_lt, List.map_cons, List.map_cons, lex_cons_iff, ← ih bs hl2 h2,
        ← chunk_lt_iff_key a b h1, ← chunk_eq_iff_key a b h1]
      cases hne : a.ne b with
      | true =>
        have he : a.eq b = false := (chunk_ne_iff a b).mp hne
        simp [he]
      | false =>
        have he : a.eq b = true := by
          cases h : a.eq b with
          | true => rfl
          | false => rw [(chunk_ne_iff a b).mpr h] at hne; cases hne
        have hlt : a.lt b = false := by
          cases h : a.lt b with
          | false => rfl
          | true =>
            have k1 := (chunk_lt_iff_key a b h1).mp h
            rw [(chunk_eq_iff_key a b h1).mp he] at k1
            exact absurd k1 (lt_irrefl _)
        simp [he, hlt]

theorem chunks_eq_iff_key : ∀ (as bs : List SigChunk), wires_by_id2 as bs →
    (List.Forall₂ (fun x y => x.eq y = true) as bs ↔
      as.map chunk_key = bs.map chunk_key) := by
  intro as
  induction as with
  | nil =>
    intro bs _
    cases bs with
    | nil => simp
    | cons b bs => simp
  | cons a as ih =>
    intro bs hid
    cases bs with
    | nil => simp
    | cons b bs =>
      obtain ⟨h1, h2⟩ := wires_by_id2_cons a b as bs hid
      rw [List.forall₂_cons, List.map_cons, List.map_cons, List.cons.injEq, ih bs h2,
        chunk_eq_iff_key a b h1]

theorem sigspec_lt_iff_key (a b : SigSpec)
    (hid : wires_by_id2 a.optimize.chunks b.optimize.chunks) :
    a.lt b = true ↔ sig_key a < sig_key b := by
  unfold SigSpec.lt sig_key
  simp only [Prod.Lex.lt_iff]
  by_cases hw : a.width = b.width
  · by_cases hl : a.optimize.chunks.length = b.optimize.chunks.length
    · rw [if_neg (not_not.mpr hw), if_neg (not_not.mpr hl), chunks_lt_iff_key _ _ hl hid]
      simp [hw, hl]
    · rw [if_neg (not_not.mpr hw), if_pos hl]
      simp [hw, hl]
  · rw [if_pos hw]
    simp [hw]

theorem sigspec_eq_iff_key (a b : SigSpec)
    (hid : wires_by_id2 a.optimize.chunks b.optimize.chunks) :
    a.eq b = true ↔ sig_key a = sig_key b := by
  rw [sigspec_eq_iff, chunks_eq_iff_key _ _ hid]
  unfold sig_key
  constructor
  · rintro ⟨h1, h2⟩
    have h3 : a.optimize.chunks.length = b.optimize.chunks.length := by
      have := congrArg List.length h2
      simpa using this
    rw [h1, h2, h3]
  · intro h
    have h' := congrArg ofLex h
    simp only [ofLex_toLex, Prod.mk.injEq] at h'
    obtain ⟨k1, k2⟩ := h'
    have k2' := congrArg ofLex k2
    simp only [ofLex_toLex, Prod.mk.injEq] at k2'
    exact ⟨k1, k2'.2⟩

theorem sigspec_lt_trans (a b c : SigSpec)
    (hab : wires_by_id2 a.optimize.chunks b.optimize.chunks)
    (hbc : wires_by_id2 b.optimize.chunks c.optimize.chunks)
    (hac : wires_by_id2 a.optimize.chunks c.optimize.chunks)
    (h1 : a.lt b = true) (h2 : b.lt c = true) : a.lt c = true :=
  (sigspec_lt_iff_key a c hac).mpr
    (lt_trans ((sigspec_lt_iff_key a b hab).mp h1) ((sigspec_lt_iff_key b c hbc).mp h2))

/-- Claim C31: for signals whose wire pointers are told apart by their
address, `SigSpec::operator<` is a strict total order that agrees with
`operator==`: of `a < b`, `a == b` and `b < a` exactly one holds, and `<` is
transitive. -/
theorem sigspec_lt_strict_total (a b c : SigSpec)
    (hab : wires_by_id2 a.optimize.chunks b.optimize.chunks)
    (hbc : wires_by_id2 b.optimize.chunks c.optimize.chunks)
    (hac : wires_by_id2 a.optimize.chunks c.optimize.chunks) :
    ((a.lt b = true ∧ a.eq b = false ∧ b.lt a = false) ∨
      (a.lt b = false ∧ a.eq b = true ∧ b.lt a = false) ∨
      (a.lt b = false ∧ a.eq b = false ∧ b.lt a = true)) ∧
    (a.lt b = true → b.lt c = true → a.lt c = true) := by
  refine ⟨?_, sigspec_lt_trans a b c hab hbc hac⟩
  have k1 := sigspec_lt_iff_key a b hab
  have k2 := sigspec_lt_iff_key b a (wires_by_id2_symm _ _ hab)
  have k3 := sigspec_eq_iff_key a b hab
  have f : ∀ (x : Bool) (p : Prop), (x = true ↔ p) → ¬ p → x = false := by
    intro x p h hn
    cases x with
    | false => rfl
    | true => exact absurd (h.mp rfl) hn
  rcases lt_trichotomy (sig_key a) (sig_key b) with h | h | h
  · exact Or.inl ⟨k1.mpr h, f _ _ k3 (ne_of_lt h), f _ _ k2 (lt_asymm h)⟩
  · exact Or.inr (Or.inl ⟨f _ _ k1 (by rw [h]; exact lt_irrefl _), k3.mpr h,
      f _ _ k2 (by rw [h]; exact lt_irrefl _)⟩)
  · exact Or.inr (Or.inr ⟨f _ _ k1 (lt_asymm h), f _ _ k3 (ne_of_gt h), k2.mpr h⟩)

theorem wires_by_id2_bits (w v : Wire) (o p : Nat) (h : w.id = v.id → w = v) :
    wires_by_id2 (bit_sig w o).optimize.chunks (bit_sig v p).optimize.chunks := by
  have e1 : (bit_sig w o).optimize.chunks = [SigChunk.ofWire w 1 o] :=
    optimize_single (SigChunk.ofWire w 1 o) 1 rfl
  have e2 : (bit_sig v p).optimize.chunks = [SigChunk.ofWire v 1 p] :=
    optimize_single (SigChunk.ofWire v 1 p) 1 rfl
  rw [e1, e2]
  intro c hc d hd w1 v1 hw hv e
  rw [List.mem_singleton.mp hc] at hw
  rw [List.mem_singleton.mp hd] at hv
  cases hw
  cases hv
  exact h e

theorem sigspec_lt_strict_total_witness :
    (bit_sig exV 0).lt (bit_sig exW 0) = true ∧ (bit_sig exW 0).lt (bit_sig exW 1) = true ∧
      (bit_sig exV 0).lt (bit_sig exW 1) = true :=
  ⟨by decide, by decide,
    (sigspec_lt_strict_total (bit_sig exV 0) (bit_sig exW 0) (bit_sig exW 1)
      (wires_by_id2_bits exV exW 0 0 (fun e => absurd e (by decide)))
      (wires_by_id2_bits exW exW 0 1 (fun _ => rfl))
      (wires_by_id2_bits exV exW 0 1 (fun e => absurd e (by decide)))).2
      (by decide) (by decide)⟩

end RTLIL
